import Mathlib

/-!
# Stock analysis backend: scoring, ingestion, process guard and pagination

A shallow embedding of the stock analysis backend (`internal/services/stock_service.go`,
`internal/models/stock.go`, `internal/repository/*.go`, `internal/clients/karenai_client.go`):
the recommendation scoring engine and the stored scores, the ingestion of analyst actions
with its retention, the process guard and the sync run, and the paginated queries with their
filter options, together with the properties established for them.

## Numbers

A finite `float64` is represented by its exact rational value.  Every `float64`
operation of the source whose result can be inexact or infinite (the decimal
conversion of `strconv.ParseFloat`, the subtraction, division and multiplication
on price targets, the conversion of the constants `0.1` and `0.05`) goes through
`F64.round`, the IEEE 754 binary64 rounding to nearest with ties to even
(`F64.ilog2_spec`, `F64.round_spec`, `F64.round_of_representable`).  The
score components are integers of small magnitude, on which `float64` addition and
subtraction are exact (`F64.add_intCast`, `F64.sub_intCast`); they are computed with
the arithmetic of `ℚ`.

## Strings

A Go string is represented by a Lean `String`, a sequence of Unicode scalar values
(the strings of the source come from JSON and SQL text, which are valid UTF-8).

## State, time and the feed

The database is a value of `Store`; a function of the source that writes returns the
store after the call.  A time is an integer count of nanoseconds, and each function
that reads the clock takes the time as an argument.  A Go `int` is an `int64`; where a
product can leave that range it wraps around (`wrapInt64`).  A statement of the process
guard that can fail in the database takes the failure as an argument (`queryErr` for a
read, `execErr` for a write).  A sync run reads its feed, its times and the statements
that fail, the one of `FinishStockSync` among them, from a `SyncWorld`, and its loop over
the feed takes a bound on the number of fetches, since a feed need not end.
-/

/-! ## IEEE 754 binary64 -/

/-- A `float64` value: a finite number given by its exact rational value (the two
zeros are not distinguished), an infinity with its sign, or a NaN. -/
inductive F64 where
  | fin (q : ℚ)
  | inf (neg : Bool)
  | nan
  deriving DecidableEq

namespace F64

/-- Number of binary digits of `n` minus one, `⌊log₂ n⌋` for `n ≥ 1`, with `fuel`
bounding the number of halvings. -/
def log2Fuel : ℕ → ℕ → ℕ
  | 0, _ => 0
  | fuel + 1, n => if n < 2 then 0 else log2Fuel fuel (n / 2) + 1

/-- Binary exponent `⌊log₂ |q|⌋` of a non-zero rational. -/
def ilog2 (q : ℚ) : ℤ :=
  let a := q.num.natAbs
  let e0 : ℤ := (log2Fuel a a : ℤ) - (log2Fuel q.den q.den : ℤ)
  if (2 : ℚ) ^ e0 ≤ |q| then e0 else e0 - 1

/-- Rounding of a rational to the nearest integer, ties to the even one. -/
def rne (x : ℚ) : ℤ :=
  let f := ⌊x⌋
  if x - f < 1 / 2 then f
  else if 1 / 2 < x - f then f + 1
  else if f % 2 = 0 then f else f + 1

/-- Least binary exponent of a normal `float64`. -/
def minExp : ℤ := -1022

/-- Rounding of an exact result to `float64`: to the nearest multiple of the unit in
the last place of its binade (53 significant bits, gradual underflow below
`2 ^ minExp`), ties to even; a rounded magnitude of `2 ^ 1024` or more overflows to
the infinity of the same sign. -/
def round (q : ℚ) : F64 :=
  if q = 0 then fin 0 else
    let e := max (ilog2 q) minExp
    let u : ℚ := 2 ^ (e - 52)
    let r : ℚ := (rne (q / u) : ℚ) * u
    if (2 : ℚ) ^ (1024 : ℕ) ≤ |r| then inf (decide (q < 0)) else fin r

/-- The `float64` negation `-x`. -/
def neg : F64 → F64
  | fin q => fin (-q)
  | inf s => inf (!s)
  | nan => nan

/-- The `float64` sum `x + y`. -/
def add : F64 → F64 → F64
  | fin a, fin b => round (a + b)
  | fin _, inf s => inf s
  | inf s, fin _ => inf s
  | inf s, inf t => if s = t then inf s else nan
  | _, _ => nan

/-- The `float64` subtraction `x - y`. -/
def sub : F64 → F64 → F64
  | fin a, fin b => round (a - b)
  | fin _, inf s => inf (!s)
  | inf s, fin _ => inf s
  | inf s, inf t => if s = t then nan else inf s
  | _, _ => nan

/-- The `float64` product `x * y`. -/
def mul : F64 → F64 → F64
  | fin a, fin b => round (a * b)
  | fin a, inf s => if a = 0 then nan else inf (xor (decide (a < 0)) s)
  | inf s, fin b => if b = 0 then nan else inf (xor s (decide (b < 0)))
  | inf s, inf t => inf (xor s t)
  | _, _ => nan

/-- The `float64` quotient `x / y`.  A zero divisor is read as `+0`; the engine
divides only by a price it has tested to be positive. -/
def div : F64 → F64 → F64
  | fin a, fin b =>
    if b = 0 then (if a = 0 then nan else inf (decide (a < 0))) else round (a / b)
  | fin _, inf _ => fin 0
  | inf s, fin b => inf (xor s (decide (b < 0)))
  | _, _ => nan

/-- The `float64` comparison `x < y`; false whenever an operand is a NaN. -/
def lt : F64 → F64 → Bool
  | fin a, fin b => decide (a < b)
  | fin _, inf s => !s
  | inf s, fin _ => s
  | inf s, inf t => s && !t
  | _, _ => false

/-- The `float64` comparison `x <= y`; false whenever an operand is a NaN. -/
def le : F64 → F64 → Bool
  | fin a, fin b => decide (a ≤ b)
  | fin _, inf s => !s
  | inf s, fin _ => s
  | inf s, inf t => s || !t
  | _, _ => false

/-- The `float64` comparison `x > y`. -/
def gt (x y : F64) : Bool := lt y x

/-- The `float64` comparison `x >= y`. -/
def ge (x y : F64) : Bool := le y x

/-- The `float64` value of a decimal constant of the source, such as `0.1`. -/
def const (q : ℚ) : F64 := round q

end F64

/-! ## Library functions of Go used by the engine -/

namespace unicode

/-- Go's `unicode.ToLower` on one rune.  ASCII runes follow the ASCII branch of
the library function.  Beyond ASCII the library consults the Unicode case tables;
their only entries with an ASCII lower case are U+0130 (lower case `i`) and U+212A
(lower case `k`), which are kept.  Every other rune is left as it is: its lower
case is not ASCII, so it cannot take part in a match of the ASCII phrases the
engine looks for. -/
def ToLower (r : Char) : Char :=
  if r.toNat ≤ 127 then
    if 'A'.toNat ≤ r.toNat ∧ r.toNat ≤ 'Z'.toNat then Char.ofNat (r.toNat + 32) else r
  else if r.toNat = 0x130 then 'i'
  else if r.toNat = 0x212A then 'k'
  else r

/-- Go's `unicode.ToUpper` on one rune.  ASCII runes follow the ASCII branch of the
library function.  Beyond ASCII the library consults the Unicode case tables; their only
entries with an ASCII upper case are U+017F (the long s, upper case `S`) and U+0131 (the
dotless i, upper case `I`), which are kept.  Every other rune is left as it is, which is
exact for the runes that have no upper case of their own. -/
def ToUpper (r : Char) : Char :=
  if r.toNat ≤ 127 then
    if 'a'.toNat ≤ r.toNat ∧ r.toNat ≤ 'z'.toNat then Char.ofNat (r.toNat - 32) else r
  else if r.toNat = 0x17F then 'S'
  else if r.toNat = 0x131 then 'I'
  else r

end unicode

namespace strings

/-- Go's `strings.ToLower`: every rune mapped to its lower case. -/
def ToLower (s : String) : String := String.mk (s.data.map unicode.ToLower)

/-- Go's `strings.ToUpper`: every rune mapped to its upper case. -/
def ToUpper (s : String) : String := String.mk (s.data.map unicode.ToUpper)

/-- Go's `strings.Contains`: whether `substr` occurs in `s` as a contiguous block. -/
def Contains (s substr : String) : Bool := decide (substr.data <:+: s.data)

/-- Go's `strings.Join`: the elements separated by `sep`. -/
def Join : List String → String → String
  | [], _ => ""
  | [a], _ => a
  | a :: b :: rest, sep => a ++ sep ++ Join (b :: rest) sep

end strings

/-- Whether a rune is one of the decimal digits `0` .. `9`. -/
def isDecimalDigit (c : Char) : Bool := decide ('0'.toNat ≤ c.toNat ∧ c.toNat ≤ '9'.toNat)

/-- One step of reading a decimal digit string from the left: `n * 10 + (c - '0')`. -/
def pushDigit (n : ℕ) (c : Char) : ℕ := n * 10 + (c.toNat - '0'.toNat)

namespace strconv

/-- Outcome of `ParseFloat`: the parsed value, or one of the two errors of the
library (`ErrSyntax`; `ErrRange`, returned together with an infinity). -/
inductive ParseResult where
  | ok (value : ℚ)
  | errSyntax
  | errRange
  deriving DecidableEq

/-- Scanner state of the decimal reader: the digits read so far as a natural number,
how many of them follow the decimal point, and the two flags of the library's
`readFloat`. -/
structure Scan where
  mantissa : ℕ
  fracDigits : ℕ
  sawdot : Bool
  sawdigits : Bool
  deriving DecidableEq

/-- One pass over the characters in the manner of the library's `readFloat`: a
digit extends the mantissa, the first `.` fixes the decimal point, and anything
else (a second `.` included) stops the scan with input left over, which
`ParseFloat` reports as a syntax error (`none`). -/
def readFloat : List Char → Scan → Option Scan
  | [], st => some st
  | c :: cs, st =>
    if c = '.' then
      if st.sawdot then none
      else readFloat cs { st with sawdot := true }
    else if isDecimalDigit c then
      readFloat cs
        { st with
          mantissa := pushDigit st.mantissa c
          fracDigits := if st.sawdot then st.fracDigits + 1 else st.fracDigits
          sawdigits := true }
    else none

/-- Go's `strconv.ParseFloat(s, 64)` on the strings the engine passes to it, made of
decimal digits and `.` only.  Following the library's documentation, a well-formed
numeral (digits with at most one `.`, at least one digit) yields the nearest
`float64`, ties to even; a value that rounds beyond the largest finite `float64`
yields `ErrRange`; anything else yields `ErrSyntax`.  Signs, exponents, underscores,
hexadecimal and the special names never reach the function from the engine and are
reported as syntax errors here. -/
def ParseFloat (s : String) : ParseResult :=
  match readFloat s.data ⟨0, 0, false, false⟩ with
  | none => .errSyntax
  | some st =>
    if st.sawdigits then
      match F64.round ((st.mantissa : ℚ) / 10 ^ st.fracDigits) with
      | .fin q => .ok q
      | _ => .errRange
    else .errSyntax

end strconv

namespace fmt

/-- Decimal digits of a natural number, most significant first. -/
def digits (n : ℕ) : String := String.mk (Nat.toDigits 10 n)

/-- Go's `fmt.Sprintf("%.1f", x)`: the value rounded to one decimal (the exact
binary value to the nearest tenth, ties to even), with a leading `-` for a negative
number; `+Inf`, `-Inf` and `NaN` for the special values. -/
def fixed1 : F64 → String
  | .fin q =>
    let n := (F64.rne (|q| * 10)).toNat
    (if q < 0 then "-" else "") ++ digits (n / 10) ++ "." ++ digits (n % 10)
  | .inf false => "+Inf"
  | .inf true => "-Inf"
  | .nan => "NaN"

end fmt

/-! ## Data model (`internal/models/stock.go`) -/

namespace models

/-- A row of `stock_analysis`: one analyst action.  A time is an instant, counted in
nanoseconds from the zero value of `time.Time`. -/
structure StockAnalysis where
  ID : ℤ
  StockID : ℤ
  TargetFrom : String
  TargetTo : String
  Action : String
  Brokerage : String
  RatingFrom : String
  RatingTo : String
  AnalysisDate : ℤ
  CreatedAt : ℤ
  deriving DecidableEq

/-- A row of `stocks`. -/
structure Stock where
  ID : ℤ
  Symbol : String
  Name : String
  CreatedAt : ℤ
  UpdatedAt : ℤ
  deriving DecidableEq

/-- A stock with its latest analyst actions, most recent first. -/
structure StockWithAnalysis extends Stock where
  LatestAnalysis : List StockAnalysis
  deriving DecidableEq

end models

open models

/-! ## The recommendation engine (`internal/services/stock_service.go`) -/

namespace RecommendationEngine

/-- Ordinal score of a rating text (`getRatingScore`). -/
def getRatingScore (rating : String) : ℚ :=
  let rating := strings.ToLower rating
  if strings.Contains rating "strong buy" || strings.Contains rating "buy" then 80
  else if strings.Contains rating "outperform" || strings.Contains rating "overweight" then 70
  else if strings.Contains rating "hold" || strings.Contains rating "neutral" then 50
  else if strings.Contains rating "underperform" || strings.Contains rating "underweight" then 30
  else if strings.Contains rating "sell" || strings.Contains rating "strong sell" then 10
  else 50

/-- Numeric price of a price text (`extractPrice`); the value is a finite `float64`. -/
def extractPrice (priceStr : String) : ℚ :=
  if priceStr = "" then 0
  else
    let cleaned := String.mk
      (priceStr.data.filter fun r => isDecimalDigit r || r = '.')
    match strconv.ParseFloat cleaned with
    | .ok price => price
    | _ => 0

/-- The pair (rating score, rating change score) of `calculateRatingScores`. -/
def calculateRatingScores (stock : StockWithAnalysis) : ℚ × ℚ :=
  match stock.LatestAnalysis with
  | [] => (0, 0)
  | latestAnalysis :: _ =>
    let ratingScore : ℚ :=
      if latestAnalysis.RatingTo ≠ "" then getRatingScore latestAnalysis.RatingTo - 50 else 0
    let ratingChangeScore : ℚ :=
      if latestAnalysis.RatingTo ≠ "" ∧ latestAnalysis.RatingFrom ≠ "" then
        let toScore := getRatingScore latestAnalysis.RatingTo
        let fromScore := getRatingScore latestAnalysis.RatingFrom
        if toScore > fromScore then 15
        else if toScore < fromScore then -10
        else 0
      else 0
    (ratingScore, ratingChangeScore)

/-- The relative change `(targetToVal - targetFromVal) / targetFromVal` as the source
computes it, in `float64` arithmetic. -/
def targetChange (targetFromVal targetToVal : ℚ) : F64 :=
  F64.div (F64.sub (.fin targetToVal) (.fin targetFromVal)) (.fin targetFromVal)

/-- Score of the price target change of the latest action
(`calculateTargetChangeScore`). -/
def calculateTargetChangeScore (stock : StockWithAnalysis) : ℚ :=
  match stock.LatestAnalysis with
  | [] => 0
  | latestAnalysis :: _ =>
    let targetFromVal := extractPrice latestAnalysis.TargetFrom
    let targetToVal := extractPrice latestAnalysis.TargetTo
    if targetFromVal > 0 ∧ targetToVal > 0 then
      let targetChange := targetChange targetFromVal targetToVal
      if F64.gt targetChange (F64.const (1 / 10)) then 20
      else if F64.gt targetChange (F64.const (5 / 100)) then 10
      else if F64.lt targetChange (F64.const (-(1 / 10))) then -15
      else if F64.lt targetChange (F64.const (-(5 / 100))) then -8
      else 0
    else 0

/-- Score of the kind of the latest action (`calculateActionScore`). -/
def calculateActionScore (stock : StockWithAnalysis) : ℚ :=
  match stock.LatestAnalysis with
  | [] => 0
  | latestAnalysis :: _ =>
    let action := strings.ToLower latestAnalysis.Action
    if strings.Contains action "initiated" then 10
    else if strings.Contains action "raised" then 12
    else if strings.Contains action "lowered" then -8
    else if strings.Contains action "maintained" then 5
    else 0

/-- Number of actions whose rating score exceeds 60: the loop of
`calculateCoverageScore`. -/
def positiveCount : List StockAnalysis → ℕ
  | [] => 0
  | analysis :: rest =>
    (if getRatingScore analysis.RatingTo > 60 then 1 else 0) + positiveCount rest

/-- Coverage score (`calculateCoverageScore`). -/
def calculateCoverageScore (stock : StockWithAnalysis) : ℚ :=
  let score : ℚ := 0
  let score := if stock.LatestAnalysis.length ≥ 3 then score + 5 else score
  let positiveCount := positiveCount stock.LatestAnalysis
  let score := if positiveCount ≥ 2 then score + 8 else score
  score

/-- Total score (`calculateScore`). -/
def calculateScore (stock : StockWithAnalysis) : ℚ :=
  let baseScore : ℚ := 50
  let (ratingScore, ratingChangeScore) := calculateRatingScores stock
  let targetChangeScore := calculateTargetChangeScore stock
  let actionScore := calculateActionScore stock
  let coverageScore := calculateCoverageScore stock
  baseScore + ratingScore + ratingChangeScore + targetChangeScore + actionScore + coverageScore

/-- Confidence label of a total (`getConfidence`). -/
def getConfidence (score : ℚ) : String :=
  if score ≥ 75 then "High"
  else if score ≥ 60 then "Medium"
  else "Low"

/-- Clauses collected by `generateReason` for a latest action and the number of
actions, in the order in which the source appends them. -/
def reasons (latestAnalysis : StockAnalysis) (count : ℕ) : List String :=
  let reasons : List String := []
  let reasons :=
    if latestAnalysis.RatingTo ≠ "" then
      let rating := strings.ToLower latestAnalysis.RatingTo
      if strings.Contains rating "buy" then
        reasons ++ ["Buy rating from " ++ latestAnalysis.Brokerage]
      else if strings.Contains rating "outperform" then
        reasons ++ ["Outperform rating from " ++ latestAnalysis.Brokerage]
      else reasons
    else reasons
  let targetFromVal := extractPrice latestAnalysis.TargetFrom
  let targetToVal := extractPrice latestAnalysis.TargetTo
  let reasons :=
    if targetFromVal > 0 ∧ targetToVal > 0 then
      let targetChange := targetChange targetFromVal targetToVal
      if F64.gt targetChange (F64.const (1 / 10)) then
        reasons ++ ["Price target raised by "
          ++ fmt.fixed1 (F64.mul targetChange (.fin 100)) ++ "%"]
      else reasons
    else reasons
  let reasons :=
    if strings.Contains (strings.ToLower latestAnalysis.Action) "initiated" then
      reasons ++ ["New analyst coverage"]
    else reasons
  let reasons :=
    if count ≥ 3 then reasons ++ ["Multiple recent analyst updates"] else reasons
  reasons

/-- Explanation text (`generateReason`); the score argument is not used by the
source. -/
def generateReason (stock : StockWithAnalysis) (_score : ℚ) : String :=
  match stock.LatestAnalysis with
  | [] => "No recent analyst coverage"
  | latestAnalysis :: _ =>
    let reasons := reasons latestAnalysis stock.LatestAnalysis.length
    if reasons.length = 0 then
      "Analyst coverage available from " ++ latestAnalysis.Brokerage
    else strings.Join reasons ", "

end RecommendationEngine

/-! ## The store and the scoring path of the service

`internal/repository/stock_repository.go`,
`internal/repository/recommendation_score_repository.go` and
`calculateAndStoreRecommendationScore` of `internal/services/stock_service.go`. -/

/-- A row of `recommendation_scores` (`models.RecommendationScore`). -/
structure models.RecommendationScore where
  ID : ℤ
  StockID : ℤ
  TotalScore : ℚ
  RatingScore : ℚ
  RatingChangeScore : ℚ
  TargetChangeScore : ℚ
  ActionScore : ℚ
  CoverageScore : ℚ
  Confidence : String
  Reason : String
  LatestAnalysisID : Option ℤ
  CalculatedAt : ℤ
  CreatedAt : ℤ
  UpdatedAt : ℤ
  deriving DecidableEq

/-- A row of `process_control` (`models.ProcessControl`); `LastExecution` is `none` for
the SQL null. -/
structure models.ProcessControl where
  ID : ℤ
  ProcessName : String
  IsRunning : Bool
  LastExecution : Option ℤ
  IntervalMinutes : ℤ
  CreatedAt : ℤ
  UpdatedAt : ℤ
  deriving DecidableEq

/-- The relational store: the rows of the four tables in storage order and the id
sequences of the tables the service inserts into.  Failures of the connection are not
modelled. -/
structure Store where
  stocks : List Stock
  stock_analysis : List StockAnalysis
  recommendation_scores : List RecommendationScore
  recommendation_scores_seq : ℤ
  stocks_seq : ℤ := 1
  stock_analysis_seq : ℤ := 1
  process_control : List ProcessControl := []
  deriving DecidableEq

namespace StockRepository

/-- The query of `GetStockBySymbol`: the stock with the given symbol, if any. -/
def GetStockBySymbol (db : Store) (symbol : String) : Option Stock :=
  db.stocks.find? fun s => s.Symbol = symbol

/-- The ordering `ORDER BY analysis_date DESC`.  SQL leaves the order of rows with equal
dates open; here they keep their storage order. -/
def orderByAnalysisDateDesc (rows : List StockAnalysis) : List StockAnalysis :=
  rows.insertionSort fun a b => a.AnalysisDate ≥ b.AnalysisDate

/-- The query of `GetLatestAnalysisForStock`: the rows of the stock, latest analysis
date first, cut to `limit` rows. -/
def GetLatestAnalysisForStock (db : Store) (stockID : ℤ) (limit : ℕ) : List StockAnalysis :=
  (orderByAnalysisDateDesc (db.stock_analysis.filter fun a => a.StockID = stockID)).take limit

end StockRepository

namespace RecommendationScoreRepository

/-- The statement of `UpsertRecommendationScore` executed at time `now`: insert the row
with a fresh id, or on a row of the same `stock_id` overwrite every column except `id`
and `created_at`.  The id sequence advances in both cases. -/
def UpsertRecommendationScore (db : Store) (now : ℤ) (score : RecommendationScore) : Store :=
  let stamped : RecommendationScore := { score with CalculatedAt := now, UpdatedAt := now }
  if db.recommendation_scores.any (fun r => r.StockID = score.StockID) then
    { db with
      recommendation_scores := db.recommendation_scores.map fun r =>
        if r.StockID = score.StockID then { stamped with ID := r.ID, CreatedAt := r.CreatedAt }
        else r
      recommendation_scores_seq := db.recommendation_scores_seq + 1 }
  else
    { db with
      recommendation_scores := db.recommendation_scores ++
        [{ stamped with ID := db.recommendation_scores_seq, CreatedAt := now }]
      recommendation_scores_seq := db.recommendation_scores_seq + 1 }

/-- The row of `recommendation_scores` stored for a stock, if any. -/
def GetRecommendationScoreByStockID (db : Store) (stockID : ℤ) : Option RecommendationScore :=
  db.recommendation_scores.find? fun r => r.StockID = stockID

end RecommendationScoreRepository

namespace StockService

open StockRepository RecommendationScoreRepository RecommendationEngine

/-- The query of `getStockSymbolByID`: the symbol of the stock with the given id, the
empty string when there is none. -/
def getStockSymbolByID (db : Store) (stockID : ℤ) : String :=
  match db.stocks.find? fun s => s.ID = stockID with
  | some s => s.Symbol
  | none => ""

/-- The function `GetStockWithMetrics`: the stock with the given symbol together with
its five latest analyst actions; `none` when there is no such stock. -/
def GetStockWithMetrics (db : Store) (symbol : String) : Option StockWithAnalysis :=
  match GetStockBySymbol db symbol with
  | none => none
  | some stock =>
    some { toStock := stock, LatestAnalysis := GetLatestAnalysisForStock db stock.ID 5 }

/-- The function `calculateAndStoreRecommendationScore` executed at time `now`: the
store after the upsert of the freshly computed score row, or an error when the stock is
not found. -/
def calculateAndStoreRecommendationScore (db : Store) (now : ℤ) (stockID : ℤ) :
    Except String Store :=
  match GetStockWithMetrics db (getStockSymbolByID db stockID) with
  | none => .error "stock not found"
  | some stockWithAnalysis =>
    let (ratingScore, ratingChangeScore) := calculateRatingScores stockWithAnalysis
    let targetChangeScore := calculateTargetChangeScore stockWithAnalysis
    let actionScore := calculateActionScore stockWithAnalysis
    let coverageScore := calculateCoverageScore stockWithAnalysis
    let baseScore : ℚ := 50
    let totalScore := baseScore + ratingScore + ratingChangeScore + targetChangeScore
      + actionScore + coverageScore
    let confidence := getConfidence totalScore
    let reason := generateReason stockWithAnalysis totalScore
    let latestAnalysisID : Option ℤ :=
      match stockWithAnalysis.LatestAnalysis with
      | [] => none
      | latest :: _ => some latest.ID
    let score : RecommendationScore :=
      { ID := 0
        StockID := stockID
        TotalScore := totalScore
        RatingScore := ratingScore
        RatingChangeScore := ratingChangeScore
        TargetChangeScore := targetChangeScore
        ActionScore := actionScore
        CoverageScore := coverageScore
        Confidence := confidence
        Reason := reason
        LatestAnalysisID := latestAnalysisID
        CalculatedAt := 0
        CreatedAt := 0
        UpdatedAt := 0 }
    .ok (UpsertRecommendationScore db now score)

end StockService

/-! ## Machine integers and time -/

deriving instance DecidableEq for Except

/-- The value that a Go `int64` (and an `int` of a 64-bit platform) holds after an
arithmetic result `n` has wrapped around. -/
def wrapInt64 (n : ℤ) : ℤ := (n + 2 ^ 63) % 2 ^ 64 - 2 ^ 63

namespace time

/-- The constant `time.Minute`: the nanoseconds of one minute. -/
def Minute : ℤ := 60000000000

end time

/-! ## Ingestion: stocks, analyst actions and retention

`CreateStock`, `CreateStockAnalysis` and `DeleteOldAnalysis` of
`internal/repository/stock_repository.go`.  A function that writes returns the store
after the call; `now` is the time of the database at the call.  An inserted row gets
its id from the sequence of the table and `now` as its creation time. -/

namespace StockRepository

/-- The function `CreateStock` executed at time `now`: the store after the call and the
stock as the call leaves it.  A stock of the same symbol gets the new name and
`updated_at`; otherwise the stock is inserted. -/
def CreateStock (db : Store) (now : ℤ) (stock : Stock) : Store × Stock :=
  match GetStockBySymbol db stock.Symbol with
  | some existing =>
    ({ db with
        stocks := db.stocks.map fun s =>
          if s.Symbol = stock.Symbol then { s with Name := stock.Name, UpdatedAt := now } else s },
      { stock with ID := existing.ID, CreatedAt := existing.CreatedAt, UpdatedAt := now })
  | none =>
    let row : Stock := { stock with ID := db.stocks_seq, CreatedAt := now, UpdatedAt := now }
    ({ db with stocks := db.stocks ++ [row], stocks_seq := db.stocks_seq + 1 }, row)

/-- The condition of the check query and of the update of `CreateStockAnalysis`: the row
has the stock, analysis date and brokerage of `analysis`. -/
def sameNaturalKey (analysis row : StockAnalysis) : Bool :=
  decide (row.StockID = analysis.StockID) && decide (row.AnalysisDate = analysis.AnalysisDate)
    && decide (row.Brokerage = analysis.Brokerage)

/-- The `IS DISTINCT FROM` disjunction of the update of `CreateStockAnalysis`: one of
the five value columns of the row differs from `analysis`. -/
def valuesDiffer (analysis row : StockAnalysis) : Bool :=
  decide (row.TargetFrom ≠ analysis.TargetFrom) || decide (row.TargetTo ≠ analysis.TargetTo)
    || decide (row.Action ≠ analysis.Action) || decide (row.RatingFrom ≠ analysis.RatingFrom)
    || decide (row.RatingTo ≠ analysis.RatingTo)

/-- The function `CreateStockAnalysis` executed at time `now`: the store after the call
and the record as the call leaves it (with `ID` and `CreatedAt` filled in). -/
def CreateStockAnalysis (db : Store) (now : ℤ) (analysis : StockAnalysis) :
    Store × StockAnalysis :=
  match db.stock_analysis.find? (sameNaturalKey analysis) with
  | some existing =>
    let db' : Store :=
      { db with
        stock_analysis := db.stock_analysis.map fun row =>
          if sameNaturalKey analysis row && valuesDiffer analysis row then
            { row with
              TargetFrom := analysis.TargetFrom, TargetTo := analysis.TargetTo,
              Action := analysis.Action, RatingFrom := analysis.RatingFrom,
              RatingTo := analysis.RatingTo }
          else row }
    match db.stock_analysis.find? fun row =>
        sameNaturalKey analysis row && valuesDiffer analysis row with
    | some updated => (db', { analysis with ID := updated.ID, CreatedAt := updated.CreatedAt })
    | none => (db', { analysis with ID := existing.ID, CreatedAt := existing.CreatedAt })
  | none =>
    let row : StockAnalysis := { analysis with ID := db.stock_analysis_seq, CreatedAt := now }
    ({ db with
        stock_analysis := db.stock_analysis ++ [row]
        stock_analysis_seq := db.stock_analysis_seq + 1 }, row)

/-- The statement of `DeleteOldAnalysis`: delete the rows of the stock whose id is not
among the ids of its `keepCount` rows of latest analysis date. -/
def DeleteOldAnalysis (db : Store) (stockID : ℤ) (keepCount : ℕ) : Store :=
  let kept : List ℤ :=
    ((orderByAnalysisDateDesc (db.stock_analysis.filter fun a => a.StockID = stockID)).take
      keepCount).map fun a => a.ID
  { db with
    stock_analysis := db.stock_analysis.filter fun a =>
      !(decide (a.StockID = stockID) && decide (a.ID ∉ kept)) }

end StockRepository

/-! ## The process guard (`internal/repository/process_control_repository.go`) -/

namespace ProcessControlRepository

/-- The constant `ProcessStockSync`. -/
def ProcessStockSync : String := "stock_sync"

/-- The function `GetProcessControl`: the row of the named process, if any.  `queryErr` is
the error of the query when the read itself fails (an error other than `sql.ErrNoRows`,
such as a lost connection), which the function returns. -/
def GetProcessControl (db : Store) (queryErr : Option String) (processName : String) :
    Except String (Option ProcessControl) :=
  match queryErr with
  | some err => .error err
  | none => .ok (db.process_control.find? fun p => p.ProcessName = processName)

/-- The function `CanStartProcess` called at time `now`; `queryErr` is the error of its
read, if the read fails.  The duration
`time.Duration(process.IntervalMinutes) * time.Minute` is an `int64` product. -/
def CanStartProcess (db : Store) (queryErr : Option String) (now : ℤ) (processName : String) :
    Except String Bool :=
  match GetProcessControl db queryErr processName with
  | .error err => .error err
  | .ok none => .error ("process " ++ processName ++ " not found in control table")
  | .ok (some process) =>
    if process.IsRunning then .ok false
    else
      match process.LastExecution with
      | none => .ok true
      | some lastExecution =>
        let nextAllowedExecution :=
          lastExecution + wrapInt64 (process.IntervalMinutes * time.Minute)
        .ok (decide (now > nextAllowedExecution))

/-- The function `StartProcess` executed at time `now`: the store after the conditional
update and the error, if any (`rowsAffected == 0`). -/
def StartProcess (db : Store) (now : ℤ) (processName : String) : Store × Option String :=
  let selected : ProcessControl → Bool := fun p =>
    decide (p.ProcessName = processName) && decide (p.IsRunning = false)
  let db' : Store :=
    { db with
      process_control := db.process_control.map fun p =>
        if selected p then { p with IsRunning := true, UpdatedAt := now } else p }
  let rowsAffected := db.process_control.countP selected
  if rowsAffected = 0 then
    (db', some ("process " ++ processName ++ " is already running or not found"))
  else (db', none)

/-- The function `FinishProcess` executed at time `now`: the store after the update and
the error that the function returns, if any.  `execErr` is the error of the statement
when it fails; a statement that fails changes nothing in the store. -/
def FinishProcess (db : Store) (execErr : Option String) (now : ℤ) (processName : String) :
    Store × Option String :=
  match execErr with
  | some err => (db, some err)
  | none =>
    ({ db with
       process_control := db.process_control.map fun p =>
         if p.ProcessName = processName then
           { p with IsRunning := false, LastExecution := some now, UpdatedAt := now }
         else p },
     none)

/-- The function `ForceStopProcess` executed at time `now`: the store after the update and
the error that the function returns, if any.  `execErr` is the error of the statement
when it fails. -/
def ForceStopProcess (db : Store) (execErr : Option String) (now : ℤ)
    (processName : String) : Store × Option String :=
  match execErr with
  | some err => (db, some err)
  | none =>
    ({ db with
       process_control := db.process_control.map fun p =>
         if p.ProcessName = processName then { p with IsRunning := false, UpdatedAt := now }
         else p },
     none)

/-- The function `CanStartStockSync`. -/
def CanStartStockSync (db : Store) (queryErr : Option String) (now : ℤ) : Except String Bool :=
  CanStartProcess db queryErr now ProcessStockSync

/-- The function `StartStockSync`. -/
def StartStockSync (db : Store) (now : ℤ) : Store × Option String :=
  StartProcess db now ProcessStockSync

/-- The function `FinishStockSync`. -/
def FinishStockSync (db : Store) (execErr : Option String) (now : ℤ) : Store × Option String :=
  FinishProcess db execErr now ProcessStockSync

/-- The function `ForceStopStockSync`. -/
def ForceStopStockSync (db : Store) (execErr : Option String) (now : ℤ) :
    Store × Option String :=
  ForceStopProcess db execErr now ProcessStockSync

end ProcessControlRepository

/-! ## The feed client (`internal/clients/karenai_client.go`) -/

namespace clients

/-- An item of a feed page (`clients.StockAnalysis`). -/
structure StockAnalysis where
  Ticker : String
  TargetFrom : String
  TargetTo : String
  Company : String
  Action : String
  Brokerage : String
  RatingFrom : String
  RatingTo : String
  Time : ℤ
  deriving DecidableEq

/-- A feed page (`clients.StockListResponse`). -/
structure StockListResponse where
  Items : List StockAnalysis
  NextPage : String
  deriving DecidableEq

end clients

/-! ## The sync run (`SyncAllStocks`, `RefreshStockData` of
`internal/services/stock_service.go`, `SyncAllStocksHandler` of `internal/api/handlers.go`) -/

/-- The statements of one feed item that fail (a rejected row, a lost connection).  A
statement that fails changes nothing in the store. -/
structure ItemFaults where
  CreateStock : Bool := false
  CreateStockAnalysis : Bool := false
  DeleteOldAnalysis : Bool := false
  calculateAndStoreRecommendationScore : Bool := false
  deriving DecidableEq

/-- The surroundings of one sync run: what the feed answers to `GetStocksList` for each
cursor, the times at which the run starts, handles its `k`-th feed item and finishes, the
statements that fail for the `k`-th feed item, and the error of the statement of
`FinishStockSync` when that statement fails. -/
structure SyncWorld where
  GetStocksList : String → Except String clients.StockListResponse
  startedAt : ℤ
  itemAt : ℕ → ℤ
  faults : ℕ → ItemFaults
  finishedAt : ℤ
  finishErr : Option String := none

/-- A call that a sync run makes to the process guard, the feed or the repositories. -/
inductive Call where
  | StartStockSync
  | GetStocksList (nextPage : String)
  | CreateStock (symbol : String)
  | CreateStockAnalysis (stockID : ℤ)
  | DeleteOldAnalysis (stockID : ℤ)
  | calculateAndStoreRecommendationScore (stockID : ℤ)
  | FinishStockSync
  deriving DecidableEq

/-- The state of a sync run inside its loop: the store, the calls made so far in order,
the number of feed items taken so far and the counter `totalProcessed`. -/
structure SyncState where
  db : Store
  calls : List Call
  taken : ℕ
  totalProcessed : ℕ

/-- The outcome of a sync run: the store it leaves, the error it returns, if any, the
calls it made in order, and the warning that its deferred function prints when
`FinishStockSync` fails. -/
structure SyncRun where
  db : Store
  err : Option String
  calls : List Call
  warning : Option String := none
  deriving DecidableEq

namespace StockService

open StockRepository ProcessControlRepository

/-- The function `CanStartStockSync` of the service. -/
def CanStartStockSync (db : Store) (queryErr : Option String) (now : ℤ) : Except String Bool :=
  ProcessControlRepository.CanStartStockSync db queryErr now

/-- The body of the loop of `SyncAllStocks` over the items of a page, for one item. -/
def syncItem (w : SyncWorld) (st : SyncState) (apiAnalysis : clients.StockAnalysis) :
    SyncState :=
  let now := w.itemAt st.taken
  let faults := w.faults st.taken
  let st : SyncState :=
    { st with taken := st.taken + 1, calls := st.calls ++ [Call.CreateStock apiAnalysis.Ticker] }
  if faults.CreateStock then st
  else
    let created := CreateStock st.db now
      { ID := 0, Symbol := apiAnalysis.Ticker, Name := apiAnalysis.Company,
        CreatedAt := 0, UpdatedAt := 0 }
    let stock := created.2
    let analysis : models.StockAnalysis :=
      { ID := 0
        StockID := stock.ID
        TargetFrom := apiAnalysis.TargetFrom
        TargetTo := apiAnalysis.TargetTo
        Action := apiAnalysis.Action
        Brokerage := apiAnalysis.Brokerage
        RatingFrom := apiAnalysis.RatingFrom
        RatingTo := apiAnalysis.RatingTo
        AnalysisDate := apiAnalysis.Time
        CreatedAt := 0 }
    let st : SyncState :=
      { st with db := created.1, calls := st.calls ++ [Call.CreateStockAnalysis stock.ID] }
    if faults.CreateStockAnalysis then st
    else
      let db2 := (CreateStockAnalysis st.db now analysis).1
      let db3 := if faults.DeleteOldAnalysis then db2 else DeleteOldAnalysis db2 stock.ID 10
      let db4 :=
        if faults.calculateAndStoreRecommendationScore then db3
        else
          match calculateAndStoreRecommendationScore db3 now stock.ID with
          | .ok db => db
          | .error _ => db3
      { st with
        db := db4
        calls := st.calls ++ [Call.DeleteOldAnalysis stock.ID,
          Call.calculateAndStoreRecommendationScore stock.ID]
        totalProcessed := st.totalProcessed + 1 }

/-- The `for` loop of `SyncAllStocks` from the cursor `nextPage` on: the state
at the exit of the loop and the error of the failed fetch, if any; `none` when the loop
has not ended after `fuel` fetches. -/
def drainFeed (w : SyncWorld) : ℕ → String → SyncState → Option (SyncState × Option String)
  | 0, _, _ => none
  | fuel + 1, nextPage, st =>
    let st : SyncState := { st with calls := st.calls ++ [Call.GetStocksList nextPage] }
    match w.GetStocksList nextPage with
    | .error err => some (st, some ("failed to fetch stocks from API: " ++ err))
    | .ok response =>
      let st := response.Items.foldl (syncItem w) st
      if response.NextPage = "" then some (st, none)
      else drainFeed w fuel response.NextPage st

/-- The function `SyncAllStocks`; `none` when the loop over the feed has not ended after
`fuel` fetches.  The deferred function runs when the loop is left: it calls
`FinishStockSync` and, when that call fails, prints a warning; the error that the run
returns is the one of the loop. -/
def SyncAllStocks (w : SyncWorld) (fuel : ℕ) (db : Store) : Option SyncRun :=
  match StartStockSync db w.startedAt with
  | (db, some err) =>
    some { db := db, err := some ("failed to start stock sync process: " ++ err),
           calls := [Call.StartStockSync] }
  | (db, none) =>
    match drainFeed w fuel ""
        { db := db, calls := [Call.StartStockSync], taken := 0, totalProcessed := 0 } with
    | none => none
    | some (st, err) =>
      let finished := FinishStockSync st.db w.finishErr w.finishedAt
      some { db := finished.1, err := err,
             calls := st.calls ++ [Call.FinishStockSync]
             warning := finished.2.map fun finishErr =>
               "Warning: failed to finish stock sync process: " ++ finishErr }

/-- The function `RefreshStockData`. -/
def RefreshStockData (w : SyncWorld) (fuel : ℕ) (db : Store) (symbol : String) :
    Option SyncRun :=
  match GetStockBySymbol db symbol with
  | none => some { db := db, err := some ("stock not found: " ++ symbol), calls := [] }
  | some _ => SyncAllStocks w fuel db

end StockService

namespace api

/-- The answer of `SyncAllStocksHandler` to a request arriving at time `now`: the HTTP
status and whether the handler has launched `SyncAllStocks`. -/
structure SyncAnswer where
  Status : ℕ
  launched : Bool
  deriving DecidableEq

/-- The function `SyncAllStocksHandler`; `queryErr` is the error of the read of
`CanStartStockSync`, if the read fails. -/
def SyncAllStocksHandler (db : Store) (queryErr : Option String) (now : ℤ) : SyncAnswer :=
  match StockService.CanStartStockSync db queryErr now with
  | .error _ => { Status := 500, launched := false }
  | .ok canStart =>
    if !canStart then { Status := 409, launched := false }
    else { Status := 200, launched := true }

end api

/-! ## Conversions between `int` and `float64` -/

namespace F64

/-- The conversion `float64(n)` of an integer. -/
def ofInt (n : ℤ) : F64 := round n

/-- The conversion `int(x)` of a `float64`: the integer part, truncated toward zero.
Go leaves the result open when the value is not an `int`; it is taken to be the
smallest `int64`, the result on amd64. -/
def toInt : F64 → ℤ
  | fin q =>
    let n : ℤ := if 0 ≤ q then ⌊q⌋ else ⌈q⌉
    if -(2 ^ 63) ≤ n ∧ n < 2 ^ 63 then n else -(2 ^ 63)
  | _ => -(2 ^ 63)

end F64

namespace math

/-- The function `math.Ceil`. -/
def Ceil : F64 → F64
  | .fin q => .fin (⌈q⌉ : ℤ)
  | x => x

end math

/-! ## Text in SQL -/

namespace sql

/-- The SQL function `LOWER` on the letters `A` to `Z`.  The other characters are kept:
their lower case depends on the locale of the database. -/
def LOWER (s : String) : String := String.mk (s.data.map Char.toLower)

/-- The matching of `LIKE` with the default escape character, the backslash: `%` stands
for any run of characters, `_` for any one character, a character after a backslash for
itself.  A pattern that ends in a lone backslash, which the database rejects, matches
nothing. -/
def likeChars : List Char → List Char → Bool
  | [], text => text.isEmpty
  | c :: pattern, text =>
    if c = '%' then text.tails.any fun rest => likeChars pattern rest
    else if c = '_' then
      match text with
      | [] => false
      | _ :: rest => likeChars pattern rest
    else if c = Char.ofNat 92 then
      match pattern, text with
      | d :: pattern, t :: rest => decide (d = t) && likeChars pattern rest
      | _, _ => false
    else
      match text with
      | [] => false
      | t :: rest => decide (c = t) && likeChars pattern rest

/-- The SQL predicate `text LIKE pattern`. -/
def LIKE (text pattern : String) : Bool := likeChars pattern.data text.data

end sql

/-! ## Paginated queries

`GetStocksWithAnalysisPaginated` of `internal/repository/stock_repository.go`,
`GetTopRecommendationsPaginated` of
`internal/repository/recommendation_score_repository.go` and
`GetRecommendationsPaginated` of `internal/services/stock_service.go`.  A Go `int` is
an `int64`.  Text is ordered by code point. -/

/-- The filters of a stock listing (`models.StockFilterParams`). -/
structure models.StockFilterParams where
  ActionType : String
  Brokerage : String
  SortBy : String
  deriving DecidableEq

/-- The pagination metadata of a response (`models.PaginationMeta`). -/
structure models.PaginationMeta where
  Page : ℤ
  PageSize : ℤ
  TotalItems : ℤ
  TotalPages : ℤ
  HasNext : Bool
  HasPrevious : Bool
  deriving DecidableEq

/-- A page of results with its metadata (`models.PaginatedResponse`). -/
structure models.PaginatedResponse (T : Type) where
  Data : List T
  Meta : PaginationMeta

/-- A score row with its stock (`models.RecommendationWithStock`). -/
structure models.RecommendationWithStock extends RecommendationScore where
  Stock : StockWithAnalysis
  deriving DecidableEq

/-- A recommendation in the legacy format (`models.StockRecommendation`). -/
structure models.StockRecommendation where
  Stock : StockWithAnalysis
  Score : ℚ
  Reason : String
  Confidence : String
  deriving DecidableEq

namespace StockRepository

/-- The keyword of the `LIKE` pattern that the `switch` on `filters.ActionType` selects;
`none` when the value adds no condition. -/
def actionKeyword (actionType : String) : Option String :=
  if actionType = "initiated" then some "initiated"
  else if actionType = "raised" then some "raised"
  else if actionType = "lowered" then some "lowered"
  else if actionType = "upgraded" then some "upgraded"
  else if actionType = "downgraded" then some "downgraded"
  else if actionType = "reiterated" then some "reiterated"
  else if actionType = "target-set" then some "target set"
  else none

/-- The conditions `whereConditions` on a stock `s`, each an `EXISTS` over the actions of
the stock. -/
def whereConditions (db : Store) (filters : StockFilterParams) : List (Stock → Bool) :=
  let brokerage : List (Stock → Bool) :=
    if filters.Brokerage ≠ "" ∧ filters.Brokerage ≠ "all" then
      [fun s => db.stock_analysis.any fun sa =>
        decide (sa.StockID = s.ID)
          && sql.LIKE (sql.LOWER sa.Brokerage) (sql.LOWER ("%" ++ filters.Brokerage ++ "%"))]
    else []
  let actionType : List (Stock → Bool) :=
    if filters.ActionType ≠ "" ∧ filters.ActionType ≠ "all" then
      match actionKeyword filters.ActionType with
      | some keyword =>
        [fun s => db.stock_analysis.any fun sa =>
          decide (sa.StockID = s.ID) && sql.LIKE (sql.LOWER sa.Action) ("%" ++ keyword ++ "%")]
      | none => []
    else []
  brokerage ++ actionType

/-- The rows of `stocks` that satisfy the `WHERE` clause built from the filters. -/
def filteredStocks (db : Store) (filters : StockFilterParams) : List Stock :=
  db.stocks.filter fun s => (whereConditions db filters).all fun condition => condition s

/-- The count query `SELECT COUNT(DISTINCT s.id)` under the filters. -/
def countStocks (db : Store) (filters : StockFilterParams) : ℤ :=
  (((filteredStocks db filters).map fun s => s.ID).dedup.length : ℕ)

/-- The scalar subquery `SELECT MAX(analysis_date)` for a stock; `none` is the SQL null
of a stock without actions. -/
def maxAnalysisDate (db : Store) (stockID : ℤ) : Option ℤ :=
  ((db.stock_analysis.filter fun a => a.StockID = stockID).map fun a => a.AnalysisDate).foldl
    (fun best date =>
      match best with
      | none => some date
      | some m => some (max m date))
    none

/-- A row of the main query: a stock of the page, its `max_analysis_date` and one of its
latest actions, `none` being the row of nulls that the left join gives to a stock
without actions. -/
structure PageRow where
  stock : Stock
  maxDate : Option ℤ
  analysis : Option StockAnalysis
  deriving DecidableEq

/-- The ordering `max_analysis_date DESC NULLS LAST, symbol ASC` (`desc`) or
`max_analysis_date ASC NULLS LAST, symbol ASC` of stocks with their maximal date. -/
def byMaxDate (desc : Bool) (a b : Stock × Option ℤ) : Bool :=
  match a.2, b.2 with
  | some x, some y =>
    if x = y then decide (a.1.Symbol ≤ b.1.Symbol)
    else if desc then decide (y < x) else decide (x < y)
  | some _, none => true
  | none, some _ => false
  | none, none => decide (a.1.Symbol ≤ b.1.Symbol)

/-- The ordering `analysis_date DESC` of the joined actions, nulls first. -/
def byAnalysisDateDesc (a b : Option StockAnalysis) : Bool :=
  match a, b with
  | none, _ => true
  | some _, none => false
  | some x, some y => decide (y.AnalysisDate ≤ x.AnalysisDate)

/-- The common table `paginated_stocks`: the filtered stocks in the order of the sort
mode, cut to the page. -/
def paginatedStocks (db : Store) (pageSize offset : ℤ) (filters : StockFilterParams) :
    List (Stock × Option ℤ) :=
  let stocks := filteredStocks db filters
  let ordered : List (Stock × Option ℤ) :=
    if filters.SortBy = "analysis-newest" ∨ filters.SortBy = "analysis-oldest" then
      (stocks.map fun s => (s, maxAnalysisDate db s.ID)).insertionSort fun a b =>
        byMaxDate (decide (filters.SortBy = "analysis-newest")) a b = true
    else
      (if filters.SortBy = "newest" then
        stocks.insertionSort fun a b => b.UpdatedAt ≤ a.UpdatedAt
      else if filters.SortBy = "oldest" then
        stocks.insertionSort fun a b => a.UpdatedAt ≤ b.UpdatedAt
      else if filters.SortBy = "ticker-a-z" then
        stocks.insertionSort fun a b => a.Symbol ≤ b.Symbol
      else if filters.SortBy = "company-a-z" then
        stocks.insertionSort fun a b => a.Name ≤ b.Name
      else
        stocks.insertionSort fun a b => a.Symbol ≤ b.Symbol).map fun s => (s, none)
  (ordered.drop offset.toNat).take pageSize.toNat

/-- The ordering `finalOrderBy` of the rows of the main query. -/
def finalOrderBy (filters : StockFilterParams) (a b : PageRow) : Bool :=
  if filters.SortBy = "analysis-newest" ∨ filters.SortBy = "analysis-oldest" then
    if (a.stock.Symbol, a.maxDate) = (b.stock.Symbol, b.maxDate) then
      byAnalysisDateDesc a.analysis b.analysis
    else byMaxDate (decide (filters.SortBy = "analysis-newest")) (a.stock, a.maxDate)
      (b.stock, b.maxDate)
  else
    if a.stock.Symbol = b.stock.Symbol then byAnalysisDateDesc a.analysis b.analysis
    else decide (a.stock.Symbol ≤ b.stock.Symbol)

/-- The rows of the main query: every stock of `paginated_stocks` joined with its three
latest actions (`LEFT JOIN LATERAL`), in the order of `finalOrderBy`. -/
def pageRows (db : Store) (pageSize offset : ℤ) (filters : StockFilterParams) : List PageRow :=
  let joined : List PageRow :=
    (paginatedStocks db pageSize offset filters).flatMap fun s =>
      match GetLatestAnalysisForStock db s.1.ID 3 with
      | [] => [{ stock := s.1, maxDate := s.2, analysis := none }]
      | actions => actions.map fun a => { stock := s.1, maxDate := s.2, analysis := some a }
  joined.insertionSort fun a b => finalOrderBy filters a b = true

/-- The action that the loop over the rows scans from a row.  The id column is
`COALESCE(sa.id, 0)`, which is never null, so that a row of nulls gives an action of
zero values. -/
def scanAnalysis (row : PageRow) : StockAnalysis :=
  match row.analysis with
  | some a => { a with StockID := row.stock.ID }
  | none =>
    { ID := 0, StockID := row.stock.ID, TargetFrom := "", TargetTo := "", Action := "",
      Brokerage := "", RatingFrom := "", RatingTo := "", AnalysisDate := 0, CreatedAt := 0 }

/-- The loop over the rows of the main query: a stock is added to the result at its
first row, and the action of every row is appended to its stock. -/
def collectRows (rows : List PageRow) : List StockWithAnalysis :=
  rows.foldl
    (fun result row =>
      if result.any fun s => decide (s.ID = row.stock.ID) then
        result.map fun s =>
          if s.ID = row.stock.ID then
            { s with LatestAnalysis := s.LatestAnalysis ++ [scanAnalysis row] }
          else s
      else result ++ [{ toStock := row.stock, LatestAnalysis := [scanAnalysis row] }])
    []

/-- The function `GetStocksWithAnalysisPaginated`.  The main query fails when its
`OFFSET` is negative. -/
def GetStocksWithAnalysisPaginated (db : Store) (page pageSize : ℤ)
    (filters : StockFilterParams) : Except String (PaginatedResponse StockWithAnalysis) :=
  let page := if page < 1 then 1 else page
  let pageSize := if pageSize < 1 ∨ pageSize > 100 then 20 else pageSize
  let totalCount := countStocks db filters
  let offset := wrapInt64 ((page - 1) * pageSize)
  let totalPages := F64.toInt (math.Ceil (F64.div (F64.ofInt totalCount) (F64.ofInt pageSize)))
  if offset < 0 then .error "database query failed: OFFSET must not be negative"
  else
    let result := collectRows (pageRows db pageSize offset filters)
    .ok
      { Data := result
        Meta :=
          { Page := page
            PageSize := pageSize
            TotalItems := totalCount
            TotalPages := totalPages
            HasNext := decide (page < totalPages)
            HasPrevious := decide (page > 1) } }

end StockRepository

namespace RecommendationScoreRepository

open StockRepository

/-- The function `GetTopRecommendationsPaginated`.  The query fails when its `OFFSET` is
negative. -/
def GetTopRecommendationsPaginated (db : Store) (page pageSize : ℤ) :
    Except String (PaginatedResponse RecommendationWithStock) :=
  let page := if page < 1 then 1 else page
  let pageSize := if pageSize < 1 ∨ pageSize > 100 then 20 else pageSize
  let totalItems : ℤ := (db.recommendation_scores.length : ℕ)
  let totalPages := F64.toInt
    (F64.add (F64.div (F64.ofInt totalItems) (F64.ofInt pageSize)) (F64.const (9 / 10)))
  let totalPages := if totalPages = 0 then 1 else totalPages
  let offset := wrapInt64 ((page - 1) * pageSize)
  if offset < 0 then .error "pq: OFFSET must not be negative"
  else
    let joined : List (RecommendationScore × Stock) :=
      db.recommendation_scores.flatMap fun rs =>
        (db.stocks.filter fun s => rs.StockID = s.ID).map fun s => (rs, s)
    let ordered := joined.insertionSort fun a b => b.1.TotalScore ≤ a.1.TotalScore
    let rows := (ordered.drop offset.toNat).take pageSize.toNat
    let recommendations : List RecommendationWithStock :=
      rows.map fun row =>
        { toRecommendationScore := row.1
          Stock :=
            { toStock := row.2, LatestAnalysis := GetLatestAnalysisForStock db row.2.ID 5 } }
    .ok
      { Data := recommendations
        Meta :=
          { Page := page
            PageSize := pageSize
            TotalItems := totalItems
            TotalPages := totalPages
            HasNext := decide (page < totalPages)
            HasPrevious := decide (page > 1) } }

end RecommendationScoreRepository

namespace StockService

open RecommendationScoreRepository

/-- The function `GetStocksWithMetricsPaginated`. -/
def GetStocksWithMetricsPaginated (db : Store) (page pageSize : ℤ)
    (filters : StockFilterParams) : Except String (PaginatedResponse StockWithAnalysis) :=
  StockRepository.GetStocksWithAnalysisPaginated db page pageSize filters

/-- The function `GetRecommendationsPaginated`. -/
def GetRecommendationsPaginated (db : Store) (page pageSize : ℤ) :
    Except String (PaginatedResponse StockRecommendation) :=
  let page := if page < 1 then 1 else page
  let pageSize := if pageSize < 1 ∨ pageSize > 100 then 20 else pageSize
  match GetTopRecommendationsPaginated db page pageSize with
  | .error err => .error err
  | .ok recommendations =>
    .ok
      { Data := recommendations.Data.map fun rec =>
          { Stock := rec.Stock, Score := rec.TotalScore, Reason := rec.Reason,
            Confidence := rec.Confidence }
        Meta := recommendations.Meta }

end StockService

open StockRepository RecommendationScoreRepository StockService

/-! ## Filter options

`GetFilterOptions`, `formatActionLabel` and `normalizeActionValue` of
`internal/repository/stock_repository.go`, with the library functions they use. -/

namespace unicode

/-- Go's `unicode.IsSpace`: the white space of Latin-1 and the runes of the Unicode
property `White_Space` beyond it. -/
def IsSpace (r : Char) : Bool :=
  if r.toNat ≤ 0xFF then
    decide (r.toNat = 9 ∨ r.toNat = 10 ∨ r.toNat = 11 ∨ r.toNat = 12 ∨ r.toNat = 13
      ∨ r.toNat = 32 ∨ r.toNat = 0x85 ∨ r.toNat = 0xA0)
  else
    decide (r.toNat = 0x1680 ∨ (0x2000 ≤ r.toNat ∧ r.toNat ≤ 0x200A) ∨ r.toNat = 0x2028
      ∨ r.toNat = 0x2029 ∨ r.toNat = 0x202F ∨ r.toNat = 0x205F ∨ r.toNat = 0x3000)

/-- Go's `unicode.ToTitle` on one rune.  ASCII runes follow the ASCII branch of the
library function.  Beyond ASCII the library consults the Unicode case tables; those
runes are left as they are here. -/
def ToTitle (r : Char) : Char :=
  if r.toNat ≤ 127 then
    if 'a'.toNat ≤ r.toNat ∧ r.toNat ≤ 'z'.toNat then Char.ofNat (r.toNat - 32) else r
  else r

end unicode

namespace strings

/-- The loop of `strings.ReplaceAll` for a pattern `old` that is not empty: `skip`
counts the characters of a replaced occurrence that are still to be passed over. -/
def replaceChars (old new : List Char) : ℕ → List Char → List Char
  | _, [] => []
  | skip + 1, _ :: rest => replaceChars old new skip rest
  | 0, c :: rest =>
    if old <+: c :: rest then new ++ replaceChars old new (old.length - 1) rest
    else c :: replaceChars old new 0 rest

/-- Go's `strings.ReplaceAll`: the occurrences of `old` that do not overlap, taken from
the left, replaced by `new`; an empty `old` matches before every rune and at the end. -/
def ReplaceAll (s old new : String) : String :=
  if old = "" then String.mk (new.data ++ s.data.flatMap fun c => c :: new.data)
  else String.mk (replaceChars old.data new.data 0 s.data)

/-- The loop of `strings.Fields`: `word` holds the runes of the field being read. -/
def fieldsFrom : List Char → List Char → List String
  | [], word => if word = [] then [] else [String.mk word]
  | c :: rest, word =>
    if unicode.IsSpace c then
      if word = [] then fieldsFrom rest [] else String.mk word :: fieldsFrom rest []
    else fieldsFrom rest (word ++ [c])

/-- Go's `strings.Fields`: the maximal runs of runes that are not white space. -/
def Fields (s : String) : List String := fieldsFrom s.data []

/-- The function `isSeparator` of the package `strings`: an ASCII rune other than a
letter, a digit or the underscore; beyond ASCII, where letters and digits are no
separators, a white space. -/
def isSeparator (r : Char) : Bool :=
  if r.toNat ≤ 0x7F then
    !(decide ('0'.toNat ≤ r.toNat ∧ r.toNat ≤ '9'.toNat)
      || decide ('a'.toNat ≤ r.toNat ∧ r.toNat ≤ 'z'.toNat)
      || decide ('A'.toNat ≤ r.toNat ∧ r.toNat ≤ 'Z'.toNat)
      || decide (r = '_'))
  else unicode.IsSpace r

/-- The loop of `strings.Title`: `prev` is the rune before the one being mapped. -/
def titleFrom : Char → List Char → List Char
  | _, [] => []
  | prev, r :: rest =>
    (if isSeparator prev then unicode.ToTitle r else r) :: titleFrom r rest

/-- Go's `strings.Title`: every rune that follows a separator, and the first rune, mapped
to its title case. -/
def Title (s : String) : String := String.mk (titleFrom ' ' s.data)

end strings

/-- An option of a filter (`models.FilterOption`). -/
structure models.FilterOption where
  Label : String
  Value : String
  deriving DecidableEq

/-- The options of the three filters (`models.FilterOptions`). -/
structure models.FilterOptions where
  ActionTypes : List FilterOption
  Brokerages : List FilterOption
  SortBy : List FilterOption
  deriving DecidableEq

namespace StockRepository

/-- The function `formatActionLabel`.  The label of the last branch is exact when the
letters of the text are ASCII letters (see `unicode.ToLower` and `unicode.ToTitle`). -/
def formatActionLabel (action : String) : String :=
  let action := strings.ToLower action
  if strings.Contains action "initiated" then "Initiated"
  else if strings.Contains action "raised" then "Target Raised"
  else if strings.Contains action "lowered" then "Target Lowered"
  else if strings.Contains action "upgraded" then "Upgraded"
  else if strings.Contains action "downgraded" then "Downgraded"
  else if strings.Contains action "reiterated" then "Reiterated"
  else if strings.Contains action "target set" then "Target Set"
  else
    let words := (strings.Fields action).map strings.Title
    strings.Join words " "

/-- The function `normalizeActionValue`.  The value of the last branch is the lower-cased
text as `strings.ToLower` of this file gives it: exact when the letters of the text are
ASCII letters. -/
def normalizeActionValue (action : String) : String :=
  let action := strings.ToLower action
  if strings.Contains action "initiated" then "initiated"
  else if strings.Contains action "raised" then "raised"
  else if strings.Contains action "lowered" then "lowered"
  else if strings.Contains action "upgraded" then "upgraded"
  else if strings.Contains action "downgraded" then "downgraded"
  else if strings.Contains action "reiterated" then "reiterated"
  else if strings.Contains action "target set" then "target-set"
  else strings.ReplaceAll (strings.ToLower action) " " "-"

/-- The rows of a query `SELECT DISTINCT column ... WHERE column != '' ORDER BY column`
over the given values of the column. -/
def distinctOrdered (values : List String) : List String :=
  ((values.filter fun value => value ≠ "").dedup).insertionSort fun a b => a ≤ b

/-- The function `GetFilterOptions`: the options of the action filter, one for every
normalized value of a stored action kind, in the order of the kinds as text; the
brokerages as they are stored; and the six sort modes. -/
def GetFilterOptions (db : Store) : FilterOptions :=
  let actionRows := distinctOrdered (db.stock_analysis.map fun sa => sa.Action)
  let actionTypes : List FilterOption :=
    actionRows.foldl
      (fun actionTypes action =>
        let label := formatActionLabel action
        let value := normalizeActionValue action
        if actionTypes.any fun existing => decide (existing.Value = value) then actionTypes
        else actionTypes ++ [{ Label := label, Value := value }])
      [{ Label := "All actions", Value := "all" }]
  let brokerageRows := distinctOrdered (db.stock_analysis.map fun sa => sa.Brokerage)
  let brokerages : List FilterOption :=
    { Label := "All brokerages", Value := "all" }
      :: brokerageRows.map fun brokerage => { Label := brokerage, Value := brokerage }
  let sortOptions : List FilterOption :=
    [{ Label := "Newest", Value := "newest" },
     { Label := "Oldest", Value := "oldest" },
     { Label := "Ticker A-Z", Value := "ticker-a-z" },
     { Label := "Company A-Z", Value := "company-a-z" },
     { Label := "Analysis Date (Newest)", Value := "analysis-newest" },
     { Label := "Analysis Date (Oldest)", Value := "analysis-oldest" }]
  { ActionTypes := actionTypes, Brokerages := brokerages, SortBy := sortOptions }

end StockRepository

/-! ## Specification-level notions -/

open RecommendationEngine

/-- First-match lookup of a text against an ordered list of (phrase, value) pairs by
substring containment, with a default when no phrase is contained. -/
def firstMatch (table : List (String × ℚ)) (dflt : ℚ) (s : String) : ℚ :=
  match table.find? (fun p => strings.Contains s p.1) with
  | some p => p.2
  | none => dflt

/-- The ordered rating phrases with their ordinal scores. -/
def ratingTable : List (String × ℚ) :=
  [("buy", 80), ("outperform", 70), ("overweight", 70), ("hold", 50), ("neutral", 50),
   ("underperform", 30), ("underweight", 30), ("sell", 10)]

/-- The ordered action phrases with their scores. -/
def actionTable : List (String × ℚ) :=
  [("initiated", 10), ("raised", 12), ("lowered", -8), ("maintained", 5)]

/-- The ASCII letter of the other case; any other character unchanged. -/
def swapCase (c : Char) : Char :=
  if 'a'.toNat ≤ c.toNat ∧ c.toNat ≤ 'z'.toNat then Char.ofNat (c.toNat - 32)
  else if 'A'.toNat ≤ c.toNat ∧ c.toNat ≤ 'Z'.toNat then Char.ofNat (c.toNat + 32)
  else c

/-- Whether two texts differ only in the case of ASCII letters: they have the same
length and agree position by position up to `swapCase`. -/
def sameUpToCase : List Char → List Char → Bool
  | [], [] => true
  | a :: s, b :: t => (a = b || a = swapCase b) && sameUpToCase s t
  | _, _ => false

/-- Whether a rating text maps to an ordinal score in the sense of the
specification: it is not empty and contains one of the known rating phrases. -/
def mapsToOrdinal (rating : String) : Bool :=
  rating ≠ "" && ratingTable.any fun p => strings.Contains (strings.ToLower rating) p.1

/-- The rating change score as the specification words it: 0 unless both ratings map
to an ordinal score, then +15 for a higher target rating, -10 for a lower one. -/
def ratingChangeAsSpecified (latest : StockAnalysis) : ℚ :=
  if mapsToOrdinal latest.RatingTo && mapsToOrdinal latest.RatingFrom then
    if getRatingScore latest.RatingTo > getRatingScore latest.RatingFrom then 15
    else if getRatingScore latest.RatingTo < getRatingScore latest.RatingFrom then -10
    else 0
  else 0

/-- The natural number written by a string of decimal digits. -/
def digitsValue (cs : List Char) : ℕ := cs.foldl pushDigit 0

/-- The characters of a price text that `extractPrice` keeps: digits and `.`. -/
def keptChars (s : String) : List Char :=
  s.data.filter fun r => isDecimalDigit r || r = '.'

/-- The exact value of a decimal numeral: digits, optionally followed by `.` and
further digits, with at least one digit in all; `none` for any other text. -/
def decimalValue (cs : List Char) : Option ℚ :=
  let intPart := cs.takeWhile (· ≠ '.')
  match cs.dropWhile (· ≠ '.') with
  | [] =>
    if intPart.all isDecimalDigit ∧ intPart ≠ [] then some (digitsValue intPart) else none
  | _ :: frac =>
    if intPart.all isDecimalDigit ∧ frac.all isDecimalDigit ∧ (intPart ≠ [] ∨ frac ≠ []) then
      some (digitsValue intPart + (digitsValue frac : ℚ) / 10 ^ frac.length)
    else none

/-- The price as the specification words it: the exact value of the kept characters
when they form a decimal numeral, 0 otherwise. -/
def extractPriceAsSpecified (s : String) : ℚ := (decimalValue (keptChars s)).getD 0

/-- The target change score as the specification words it, with the relative change
taken as an exact rational. -/
def targetChangeScoreAsSpecified (targetFromVal targetToVal : ℚ) : ℚ :=
  if targetFromVal ≤ 0 ∨ targetToVal ≤ 0 then 0
  else
    let c := (targetToVal - targetFromVal) / targetFromVal
    if c > 1 / 10 then 20
    else if c > 1 / 20 then 10
    else if c < -(1 / 10) then -15
    else if c < -(1 / 20) then -8
    else 0

/-- All the stored actions of a stock, latest analysis date first: the actions that
retention has kept. -/
def retainedActions (db : Store) (stockID : ℤ) : List StockAnalysis :=
  orderByAnalysisDateDesc (db.stock_analysis.filter fun a => a.StockID = stockID)

/-- The score row that `calculateAndStoreRecommendationScore` leaves for a stock: the
row of the stock in the store after the call, `none` when the call fails. -/
def persistedScore (db : Store) (now : ℤ) (stockID : ℤ) : Option RecommendationScore :=
  match calculateAndStoreRecommendationScore db now stockID with
  | .ok db' => GetRecommendationScoreByStockID db' stockID
  | .error _ => none

/-- The rating clause of the explanation: present when the lower-cased latest
`RatingTo` contains "buy", else when it contains "outperform". -/
def ratingClause (latest : StockAnalysis) : List String :=
  if strings.Contains (strings.ToLower latest.RatingTo) "buy" then
    ["Buy rating from " ++ latest.Brokerage]
  else if strings.Contains (strings.ToLower latest.RatingTo) "outperform" then
    ["Outperform rating from " ++ latest.Brokerage]
  else []

/-- The price target clause of the explanation: present when both prices are positive
and the relative change, as the engine computes it, exceeds the constant `0.1`. -/
def priceClause (latest : StockAnalysis) : List String :=
  if 0 < extractPrice latest.TargetFrom ∧ 0 < extractPrice latest.TargetTo
      ∧ F64.gt (targetChange (extractPrice latest.TargetFrom) (extractPrice latest.TargetTo))
          (F64.const (1 / 10)) = true then
    ["Price target raised by "
      ++ fmt.fixed1 (F64.mul
          (targetChange (extractPrice latest.TargetFrom) (extractPrice latest.TargetTo))
          (.fin 100))
      ++ "%"]
  else []

/-- The coverage clause of the explanation: present when the lower-cased latest action
kind contains "initiated". -/
def coverageClause (latest : StockAnalysis) : List String :=
  if strings.Contains (strings.ToLower latest.Action) "initiated" then ["New analyst coverage"]
  else []

/-- The clause for several updates: present for three or more actions. -/
def updatesClause (count : ℕ) : List String :=
  if 3 ≤ count then ["Multiple recent analyst updates"] else []

/-- The clauses of the explanation in their fixed order. -/
def reasonClauses (latest : StockAnalysis) (count : ℕ) : List String :=
  ratingClause latest ++ priceClause latest ++ coverageClause latest ++ updatesClause count

/-- A text that is not empty and does not begin with the letter `A`. -/
def startsNotWithA (s : String) : Prop := ∃ c t, s.data = c :: t ∧ c ≠ 'A'

/-- The unit in the last place used when rounding `q`: `2 ^ (e - 52)` for the binary
exponent `e` of `q`, not below the least normal exponent. -/
def F64.ulp (q : ℚ) : ℚ := 2 ^ (max (F64.ilog2 q) F64.minExp - 52)

/-- The finite `float64` numbers without regard to range: integer multiples `n * 2 ^ e`
of a power of two not below `2 ^ (-1074)`, with at most 53 significant bits. -/
def F64.Representable (r : ℚ) : Prop :=
  ∃ n e : ℤ, r = n * 2 ^ e ∧ -1074 ≤ e ∧ |n| ≤ 2 ^ 53

/-- The midpoint between the `float64` constant `0.1` and the next `float64` above it,
about `0.1 + 1.25e-17`. -/
def tenthMidpoint : ℚ := 14411518807585589 / 2 ^ 57

/-- The midpoint between the `float64` constant `0.05` and the next `float64` above
it, about `0.05 + 6.2e-18`. -/
def twentiethMidpoint : ℚ := 14411518807585589 / 2 ^ 58

/-- The natural key of an analyst action: stock, analysis date and brokerage. -/
def naturalKey (a : StockAnalysis) : ℤ × ℤ × String := (a.StockID, a.AnalysisDate, a.Brokerage)

/-- No two rows of `stock_analysis` have the same natural key. -/
def naturalKeyUnique (db : Store) : Prop := (db.stock_analysis.map naturalKey).Nodup

/-- The row with the five value fields of `analysis` and everything else, in particular
`ID` and `CreatedAt`, of `row`. -/
def overwriteValues (analysis row : StockAnalysis) : StockAnalysis :=
  { row with
    TargetFrom := analysis.TargetFrom, TargetTo := analysis.TargetTo, Action := analysis.Action,
    RatingFrom := analysis.RatingFrom, RatingTo := analysis.RatingTo }

/-- The two repository calls that `SyncAllStocks` makes for the analyst action of a feed
item: `CreateStockAnalysis` at the time `input.1`, then `DeleteOldAnalysis` for the
stock of the action with the limit 10. -/
def ingestAction (db : Store) (input : ℤ × StockAnalysis) : Store :=
  DeleteOldAnalysis (CreateStockAnalysis db input.1 input.2).1 input.2.StockID 10

/-- An analyst action without the id and creation time that the store assigns. -/
def asIngested (a : StockAnalysis) : StockAnalysis := { a with ID := 0, CreatedAt := 0 }

/-- The stored actions of a stock in storage order. -/
def actionsOf (db : Store) (stockID : ℤ) : List StockAnalysis :=
  db.stock_analysis.filter fun a => a.StockID = stockID

/-- The stored actions of the other stocks in storage order. -/
def actionsOfOthers (db : Store) (stockID : ℤ) : List StockAnalysis :=
  db.stock_analysis.filter fun a => a.StockID ≠ stockID

/-- The state of retention for a stock after the actions `ingested` have been ingested:
the stored actions of the stock are the ten latest of them, and their ids are distinct
and below the next id of the sequence. -/
def RetentionState (db : Store) (stockID : ℤ) (ingested : List StockAnalysis) : Prop :=
  (orderByAnalysisDateDesc (actionsOf db stockID)).map asIngested
      = ((orderByAnalysisDateDesc ingested).take 10).map asIngested
    ∧ (∀ a ∈ actionsOf db stockID, a.ID < db.stock_analysis_seq)
    ∧ ((actionsOf db stockID).map fun a => a.ID).Nodup

/-- The feed followed from a cursor on: the pages it serves up to and including the
first page without a next cursor, or up to a fetch that fails, with the error of that
fetch; `none` when neither is reached within `fuel` fetches. -/
def feedWalk (feed : String → Except String clients.StockListResponse) :
    ℕ → String → Option (List clients.StockListResponse × Option String)
  | 0, _ => none
  | fuel + 1, cursor =>
    match feed cursor with
    | .error err => some ([], some err)
    | .ok response =>
      if response.NextPage = "" then some ([response], none)
      else
        match feedWalk feed fuel response.NextPage with
        | none => none
        | some (pages, err) => some (response :: pages, err)

/-- The items of a list of feed pages, in order. -/
def feedItems (pages : List clients.StockListResponse) : List clients.StockAnalysis :=
  pages.flatMap fun page => page.Items

/-- The symbol of a `CreateStock` call. -/
def Call.createdSymbol : Call → Option String
  | .CreateStock symbol => some symbol
  | _ => none

/-- The cursor of a `GetStocksList` call. -/
def Call.fetchedCursor : Call → Option String
  | .GetStocksList nextPage => some nextPage
  | _ => none

/-- The state in which the loop of a sync run starts on the store `db`. -/
def SyncState.initial (db : Store) : SyncState :=
  { db := db, calls := [Call.StartStockSync], taken := 0, totalProcessed := 0 }

/-- Two states of a sync run agree on everything but the calls made. -/
def SyncState.sameCore (s t : SyncState) : Prop :=
  s.db = t.db ∧ s.taken = t.taken ∧ s.totalProcessed = t.totalProcessed

/-- The page that the paginated queries use for the page asked for. -/
def normalPage (page : ℤ) : ℤ := if page < 1 then 1 else page

/-- The page size that the paginated queries use for the page size asked for. -/
def normalPageSize (pageSize : ℤ) : ℤ := if 1 ≤ pageSize ∧ pageSize ≤ 100 then pageSize else 20

/-- The rows of the common table `paginated_stocks` before `LIMIT` and `OFFSET` cut them
to the page: the filtered stocks in the order of the sort mode. -/
def orderedStocks (db : Store) (filters : StockFilterParams) : List (Stock × Option ℤ) :=
  if filters.SortBy = "analysis-newest" ∨ filters.SortBy = "analysis-oldest" then
    ((filteredStocks db filters).map fun s => (s, maxAnalysisDate db s.ID)).insertionSort
      fun a b => byMaxDate (decide (filters.SortBy = "analysis-newest")) a b = true
  else
    (if filters.SortBy = "newest" then
      (filteredStocks db filters).insertionSort fun a b => b.UpdatedAt ≤ a.UpdatedAt
    else if filters.SortBy = "oldest" then
      (filteredStocks db filters).insertionSort fun a b => a.UpdatedAt ≤ b.UpdatedAt
    else if filters.SortBy = "ticker-a-z" then
      (filteredStocks db filters).insertionSort fun a b => a.Symbol ≤ b.Symbol
    else if filters.SortBy = "company-a-z" then
      (filteredStocks db filters).insertionSort fun a b => a.Name ≤ b.Name
    else
      (filteredStocks db filters).insertionSort fun a b => a.Symbol ≤ b.Symbol).map
        fun s => (s, none)

/-- The rows that the lateral join of the main query gives for a stock of the page: one
for each of its three latest actions, or one row of nulls. -/
def lateralRows (db : Store) (s : Stock × Option ℤ) : List PageRow :=
  match GetLatestAnalysisForStock db s.1.ID 3 with
  | [] => [{ stock := s.1, maxDate := s.2, analysis := none }]
  | actions => actions.map fun a => { stock := s.1, maxDate := s.2, analysis := some a }

/-- The rows of the main query before its `ORDER BY`. -/
def joinedRows (db : Store) (pageSize offset : ℤ) (filters : StockFilterParams) : List PageRow :=
  (paginatedStocks db pageSize offset filters).flatMap (lateralRows db)

/-- The stocks of a list of rows, each at the place of its first row. -/
def stocksSeen (rows : List PageRow) : List Stock :=
  rows.foldl
    (fun seen row =>
      if seen.any fun s => decide (s.ID = row.stock.ID) then seen else seen ++ [row.stock])
    []

/-- The entry of `Data` for a stock `s` over the rows of the main query: the stock with
the actions scanned from its rows. -/
def dataEntry (rows : List PageRow) (s : Stock) : StockWithAnalysis :=
  { toStock := s
    LatestAnalysis := (rows.filter fun row => row.stock.ID = s.ID).map scanAnalysis }

/-- The order of the analysis sort modes on stocks: the stock with the later (`newest`)
or earlier maximal analysis date first, stocks without actions last, and the smaller
symbol first among stocks that agree on the date. -/
def analysisBefore (db : Store) (newest : Bool) (a b : Stock) : Prop :=
  match maxAnalysisDate db a.ID, maxAnalysisDate db b.ID with
  | some x, some y =>
    (if newest then y ≤ x else x ≤ y) ∧ (x = y → a.Symbol ≤ b.Symbol)
  | some _, none => True
  | none, some _ => False
  | none, none => a.Symbol ≤ b.Symbol

/-- The six known values of the sort mode. -/
def knownSortModes : List String :=
  ["newest", "oldest", "ticker-a-z", "company-a-z", "analysis-newest", "analysis-oldest"]

/-- The seven values of the action filter with the keyword that each of them looks for in
the lower-cased kind of an action. -/
def actionKeywords : List (String × String) :=
  [("initiated", "initiated"), ("raised", "raised"), ("lowered", "lowered"),
   ("upgraded", "upgraded"), ("downgraded", "downgraded"), ("reiterated", "reiterated"),
   ("target-set", "target set")]

/-- The seven values of the action filter that add a condition to the query. -/
def recognisedActionTypes : List String :=
  ["initiated", "raised", "lowered", "upgraded", "downgraded", "reiterated", "target-set"]

/-- Whether a text has none of the characters with a meaning in a `LIKE` pattern: `%`,
`_` and the backslash. -/
def likePlain (s : List Char) : Bool :=
  s.all fun c => !(c = '%' || c = '_' || c = Char.ofNat 92)

/-- A stock view with the given actions, used for concrete instances. -/
def sampleStock (actions : List StockAnalysis) : StockWithAnalysis :=
  { ID := 1, Symbol := "ACME", Name := "Acme Corp", CreatedAt := 0, UpdatedAt := 0,
    LatestAnalysis := actions }

/-- An analyst action of stock 1 with the given texts, used for concrete instances. -/
def sampleAction (id date : ℤ) (ratingFrom ratingTo action targetFrom targetTo : String) :
    StockAnalysis :=
  { ID := id, StockID := 1, TargetFrom := targetFrom, TargetTo := targetTo,
    Action := action, Brokerage := "Tiger Research", RatingFrom := ratingFrom,
    RatingTo := ratingTo, AnalysisDate := date, CreatedAt := date }

/-- A price text of 310 digits: `1` followed by 309 zeros. -/
def hugePriceText : String := String.mk ('1' :: List.replicate 309 '0')

/-- A store with one stock and six retained actions; only the two oldest are rated
Buy. -/
def sampleStore : Store :=
  { stocks := [{ ID := 1, Symbol := "ACME", Name := "Acme Corp", CreatedAt := 0, UpdatedAt := 0 }]
    stock_analysis :=
      [sampleAction 11 1 "" "Buy" "" "" "", sampleAction 12 2 "" "Buy" "" "" "",
       sampleAction 13 3 "" "Hold" "" "" "", sampleAction 14 4 "" "Hold" "" "" "",
       sampleAction 15 5 "" "Hold" "" "" "", sampleAction 16 6 "" "Hold" "" "" ""]
    recommendation_scores := []
    recommendation_scores_seq := 1 }

/-- The score row that the scoring path stores for stock 1 of `sampleStore` at
time 100. -/
def sampleScoreRow : RecommendationScore :=
  { ID := 1, StockID := 1, TotalScore := 55, RatingScore := 0, RatingChangeScore := 0,
    TargetChangeScore := 0, ActionScore := 0, CoverageScore := 5, Confidence := "Low",
    Reason := "Multiple recent analyst updates", LatestAnalysisID := some 16,
    CalculatedAt := 100, CreatedAt := 100, UpdatedAt := 100 }

/-- A store whose only content is the row of the sync process in the given state. -/
def guardStore (isRunning : Bool) (lastExecution : Option ℤ) (intervalMinutes : ℤ) : Store :=
  { stocks := []
    stock_analysis := []
    recommendation_scores := []
    recommendation_scores_seq := 1
    process_control :=
      [{ ID := 1, ProcessName := "stock_sync", IsRunning := isRunning,
         LastExecution := lastExecution, IntervalMinutes := intervalMinutes,
         CreatedAt := 0, UpdatedAt := 0 }] }

/-- Fifteen actions of stock 1 with the analysis dates 1 to 15, in the order in which they
are ingested (neither ascending nor descending), each with its time of ingestion. -/
def fifteenActions : List (ℤ × StockAnalysis) :=
  [8, 3, 15, 1, 12, 6, 10, 2, 14, 5, 9, 13, 4, 11, 7].map fun date =>
    (100 + date, sampleAction 0 date "Hold" "Buy" "upgraded by" "$10" "$12")

/-- A store without rows. -/
def emptyStore : Store :=
  { stocks := [], stock_analysis := [], recommendation_scores := [],
    recommendation_scores_seq := 1 }

/-- The store `sampleStore` with the sync process idle since its last execution at time
0, the minimal interval being 60 minutes. -/
def cooldownStore : Store :=
  { sampleStore with
    stocks_seq := 2
    stock_analysis_seq := 17
    process_control := (guardStore false (some 0) 60).process_control }

/-- A feed item for the given ticker and analysis date. -/
def sampleItem (ticker : String) (date : ℤ) : clients.StockAnalysis :=
  { Ticker := ticker, TargetFrom := "$10", TargetTo := "$12", Company := ticker ++ " Corp",
    Action := "upgraded by", Brokerage := "Tiger Research", RatingFrom := "Hold",
    RatingTo := "Buy", Time := date }

/-- A feed of two pages; the fetch of the second page fails when `broken`. -/
def sampleFeed (broken : Bool) (cursor : String) : Except String clients.StockListResponse :=
  if cursor = "" then .ok { Items := [sampleItem "BOLT" 7, sampleItem "ACME" 7], NextPage := "p2" }
  else if cursor = "p2" ∧ broken = false then .ok { Items := [sampleItem "CARE" 8], NextPage := "" }
  else .error "API returned status 500"

/-- A sync run that starts one minute after time 0 and ends a minute later, over
`sampleFeed`; for its first item `CreateStockAnalysis` fails. -/
def sampleWorld (broken : Bool) : SyncWorld :=
  { GetStocksList := sampleFeed broken
    startedAt := time.Minute
    itemAt := fun k => time.Minute + 1 + k
    faults := fun k => if k = 0 then { CreateStockAnalysis := true } else {}
    finishedAt := 2 * time.Minute }

/-- The surroundings `sampleWorld false` in which the statement of `FinishStockSync`
fails. -/
def failedFinishWorld : SyncWorld :=
  { sampleWorld false with finishErr := some "driver: bad connection" }

/-- A store of `n` stocks, without actions, with one score row for each stock. -/
def scoredStore (n : ℕ) : Store :=
  { stocks := (List.range n).map fun (i : ℕ) =>
      { ID := i, Symbol := fmt.digits i, Name := "", CreatedAt := 0, UpdatedAt := 0 }
    stock_analysis := []
    recommendation_scores := (List.range n).map fun (i : ℕ) =>
      { sampleScoreRow with ID := i, StockID := i }
    recommendation_scores_seq := n
    stocks_seq := n }

/-- The filters that exclude no stock and ask for the default ordering. -/
def noFilters : StockFilterParams := { ActionType := "", Brokerage := "", SortBy := "" }

/-- A store of three stocks: AAA with four actions, BBB with one, CCC with none. -/
def listingStore : Store :=
  { stocks :=
      [{ ID := 1, Symbol := "AAA", Name := "Zeta Corp", CreatedAt := 0, UpdatedAt := 2 },
       { ID := 2, Symbol := "BBB", Name := "Yard Inc", CreatedAt := 0, UpdatedAt := 1 },
       { ID := 3, Symbol := "CCC", Name := "Alpha Ltd", CreatedAt := 0, UpdatedAt := 3 }]
    stock_analysis :=
      [sampleAction 11 1 "" "Buy" "initiated by" "" "$10",
       sampleAction 12 2 "Hold" "Buy" "upgraded by" "$10" "$12",
       sampleAction 13 3 "Buy" "Buy" "maintained by" "$12" "$12",
       sampleAction 14 4 "Buy" "Buy" "target raised by" "$12" "$15",
       { sampleAction 15 5 "Hold" "Hold" "Price Target Lowered" "$8" "$7" with
         StockID := 2, Brokerage := "Bear Partners" }]
    recommendation_scores := []
    recommendation_scores_seq := 1
    stocks_seq := 4
    stock_analysis_seq := 16 }

/-- The filters with the given sort mode that exclude no stock. -/
def sortedBy (sortBy : String) : StockFilterParams :=
  { ActionType := "", Brokerage := "", SortBy := sortBy }

/-- The filters with the given action kind and brokerage, in the default ordering. -/
def filteredBy (actionType brokerage : String) : StockFilterParams :=
  { ActionType := actionType, Brokerage := brokerage, SortBy := "" }

/-- A stock view with the worst total: a downgrade to Sell with the target lowered by a
fifth. -/
def worstStock : StockWithAnalysis :=
  sampleStock [sampleAction 1 0 "Buy" "Sell" "target lowered by" "$100" "$80"]

/-- A stock view with the best total: an upgrade to Buy with the target raised by a
fifth, and two more actions rated Buy. -/
def bestStock : StockWithAnalysis :=
  sampleStock
    [sampleAction 3 2 "Hold" "Buy" "target raised by" "$10" "$12",
     sampleAction 2 1 "" "Buy" "" "" "", sampleAction 1 0 "" "Buy" "" "" ""]

/-- A stock view whose only action is an upgrade to Buy by a brokerage whose name ends with
the words of the coverage clause. -/
def clauseNamedStock : StockWithAnalysis :=
  sampleStock
    [{ sampleAction 1 0 "Hold" "Buy" "Upgraded" "" "" with
        Brokerage := "X, New analyst coverage" }]

/-- A stock view whose only action is an initiation at Buy by the brokerage `X`. -/
def initiatedStock : StockWithAnalysis :=
  sampleStock [{ sampleAction 1 0 "" "Buy" "initiated by" "" "" with Brokerage := "X" }]

/-! # Theorems -/

/-! ## Auxiliary facts: strings and first-match lookup -/

theorem strings.Contains_trans {s a b : String} (hab : strings.Contains a b = true)
    (hsa : strings.Contains s a = true) : strings.Contains s b = true := by
  simp only [strings.Contains, decide_eq_true_eq] at *
  exact hab.trans hsa

theorem Bool.or_eq_right_of_imp {a b : Bool} (h : a = true → b = true) : (a || b) = b := by
  cases a <;> cases b <;> simp_all

theorem Bool.or_eq_left_of_imp {a b : Bool} (h : b = true → a = true) : (a || b) = a := by
  cases a <;> cases b <;> simp_all

theorem RecommendationEngine.getRatingScore_eq_firstMatch (rating : String) :
    getRatingScore rating = firstMatch ratingTable 50 (strings.ToLower rating) := by
  have h1 : (strings.Contains (strings.ToLower rating) "strong buy"
      || strings.Contains (strings.ToLower rating) "buy")
      = strings.Contains (strings.ToLower rating) "buy" :=
    Bool.or_eq_right_of_imp (strings.Contains_trans (by decide))
  have h2 : (strings.Contains (strings.ToLower rating) "sell"
      || strings.Contains (strings.ToLower rating) "strong sell")
      = strings.Contains (strings.ToLower rating) "sell" :=
    Bool.or_eq_left_of_imp (strings.Contains_trans (by decide))
  simp only [getRatingScore, h1, h2, firstMatch, ratingTable, List.find?, Bool.or_eq_true]
  cases strings.Contains (strings.ToLower rating) "buy" <;>
  cases strings.Contains (strings.ToLower rating) "outperform" <;>
  cases strings.Contains (strings.ToLower rating) "overweight" <;>
  cases strings.Contains (strings.ToLower rating) "hold" <;>
  cases strings.Contains (strings.ToLower rating) "neutral" <;>
  cases strings.Contains (strings.ToLower rating) "underperform" <;>
  cases strings.Contains (strings.ToLower rating) "underweight" <;>
  cases strings.Contains (strings.ToLower rating) "sell" <;>
  simp

theorem strings.Join_data_cons (c : String) (cs : List String) (sep : String) :
    ∃ t, (strings.Join (c :: cs) sep).data = c.data ++ t := by
  cases cs with
  | nil => exact ⟨[], by simp [strings.Join]⟩
  | cons b r =>
    exact ⟨sep.data ++ (strings.Join (b :: r) sep).data, by
      simp [strings.Join, String.data_append]⟩

theorem startsNotWithA_of_append {a : String} (b : String) (h : startsNotWithA a) :
    startsNotWithA (a ++ b) := by
  obtain ⟨c, t, ht, hc⟩ := h
  exact ⟨c, t ++ b.data, by simp [String.data_append, ht], hc⟩

theorem Char.toNat_ofNat_small (n : ℕ) (h : n < 0xd800) : (Char.ofNat n).toNat = n := by
  have hv : n.isValidChar := Or.inl h
  simp only [Char.ofNat, hv, dif_pos, Char.toNat, Char.ofNatAux]
  simp [UInt32.toNat]

theorem unicode.ToLower_swapCase (c : Char) :
    unicode.ToLower (swapCase c) = unicode.ToLower c := by
  have h97 : 'a'.toNat = 97 := rfl
  have h122 : 'z'.toNat = 122 := rfl
  have h65 : 'A'.toNat = 65 := rfl
  have h90 : 'Z'.toNat = 90 := rfl
  unfold swapCase
  rw [h97, h122, h65, h90]
  by_cases hl : 97 ≤ c.toNat ∧ c.toNat ≤ 122
  · rw [if_pos hl]
    have h1 : (Char.ofNat (c.toNat - 32)).toNat = c.toNat - 32 :=
      Char.toNat_ofNat_small _ (by omega)
    unfold unicode.ToLower
    rw [h1, h65, h90]
    have e : c.toNat - 32 + 32 = c.toNat := by omega
    rw [if_pos (by omega), if_pos (by omega), if_pos (by omega), if_neg (by omega), e]
    exact Char.ofNat_toNat c
  · rw [if_neg hl]
    by_cases hu : 65 ≤ c.toNat ∧ c.toNat ≤ 90
    · rw [if_pos hu]
      have h1 : (Char.ofNat (c.toNat + 32)).toNat = c.toNat + 32 :=
        Char.toNat_ofNat_small _ (by omega)
      unfold unicode.ToLower
      rw [h1, h65, h90]
      rw [if_pos (by omega), if_neg (by omega), if_pos (by omega), if_pos hu]
    · rw [if_neg hu]

theorem strings.ToLower_eq_of_sameUpToCase (s t : String)
    (h : sameUpToCase s.data t.data = true) : strings.ToLower s = strings.ToLower t := by
  unfold strings.ToLower
  congr 1
  generalize s.data = l at h
  generalize t.data = m at h
  induction l generalizing m with
  | nil =>
    cases m with
    | nil => rfl
    | cons b t => simp [sameUpToCase] at h
  | cons a l ih =>
    cases m with
    | nil => simp [sameUpToCase] at h
    | cons b m =>
      simp only [sameUpToCase, Bool.and_eq_true, Bool.or_eq_true, decide_eq_true_eq] at h
      rw [List.map_cons, List.map_cons, ih m h.2]
      rcases h.1 with h1 | h1
      · rw [h1]
      · rw [h1, unicode.ToLower_swapCase]

/-! ## Auxiliary facts: decimal numerals and `float64` -/

theorem foldl_pushDigit (cs : List Char) (n : ℕ) :
    cs.foldl pushDigit n = n * 10 ^ cs.length + digitsValue cs := by
  induction cs generalizing n with
  | nil => simp [digitsValue]
  | cons c cs ih =>
    have h0 := ih (pushDigit 0 c)
    simp only [digitsValue, List.foldl_cons, List.length_cons] at h0 ⊢
    rw [ih, h0]
    simp only [pushDigit, digitsValue]
    ring

theorem strconv.readFloat_after_dot (cs : List Char) (st : strconv.Scan)
    (h : st.sawdot = true) :
    strconv.readFloat cs st
      = if cs.all isDecimalDigit then
          some { mantissa := cs.foldl pushDigit st.mantissa
                 fracDigits := st.fracDigits + cs.length
                 sawdot := true
                 sawdigits := st.sawdigits || !cs.isEmpty }
        else none := by
  induction cs generalizing st with
  | nil => cases st; simp_all [strconv.readFloat]
  | cons c cs ih =>
    by_cases hc : c = '.'
    · subst hc
      have hd : isDecimalDigit '.' = false := by decide
      simp [strconv.readFloat, h, hd]
    · cases hd : isDecimalDigit c
      · simp [strconv.readFloat, hc, hd]
      · rw [strconv.readFloat, if_neg hc, if_pos hd, ih]
        · simp only [h, if_true, List.all_cons, hd, Bool.true_and, List.foldl_cons,
            List.length_cons, List.isEmpty_cons, Bool.not_false, Bool.or_true]
          by_cases hall : cs.all isDecimalDigit = true
          · simp only [hall, if_true, Option.some.injEq, strconv.Scan.mk.injEq, and_true,
              true_and]
            exact ⟨by omega, by simp⟩
          · simp [hall]
        · exact h

theorem strconv.readFloat_before_dot (cs : List Char) (st : strconv.Scan)
    (h : st.sawdot = false) :
    strconv.readFloat cs st
      = match cs.dropWhile (· ≠ '.') with
        | [] =>
          if (cs.takeWhile (· ≠ '.')).all isDecimalDigit then
            some { mantissa := (cs.takeWhile (· ≠ '.')).foldl pushDigit st.mantissa
                   fracDigits := st.fracDigits
                   sawdot := false
                   sawdigits := st.sawdigits || !(cs.takeWhile (· ≠ '.')).isEmpty }
          else none
        | _ :: frac =>
          if (cs.takeWhile (· ≠ '.')).all isDecimalDigit ∧ frac.all isDecimalDigit then
            some { mantissa :=
                     frac.foldl pushDigit ((cs.takeWhile (· ≠ '.')).foldl pushDigit st.mantissa)
                   fracDigits := st.fracDigits + frac.length
                   sawdot := true
                   sawdigits :=
                     st.sawdigits || !(cs.takeWhile (· ≠ '.')).isEmpty || !frac.isEmpty }
          else none := by
  induction cs generalizing st with
  | nil => cases st; simp_all [strconv.readFloat]
  | cons c cs ih =>
    by_cases hc : c = '.'
    · subst hc
      rw [strconv.readFloat, if_pos rfl, strconv.readFloat_after_dot _ _ rfl]
      simp [h]
    · cases hd : isDecimalDigit c
      · have e1 : (c :: cs).takeWhile (· ≠ '.') = c :: cs.takeWhile (· ≠ '.') := by
          simp [List.takeWhile, hc]
        rw [strconv.readFloat, if_neg hc, e1]
        simp only [hd, Bool.false_eq_true, if_false, List.all_cons, Bool.false_and, false_and]
        split <;> rfl
      · have e1 : (c :: cs).takeWhile (· ≠ '.') = c :: cs.takeWhile (· ≠ '.') := by
          simp [List.takeWhile, hc]
        have e2 : (c :: cs).dropWhile (· ≠ '.') = cs.dropWhile (· ≠ '.') := by
          simp [List.dropWhile, hc]
        rw [strconv.readFloat, if_neg hc, if_pos hd, ih, e1, e2]
        · simp only [h, Bool.false_eq_true, if_false, List.all_cons, hd, Bool.true_and,
            List.foldl_cons, List.isEmpty_cons, Bool.not_false, Bool.or_true, Bool.true_or]
        · exact h

theorem strconv.ParseFloat_eq (cs : List Char) :
    strconv.ParseFloat (String.mk cs)
      = match decimalValue cs with
        | none => .errSyntax
        | some v =>
          match F64.round v with
          | .fin q => .ok q
          | _ => .errRange := by
  unfold strconv.ParseFloat decimalValue
  rw [strconv.readFloat_before_dot _ _ rfl]
  generalize cs.takeWhile (· ≠ '.') = ip
  generalize cs.dropWhile (· ≠ '.') = rest
  cases rest with
  | nil =>
    by_cases hall : ip.all isDecimalDigit = true
    · cases ip with
      | nil => simp
      | cons a t => simp only [hall, if_true]; simp [digitsValue]
    · simp [hall]
  | cons d frac =>
    by_cases hall : ip.all isDecimalDigit = true
    · by_cases hall2 : frac.all isDecimalDigit = true
      · have hval : ((frac.foldl pushDigit (ip.foldl pushDigit 0) : ℕ) : ℚ)
            / 10 ^ (0 + frac.length)
            = digitsValue ip + (digitsValue frac : ℚ) / 10 ^ frac.length := by
          rw [foldl_pushDigit frac, foldl_pushDigit ip 0]
          have h10 : ((10 : ℚ) ^ frac.length) ≠ 0 := by positivity
          push_cast
          field_simp
        cases ip with
        | nil =>
          cases frac with
          | nil => simp
          | cons b u => simp only [hall, hall2, and_self, if_true, hval]; simp
        | cons a t => simp only [hall, hall2, and_self, if_true, hval]; simp
      · simp [hall, hall2]
    · simp [hall]

theorem F64.log2Fuel_spec (fuel a : ℕ) (ha : 1 ≤ a) (hf : a ≤ fuel) :
    2 ^ F64.log2Fuel fuel a ≤ a ∧ a < 2 ^ (F64.log2Fuel fuel a + 1) := by
  induction fuel generalizing a with
  | zero => omega
  | succ f ih =>
    unfold F64.log2Fuel
    split_ifs with h2
    · constructor <;> simp <;> omega
    · have h1 : 1 ≤ a / 2 := by omega
      have h3 : a / 2 ≤ f := by omega
      obtain ⟨hl, hu⟩ := ih (a / 2) h1 h3
      constructor
      · rw [pow_succ]; omega
      · rw [pow_succ]; omega

theorem F64.ilog2_spec (q : ℚ) (hq : q ≠ 0) :
    (2 : ℚ) ^ F64.ilog2 q ≤ |q| ∧ |q| < 2 ^ (F64.ilog2 q + 1) := by
  have ha : 1 ≤ q.num.natAbs := Nat.one_le_iff_ne_zero.2 (by simpa using hq)
  have hb : 1 ≤ q.den := q.den_pos
  obtain ⟨hal, hau⟩ := F64.log2Fuel_spec _ _ ha le_rfl
  obtain ⟨hbl, hbu⟩ := F64.log2Fuel_spec _ _ hb le_rfl
  have habs : |q| = (q.num.natAbs : ℚ) / (q.den : ℚ) := by
    have h1 : |q| = |(q.num : ℚ)| / (q.den : ℚ) := by
      conv_lhs => rw [← Rat.num_div_den q]
      rw [abs_div, abs_of_pos (show (0 : ℚ) < q.den by exact_mod_cast q.den_pos)]
    rw [h1, Nat.cast_natAbs, Int.cast_abs]
  have hbpos : (0 : ℚ) < q.den := by exact_mod_cast q.den_pos
  have hal' : (2 : ℚ) ^ (F64.log2Fuel q.num.natAbs q.num.natAbs : ℤ) ≤ q.num.natAbs := by
    rw [zpow_natCast]; exact_mod_cast hal
  have hau' : (q.num.natAbs : ℚ) < 2 ^ ((F64.log2Fuel q.num.natAbs q.num.natAbs : ℤ) + 1) := by
    have : ((F64.log2Fuel q.num.natAbs q.num.natAbs : ℤ) + 1)
        = ((F64.log2Fuel q.num.natAbs q.num.natAbs + 1 : ℕ) : ℤ) := by push_cast; ring
    rw [this, zpow_natCast]; exact_mod_cast hau
  have hbl' : (2 : ℚ) ^ (F64.log2Fuel q.den q.den : ℤ) ≤ q.den := by
    rw [zpow_natCast]; exact_mod_cast hbl
  have hbu' : (q.den : ℚ) < 2 ^ ((F64.log2Fuel q.den q.den : ℤ) + 1) := by
    have : ((F64.log2Fuel q.den q.den : ℤ) + 1)
        = ((F64.log2Fuel q.den q.den + 1 : ℕ) : ℤ) := by push_cast; ring
    rw [this, zpow_natCast]; exact_mod_cast hbu
  have h2 : (0 : ℚ) < 2 := by norm_num
  unfold F64.ilog2
  dsimp only
  split_ifs with hc
  · refine ⟨hc, ?_⟩
    rw [habs, div_lt_iff₀ hbpos]
    calc (q.num.natAbs : ℚ)
        < 2 ^ ((F64.log2Fuel q.num.natAbs q.num.natAbs : ℤ) + 1) := hau'
      _ = 2 ^ ((F64.log2Fuel q.num.natAbs q.num.natAbs : ℤ)
            - (F64.log2Fuel q.den q.den : ℤ) + 1) * 2 ^ (F64.log2Fuel q.den q.den : ℤ) := by
          rw [← zpow_add₀ (by norm_num : (2 : ℚ) ≠ 0)]; congr 1; ring
      _ ≤ 2 ^ ((F64.log2Fuel q.num.natAbs q.num.natAbs : ℤ)
            - (F64.log2Fuel q.den q.den : ℤ) + 1) * q.den :=
          mul_le_mul_of_nonneg_left hbl' (zpow_pos h2 _).le
  · constructor
    · rw [habs, le_div_iff₀ hbpos]
      have hstep : (2 : ℚ) ^ ((F64.log2Fuel q.num.natAbs q.num.natAbs : ℤ)
            - (F64.log2Fuel q.den q.den : ℤ) - 1) * 2 ^ ((F64.log2Fuel q.den q.den : ℤ) + 1)
          = 2 ^ (F64.log2Fuel q.num.natAbs q.num.natAbs : ℤ) := by
        rw [← zpow_add₀ (by norm_num : (2 : ℚ) ≠ 0)]; congr 1; ring
      calc (2 : ℚ) ^ ((F64.log2Fuel q.num.natAbs q.num.natAbs : ℤ)
            - (F64.log2Fuel q.den q.den : ℤ) - 1) * q.den
          ≤ 2 ^ ((F64.log2Fuel q.num.natAbs q.num.natAbs : ℤ)
            - (F64.log2Fuel q.den q.den : ℤ) - 1) * 2 ^ ((F64.log2Fuel q.den q.den : ℤ) + 1) :=
            mul_le_mul_of_nonneg_left hbu'.le (zpow_pos h2 _).le
        _ = 2 ^ (F64.log2Fuel q.num.natAbs q.num.natAbs : ℤ) := hstep
        _ ≤ q.num.natAbs := hal'
    · have : (F64.log2Fuel q.num.natAbs q.num.natAbs : ℤ) - (F64.log2Fuel q.den q.den : ℤ) - 1 + 1
          = (F64.log2Fuel q.num.natAbs q.num.natAbs : ℤ) - (F64.log2Fuel q.den q.den : ℤ) := by
        ring
      rw [this]
      exact lt_of_not_ge hc

theorem F64.rne_spec (x : ℚ) : |(F64.rne x : ℚ) - x| ≤ 1 / 2 := by
  have h1 : (⌊x⌋ : ℚ) ≤ x := Int.floor_le x
  have h2 : x < ⌊x⌋ + 1 := Int.lt_floor_add_one x
  unfold F64.rne
  dsimp only
  split_ifs with a b c
  · rw [abs_le]; constructor <;> linarith
  · push_cast; rw [abs_le]; constructor <;> linarith
  · rw [abs_le]; constructor <;> linarith
  · push_cast; rw [abs_le]; constructor <;> linarith

theorem F64.round_spec (q r : ℚ) (h : F64.round q = .fin r) :
    (∃ n : ℤ, r = n * 2 ^ (max (F64.ilog2 q) F64.minExp - 52))
      ∧ |r - q| ≤ 2 ^ (max (F64.ilog2 q) F64.minExp - 52) / 2 := by
  have hu : (0 : ℚ) < 2 ^ (max (F64.ilog2 q) F64.minExp - 52) := zpow_pos (by norm_num) _
  unfold F64.round at h
  by_cases h0 : q = 0
  · simp only [h0, if_true, F64.fin.injEq] at h
    subst h0
    rw [← h]
    exact ⟨⟨0, by simp⟩, by simpa using (half_pos hu).le⟩
  · simp only [h0, if_false] at h
    split_ifs at h
    simp only [F64.fin.injEq] at h
    rw [← h]
    refine ⟨⟨_, rfl⟩, ?_⟩
    have hs := F64.rne_spec (q / 2 ^ (max (F64.ilog2 q) F64.minExp - 52))
    have e : (F64.rne (q / 2 ^ (max (F64.ilog2 q) F64.minExp - 52)) : ℚ)
          * 2 ^ (max (F64.ilog2 q) F64.minExp - 52) - q
        = ((F64.rne (q / 2 ^ (max (F64.ilog2 q) F64.minExp - 52)) : ℚ)
            - q / 2 ^ (max (F64.ilog2 q) F64.minExp - 52))
          * 2 ^ (max (F64.ilog2 q) F64.minExp - 52) := by
      field_simp
    rw [e, abs_mul, abs_of_pos hu]
    calc _ ≤ 1 / 2 * 2 ^ (max (F64.ilog2 q) F64.minExp - 52) :=
          mul_le_mul_of_nonneg_right hs hu.le
      _ = _ := by ring

theorem F64.rne_nonneg {x : ℚ} (hx : 0 ≤ x) : 0 ≤ F64.rne x := by
  have hf : 0 ≤ ⌊x⌋ := Int.floor_nonneg.2 hx
  unfold F64.rne
  simp only
  split_ifs <;> omega

theorem F64.round_nonneg {v q : ℚ} (hv : 0 ≤ v) (h : F64.round v = .fin q) : 0 ≤ q := by
  unfold F64.round at h
  by_cases h0 : v = 0
  · simp only [h0, if_true, F64.fin.injEq] at h
    exact h ▸ le_refl 0
  · simp only [h0, if_false] at h
    split_ifs at h
    simp only [F64.fin.injEq] at h
    rw [← h]
    have hu : (0 : ℚ) < 2 ^ (max (F64.ilog2 v) F64.minExp - 52) := zpow_pos (by norm_num) _
    have hr : 0 ≤ F64.rne (v / 2 ^ (max (F64.ilog2 v) F64.minExp - 52)) :=
      F64.rne_nonneg (div_nonneg hv hu.le)
    exact mul_nonneg (by exact_mod_cast hr) hu.le

theorem F64.round_ne_nan (q : ℚ) : F64.round q ≠ .nan := by
  unfold F64.round
  dsimp only
  split_ifs <;> simp

theorem F64.const_tenth : F64.const (1 / 10) = .fin (3602879701896397 / 2 ^ 55) := by
  decide!

theorem F64.const_twentieth : F64.const (5 / 100) = .fin (3602879701896397 / 2 ^ 56) := by
  decide!

theorem F64.const_neg_tenth : F64.const (-(1 / 10)) = .fin (-(3602879701896397 / 2 ^ 55)) := by
  decide!

theorem F64.const_neg_twentieth :
    F64.const (-(5 / 100)) = .fin (-(3602879701896397 / 2 ^ 56)) := by
  decide!

theorem F64.rne_intCast (m : ℤ) : F64.rne (m : ℚ) = m := by
  unfold F64.rne
  simp

theorem F64.log2Fuel_le (fuel a k : ℕ) (h : a < 2 ^ k) : F64.log2Fuel fuel a ≤ k := by
  induction fuel generalizing a k with
  | zero => simp [F64.log2Fuel]
  | succ f ih =>
    unfold F64.log2Fuel
    split_ifs with h2
    · omega
    · cases k with
      | zero => simp at h; omega
      | succ k =>
        have : a / 2 < 2 ^ k := by
          rw [Nat.div_lt_iff_lt_mul (by norm_num)]
          rw [pow_succ] at h
          exact h
        have := ih (a / 2) k this
        omega

theorem F64.ilog2_intCast_le (n : ℤ) (h : |n| < 2 ^ 53) : F64.ilog2 (n : ℚ) ≤ 52 := by
  unfold F64.ilog2
  have hden : F64.log2Fuel (n : ℚ).den (n : ℚ).den = 0 := by
    simp [F64.log2Fuel]
  have hnum : (n : ℚ).num.natAbs = n.natAbs := by simp
  have ha : n.natAbs < 2 ^ 53 := by
    have h1 : ((n.natAbs : ℕ) : ℤ) = |n| := Int.natCast_natAbs n
    have h2 : ((n.natAbs : ℕ) : ℤ) < 2 ^ 53 := by rw [h1]; exact h
    exact_mod_cast h2
  have he0 := F64.log2Fuel_le n.natAbs n.natAbs 53 ha
  simp only [hden, hnum, Nat.cast_zero, sub_zero]
  split_ifs with h2
  · by_contra hc
    push_neg at hc
    have h53 : (53 : ℤ) ≤ (F64.log2Fuel n.natAbs n.natAbs : ℤ) := by omega
    have h3 : (2 : ℚ) ^ (53 : ℤ) ≤ 2 ^ (F64.log2Fuel n.natAbs n.natAbs : ℤ) :=
      zpow_le_zpow_right₀ (by norm_num) h53
    have h4 : |(n : ℚ)| < 2 ^ (53 : ℤ) := by
      rw [← Int.cast_abs]
      exact_mod_cast h
    linarith
  · omega

theorem F64.round_intCast (n : ℤ) (h : |n| < 2 ^ 53) : F64.round (n : ℚ) = .fin n := by
  unfold F64.round
  by_cases h0 : (n : ℚ) = 0
  · simp [h0]
  · simp only [h0, if_false]
    have he : max (F64.ilog2 (n : ℚ)) F64.minExp ≤ 52 :=
      max_le (F64.ilog2_intCast_le n h) (by decide)
    obtain ⟨k, hk⟩ : ∃ k : ℕ, max (F64.ilog2 (n : ℚ)) F64.minExp - 52 = -(k : ℤ) :=
      ⟨(52 - max (F64.ilog2 (n : ℚ)) F64.minExp).toNat, by omega⟩
    rw [hk]
    have hq : (n : ℚ) / 2 ^ (-(k : ℤ)) = ((n * 2 ^ k : ℤ) : ℚ) := by
      rw [zpow_neg, zpow_natCast]
      push_cast
      field_simp
    rw [hq, F64.rne_intCast]
    have hr : ((n * 2 ^ k : ℤ) : ℚ) * 2 ^ (-(k : ℤ)) = n := by
      rw [zpow_neg, zpow_natCast]
      push_cast
      field_simp
    rw [hr]
    have hlt : ¬ (2 : ℚ) ^ 1024 ≤ |(n : ℚ)| := by
      have h4 : |(n : ℚ)| < 2 ^ 53 := by
        rw [← Int.cast_abs]
        exact_mod_cast h
      have : (2 : ℚ) ^ 53 ≤ 2 ^ 1024 := by norm_num
      linarith
    simp [hlt]

theorem F64.add_intCast (a b : ℤ) (h : |a + b| < 2 ^ 53) :
    F64.add (.fin a) (.fin b) = .fin ((a + b : ℤ) : ℚ) := by
  rw [← F64.round_intCast (a + b) h]
  simp [F64.add]

theorem F64.sub_intCast (a b : ℤ) (h : |a - b| < 2 ^ 53) :
    F64.sub (.fin a) (.fin b) = .fin ((a - b : ℤ) : ℚ) := by
  rw [← F64.round_intCast (a - b) h]
  simp [F64.sub]

theorem F64.rne_mono {x y : ℚ} (h : x ≤ y) : F64.rne x ≤ F64.rne y := by
  have hx1 : (⌊x⌋ : ℚ) ≤ x := Int.floor_le x
  have hx2 : x < ⌊x⌋ + 1 := Int.lt_floor_add_one x
  have hy1 : (⌊y⌋ : ℚ) ≤ y := Int.floor_le y
  have hy2 : y < ⌊y⌋ + 1 := Int.lt_floor_add_one y
  have hf : ⌊x⌋ ≤ ⌊y⌋ := Int.floor_mono h
  rcases lt_or_eq_of_le hf with hlt | heq
  · unfold F64.rne
    dsimp only
    split_ifs <;> omega
  · unfold F64.rne
    dsimp only
    rw [heq] at hx1 hx2 ⊢
    split_ifs <;> first | omega | (exfalso; linarith)

theorem F64.rne_neg (x : ℚ) : F64.rne (-x) = -F64.rne x := by
  have hx1 : (⌊x⌋ : ℚ) ≤ x := Int.floor_le x
  have hx2 : x < ⌊x⌋ + 1 := Int.lt_floor_add_one x
  by_cases hint : (⌊x⌋ : ℚ) = x
  · rw [← hint, ← Int.cast_neg, F64.rne_intCast, F64.rne_intCast]
  · have hlt : (⌊x⌋ : ℚ) < x := lt_of_le_of_ne hx1 hint
    have hfl : ⌊-x⌋ = -⌊x⌋ - 1 := by
      rw [Int.floor_eq_iff]
      push_cast
      constructor <;> linarith
    unfold F64.rne
    dsimp only
    rw [hfl]
    push_cast
    split_ifs <;> first | omega | (exfalso; linarith)

theorem F64.rne_le_intCast {x : ℚ} {K : ℤ} (h : x ≤ K) : F64.rne x ≤ K := by
  have := F64.rne_mono h
  rwa [F64.rne_intCast] at this

theorem F64.intCast_le_rne {x : ℚ} {K : ℤ} (h : (K : ℚ) ≤ x) : K ≤ F64.rne x := by
  have := F64.rne_mono h
  rwa [F64.rne_intCast] at this

theorem F64.rne_gt_even {x : ℚ} {K : ℤ} (hK : K % 2 = 0) :
    K < F64.rne x ↔ (K : ℚ) + 1 / 2 < x := by
  constructor
  · intro h
    by_contra hc
    push_neg at hc
    by_cases hxK : x ≤ K
    · have := F64.rne_le_intCast hxK
      omega
    · push_neg at hxK
      have hfl : ⌊x⌋ = K := by
        rw [Int.floor_eq_iff]
        constructor <;> linarith
      unfold F64.rne at h
      dsimp only at h
      rw [hfl] at h
      split_ifs at h <;> first | omega | linarith
  · intro h
    by_cases hxK : (K : ℚ) + 1 ≤ x
    · have : ((K + 1 : ℤ) : ℚ) ≤ x := by push_cast; exact hxK
      have := F64.intCast_le_rne this
      omega
    · push_neg at hxK
      have hfl : ⌊x⌋ = K := by
        rw [Int.floor_eq_iff]
        constructor <;> linarith
      unfold F64.rne
      dsimp only
      rw [hfl]
      split_ifs <;> first | omega | (exfalso; linarith)

theorem F64.ulp_pos (q : ℚ) : 0 < F64.ulp q := zpow_pos (by norm_num) _

theorem F64.round_eq (q : ℚ) (hq : q ≠ 0) :
    F64.round q
      = if (2 : ℚ) ^ (1024 : ℕ) ≤ |(F64.rne (q / F64.ulp q) : ℚ) * F64.ulp q| then
          .inf (decide (q < 0))
        else .fin ((F64.rne (q / F64.ulp q) : ℚ) * F64.ulp q) := by
  unfold F64.round F64.ulp
  simp only [hq, if_false]

theorem two_zpow_add (a b : ℤ) : (2 : ℚ) ^ (a + b) = 2 ^ a * 2 ^ b :=
  zpow_add₀ (by norm_num) a b

theorem two_zpow_le {a b : ℤ} (h : a ≤ b) : (2 : ℚ) ^ a ≤ 2 ^ b :=
  zpow_le_zpow_right₀ (by norm_num) h

theorem F64.ulp_of_normal {q : ℚ} (h : F64.minExp ≤ F64.ilog2 q) :
    F64.ulp q = 2 ^ (F64.ilog2 q - 52) := by
  unfold F64.ulp
  rw [max_eq_left h]

theorem F64.ulp_of_subnormal {q : ℚ} (h : F64.ilog2 q ≤ F64.minExp) :
    F64.ulp q = 2 ^ (-1074 : ℤ) := by
  unfold F64.ulp
  rw [max_eq_right h]
  rfl

/-- For positive `q` the scaled value `q / ulp q` lies below `2 ^ 53`. -/
theorem F64.div_ulp_lt {q : ℚ} (hq : 0 < q) : q / F64.ulp q < 2 ^ (53 : ℕ) := by
  have hs := (F64.ilog2_spec q hq.ne').2
  rw [abs_of_pos hq] at hs
  rw [div_lt_iff₀ (F64.ulp_pos q)]
  rcases le_total F64.minExp (F64.ilog2 q) with h | h
  · rw [F64.ulp_of_normal h]
    have e : (2 : ℚ) ^ (53 : ℕ) * 2 ^ (F64.ilog2 q - 52) = 2 ^ (F64.ilog2 q + 1) := by
      rw [← zpow_natCast, ← two_zpow_add]; congr 1; push_cast; ring
    rw [e]; exact hs
  · rw [F64.ulp_of_subnormal h]
    have h1 : (2 : ℚ) ^ (F64.ilog2 q + 1) ≤ 2 ^ (F64.minExp + 1) := two_zpow_le (by omega)
    have e : (2 : ℚ) ^ (53 : ℕ) * 2 ^ (-1074 : ℤ) = 2 ^ (F64.minExp + 1) := by
      rw [← zpow_natCast, ← two_zpow_add]; congr 1
    rw [e]; exact lt_of_lt_of_le hs h1

/-- For positive normal `q` the scaled value `q / ulp q` is at least `2 ^ 52`. -/
theorem F64.le_div_ulp {q : ℚ} (hq : 0 < q) (h : F64.minExp ≤ F64.ilog2 q) :
    (2 : ℚ) ^ (52 : ℕ) ≤ q / F64.ulp q := by
  have hs := (F64.ilog2_spec q hq.ne').1
  rw [abs_of_pos hq] at hs
  rw [le_div_iff₀ (F64.ulp_pos q), F64.ulp_of_normal h]
  have e : (2 : ℚ) ^ (52 : ℕ) * 2 ^ (F64.ilog2 q - 52) = 2 ^ (F64.ilog2 q) := by
    rw [← zpow_natCast, ← two_zpow_add]; congr 1; push_cast; ring
  rw [e]; exact hs

theorem F64.rne_div_ulp_le {q : ℚ} (hq : 0 < q) : F64.rne (q / F64.ulp q) ≤ 2 ^ 53 := by
  have h := (F64.div_ulp_lt hq).le
  have : q / F64.ulp q ≤ ((2 ^ 53 : ℤ) : ℚ) := by push_cast; exact h
  exact F64.rne_le_intCast this

theorem F64.le_rne_div_ulp {q : ℚ} (hq : 0 < q) (h : F64.minExp ≤ F64.ilog2 q) :
    2 ^ 52 ≤ F64.rne (q / F64.ulp q) := by
  have h := F64.le_div_ulp hq h
  have : ((2 ^ 52 : ℤ) : ℚ) ≤ q / F64.ulp q := by push_cast; exact h
  exact F64.intCast_le_rne this

theorem F64.round_nonpos_cases {q : ℚ} (hq : q ≤ 0) :
    (∃ r, F64.round q = .fin r ∧ r ≤ 0) ∨ F64.round q = .inf true := by
  by_cases h0 : q = 0
  · left; exact ⟨0, by simp [F64.round, h0], le_refl 0⟩
  · have hneg : q < 0 := lt_of_le_of_ne hq h0
    rw [F64.round_eq q h0]
    split_ifs with hov
    · right; simp [hneg]
    · left
      refine ⟨_, rfl, ?_⟩
      have h1 : q / F64.ulp q ≤ ((0 : ℤ) : ℚ) := by
        push_cast
        exact div_nonpos_of_nonpos_of_nonneg hq (F64.ulp_pos q).le
      have h2 := F64.rne_le_intCast h1
      have h3 : (F64.rne (q / F64.ulp q) : ℚ) ≤ 0 := by exact_mod_cast h2
      exact mul_nonpos_of_nonpos_of_nonneg h3 (F64.ulp_pos q).le

/-- Rounding against a representable threshold `K * 2 ^ (e - 52)` with an even
significand `K` in the binade `e`: the rounded value exceeds the threshold exactly
when the exact value exceeds the midpoint above it. -/
theorem F64.gt_round_iff (q : ℚ) (K e : ℤ) (hK : K % 2 = 0) (hK1 : 2 ^ 52 ≤ K)
    (hK2 : K < 2 ^ 53) (he1 : F64.minExp < e) (he2 : e ≤ 1022) :
    F64.gt (F64.round q) (.fin (K * 2 ^ (e - 52))) = true
      ↔ ((K : ℚ) + 1 / 2) * 2 ^ (e - 52) < q := by
  have hu : (0 : ℚ) < 2 ^ (e - 52) := zpow_pos (by norm_num) _
  have hK1q : (2 : ℚ) ^ (52 : ℕ) ≤ K := by exact_mod_cast hK1
  have hK2q : (K : ℚ) + 1 ≤ 2 ^ (53 : ℕ) := by
    have : K + 1 ≤ 2 ^ 53 := by omega
    exact_mod_cast this
  have hklo : (2 : ℚ) ^ e ≤ K * 2 ^ (e - 52) := by
    have e1 : (2 : ℚ) ^ e = 2 ^ (52 : ℕ) * 2 ^ (e - 52) := by
      rw [← zpow_natCast, ← two_zpow_add]; congr 1; push_cast; ring
    rw [e1]
    exact mul_le_mul_of_nonneg_right hK1q hu.le
  have hkhi : ((K : ℚ) + 1) * 2 ^ (e - 52) ≤ 2 ^ (e + 1) := by
    have e1 : (2 : ℚ) ^ (e + 1) = 2 ^ (53 : ℕ) * 2 ^ (e - 52) := by
      rw [← zpow_natCast, ← two_zpow_add]; congr 1; push_cast; ring
    rw [e1]
    exact mul_le_mul_of_nonneg_right hK2q hu.le
  have hmid : ((K : ℚ) + 1 / 2) * 2 ^ (e - 52) < ((K : ℚ) + 1) * 2 ^ (e - 52) :=
    mul_lt_mul_of_pos_right (by linarith) hu
  have hmid2 : (K : ℚ) * 2 ^ (e - 52) < ((K : ℚ) + 1 / 2) * 2 ^ (e - 52) :=
    mul_lt_mul_of_pos_right (by linarith) hu
  rcases le_or_lt q 0 with hq | hq
  · have hpos : (0 : ℚ) < ((K : ℚ) + 1 / 2) * 2 ^ (e - 52) := by
      have : (0 : ℚ) < 2 ^ (52 : ℕ) := by positivity
      exact mul_pos (by linarith) hu
    have hkpos : (0 : ℚ) < (K : ℚ) * 2 ^ (e - 52) := by
      have : (0 : ℚ) < 2 ^ (52 : ℕ) := by positivity
      exact mul_pos (by linarith) hu
    constructor
    · intro h
      exfalso
      rcases F64.round_nonpos_cases hq with ⟨r, hr, hr0⟩ | hr
      · rw [hr] at h
        simp only [F64.gt, F64.lt, decide_eq_true_eq] at h
        linarith
      · rw [hr] at h
        simp [F64.gt, F64.lt] at h
    · intro h
      exfalso
      linarith
  · have hs := F64.ilog2_spec q hq.ne'
    rw [abs_of_pos hq] at hs
    have hup := F64.ulp_pos q
    have hn53 := F64.rne_div_ulp_le hq
    have hn53q : (F64.rne (q / F64.ulp q) : ℚ) ≤ 2 ^ (53 : ℕ) := by exact_mod_cast hn53
    have hn0 : (0 : ℚ) ≤ (F64.rne (q / F64.ulp q) : ℚ) := by
      exact_mod_cast F64.rne_nonneg (div_nonneg hq.le hup.le)
    have hr0 : (0 : ℚ) ≤ (F64.rne (q / F64.ulp q) : ℚ) * F64.ulp q := mul_nonneg hn0 hup.le
    rw [F64.round_eq q hq.ne', abs_of_nonneg hr0]
    rcases lt_trichotomy (F64.ilog2 q) e with hE | hE | hE
    · -- the binade of `q` lies below the binade of the threshold
      have hE' : max (F64.ilog2 q) F64.minExp + 1 ≤ e := by
        rcases le_total F64.minExp (F64.ilog2 q) with h | h
        · rw [max_eq_left h]; omega
        · rw [max_eq_right h]; omega
      have hr : (F64.rne (q / F64.ulp q) : ℚ) * F64.ulp q ≤ 2 ^ e := by
        have e1 : (2 : ℚ) ^ (53 : ℕ) * F64.ulp q
            = 2 ^ (max (F64.ilog2 q) F64.minExp + 1) := by
          unfold F64.ulp
          rw [← zpow_natCast, ← two_zpow_add]; congr 1; push_cast; ring
        calc (F64.rne (q / F64.ulp q) : ℚ) * F64.ulp q
            ≤ 2 ^ (53 : ℕ) * F64.ulp q := mul_le_mul_of_nonneg_right hn53q hup.le
          _ = 2 ^ (max (F64.ilog2 q) F64.minExp + 1) := e1
          _ ≤ 2 ^ e := two_zpow_le hE'
      have hnov : ¬ (2 : ℚ) ^ (1024 : ℕ) ≤ (F64.rne (q / F64.ulp q) : ℚ) * F64.ulp q := by
        have h1 : (2 : ℚ) ^ e ≤ 2 ^ (1022 : ℤ) := two_zpow_le he2
        have h2 : (2 : ℚ) ^ (1022 : ℤ) < 2 ^ (1024 : ℕ) := by
          rw [← zpow_natCast]; exact zpow_lt_zpow_right₀ (by norm_num) (by norm_num)
        intro h; linarith
      rw [if_neg hnov]
      simp only [F64.gt, F64.lt, decide_eq_true_eq]
      have hq2 : q < 2 ^ e := lt_of_lt_of_le hs.2 (two_zpow_le (by omega))
      constructor
      · intro h; exfalso; linarith
      · intro h; exfalso; linarith
    · -- the same binade
      have hulp : F64.ulp q = 2 ^ (e - 52) := by
        rw [F64.ulp_of_normal (by omega), hE]
      have hr : (F64.rne (q / F64.ulp q) : ℚ) * F64.ulp q ≤ 2 ^ (e + 1) := by
        have e1 : (2 : ℚ) ^ (53 : ℕ) * F64.ulp q = 2 ^ (e + 1) := by
          rw [hulp, ← zpow_natCast, ← two_zpow_add]; congr 1; push_cast; ring
        rw [← e1]
        exact mul_le_mul_of_nonneg_right hn53q hup.le
      have hnov : ¬ (2 : ℚ) ^ (1024 : ℕ) ≤ (F64.rne (q / F64.ulp q) : ℚ) * F64.ulp q := by
        have h1 : (2 : ℚ) ^ (e + 1) ≤ 2 ^ (1023 : ℤ) := two_zpow_le (by omega)
        have h2 : (2 : ℚ) ^ (1023 : ℤ) < 2 ^ (1024 : ℕ) := by
          rw [← zpow_natCast]; exact zpow_lt_zpow_right₀ (by norm_num) (by norm_num)
        intro h; linarith
      rw [if_neg hnov]
      simp only [F64.gt, F64.lt, decide_eq_true_eq]
      rw [hulp, mul_lt_mul_right hu]
      have hcast : (K : ℚ) < (F64.rne (q / 2 ^ (e - 52)) : ℚ) ↔ K < F64.rne (q / 2 ^ (e - 52)) :=
        Int.cast_lt
      rw [hcast, F64.rne_gt_even hK, lt_div_iff₀ hu]
    · -- the binade of `q` lies above the binade of the threshold
      have hnorm : F64.minExp ≤ F64.ilog2 q := by omega
      have hn52 := F64.le_rne_div_ulp hq hnorm
      have hn52q : (2 : ℚ) ^ (52 : ℕ) ≤ (F64.rne (q / F64.ulp q) : ℚ) := by exact_mod_cast hn52
      have hr : (2 : ℚ) ^ (e + 1) ≤ (F64.rne (q / F64.ulp q) : ℚ) * F64.ulp q := by
        have e1 : (2 : ℚ) ^ (52 : ℕ) * F64.ulp q = 2 ^ (F64.ilog2 q) := by
          rw [F64.ulp_of_normal hnorm, ← zpow_natCast, ← two_zpow_add]; congr 1; push_cast; ring
        calc (2 : ℚ) ^ (e + 1) ≤ 2 ^ (F64.ilog2 q) := two_zpow_le (by omega)
          _ = 2 ^ (52 : ℕ) * F64.ulp q := e1.symm
          _ ≤ _ := mul_le_mul_of_nonneg_right hn52q hup.le
      have hq2 : (2 : ℚ) ^ (e + 1) ≤ q := le_trans (two_zpow_le (by omega)) hs.1
      have hrhs : ((K : ℚ) + 1 / 2) * 2 ^ (e - 52) < q := by linarith
      simp only [hrhs, iff_true]
      split_ifs with hov
      · simp [F64.gt, F64.lt, hq.le, not_lt.2 hq.le]
      · simp only [F64.gt, F64.lt, decide_eq_true_eq]
        linarith

theorem F64.ilog2_neg (q : ℚ) : F64.ilog2 (-q) = F64.ilog2 q := by
  unfold F64.ilog2
  simp only [Rat.neg_num, Int.natAbs_neg, Rat.neg_den, abs_neg]

theorem F64.ulp_neg (q : ℚ) : F64.ulp (-q) = F64.ulp q := by
  unfold F64.ulp
  rw [F64.ilog2_neg]

theorem F64.round_neg (q : ℚ) : F64.round (-q) = F64.neg (F64.round q) := by
  by_cases h0 : q = 0
  · subst h0
    simp [F64.round, F64.neg]
  · have h0' : -q ≠ 0 := neg_ne_zero.2 h0
    rw [F64.round_eq _ h0', F64.round_eq _ h0, F64.ulp_neg, neg_div, F64.rne_neg]
    push_cast
    rw [neg_mul, abs_neg]
    split_ifs with hov
    · simp only [F64.neg, F64.inf.injEq]
      rcases lt_or_gt_of_ne h0 with h | h
      · simp [h, h.le, not_lt.2 h.le]
      · simp [h, h.le, not_lt.2 h.le]
    · simp [F64.neg]

theorem F64.lt_neg_fin (x : F64) (k : ℚ) :
    F64.lt (F64.neg x) (.fin (-k)) = F64.gt x (.fin k) := by
  cases x with
  | fin r => simp [F64.neg, F64.lt, F64.gt]
  | inf s => cases s <;> simp [F64.neg, F64.lt, F64.gt]
  | nan => simp [F64.neg, F64.lt, F64.gt]

/-- The mirror image of `F64.gt_round_iff` for a negative threshold. -/
theorem F64.lt_round_iff (q : ℚ) (K e : ℤ) (hK : K % 2 = 0) (hK1 : 2 ^ 52 ≤ K)
    (hK2 : K < 2 ^ 53) (he1 : F64.minExp < e) (he2 : e ≤ 1022) :
    F64.lt (F64.round q) (.fin (-(K * 2 ^ (e - 52)))) = true
      ↔ q < -(((K : ℚ) + 1 / 2) * 2 ^ (e - 52)) := by
  have h := F64.gt_round_iff (-q) K e hK hK1 hK2 he1 he2
  have hr : F64.round q = F64.neg (F64.round (-q)) := by
    rw [← F64.round_neg, neg_neg]
  rw [hr, F64.lt_neg_fin, h]
  constructor <;> intro h' <;> linarith

theorem F64.Representable.strict {r : ℚ} (h : F64.Representable r) :
    ∃ n e : ℤ, r = n * 2 ^ e ∧ -1074 ≤ e ∧ |n| < 2 ^ 53 := by
  obtain ⟨n, e, hr, he, hn⟩ := h
  rcases lt_or_eq_of_le hn with hlt | heq
  · exact ⟨n, e, hr, he, hlt⟩
  · refine ⟨n / 2, e + 1, ?_, by omega, ?_⟩
    · have hn2 : n = 2 * (n / 2) := by
        rcases abs_eq (by norm_num : (0 : ℤ) ≤ 2 ^ 53) |>.1 heq with h | h <;> rw [h] <;> norm_num
      rw [hr, two_zpow_add]
      conv_lhs => rw [hn2]
      push_cast
      ring
    · rcases abs_eq (by norm_num : (0 : ℤ) ≤ 2 ^ 53) |>.1 heq with h | h <;> rw [h] <;> norm_num

theorem F64.abs_rne_div_ulp_le (q : ℚ) : |F64.rne (q / F64.ulp q)| ≤ 2 ^ 53 := by
  rcases lt_trichotomy q 0 with h | h | h
  · have hpos : 0 < -q := neg_pos.2 h
    have h1 := F64.rne_div_ulp_le hpos
    have h2 := F64.rne_nonneg (div_nonneg hpos.le (F64.ulp_pos (-q)).le)
    rw [F64.ulp_neg, neg_div, F64.rne_neg] at h1 h2
    rw [abs_le]
    constructor <;> omega
  · subst h
    simp [F64.rne]
  · have h1 := F64.rne_div_ulp_le h
    have h2 := F64.rne_nonneg (div_nonneg h.le (F64.ulp_pos q).le)
    rw [abs_le]
    constructor <;> omega

/-- Every finite result of `F64.round` is a `float64` number in range. -/
theorem F64.round_representable {x r : ℚ} (h : F64.round x = .fin r) :
    F64.Representable r ∧ |r| < 2 ^ (1024 : ℕ) := by
  by_cases h0 : x = 0
  · subst h0
    have : r = 0 := by
      have h' : F64.round 0 = .fin 0 := by simp [F64.round]
      rw [h'] at h
      exact (F64.fin.inj h).symm
    subst this
    exact ⟨⟨0, 0, by simp, by norm_num, by norm_num⟩, by positivity⟩
  · rw [F64.round_eq x h0] at h
    split_ifs at h with hov
    have hr := F64.fin.inj h
    refine ⟨⟨F64.rne (x / F64.ulp x), max (F64.ilog2 x) F64.minExp - 52, ?_, ?_,
      F64.abs_rne_div_ulp_le x⟩, ?_⟩
    · rw [← hr]; rfl
    · have h1 : (-1022 : ℤ) ≤ max (F64.ilog2 x) F64.minExp := le_max_right _ _
      omega
    · rw [← hr]; exact lt_of_not_ge hov

/-- A `float64` number in range is rounded to itself. -/
theorem F64.round_of_representable {r : ℚ} (h : F64.Representable r)
    (hlt : |r| < 2 ^ (1024 : ℕ)) : F64.round r = .fin r := by
  by_cases h0 : r = 0
  · subst h0; simp [F64.round]
  · obtain ⟨n, e, hr, he, hn⟩ := h.strict
    have hs := (F64.ilog2_spec r h0).1
    have hnq : |(n : ℚ)| < 2 ^ (53 : ℕ) := by
      rw [← Int.cast_abs]; exact_mod_cast hn
    have he2 : (0 : ℚ) < 2 ^ e := zpow_pos (by norm_num) _
    have h53 : (2 : ℚ) ^ (e + 53) = 2 ^ (53 : ℕ) * 2 ^ e := by
      rw [add_comm, two_zpow_add]; norm_num
    have habs : |r| < 2 ^ (e + 53) := by
      rw [h53, hr, abs_mul, abs_of_pos he2]
      exact mul_lt_mul_of_pos_right hnq he2
    have hE : F64.ilog2 r < e + 53 := by
      by_contra hc
      push_neg at hc
      have := two_zpow_le hc
      linarith
    have hE' : max (F64.ilog2 r) F64.minExp - 52 ≤ e := by
      have h1 : F64.minExp - 52 ≤ e := by
        show (-1022 : ℤ) - 52 ≤ e
        omega
      rcases le_total F64.minExp (F64.ilog2 r) with h | h
      · rw [max_eq_left h]; omega
      · rw [max_eq_right h]; exact h1
    obtain ⟨k, hk⟩ : ∃ k : ℕ, e = max (F64.ilog2 r) F64.minExp - 52 + k :=
      ⟨(e - (max (F64.ilog2 r) F64.minExp - 52)).toNat, by omega⟩
    have hdiv : r / F64.ulp r = ((n * 2 ^ k : ℤ) : ℚ) := by
      rw [div_eq_iff (F64.ulp_pos r).ne']
      unfold F64.ulp
      conv_lhs => rw [hr, hk, two_zpow_add, zpow_natCast]
      push_cast
      ring
    rw [F64.round_eq r h0, hdiv, F64.rne_intCast]
    have hback : ((n * 2 ^ k : ℤ) : ℚ) * F64.ulp r = r := by
      rw [← hdiv]
      exact div_mul_cancel₀ r (F64.ulp_pos r).ne'
    rw [hback, if_neg (not_le.2 hlt)]

/-- Sterbenz's lemma: the difference of two positive `float64` numbers within a factor
of two of each other is a `float64` number. -/
theorem F64.Representable.sub {f t : ℚ} (hf : F64.Representable f) (ht : F64.Representable t)
    (hf0 : 0 < f) (ht0 : 0 < t) (h1 : f ≤ 2 * t) (h2 : t ≤ 2 * f) :
    F64.Representable (t - f) := by
  obtain ⟨a, e1, hfa, he1, ha⟩ := hf
  obtain ⟨b, e2, htb, he2, hb⟩ := ht
  have hp1 : (0 : ℚ) < 2 ^ e1 := zpow_pos (by norm_num) _
  have hp2 : (0 : ℚ) < 2 ^ e2 := zpow_pos (by norm_num) _
  have ha0 : 0 < a := by
    have : (0 : ℚ) < a := by
      by_contra hc; push_neg at hc
      have := mul_nonpos_of_nonpos_of_nonneg hc hp1.le
      linarith
    exact_mod_cast this
  have hb0 : 0 < b := by
    have : (0 : ℚ) < b := by
      by_contra hc; push_neg at hc
      have := mul_nonpos_of_nonpos_of_nonneg hc hp2.le
      linarith
    exact_mod_cast this
  rcases le_total e1 e2 with hle | hle
  · obtain ⟨k, hk⟩ : ∃ k : ℕ, e2 = e1 + k := ⟨(e2 - e1).toNat, by omega⟩
    have hx : t - f = ((b * 2 ^ k - a : ℤ) : ℚ) * 2 ^ e1 := by
      rw [htb, hfa, hk, two_zpow_add, zpow_natCast]; push_cast; ring
    refine ⟨b * 2 ^ k - a, e1, hx, he1, ?_⟩
    have hbound : |((b * 2 ^ k - a : ℤ) : ℚ)| ≤ (a : ℚ) := by
      have h3 : |t - f| ≤ f := by rw [abs_le]; constructor <;> linarith
      rw [hx, abs_mul, abs_of_pos hp1, hfa] at h3
      exact le_of_mul_le_mul_right h3 hp1
    have hbz : |b * 2 ^ k - a| ≤ a := by
      rw [← Int.cast_abs] at hbound; exact_mod_cast hbound
    have : a ≤ 2 ^ 53 := le_trans (le_abs_self a) ha
    omega
  · obtain ⟨k, hk⟩ : ∃ k : ℕ, e1 = e2 + k := ⟨(e1 - e2).toNat, by omega⟩
    have hx : t - f = ((b - a * 2 ^ k : ℤ) : ℚ) * 2 ^ e2 := by
      rw [htb, hfa, hk, two_zpow_add, zpow_natCast]; push_cast; ring
    refine ⟨b - a * 2 ^ k, e2, hx, he2, ?_⟩
    have hbound : |((b - a * 2 ^ k : ℤ) : ℚ)| ≤ (b : ℚ) := by
      have h3 : |t - f| ≤ t := by rw [abs_le]; constructor <;> linarith
      rw [hx, abs_mul, abs_of_pos hp2, htb] at h3
      exact le_of_mul_le_mul_right h3 hp2
    have hbz : |b - a * 2 ^ k| ≤ b := by
      rw [← Int.cast_abs] at hbound; exact_mod_cast hbound
    have : b ≤ 2 ^ 53 := le_trans (le_abs_self b) hb
    omega

theorem F64.round_zero : F64.round 0 = .fin 0 := by simp [F64.round]

/-- The difference of two `float64` numbers is rounded with a relative error of at most
`2 ^ (-53)`, also in the subnormal range, where it is exact. -/
theorem F64.round_sub_error {f t d : ℚ} (hf : F64.Representable f) (ht : F64.Representable t)
    (h : F64.round (t - f) = .fin d) : |d - (t - f)| ≤ |t - f| / 2 ^ (53 : ℕ) := by
  by_cases h0 : t - f = 0
  · rw [h0, F64.round_zero] at h
    rw [h0, ← F64.fin.inj h]
    simp
  · have hs := F64.ilog2_spec (t - f) h0
    rcases le_or_lt F64.minExp (F64.ilog2 (t - f)) with hE | hE
    · have hsp := (F64.round_spec (t - f) d h).2
      rw [max_eq_left hE] at hsp
      have e1 : (2 : ℚ) ^ (F64.ilog2 (t - f) - 52) / 2 = 2 ^ F64.ilog2 (t - f) / 2 ^ (53 : ℕ) := by
        rw [sub_eq_add_neg, two_zpow_add]
        norm_num
        ring
      rw [e1] at hsp
      exact le_trans hsp (div_le_div_of_nonneg_right hs.1 (by positivity))
    · obtain ⟨a, e1, hfa, he1, ha⟩ := hf
      obtain ⟨b, e2, htb, he2, hb⟩ := ht
      obtain ⟨k1, hk1⟩ : ∃ k : ℕ, e1 = -1074 + k := ⟨(e1 + 1074).toNat, by omega⟩
      obtain ⟨k2, hk2⟩ : ∃ k : ℕ, e2 = -1074 + k := ⟨(e2 + 1074).toNat, by omega⟩
      have hx : t - f = ((b * 2 ^ k2 - a * 2 ^ k1 : ℤ) : ℚ) * 2 ^ (-1074 : ℤ) := by
        rw [htb, hfa, hk1, hk2, two_zpow_add, two_zpow_add, zpow_natCast, zpow_natCast]
        push_cast
        ring
      have hp : (0 : ℚ) < 2 ^ (-1074 : ℤ) := zpow_pos (by norm_num) _
      have hlt : |t - f| < 2 ^ (52 : ℕ) * 2 ^ (-1074 : ℤ) := by
        have h1 : (2 : ℚ) ^ (F64.ilog2 (t - f) + 1) ≤ 2 ^ (F64.minExp) := two_zpow_le (by omega)
        have e2 : (2 : ℚ) ^ (52 : ℕ) * 2 ^ (-1074 : ℤ) = 2 ^ F64.minExp := by
          rw [← zpow_natCast, ← two_zpow_add]; congr 1
        rw [e2]
        exact lt_of_lt_of_le hs.2 h1
      have hm : |((b * 2 ^ k2 - a * 2 ^ k1 : ℤ) : ℚ)| < 2 ^ (52 : ℕ) := by
        rw [hx, abs_mul, abs_of_pos hp] at hlt
        exact lt_of_mul_lt_mul_right hlt hp.le
      have hmz : |b * 2 ^ k2 - a * 2 ^ k1| ≤ 2 ^ 53 := by
        rw [← Int.cast_abs] at hm
        have : |b * 2 ^ k2 - a * 2 ^ k1| < 2 ^ 52 := by exact_mod_cast hm
        omega
      have hrep : F64.Representable (t - f) := ⟨_, _, hx, le_refl _, hmz⟩
      have hrange : |t - f| < 2 ^ (1024 : ℕ) := by
        have : (2 : ℚ) ^ (52 : ℕ) * 2 ^ (-1074 : ℤ) < 2 ^ (1024 : ℕ) := by
          rw [← zpow_natCast, ← two_zpow_add, ← zpow_natCast]
          exact zpow_lt_zpow_right₀ (by norm_num) (by norm_num)
        linarith
      rw [F64.round_of_representable hrep hrange] at h
      rw [← F64.fin.inj h]
      simp only [sub_self, abs_zero]
      exact div_nonneg (abs_nonneg _) (pow_pos (by norm_num) _).le

theorem F64.round_pos_cases {f t : ℚ} (hf : F64.Representable f) (ht : F64.Representable t)
    (hx : 0 < t - f) :
    F64.round (t - f) = .inf false
      ∨ ∃ d, F64.round (t - f) = .fin d ∧ (t - f) * (1 - 1 / 2 ^ (53 : ℕ)) ≤ d := by
  cases hr : F64.round (t - f) with
  | fin d =>
    right
    refine ⟨d, rfl, ?_⟩
    have h := F64.round_sub_error hf ht hr
    rw [abs_of_pos hx, abs_le] at h
    have h1 := h.1
    have e : (t - f) * (1 - 1 / 2 ^ (53 : ℕ)) = (t - f) - (t - f) / 2 ^ (53 : ℕ) := by ring
    rw [e]
    linarith
  | inf s =>
    left
    rw [F64.round_eq _ hx.ne'] at hr
    split_ifs at hr
    rw [← hr]
    simp [not_lt.2 hx.le]
  | nan => exact absurd hr (F64.round_ne_nan _)

theorem F64.round_neg_cases {f t : ℚ} (hf : F64.Representable f) (ht : F64.Representable t)
    (hx : t - f < 0) :
    F64.round (t - f) = .inf true
      ∨ ∃ d, F64.round (t - f) = .fin d ∧ d ≤ (t - f) * (1 - 1 / 2 ^ (53 : ℕ)) := by
  cases hr : F64.round (t - f) with
  | fin d =>
    right
    refine ⟨d, rfl, ?_⟩
    have h := F64.round_sub_error hf ht hr
    rw [abs_of_neg hx, abs_le] at h
    have h1 := h.2
    have e : (t - f) * (1 - 1 / 2 ^ (53 : ℕ)) = (t - f) - (t - f) / 2 ^ (53 : ℕ) := by ring
    rw [e]
    have e2 : -(t - f) / 2 ^ (53 : ℕ) = -((t - f) / 2 ^ (53 : ℕ)) := by ring
    rw [e2] at h1
    linarith
  | inf s =>
    left
    rw [F64.round_eq _ hx.ne] at hr
    split_ifs at hr
    rw [← hr]
    simp [hx]
  | nan => exact absurd hr (F64.round_ne_nan _)

theorem F64.midpoint_bounds (K e : ℤ) (hK1 : 2 ^ 52 ≤ K) (hK2 : K < 2 ^ 53) (he : e ≤ -3) :
    0 < ((K : ℚ) + 1 / 2) * 2 ^ (e - 52) ∧ ((K : ℚ) + 1 / 2) * 2 ^ (e - 52) < 1 / 4 := by
  have hu : (0 : ℚ) < 2 ^ (e - 52) := zpow_pos (by norm_num) _
  have hK1q : (2 : ℚ) ^ (52 : ℕ) ≤ K := by exact_mod_cast hK1
  have hK2q : (K : ℚ) + 1 ≤ 2 ^ (53 : ℕ) := by
    have : K + 1 ≤ 2 ^ 53 := by omega
    exact_mod_cast this
  constructor
  · have : (0 : ℚ) < 2 ^ (52 : ℕ) := pow_pos (by norm_num) _
    exact mul_pos (by linarith) hu
  · have e1 : (2 : ℚ) ^ (53 : ℕ) * 2 ^ (e - 52) = 2 ^ (e + 1) := by
      rw [← zpow_natCast, ← two_zpow_add]; congr 1; push_cast; ring
    have h1 : ((K : ℚ) + 1 / 2) * 2 ^ (e - 52) < 2 ^ (53 : ℕ) * 2 ^ (e - 52) :=
      mul_lt_mul_of_pos_right (by linarith) hu
    have h2 : (2 : ℚ) ^ (e + 1) ≤ 2 ^ (-2 : ℤ) := two_zpow_le (by omega)
    have h3 : (2 : ℚ) ^ (-2 : ℤ) = 1 / 4 := by norm_num
    calc ((K : ℚ) + 1 / 2) * 2 ^ (e - 52) < 2 ^ (53 : ℕ) * 2 ^ (e - 52) := h1
      _ = 2 ^ (e + 1) := e1
      _ ≤ 2 ^ (-2 : ℤ) := h2
      _ = 1 / 4 := h3

theorem RecommendationEngine.targetChange_eq_of_near {f t : ℚ} (hf : F64.Representable f)
    (ht : F64.Representable t) (hfr : |f| < 2 ^ (1024 : ℕ)) (hf0 : 0 < f) (ht0 : 0 < t)
    (h1 : f ≤ 2 * t) (h2 : t ≤ 2 * f) : targetChange f t = F64.round ((t - f) / f) := by
  have hrep := F64.Representable.sub hf ht hf0 ht0 h1 h2
  have hrange : |t - f| < 2 ^ (1024 : ℕ) := by
    have : |t - f| ≤ f := by rw [abs_le]; constructor <;> linarith
    rw [abs_of_pos hf0] at hfr
    linarith
  simp only [targetChange, F64.sub, F64.round_of_representable hrep hrange, F64.div, hf0.ne',
    if_false]

theorem RecommendationEngine.targetChange_gt_iff {f t : ℚ} (hf : F64.Representable f)
    (ht : F64.Representable t) (hfr : |f| < 2 ^ (1024 : ℕ)) (hf0 : 0 < f) (ht0 : 0 < t)
    (K e : ℤ) (hK : K % 2 = 0) (hK1 : 2 ^ 52 ≤ K) (hK2 : K < 2 ^ 53)
    (he1 : F64.minExp < e) (he2 : e ≤ -3) :
    F64.gt (targetChange f t) (.fin (K * 2 ^ (e - 52))) = true
      ↔ ((K : ℚ) + 1 / 2) * 2 ^ (e - 52) < (t - f) / f := by
  obtain ⟨hm0, hm1⟩ := F64.midpoint_bounds K e hK1 hK2 he2
  have hc : (1 : ℚ) / 2 ≤ 1 - 1 / 2 ^ (53 : ℕ) := by norm_num
  by_cases h1 : 2 * f < t
  · -- far above: both sides hold
    have hrhs : ((K : ℚ) + 1 / 2) * 2 ^ (e - 52) < (t - f) / f := by
      rw [lt_div_iff₀ hf0]
      nlinarith
    simp only [hrhs, iff_true]
    rcases F64.round_pos_cases hf ht (by linarith : 0 < t - f) with hr | ⟨d, hr, hd⟩
    · simp [targetChange, F64.sub, hr, F64.div, F64.gt, F64.lt, not_lt.2 hf0.le]
    · simp only [targetChange, F64.sub, hr, F64.div, hf0.ne', if_false]
      rw [F64.gt_round_iff _ K e hK hK1 hK2 he1 (by omega), lt_div_iff₀ hf0]
      nlinarith
  · by_cases h2 : 2 * t < f
    · -- far below: both sides fail
      have hrhs : ¬ ((K : ℚ) + 1 / 2) * 2 ^ (e - 52) < (t - f) / f := by
        rw [lt_div_iff₀ hf0]
        nlinarith
      simp only [hrhs, iff_false]
      rcases F64.round_neg_cases hf ht (by linarith : t - f < 0) with hr | ⟨d, hr, hd⟩
      · simp [targetChange, F64.sub, hr, F64.div, F64.gt, F64.lt, not_lt.2 hf0.le]
      · simp only [targetChange, F64.sub, hr, F64.div, hf0.ne', if_false]
        rw [F64.gt_round_iff _ K e hK hK1 hK2 he1 (by omega), lt_div_iff₀ hf0]
        nlinarith
    · rw [targetChange_eq_of_near hf ht hfr hf0 ht0 (by linarith) (by linarith)]
      exact F64.gt_round_iff _ K e hK hK1 hK2 he1 (by omega)

theorem RecommendationEngine.targetChange_lt_iff {f t : ℚ} (hf : F64.Representable f)
    (ht : F64.Representable t) (hfr : |f| < 2 ^ (1024 : ℕ)) (hf0 : 0 < f) (ht0 : 0 < t)
    (K e : ℤ) (hK : K % 2 = 0) (hK1 : 2 ^ 52 ≤ K) (hK2 : K < 2 ^ 53)
    (he1 : F64.minExp < e) (he2 : e ≤ -3) :
    F64.lt (targetChange f t) (.fin (-(K * 2 ^ (e - 52)))) = true
      ↔ (t - f) / f < -(((K : ℚ) + 1 / 2) * 2 ^ (e - 52)) := by
  obtain ⟨hm0, hm1⟩ := F64.midpoint_bounds K e hK1 hK2 he2
  have hc : (1 : ℚ) / 2 ≤ 1 - 1 / 2 ^ (53 : ℕ) := by norm_num
  by_cases h1 : 2 * f < t
  · -- far above: both sides fail
    have hrhs : ¬ (t - f) / f < -(((K : ℚ) + 1 / 2) * 2 ^ (e - 52)) := by
      rw [div_lt_iff₀ hf0]
      nlinarith
    simp only [hrhs, iff_false]
    rcases F64.round_pos_cases hf ht (by linarith : 0 < t - f) with hr | ⟨d, hr, hd⟩
    · simp [targetChange, F64.sub, hr, F64.div, F64.lt, not_lt.2 hf0.le]
    · simp only [targetChange, F64.sub, hr, F64.div, hf0.ne', if_false]
      rw [F64.lt_round_iff _ K e hK hK1 hK2 he1 (by omega), div_lt_iff₀ hf0]
      nlinarith
  · by_cases h2 : 2 * t < f
    · -- far below: both sides hold
      have hrhs : (t - f) / f < -(((K : ℚ) + 1 / 2) * 2 ^ (e - 52)) := by
        rw [div_lt_iff₀ hf0]
        nlinarith
      simp only [hrhs, iff_true]
      rcases F64.round_neg_cases hf ht (by linarith : t - f < 0) with hr | ⟨d, hr, hd⟩
      · simp [targetChange, F64.sub, hr, F64.div, F64.lt, not_lt.2 hf0.le]
      · simp only [targetChange, F64.sub, hr, F64.div, hf0.ne', if_false]
        rw [F64.lt_round_iff _ K e hK hK1 hK2 he1 (by omega), div_lt_iff₀ hf0]
        nlinarith
    · rw [targetChange_eq_of_near hf ht hfr hf0 ht0 (by linarith) (by linarith)]
      exact F64.lt_round_iff _ K e hK hK1 hK2 he1 (by omega)

theorem F64.bucket_fin (q k1 k2 : ℚ) (h0 : 0 < k2) (h12 : k2 < k1) :
    let s : ℚ := if F64.gt (.fin q) (.fin k1) then 20
      else if F64.gt (.fin q) (.fin k2) then 10
      else if F64.lt (.fin q) (.fin (-k1)) then -15
      else if F64.lt (.fin q) (.fin (-k2)) then -8
      else 0
    (s = 20 ↔ F64.gt (.fin q) (.fin k1) = true)
      ∧ (s = 10 ↔ F64.gt (.fin q) (.fin k2) = true ∧ F64.le (.fin q) (.fin k1) = true)
      ∧ (s = -15 ↔ F64.lt (.fin q) (.fin (-k1)) = true)
      ∧ (s = -8 ↔ F64.ge (.fin q) (.fin (-k1)) = true ∧ F64.lt (.fin q) (.fin (-k2)) = true)
      ∧ (s = 0 ↔ F64.ge (.fin q) (.fin (-k2)) = true ∧ F64.le (.fin q) (.fin k2) = true) := by
  simp only [F64.gt, F64.lt, F64.le, F64.ge, decide_eq_true_eq]
  split_ifs with h1 h2 h3 h4
  · norm_num
    refine ⟨h1, fun _ => ?_, ?_, ?_, ?_⟩ <;> intros <;> linarith
  · norm_num
    refine ⟨by linarith, ⟨h2, by linarith⟩, by linarith, ?_, ?_⟩ <;> intros <;> linarith
  · norm_num
    refine ⟨by linarith, ?_, h3, ?_, ?_⟩ <;> intros <;> linarith
  · norm_num
    refine ⟨by linarith, ?_, by linarith, ⟨by linarith, h4⟩, ?_⟩ <;> intros <;> linarith
  · norm_num
    refine ⟨by linarith, ?_, by linarith, ?_, ⟨by linarith, by linarith⟩⟩ <;> intros <;> linarith

theorem F64.bucket (c : F64) (hc : c ≠ .nan) (k1 k2 : ℚ) (h0 : 0 < k2) (h12 : k2 < k1) :
    let s : ℚ := if F64.gt c (.fin k1) then 20
      else if F64.gt c (.fin k2) then 10
      else if F64.lt c (.fin (-k1)) then -15
      else if F64.lt c (.fin (-k2)) then -8
      else 0
    (s = 20 ↔ F64.gt c (.fin k1) = true)
      ∧ (s = 10 ↔ F64.gt c (.fin k2) = true ∧ F64.le c (.fin k1) = true)
      ∧ (s = -15 ↔ F64.lt c (.fin (-k1)) = true)
      ∧ (s = -8 ↔ F64.ge c (.fin (-k1)) = true ∧ F64.lt c (.fin (-k2)) = true)
      ∧ (s = 0 ↔ F64.ge c (.fin (-k2)) = true ∧ F64.le c (.fin k2) = true) := by
  cases c with
  | fin q => exact F64.bucket_fin q k1 k2 h0 h12
  | inf b => cases b <;> simp [F64.gt, F64.lt, F64.le, F64.ge] <;> norm_num
  | nan => exact absurd rfl hc

theorem RecommendationEngine.targetChange_ne_nan {targetFromVal : ℚ} (targetToVal : ℚ)
    (h : targetFromVal ≠ 0) : targetChange targetFromVal targetToVal ≠ .nan := by
  unfold targetChange
  cases hs : F64.sub (.fin targetToVal) (.fin targetFromVal) with
  | fin a => simp only [F64.div, h, if_false]; exact F64.round_ne_nan _
  | inf b => simp [F64.div]
  | nan => exact absurd hs (F64.round_ne_nan _)

theorem RecommendationEngine.extractPrice_representable (s : String) :
    F64.Representable (extractPrice s) ∧ |extractPrice s| < 2 ^ (1024 : ℕ) := by
  have hz : F64.Representable 0 ∧ |(0 : ℚ)| < 2 ^ (1024 : ℕ) :=
    ⟨⟨0, 0, by simp, by norm_num, by norm_num⟩, by simp⟩
  unfold extractPrice
  split_ifs
  · exact hz
  · dsimp only
    split
    · rename_i price hp
      unfold strconv.ParseFloat at hp
      split at hp
      · exact absurd hp (by simp)
      · split_ifs at hp
        split at hp
        · rename_i q hq
          simp only [strconv.ParseResult.ok.injEq] at hp
          rw [← hp]
          exact F64.round_representable hq
        · exact absurd hp (by simp)
    · exact hz

theorem RecommendationEngine.targetChange_thresholds {f t : ℚ} (hf : F64.Representable f)
    (ht : F64.Representable t) (hfr : |f| < 2 ^ (1024 : ℕ)) (hf0 : 0 < f) (ht0 : 0 < t) :
    (F64.gt (targetChange f t) (F64.const (1 / 10)) = true ↔ tenthMidpoint < (t - f) / f)
      ∧ (F64.gt (targetChange f t) (F64.const (5 / 100)) = true
          ↔ twentiethMidpoint < (t - f) / f)
      ∧ (F64.lt (targetChange f t) (F64.const (-(1 / 10))) = true
          ↔ (t - f) / f < -tenthMidpoint)
      ∧ (F64.lt (targetChange f t) (F64.const (-(5 / 100))) = true
          ↔ (t - f) / f < -twentiethMidpoint) := by
  have hk1 : ((7205759403792794 : ℤ) : ℚ) * 2 ^ ((-4 : ℤ) - 52) = 3602879701896397 / 2 ^ 55 := by
    norm_num
  have hk2 : ((7205759403792794 : ℤ) : ℚ) * 2 ^ ((-5 : ℤ) - 52) = 3602879701896397 / 2 ^ 56 := by
    norm_num
  have hm1 : (((7205759403792794 : ℤ) : ℚ) + 1 / 2) * 2 ^ ((-4 : ℤ) - 52) = tenthMidpoint := by
    unfold tenthMidpoint; norm_num
  have hm2 : (((7205759403792794 : ℤ) : ℚ) + 1 / 2) * 2 ^ ((-5 : ℤ) - 52)
      = twentiethMidpoint := by
    unfold twentiethMidpoint; norm_num
  have g1 := targetChange_gt_iff hf ht hfr hf0 ht0 7205759403792794 (-4) (by norm_num)
    (by norm_num) (by norm_num) (by decide) (by norm_num)
  have g2 := targetChange_gt_iff hf ht hfr hf0 ht0 7205759403792794 (-5) (by norm_num)
    (by norm_num) (by norm_num) (by decide) (by norm_num)
  have l1 := targetChange_lt_iff hf ht hfr hf0 ht0 7205759403792794 (-4) (by norm_num)
    (by norm_num) (by norm_num) (by decide) (by norm_num)
  have l2 := targetChange_lt_iff hf ht hfr hf0 ht0 7205759403792794 (-5) (by norm_num)
    (by norm_num) (by norm_num) (by decide) (by norm_num)
  rw [hk1, hm1] at g1 l1
  rw [hk2, hm2] at g2 l2
  rw [F64.const_tenth, F64.const_twentieth, F64.const_neg_tenth, F64.const_neg_twentieth]
  exact ⟨g1, g2, l1, l2⟩

/-- The target change score of positive prices in exact terms. -/
theorem RecommendationEngine.calculateTargetChangeScore_exact (stock : StockWithAnalysis)
    (latest : StockAnalysis) (rest : List StockAnalysis)
    (hL : stock.LatestAnalysis = latest :: rest)
    (hf0 : 0 < extractPrice latest.TargetFrom) (ht0 : 0 < extractPrice latest.TargetTo) :
    calculateTargetChangeScore stock
      = if tenthMidpoint
            < (extractPrice latest.TargetTo - extractPrice latest.TargetFrom)
              / extractPrice latest.TargetFrom then 20
        else if twentiethMidpoint
            < (extractPrice latest.TargetTo - extractPrice latest.TargetFrom)
              / extractPrice latest.TargetFrom then 10
        else if (extractPrice latest.TargetTo - extractPrice latest.TargetFrom)
              / extractPrice latest.TargetFrom < -tenthMidpoint then -15
        else if (extractPrice latest.TargetTo - extractPrice latest.TargetFrom)
              / extractPrice latest.TargetFrom < -twentiethMidpoint then -8
        else 0 := by
  obtain ⟨hfrep, hfr⟩ := extractPrice_representable latest.TargetFrom
  obtain ⟨htrep, _⟩ := extractPrice_representable latest.TargetTo
  obtain ⟨g1, g2, l1, l2⟩ := targetChange_thresholds hfrep htrep hfr hf0 ht0
  have hp : extractPrice latest.TargetFrom > 0 ∧ extractPrice latest.TargetTo > 0 := ⟨hf0, ht0⟩
  simp only [calculateTargetChangeScore, hL, hp, and_self, if_true, g1, g2, l1, l2]

theorem bucket_exact (c k1 k2 : ℚ) (h0 : 0 < k2) (h12 : k2 < k1) :
    let s : ℚ := if k1 < c then 20
      else if k2 < c then 10
      else if c < -k1 then -15
      else if c < -k2 then -8
      else 0
    (s = 20 ↔ k1 < c)
      ∧ (s = 10 ↔ k2 < c ∧ c ≤ k1)
      ∧ (s = -15 ↔ c < -k1)
      ∧ (s = -8 ↔ -k1 ≤ c ∧ c < -k2)
      ∧ (s = 0 ↔ -k2 ≤ c ∧ c ≤ k2) := by
  dsimp only
  split_ifs with h1 h2 h3 h4
  · norm_num
    refine ⟨h1, fun _ => ?_, ?_, ?_, ?_⟩ <;> intros <;> linarith
  · norm_num
    refine ⟨by linarith, ⟨h2, by linarith⟩, by linarith, ?_, ?_⟩ <;> intros <;> linarith
  · norm_num
    refine ⟨by linarith, ?_, h3, ?_, ?_⟩ <;> intros <;> linarith
  · norm_num
    refine ⟨by linarith, ?_, by linarith, ⟨by linarith, h4⟩, ?_⟩ <;> intros <;> linarith
  · norm_num
    refine ⟨by linarith, ?_, by linarith, ?_, ⟨by linarith, by linarith⟩⟩ <;> intros <;> linarith

/-- The price target clause is present exactly when both prices are positive and the
exact relative change exceeds `tenthMidpoint`. -/
theorem priceClause_ne_nil_iff (latest : StockAnalysis) :
    priceClause latest ≠ []
      ↔ 0 < extractPrice latest.TargetFrom ∧ 0 < extractPrice latest.TargetTo
        ∧ tenthMidpoint
          < (extractPrice latest.TargetTo - extractPrice latest.TargetFrom)
            / extractPrice latest.TargetFrom := by
  obtain ⟨hfrep, hfr⟩ := extractPrice_representable latest.TargetFrom
  obtain ⟨htrep, _⟩ := extractPrice_representable latest.TargetTo
  unfold priceClause
  by_cases hf : 0 < extractPrice latest.TargetFrom
  · by_cases ht : 0 < extractPrice latest.TargetTo
    · have g := (targetChange_thresholds hfrep htrep hfr hf ht).1
      by_cases hg : F64.gt (targetChange (extractPrice latest.TargetFrom)
          (extractPrice latest.TargetTo)) (F64.const (1 / 10)) = true
      · rw [if_pos ⟨hf, ht, hg⟩]
        simp only [ne_eq, List.cons_ne_nil, not_false_eq_true, true_iff]
        exact ⟨hf, ht, g.1 hg⟩
      · rw [if_neg (fun h => hg h.2.2)]
        simp only [ne_eq, not_true_eq_false, false_iff]
        exact fun h => hg (g.2 h.2.2)
    · rw [if_neg (fun h => ht h.2.1)]
      simp only [ne_eq, not_true_eq_false, false_iff]
      exact fun h => ht h.2.1
  · rw [if_neg (fun h => hf h.1)]
    simp only [ne_eq, not_true_eq_false, false_iff]
    exact fun h => hf h.1

/-! ## Auxiliary facts: the engine and the stored score row -/

theorem RecommendationEngine.positiveCount_eq_countP (actions : List StockAnalysis) :
    positiveCount actions = actions.countP fun a => decide (getRatingScore a.RatingTo > 60) := by
  induction actions with
  | nil => rfl
  | cons a rest ih =>
    rw [positiveCount, ih, List.countP_cons]
    by_cases h : getRatingScore a.RatingTo > 60 <;> simp [h, add_comm]

theorem RecommendationEngine.calculateCoverageScore_formula (stock : StockWithAnalysis) :
    calculateCoverageScore stock
      = (if 3 ≤ stock.LatestAnalysis.length then 5 else 0)
        + (if 2 ≤ stock.LatestAnalysis.countP
              fun a => decide (getRatingScore a.RatingTo > 60) then 8 else 0) := by
  unfold calculateCoverageScore
  rw [positiveCount_eq_countP]
  simp only [ge_iff_le]
  split_ifs <;> norm_num

theorem RecommendationEngine.reasons_eq (latest : StockAnalysis) (count : ℕ) :
    reasons latest count = reasonClauses latest count := by
  have e1 : strings.Contains (strings.ToLower "") "buy" = false := by decide
  have e2 : strings.Contains (strings.ToLower "") "outperform" = false := by decide
  unfold reasons reasonClauses ratingClause priceClause coverageClause updatesClause
  by_cases h0 : latest.RatingTo = ""
  · rw [h0]
    simp only [e1, e2, ne_eq, not_true_eq_false, if_false, Bool.false_eq_true, List.nil_append,
      gt_iff_lt, ge_iff_le]
    split_ifs <;> simp_all
  · simp only [ne_eq, h0, not_false_eq_true, if_true, List.nil_append, gt_iff_lt, ge_iff_le]
    split_ifs <;> simp_all

theorem reasonClauses_startsNotWithA (latest : StockAnalysis) (count : ℕ) :
    ∀ s ∈ reasonClauses latest count, startsNotWithA s := by
  intro s hs
  simp only [reasonClauses, List.mem_append] at hs
  rcases hs with ((hs | hs) | hs) | hs
  · unfold ratingClause at hs
    split_ifs at hs
    · simp only [List.mem_singleton] at hs
      rw [hs]
      exact startsNotWithA_of_append _ ⟨'B', "uy rating from ".data, rfl, by decide⟩
    · simp only [List.mem_singleton] at hs
      rw [hs]
      exact startsNotWithA_of_append _ ⟨'O', "utperform rating from ".data, rfl, by decide⟩
    · simp at hs
  · unfold priceClause at hs
    split_ifs at hs
    · simp only [List.mem_singleton] at hs
      rw [hs]
      exact startsNotWithA_of_append _
        (startsNotWithA_of_append _ ⟨'P', "rice target raised by ".data, rfl, by decide⟩)
    · simp at hs
  · unfold coverageClause at hs
    split_ifs at hs
    · simp only [List.mem_singleton] at hs
      rw [hs]
      exact ⟨'N', "ew analyst coverage".data, rfl, by decide⟩
    · simp at hs
  · unfold updatesClause at hs
    split_ifs at hs
    · simp only [List.mem_singleton] at hs
      rw [hs]
      exact ⟨'M', "ultiple recent analyst updates".data, rfl, by decide⟩
    · simp at hs

theorem StockRepository.mem_orderByAnalysisDateDesc (rows : List StockAnalysis)
    (a : StockAnalysis) : a ∈ orderByAnalysisDateDesc rows ↔ a ∈ rows :=
  (List.perm_insertionSort _ rows).mem_iff

theorem StockRepository.orderByAnalysisDateDesc_take_drop (rows : List StockAnalysis) (n : ℕ) :
    ∀ a ∈ (orderByAnalysisDateDesc rows).take n, ∀ b ∈ (orderByAnalysisDateDesc rows).drop n,
      b.AnalysisDate ≤ a.AnalysisDate := by
  haveI : IsTotal StockAnalysis (fun a b => a.AnalysisDate ≥ b.AnalysisDate) :=
    ⟨fun a b => le_total b.AnalysisDate a.AnalysisDate⟩
  haveI : IsTrans StockAnalysis (fun a b => a.AnalysisDate ≥ b.AnalysisDate) :=
    ⟨fun a b c hab hbc => le_trans hbc hab⟩
  have hs : List.Sorted (fun a b => a.AnalysisDate ≥ b.AnalysisDate)
      (orderByAnalysisDateDesc rows) := List.sorted_insertionSort _ rows
  rw [← List.take_append_drop n (orderByAnalysisDateDesc rows)] at hs
  intro a ha b hb
  exact (List.pairwise_append.1 hs).2.2 a ha b hb

theorem StockRepository.GetLatestAnalysisForStock_mem (db : Store) (stockID : ℤ) (limit : ℕ)
    (a : StockAnalysis) (h : a ∈ GetLatestAnalysisForStock db stockID limit) :
    a ∈ db.stock_analysis ∧ a.StockID = stockID := by
  unfold GetLatestAnalysisForStock at h
  have h1 := (mem_orderByAnalysisDateDesc _ a).1 (List.mem_of_mem_take h)
  simpa using h1

theorem find?_map_replace (l : List RecommendationScore) (stockID : ℤ)
    (g : RecommendationScore → RecommendationScore) (hg : ∀ r, (g r).StockID = stockID)
    (h : l.any (fun r => r.StockID = stockID) = true) :
    ∃ r, (l.map fun r => if r.StockID = stockID then g r else r).find?
        (fun r => r.StockID = stockID) = some (g r) := by
  induction l with
  | nil => simp at h
  | cons a t ih =>
    by_cases ha : a.StockID = stockID
    · exact ⟨a, by simp [List.find?, ha, hg]⟩
    · have ht : t.any (fun r => r.StockID = stockID) = true := by
        simpa [List.any_cons, ha] using h
      obtain ⟨r, hr⟩ := ih ht
      exact ⟨r, by simpa [List.find?, ha] using hr⟩

theorem RecommendationScoreRepository.UpsertRecommendationScore_get (db : Store) (now : ℤ)
    (score : RecommendationScore) :
    ∃ id created, GetRecommendationScoreByStockID (UpsertRecommendationScore db now score)
        score.StockID
      = some { score with ID := id, CreatedAt := created, CalculatedAt := now,
                          UpdatedAt := now } := by
  unfold UpsertRecommendationScore GetRecommendationScoreByStockID
  by_cases h : db.recommendation_scores.any (fun r => r.StockID = score.StockID) = true
  · simp only [h, if_true]
    obtain ⟨r, hr⟩ := find?_map_replace db.recommendation_scores score.StockID
      (fun r => { score with ID := r.ID, CreatedAt := r.CreatedAt, CalculatedAt := now,
                             UpdatedAt := now }) (fun _ => rfl) h
    exact ⟨r.ID, r.CreatedAt, hr⟩
  · simp only [h, Bool.false_eq_true, if_false]
    refine ⟨db.recommendation_scores_seq, now, ?_⟩
    have hnone : db.recommendation_scores.find? (fun r => decide (r.StockID = score.StockID))
        = none := by
      rw [List.find?_eq_none]
      intro r hr hrs
      exact h (List.any_eq_true.2 ⟨r, hr, hrs⟩)
    rw [List.find?_append, hnone]
    simp [List.find?]

theorem persistedScore_eq (db : Store) (now : ℤ) (stockID : ℤ) (view : StockWithAnalysis)
    (hv : GetStockWithMetrics db (getStockSymbolByID db stockID) = some view) :
    ∃ id created, persistedScore db now stockID
      = some
        { ID := id
          StockID := stockID
          TotalScore := calculateScore view
          RatingScore := (calculateRatingScores view).1
          RatingChangeScore := (calculateRatingScores view).2
          TargetChangeScore := calculateTargetChangeScore view
          ActionScore := calculateActionScore view
          CoverageScore := calculateCoverageScore view
          Confidence := getConfidence (calculateScore view)
          Reason := generateReason view (calculateScore view)
          LatestAnalysisID := view.LatestAnalysis.head?.map fun a => a.ID
          CalculatedAt := now
          CreatedAt := created
          UpdatedAt := now } := by
  unfold persistedScore calculateAndStoreRecommendationScore
  rw [hv]
  dsimp only
  obtain ⟨id, created, h⟩ := UpsertRecommendationScore_get db now
    { ID := 0
      StockID := stockID
      TotalScore := calculateScore view
      RatingScore := (calculateRatingScores view).1
      RatingChangeScore := (calculateRatingScores view).2
      TargetChangeScore := calculateTargetChangeScore view
      ActionScore := calculateActionScore view
      CoverageScore := calculateCoverageScore view
      Confidence := getConfidence (calculateScore view)
      Reason := generateReason view (calculateScore view)
      LatestAnalysisID := view.LatestAnalysis.head?.map fun a => a.ID
      CalculatedAt := 0
      CreatedAt := 0
      UpdatedAt := 0 }
  refine ⟨id, created, ?_⟩
  have hl : (match view.LatestAnalysis with
      | [] => none
      | latest :: _ => some latest.ID) = view.LatestAnalysis.head?.map fun a => a.ID := by
    cases view.LatestAnalysis <;> rfl
  rw [hl]
  exact h

theorem persistedScore_view (db : Store) (now : ℤ) (stockID : ℤ) (row : RecommendationScore)
    (h : persistedScore db now stockID = some row) :
    ∃ view, GetStockWithMetrics db (getStockSymbolByID db stockID) = some view := by
  cases hv : GetStockWithMetrics db (getStockSymbolByID db stockID) with
  | some view => exact ⟨view, rfl⟩
  | none =>
    unfold persistedScore calculateAndStoreRecommendationScore at h
    rw [hv] at h
    simp at h

/-! ## Total score and rating scores -/

/-- C1: the total of `calculateScore` is the base 50 plus the five components, with
no clamping; for a stock whose only action is Buy from Hold, "Upgraded", with the
target moved from $10 to $12, the components are 30, 15, 20, 0 and 0, the total is
115 and the confidence is "High". -/
theorem calculateScore_eq_sum (stock : StockWithAnalysis) :
    calculateScore stock
        = 50 + (calculateRatingScores stock).1 + (calculateRatingScores stock).2
          + calculateTargetChangeScore stock + calculateActionScore stock
          + calculateCoverageScore stock
      ∧ ∀ a : StockAnalysis, stock.LatestAnalysis = [a] → a.RatingTo = "Buy" →
          a.RatingFrom = "Hold" → a.Action = "Upgraded" → a.TargetFrom = "$10" →
          a.TargetTo = "$12" →
          calculateRatingScores stock = (30, 15) ∧ calculateTargetChangeScore stock = 20
            ∧ calculateActionScore stock = 0 ∧ calculateCoverageScore stock = 0
            ∧ calculateScore stock = 115 ∧ getConfidence (calculateScore stock) = "High" := by
  have hsum : calculateScore stock
        = 50 + (calculateRatingScores stock).1 + (calculateRatingScores stock).2
          + calculateTargetChangeScore stock + calculateActionScore stock
          + calculateCoverageScore stock := rfl
  refine ⟨hsum, ?_⟩
  intro a hL hTo hFrom hAct hTF hTT
  have hr : calculateRatingScores stock = (30, 15) := by
    simp only [calculateRatingScores, hL, hTo, hFrom]
    decide!
  have ht : calculateTargetChangeScore stock = 20 := by
    simp only [calculateTargetChangeScore, hL, hTF, hTT]
    decide!
  have ha : calculateActionScore stock = 0 := by
    simp only [calculateActionScore, hL, hAct]
    decide!
  have hc : calculateCoverageScore stock = 0 := by
    simp only [calculateCoverageScore, positiveCount, hL, hTo, List.length_singleton]
    decide!
  have htot : calculateScore stock = 115 := by
    rw [hsum, hr, ht, ha, hc]; norm_num
  refine ⟨hr, ht, ha, hc, htot, ?_⟩
  rw [htot]
  decide!

/-- Instance of C1 at a concrete stock view with the single action of the claim. -/
theorem calculateScore_eq_sum_witness :
    (sampleStock [sampleAction 1 0 "Hold" "Buy" "Upgraded" "$10" "$12"]).LatestAnalysis
        = [sampleAction 1 0 "Hold" "Buy" "Upgraded" "$10" "$12"]
      ∧ calculateScore (sampleStock [sampleAction 1 0 "Hold" "Buy" "Upgraded" "$10" "$12"])
        = 115
      ∧ getConfidence
          (calculateScore (sampleStock [sampleAction 1 0 "Hold" "Buy" "Upgraded" "$10" "$12"]))
        = "High" :=
  have h := (calculateScore_eq_sum
    (sampleStock [sampleAction 1 0 "Hold" "Buy" "Upgraded" "$10" "$12"])).2
    (sampleAction 1 0 "Hold" "Buy" "Upgraded" "$10" "$12") rfl rfl rfl rfl rfl rfl
  ⟨rfl, h.2.2.2.2.1, h.2.2.2.2.2⟩

/-- C2, as stated, fails: the rating "ſell", written with the long s U+017F, contains none
of the rating phrases and scores 50, while its upper case "SELL" scores 10; and
"overweıght", written with the dotless i U+0131, scores 50, while its upper case
"OVERWEIGHT" scores 70. -/
theorem getRatingScore_case_counterexample :
    strings.ToUpper "ſell" = "SELL"
      ∧ getRatingScore "ſell" = 50 ∧ getRatingScore "SELL" = 10
      ∧ strings.ToUpper "overweıght" = "OVERWEIGHT"
      ∧ getRatingScore "overweıght" = 50 ∧ getRatingScore "OVERWEIGHT" = 70 := by
  refine ⟨by decide!, by decide!, by decide!, by decide!, by decide!, by decide!⟩

/-- C2, amended: `getRatingScore` is the first-match lookup of the lower-cased text in the
ordered rating phrases, 50 when none is contained; a text containing "buy" scores 80
whatever else it contains; texts that have the same lower-cased form, in particular texts
that differ only in the case of the ASCII letters `a` to `z` and `A` to `Z`, score the
same; and the rating component of `calculateRatingScores` is the score of the latest
`RatingTo` minus 50, or 0 when that rating is empty or there is no action. -/
theorem getRatingScore_first_match (rating : String) :
    getRatingScore rating = firstMatch ratingTable 50 (strings.ToLower rating)
      ∧ ((∀ p ∈ ratingTable, strings.Contains (strings.ToLower rating) p.1 = false) →
          getRatingScore rating = 50)
      ∧ (strings.Contains (strings.ToLower rating) "buy" = true → getRatingScore rating = 80)
      ∧ (∀ other : String, strings.ToLower other = strings.ToLower rating →
          getRatingScore other = getRatingScore rating)
      ∧ (∀ other : String, sameUpToCase other.data rating.data = true →
          getRatingScore other = getRatingScore rating)
      ∧ ∀ stock : StockWithAnalysis,
          (calculateRatingScores stock).1
            = match stock.LatestAnalysis with
              | [] => 0
              | latest :: _ =>
                if latest.RatingTo = "" then 0 else getRatingScore latest.RatingTo - 50 := by
  refine ⟨getRatingScore_eq_firstMatch rating, ?_, ?_, ?_, ?_, ?_⟩
  · intro h
    rw [getRatingScore_eq_firstMatch, firstMatch, List.find?_eq_none.2]
    intro p hp
    simp [h p hp]
  · intro h
    rw [getRatingScore_eq_firstMatch]
    simp [firstMatch, ratingTable, List.find?, h]
  · intro other h
    rw [getRatingScore_eq_firstMatch, getRatingScore_eq_firstMatch, h]
  · intro other h
    rw [getRatingScore_eq_firstMatch, getRatingScore_eq_firstMatch,
      strings.ToLower_eq_of_sameUpToCase other rating h]
  · intro stock
    unfold calculateRatingScores
    cases stock.LatestAnalysis with
    | nil => rfl
    | cons latest rest => by_cases h : latest.RatingTo = "" <;> simp [h]

/-- Instance of C2, amended: "Strong Buy, was Sell" contains "buy" and scores 80, and so
does its upper-case form. -/
theorem getRatingScore_first_match_witness :
    strings.Contains (strings.ToLower "Strong Buy, was Sell") "buy" = true
      ∧ strings.Contains (strings.ToLower "Strong Buy, was Sell") "sell" = true
      ∧ getRatingScore "Strong Buy, was Sell" = 80
      ∧ sameUpToCase "STRONG BUY, WAS SELL".data "Strong Buy, was Sell".data = true
      ∧ getRatingScore "STRONG BUY, WAS SELL" = getRatingScore "Strong Buy, was Sell" :=
  ⟨by decide, by decide,
    (getRatingScore_first_match "Strong Buy, was Sell").2.2.1 (by decide), by decide,
    (getRatingScore_first_match "Strong Buy, was Sell").2.2.2.2.1 "STRONG BUY, WAS SELL"
      (by decide)⟩

/-- C3, as stated, fails: for a latest action rated "Buy" from "Market Perform" the
previous rating contains none of the known phrases, so the specified rating change
score is 0, yet `calculateRatingScores` returns +15. -/
theorem ratingChange_unmapped_counterexample :
    mapsToOrdinal "Market Perform" = false
      ∧ ratingChangeAsSpecified
          (sampleAction 1 0 "Market Perform" "Buy" "Upgraded" "$10" "$12") = 0
      ∧ (calculateRatingScores
          (sampleStock [sampleAction 1 0 "Market Perform" "Buy" "Upgraded" "$10" "$12"])).2
        = 15 := by
  decide!

/-- C3, amended: the rating change component is 0 when there is no action or when
`RatingTo` or `RatingFrom` of the latest action is empty; otherwise it is +15, -10 or
0 as the score of `RatingTo` is greater than, smaller than or equal to the score of
`RatingFrom`, where a non-empty rating that contains none of the known phrases
counts with the neutral score 50. -/
theorem ratingChange_eq (stock : StockWithAnalysis) :
    (calculateRatingScores stock).2
        = (match stock.LatestAnalysis with
          | [] => 0
          | latest :: _ =>
            if latest.RatingTo = "" ∨ latest.RatingFrom = "" then 0
            else if getRatingScore latest.RatingTo > getRatingScore latest.RatingFrom then 15
            else if getRatingScore latest.RatingTo < getRatingScore latest.RatingFrom then -10
            else 0)
      ∧ ∀ rating : String, rating ≠ "" → mapsToOrdinal rating = false →
          getRatingScore rating = 50 := by
  constructor
  · unfold calculateRatingScores
    cases stock.LatestAnalysis with
    | nil => rfl
    | cons latest rest =>
      by_cases h1 : latest.RatingTo = "" <;> by_cases h2 : latest.RatingFrom = "" <;>
        simp [h1, h2]
  · intro rating hne h
    rw [getRatingScore_eq_firstMatch, firstMatch, List.find?_eq_none.2]
    intro p hp
    simp only [mapsToOrdinal, hne, ne_eq, not_false_eq_true, decide_True, Bool.true_and,
      List.any_eq_false] at h
    simpa using h p hp

/-- Instance of amended C3: "Market Perform" is not empty, contains no known phrase
and scores 50. -/
theorem ratingChange_eq_witness :
    "Market Perform" ≠ "" ∧ mapsToOrdinal "Market Perform" = false
      ∧ getRatingScore "Market Perform" = 50 :=
  ⟨by decide, by decide!,
    (ratingChange_eq (sampleStock [])).2 "Market Perform" (by decide) (by decide!)⟩

/-! ## Prices and the target change score -/

/-- C4, as stated, fails: a numeral of 310 digits is a well-formed decimal numeral of
value `10 ^ 309`, which the specification gives as the price, but it lies beyond the
range of `float64`, so `ParseFloat` reports a range error and `extractPrice`
returns 0. -/
theorem extractPrice_range_counterexample :
    decimalValue (keptChars hugePriceText) = some (10 ^ 309)
      ∧ extractPriceAsSpecified hugePriceText = 10 ^ 309
      ∧ strconv.ParseFloat hugePriceText = .errRange
      ∧ extractPrice hugePriceText = 0 := by
  decide!

/-- C4, amended: `extractPrice` returns the `float64` nearest (ties to even) to the
exact value of the kept characters when these form a decimal numeral whose nearest
`float64` is finite, and 0 otherwise; the result is a `float64` number and never
negative; "$1,250.50" gives 1250.5 and "N/A" gives 0. -/
theorem extractPrice_eq (s : String) :
    extractPrice s
        = (match decimalValue (keptChars s) with
          | none => 0
          | some v =>
            match F64.round v with
            | .fin q => q
            | _ => 0)
      ∧ F64.Representable (extractPrice s)
      ∧ 0 ≤ extractPrice s
      ∧ extractPrice "$1,250.50" = 2501 / 2
      ∧ extractPrice "N/A" = 0 := by
  have hnn : ∀ cs : List Char, ∀ v, decimalValue cs = some v → 0 ≤ v := by
    intro cs v hv
    unfold decimalValue at hv
    split at hv
    · dsimp only at hv
      split_ifs at hv
      simp only [Option.some.injEq] at hv
      rw [← hv]
      positivity
    · dsimp only at hv
      split_ifs at hv
      simp only [Option.some.injEq] at hv
      rw [← hv]
      positivity
  have heq : extractPrice s
        = (match decimalValue (keptChars s) with
          | none => 0
          | some v =>
            match F64.round v with
            | .fin q => q
            | _ => 0) := by
    unfold extractPrice
    by_cases hs : s = ""
    · subst hs
      rfl
    · simp only [hs, if_false]
      rw [strconv.ParseFloat_eq]
      change (match (match decimalValue (keptChars s) with
        | none => strconv.ParseResult.errSyntax
        | some v =>
          match F64.round v with
          | .fin q => .ok q
          | _ => .errRange) with
        | .ok price => price
        | _ => 0) = _
      cases decimalValue (keptChars s) with
      | none => rfl
      | some v =>
        dsimp only
        cases F64.round v <;> rfl
  refine ⟨heq, (extractPrice_representable s).1, ?_, by decide!, by decide!⟩
  rw [heq]
  cases hd : decimalValue (keptChars s) with
  | none => exact le_refl 0
  | some v =>
    dsimp only
    cases hr : F64.round v with
    | fin q => exact F64.round_nonneg (hnn _ _ hd) hr
    | inf b => exact le_refl 0
    | nan => exact le_refl 0

/-- C5, as stated, fails: for the targets 8100000000000009 and 8910000000000010, both
exact in `float64`, the exact relative change exceeds 1/10 (by one part in
81000000000000090), so the specified score is +20; the `float64` quotient rounds to
the constant `0.1` itself, the test `> 0.1` fails and the engine returns +10. -/
theorem targetChange_rounding_counterexample :
    extractPrice "8100000000000009" = 8100000000000009
      ∧ extractPrice "8910000000000010" = 8910000000000010
      ∧ ((8910000000000010 : ℚ) - 8100000000000009) / 8100000000000009 > 1 / 10
      ∧ targetChange 8100000000000009 8910000000000010 = F64.const (1 / 10)
      ∧ targetChangeScoreAsSpecified (extractPrice "8100000000000009")
          (extractPrice "8910000000000010") = 20
      ∧ calculateTargetChangeScore
          (sampleStock [sampleAction 1 0 "Hold" "Buy" "Target raised" "8100000000000009"
            "8910000000000010"]) = 10 := by
  decide!

/-- C5, amended: with `targetFromVal` and `targetToVal` the prices of the latest
action, the score is 0 when one of them is not positive.  Otherwise the buckets are
decided on the `float64` value `c` of `(targetToVal - targetFromVal) / targetFromVal`
(subtraction, then division, each rounded to nearest, ties to even) against the
`float64` constants `0.1` and `0.05`: +20 iff `c > 0.1`, +10 iff `0.05 < c <= 0.1`,
-15 iff `c < -0.1`, -8 iff `-0.1 <= c < -0.05`, and 0 iff `-0.05 <= c <= 0.05`.  In
terms of the exact rational relative change these are the buckets of the
specification with the thresholds 1/10 and 1/20 replaced by `tenthMidpoint` and
`twentiethMidpoint`, the midpoints between the two constants and the next `float64`
above them. -/
theorem calculateTargetChangeScore_buckets (stock : StockWithAnalysis)
    (latest : StockAnalysis) (rest : List StockAnalysis) (targetFromVal targetToVal : ℚ)
    (hL : stock.LatestAnalysis = latest :: rest)
    (hFrom : targetFromVal = extractPrice latest.TargetFrom)
    (hTo : targetToVal = extractPrice latest.TargetTo) :
    ((targetFromVal ≤ 0 ∨ targetToVal ≤ 0) → calculateTargetChangeScore stock = 0)
      ∧ (0 < targetFromVal → 0 < targetToVal →
          (calculateTargetChangeScore stock = 20 ↔
            F64.gt (targetChange targetFromVal targetToVal) (F64.const (1 / 10)) = true)
          ∧ (calculateTargetChangeScore stock = 10 ↔
            F64.gt (targetChange targetFromVal targetToVal) (F64.const (5 / 100)) = true
            ∧ F64.le (targetChange targetFromVal targetToVal) (F64.const (1 / 10)) = true)
          ∧ (calculateTargetChangeScore stock = -15 ↔
            F64.lt (targetChange targetFromVal targetToVal) (F64.const (-(1 / 10))) = true)
          ∧ (calculateTargetChangeScore stock = -8 ↔
            F64.ge (targetChange targetFromVal targetToVal) (F64.const (-(1 / 10))) = true
            ∧ F64.lt (targetChange targetFromVal targetToVal) (F64.const (-(5 / 100))) = true)
          ∧ (calculateTargetChangeScore stock = 0 ↔
            F64.ge (targetChange targetFromVal targetToVal) (F64.const (-(5 / 100))) = true
            ∧ F64.le (targetChange targetFromVal targetToVal) (F64.const (5 / 100)) = true))
      ∧ (0 < targetFromVal → 0 < targetToVal →
          (calculateTargetChangeScore stock = 20 ↔
            tenthMidpoint < (targetToVal - targetFromVal) / targetFromVal)
          ∧ (calculateTargetChangeScore stock = 10 ↔
            twentiethMidpoint < (targetToVal - targetFromVal) / targetFromVal
            ∧ (targetToVal - targetFromVal) / targetFromVal ≤ tenthMidpoint)
          ∧ (calculateTargetChangeScore stock = -15 ↔
            (targetToVal - targetFromVal) / targetFromVal < -tenthMidpoint)
          ∧ (calculateTargetChangeScore stock = -8 ↔
            -tenthMidpoint ≤ (targetToVal - targetFromVal) / targetFromVal
            ∧ (targetToVal - targetFromVal) / targetFromVal < -twentiethMidpoint)
          ∧ (calculateTargetChangeScore stock = 0 ↔
            -twentiethMidpoint ≤ (targetToVal - targetFromVal) / targetFromVal
            ∧ (targetToVal - targetFromVal) / targetFromVal ≤ twentiethMidpoint)) := by
  subst hFrom hTo
  refine ⟨?_, ?_, ?_⟩
  · intro h
    have hn : ¬(extractPrice latest.TargetFrom > 0 ∧ extractPrice latest.TargetTo > 0) := by
      rintro ⟨h1, h2⟩
      rcases h with h | h <;> linarith
    simp only [calculateTargetChangeScore, hL, hn, if_false]
  · intro hf ht
    have hp : extractPrice latest.TargetFrom > 0 ∧ extractPrice latest.TargetTo > 0 := ⟨hf, ht⟩
    simp only [calculateTargetChangeScore, hL, hp, and_self, if_true]
    rw [F64.const_tenth, F64.const_twentieth, F64.const_neg_tenth, F64.const_neg_twentieth]
    exact F64.bucket _ (targetChange_ne_nan _ hf.ne') _ _ (by norm_num) (by norm_num)
  · intro hf ht
    rw [calculateTargetChangeScore_exact stock latest rest hL hf ht]
    exact bucket_exact _ tenthMidpoint twentiethMidpoint (by unfold twentiethMidpoint; norm_num)
      (by unfold tenthMidpoint twentiethMidpoint; norm_num)

/-- Instance of amended C5: for the targets "$10" and "$12" both prices are positive,
the exact relative change 1/5 exceeds `tenthMidpoint`, and the score is +20. -/
theorem calculateTargetChangeScore_buckets_witness :
    (sampleStock [sampleAction 1 0 "Hold" "Buy" "Upgraded" "$10" "$12"]).LatestAnalysis
        = sampleAction 1 0 "Hold" "Buy" "Upgraded" "$10" "$12" :: []
      ∧ (10 : ℚ) = extractPrice "$10" ∧ (12 : ℚ) = extractPrice "$12"
      ∧ (0 : ℚ) < 10 ∧ (0 : ℚ) < 12
      ∧ tenthMidpoint < ((12 : ℚ) - 10) / 10
      ∧ calculateTargetChangeScore
          (sampleStock [sampleAction 1 0 "Hold" "Buy" "Upgraded" "$10" "$12"]) = 20 :=
  ⟨rfl, by decide!, by decide!, by decide!, by decide!, by decide!,
    ((calculateTargetChangeScore_buckets
      (sampleStock [sampleAction 1 0 "Hold" "Buy" "Upgraded" "$10" "$12"])
      (sampleAction 1 0 "Hold" "Buy" "Upgraded" "$10" "$12") [] 10 12 rfl
      (by decide!) (by decide!)).2.2 (by decide!) (by decide!)).1.2 (by decide!)⟩

/-! ## Action and coverage scores -/

/-- C6: `calculateActionScore` is the first-match lookup of the lower-cased kind of
the latest action in the ordered list initiated +10, raised +12, lowered -8,
maintained +5, and 0 when none is contained or there is no action; a kind containing
"initiated" scores +10 even when it also contains "raised", and "Upgraded"
scores 0. -/
theorem calculateActionScore_first_match (stock : StockWithAnalysis) :
    calculateActionScore stock
        = (match stock.LatestAnalysis with
          | [] => 0
          | latest :: _ => firstMatch actionTable 0 (strings.ToLower latest.Action))
      ∧ (∀ latest rest, stock.LatestAnalysis = latest :: rest →
          strings.Contains (strings.ToLower latest.Action) "initiated" = true →
          calculateActionScore stock = 10)
      ∧ (∀ latest rest, stock.LatestAnalysis = latest :: rest →
          (∀ p ∈ actionTable, strings.Contains (strings.ToLower latest.Action) p.1 = false) →
          calculateActionScore stock = 0)
      ∧ (∀ latest rest, stock.LatestAnalysis = latest :: rest → latest.Action = "Upgraded" →
          calculateActionScore stock = 0) := by
  have heq : calculateActionScore stock
        = (match stock.LatestAnalysis with
          | [] => 0
          | latest :: _ => firstMatch actionTable 0 (strings.ToLower latest.Action)) := by
    unfold calculateActionScore
    cases stock.LatestAnalysis with
    | nil => rfl
    | cons latest rest =>
      simp only [firstMatch, actionTable, List.find?]
      cases strings.Contains (strings.ToLower latest.Action) "initiated" <;>
      cases strings.Contains (strings.ToLower latest.Action) "raised" <;>
      cases strings.Contains (strings.ToLower latest.Action) "lowered" <;>
      cases strings.Contains (strings.ToLower latest.Action) "maintained" <;>
      simp
  refine ⟨heq, ?_, ?_, ?_⟩
  · intro latest rest hL h
    rw [heq, hL]
    simp [firstMatch, actionTable, List.find?, h]
  · intro latest rest hL h
    rw [heq, hL]
    simp only [firstMatch]
    rw [List.find?_eq_none.2]
    intro p hp
    simp [h p hp]
  · intro latest rest hL h
    rw [heq, hL]
    simp only [h]
    decide!

/-- Instance of C6: the kind "Coverage initiated, target raised" contains both
"initiated" and "raised" and scores +10. -/
theorem calculateActionScore_first_match_witness :
    (sampleStock [sampleAction 1 0 "" "Buy" "Coverage initiated, target raised" "" ""]
        ).LatestAnalysis
        = sampleAction 1 0 "" "Buy" "Coverage initiated, target raised" "" "" :: []
      ∧ strings.Contains (strings.ToLower "Coverage initiated, target raised") "initiated"
        = true
      ∧ strings.Contains (strings.ToLower "Coverage initiated, target raised") "raised" = true
      ∧ calculateActionScore
          (sampleStock [sampleAction 1 0 "" "Buy" "Coverage initiated, target raised" "" ""])
        = 10 :=
  ⟨rfl, by decide, by decide,
    (calculateActionScore_first_match
      (sampleStock [sampleAction 1 0 "" "Buy" "Coverage initiated, target raised" "" ""])).2.1
      (sampleAction 1 0 "" "Buy" "Coverage initiated, target raised" "" "") [] rfl
      (by decide)⟩

/-- C7: the coverage score is 5 for three or more actions plus 8 when at least two
of the actions have a rating score above 60; the two bonuses are independent, the
result is one of 0, 5, 8, 13, and exactly two actions with a rating score above 60
(such as two Buy ratings) score 8. -/
theorem calculateCoverageScore_eq (stock : StockWithAnalysis) :
    calculateCoverageScore stock
        = (if 3 ≤ stock.LatestAnalysis.length then 5 else 0)
          + (if 2 ≤ stock.LatestAnalysis.countP
                fun a => decide (getRatingScore a.RatingTo > 60) then 8 else 0)
      ∧ (calculateCoverageScore stock = 0 ∨ calculateCoverageScore stock = 5
          ∨ calculateCoverageScore stock = 8 ∨ calculateCoverageScore stock = 13)
      ∧ (∀ a b, stock.LatestAnalysis = [a, b] → getRatingScore a.RatingTo > 60 →
          getRatingScore b.RatingTo > 60 → calculateCoverageScore stock = 8) := by
  have heq := calculateCoverageScore_formula stock
  refine ⟨heq, ?_, ?_⟩
  · rw [heq]
    split_ifs <;> norm_num
  · intro a b hL ha hb
    rw [heq, hL]
    simp [List.countP_cons, ha, hb]

/-- Instance of C7: two Buy-rated actions score 8. -/
theorem calculateCoverageScore_eq_witness :
    (sampleStock [sampleAction 1 1 "" "Buy" "" "" "", sampleAction 2 0 "" "Buy" "" "" ""]
        ).LatestAnalysis
        = [sampleAction 1 1 "" "Buy" "" "" "", sampleAction 2 0 "" "Buy" "" "" ""]
      ∧ getRatingScore "Buy" > 60
      ∧ calculateCoverageScore
          (sampleStock [sampleAction 1 1 "" "Buy" "" "" "", sampleAction 2 0 "" "Buy" "" "" ""])
        = 8 :=
  ⟨rfl, by decide!,
    (calculateCoverageScore_eq
      (sampleStock [sampleAction 1 1 "" "Buy" "" "" "", sampleAction 2 0 "" "Buy" "" "" ""])).2.2
      (sampleAction 1 1 "" "Buy" "" "" "") (sampleAction 2 0 "" "Buy" "" "" "") rfl
      (by decide!) (by decide!)⟩

/-! ## The stored coverage score and confidence -/

/-- C8, as stated, fails: stock 1 of `sampleStore` has six retained actions, two of
them (the oldest) with a rating score above 60, so the coverage score over all
retained actions is 13; the stored coverage score is 5, because the scoring path
reads only the five latest actions. -/
theorem persisted_coverage_counterexample :
    (retainedActions sampleStore 1).length = 6
      ∧ (retainedActions sampleStore 1).countP
          (fun a => decide (getRatingScore a.RatingTo > 60)) = 2
      ∧ calculateCoverageScore (sampleStock (retainedActions sampleStore 1)) = 13
      ∧ (persistedScore sampleStore 100 1).map (fun r => r.CoverageScore) = some 5 := by
  decide!

/-- C8, amended: the coverage score stored by `calculateAndStoreRecommendationScore`
is `calculateCoverageScore` of the stock view built by `GetStockWithMetrics`, whose
actions are the five latest (by analysis date) of the retained actions of the stock
found: at most five actions of that stock, none older than a retained action left
out; so the stored score is 5 for three or more such actions plus 8 when at least two
of these at most five actions have a rating score above 60.  The stock found is the
one with the given id when that id exists and symbols are unique. -/
theorem persisted_coverage_latest_five (db : Store) (now : ℤ) (stockID : ℤ)
    (row : RecommendationScore) (h : persistedScore db now stockID = some row) :
    ∃ stock, GetStockBySymbol db (getStockSymbolByID db stockID) = some stock
      ∧ GetLatestAnalysisForStock db stock.ID 5 = (retainedActions db stock.ID).take 5
      ∧ (GetLatestAnalysisForStock db stock.ID 5).length ≤ 5
      ∧ row.CoverageScore = calculateCoverageScore
          { toStock := stock, LatestAnalysis := GetLatestAnalysisForStock db stock.ID 5 }
      ∧ row.CoverageScore
          = (if 3 ≤ (GetLatestAnalysisForStock db stock.ID 5).length then 5 else 0)
            + (if 2 ≤ (GetLatestAnalysisForStock db stock.ID 5).countP
                  fun a => decide (getRatingScore a.RatingTo > 60) then 8 else 0)
      ∧ (∀ a ∈ GetLatestAnalysisForStock db stock.ID 5,
          a ∈ db.stock_analysis ∧ a.StockID = stock.ID)
      ∧ (∀ a ∈ GetLatestAnalysisForStock db stock.ID 5,
          ∀ b ∈ (retainedActions db stock.ID).drop 5, b.AnalysisDate ≤ a.AnalysisDate)
      ∧ ((∃ s ∈ db.stocks, s.ID = stockID) →
          (∀ s ∈ db.stocks, ∀ s' ∈ db.stocks, s.Symbol = s'.Symbol → s = s') →
          stock.ID = stockID) := by
  obtain ⟨view, hv⟩ := persistedScore_view db now stockID row h
  obtain ⟨id, created, hrow⟩ := persistedScore_eq db now stockID view hv
  rw [h, Option.some.injEq] at hrow
  unfold GetStockWithMetrics at hv
  cases hs : GetStockBySymbol db (getStockSymbolByID db stockID) with
  | none => rw [hs] at hv; simp at hv
  | some stock =>
    rw [hs] at hv
    simp only [Option.some.injEq] at hv
    have hcov : row.CoverageScore = calculateCoverageScore
        { toStock := stock, LatestAnalysis := GetLatestAnalysisForStock db stock.ID 5 } := by
      rw [hrow, hv]
    refine ⟨stock, rfl, rfl, ?_, hcov, ?_, ?_, ?_, ?_⟩
    · exact List.length_take_le _ _
    · rw [hcov]
      exact calculateCoverageScore_formula _
    · exact fun a ha => GetLatestAnalysisForStock_mem db stock.ID 5 a ha
    · exact orderByAnalysisDateDesc_take_drop _ 5
    · rintro ⟨s, hs_mem, hs_id⟩ huniq
      unfold getStockSymbolByID at hs
      cases hf : db.stocks.find? (fun s => decide (s.ID = stockID)) with
      | none =>
        rw [List.find?_eq_none] at hf
        exact absurd (by simpa using hs_id) (hf s hs_mem)
      | some s0 =>
        rw [hf] at hs
        have h0 : s0.ID = stockID := by simpa using List.find?_some hf
        have h0mem : s0 ∈ db.stocks := List.mem_of_find?_eq_some hf
        have h1 : stock.Symbol = s0.Symbol := by
          simpa using List.find?_some (show db.stocks.find? _ = some stock from hs)
        have h1mem : stock ∈ db.stocks :=
          List.mem_of_find?_eq_some (show db.stocks.find? _ = some stock from hs)
        rw [huniq stock h1mem s0 h0mem h1]
        exact h0

/-- Instance of amended C8 at `sampleStore`: the stored coverage score 5 is the one of
the five latest actions. -/
theorem persisted_coverage_latest_five_witness :
    persistedScore sampleStore 100 1 = some sampleScoreRow
      ∧ ∃ stock, GetStockBySymbol sampleStore (getStockSymbolByID sampleStore 1) = some stock
        ∧ (GetLatestAnalysisForStock sampleStore stock.ID 5).length ≤ 5
        ∧ sampleScoreRow.CoverageScore = calculateCoverageScore
          { toStock := stock, LatestAnalysis := GetLatestAnalysisForStock sampleStore stock.ID 5 } :=
  ⟨by decide!,
    (persisted_coverage_latest_five sampleStore 100 1 sampleScoreRow (by decide!)).imp
      fun _ hx => ⟨hx.1, hx.2.2.1, hx.2.2.2.1⟩⟩

/-- C9: `getConfidence` is "High" exactly for totals of 75 or more, "Medium" exactly
for totals from 60 up to but excluding 75, and "Low" exactly below 60; and the
confidence of the score row stored by `calculateAndStoreRecommendationScore` is
`getConfidence` of the stored total. -/
theorem getConfidence_buckets (t : ℚ) :
    (getConfidence t = "High" ↔ 75 ≤ t)
      ∧ (getConfidence t = "Medium" ↔ 60 ≤ t ∧ t < 75)
      ∧ (getConfidence t = "Low" ↔ t < 60)
      ∧ getConfidence 75 = "High" ∧ getConfidence 60 = "Medium"
      ∧ ∀ (db : Store) (now stockID : ℤ) (row : RecommendationScore),
          persistedScore db now stockID = some row →
          row.Confidence = getConfidence row.TotalScore := by
  have hHM : ("High" : String) ≠ "Medium" := by decide
  have hHL : ("High" : String) ≠ "Low" := by decide
  have hML : ("Medium" : String) ≠ "Low" := by decide
  refine ⟨?_, ?_, ?_, by decide!, by decide!, ?_⟩
  · unfold getConfidence
    split_ifs with h1 h2
    · simpa using h1
    · simp only [hHM.symm, false_iff]; exact h1
    · simp only [hHL.symm, false_iff]; exact h1
  · unfold getConfidence
    split_ifs with h1 h2
    · simp only [hHM, false_iff]; intro h; linarith [h.2]
    · simp only [true_iff]; exact ⟨h2, lt_of_not_ge h1⟩
    · simp only [hML.symm, false_iff]; intro h; exact h2 h.1
  · unfold getConfidence
    split_ifs with h1 h2
    · simp only [hHL, false_iff]; intro h; linarith
    · simp only [hML, false_iff]; intro h; linarith
    · simp only [true_iff]; exact lt_of_not_ge h2
  · intro db now stockID row h
    obtain ⟨view, hv⟩ := persistedScore_view db now stockID row h
    obtain ⟨id, created, hrow⟩ := persistedScore_eq db now stockID view hv
    rw [h, Option.some.injEq] at hrow
    rw [hrow]

/-- Instance of C9 at `sampleStore`: the stored total 55 carries the confidence
"Low". -/
theorem getConfidence_buckets_witness :
    persistedScore sampleStore 100 1 = some sampleScoreRow
      ∧ sampleScoreRow.Confidence = getConfidence sampleScoreRow.TotalScore :=
  ⟨by decide!,
    (getConfidence_buckets 55).2.2.2.2.2 sampleStore 100 1 sampleScoreRow (by decide!)⟩

/-! ## The explanation text -/

/-- C10: for a stock with at least one action, `generateReason` is the join with
", " of the clauses that apply, in the fixed order rating clause, price target clause,
"New analyst coverage", "Multiple recent analyst updates"; it is the text "Analyst
coverage available from" followed by the brokerage exactly when no clause applies; the
price target clause is present only if both prices are positive and the exact relative
change exceeds 1/10; and the text depends only on the latest action and on whether
there are at least three actions. -/
theorem generateReason_clauses (stock : StockWithAnalysis) (score : ℚ)
    (latest : StockAnalysis) (rest : List StockAnalysis)
    (hL : stock.LatestAnalysis = latest :: rest) :
    generateReason stock score
        = (if reasonClauses latest (rest.length + 1) = [] then
            "Analyst coverage available from " ++ latest.Brokerage
          else strings.Join (reasonClauses latest (rest.length + 1)) ", ")
      ∧ (generateReason stock score = "Analyst coverage available from " ++ latest.Brokerage
          ↔ reasonClauses latest (rest.length + 1) = [])
      ∧ (priceClause latest ≠ [] →
          0 < extractPrice latest.TargetFrom ∧ 0 < extractPrice latest.TargetTo
          ∧ 1 / 10 < (extractPrice latest.TargetTo - extractPrice latest.TargetFrom)
              / extractPrice latest.TargetFrom)
      ∧ ∀ (stock' : StockWithAnalysis) (score' : ℚ) (rest' : List StockAnalysis),
          stock'.LatestAnalysis = latest :: rest' →
          (3 ≤ rest'.length + 1 ↔ 3 ≤ rest.length + 1) →
          generateReason stock' score' = generateReason stock score := by
  have heq : ∀ (st : StockWithAnalysis) (sc : ℚ) (r : List StockAnalysis),
      st.LatestAnalysis = latest :: r →
      generateReason st sc
        = (if reasonClauses latest (r.length + 1) = [] then
            "Analyst coverage available from " ++ latest.Brokerage
          else strings.Join (reasonClauses latest (r.length + 1)) ", ") := by
    intro st sc r h
    unfold generateReason
    rw [h]
    simp only [reasons_eq, List.length_cons, List.length_eq_zero]
  refine ⟨heq stock score rest hL, ?_, ?_, ?_⟩
  · rw [heq stock score rest hL]
    constructor
    · intro h
      by_contra hne
      rw [if_neg hne] at h
      obtain ⟨c, cs, hcs⟩ := List.exists_cons_of_ne_nil hne
      have hc : startsNotWithA c :=
        reasonClauses_startsNotWithA latest (rest.length + 1) c (by rw [hcs]; simp)
      obtain ⟨t, ht⟩ := strings.Join_data_cons c cs ", "
      obtain ⟨x, u, hu, hx⟩ := hc
      rw [hcs] at h
      have hd := congrArg String.data h
      rw [ht, hu, String.data_append] at hd
      have hA : "Analyst coverage available from ".data
          = 'A' :: "nalyst coverage available from ".data := rfl
      rw [hA] at hd
      simp only [List.cons_append, List.cons.injEq] at hd
      exact hx hd.1
    · intro h
      rw [if_pos h]
  · intro h
    obtain ⟨h1, h2, h3⟩ := (priceClause_ne_nil_iff latest).1 h
    refine ⟨h1, h2, lt_trans ?_ h3⟩
    unfold tenthMidpoint
    norm_num
  · intro stock' score' rest' hL' hlen
    rw [heq stock score rest hL, heq stock' score' rest' hL']
    have hu : updatesClause (rest'.length + 1) = updatesClause (rest.length + 1) := by
      unfold updatesClause
      by_cases h3 : 3 ≤ rest.length + 1
      · rw [if_pos h3, if_pos (hlen.2 h3)]
      · rw [if_neg h3, if_neg (fun h => h3 (hlen.1 h))]
    simp only [reasonClauses, hu]

/-- Instance of C10: the stock whose only action is Buy from Hold by Tiger Research
with the target moved from $10 to $12 gets the rating clause followed by the price
target clause. -/
theorem generateReason_clauses_witness :
    (sampleStock [sampleAction 1 0 "Hold" "Buy" "Upgraded" "$10" "$12"]).LatestAnalysis
        = sampleAction 1 0 "Hold" "Buy" "Upgraded" "$10" "$12" :: []
      ∧ reasonClauses (sampleAction 1 0 "Hold" "Buy" "Upgraded" "$10" "$12") 1
        = ["Buy rating from Tiger Research", "Price target raised by 20.0%"]
      ∧ generateReason (sampleStock [sampleAction 1 0 "Hold" "Buy" "Upgraded" "$10" "$12"]) 115
        = "Buy rating from Tiger Research, Price target raised by 20.0%" :=
  ⟨rfl, by decide!,
    ((generateReason_clauses
      (sampleStock [sampleAction 1 0 "Hold" "Buy" "Upgraded" "$10" "$12"]) 115
      (sampleAction 1 0 "Hold" "Buy" "Upgraded" "$10" "$12") [] rfl).1).trans (by decide!)⟩

open ProcessControlRepository

/-! ## Auxiliary facts: the process guard -/

namespace ProcessControlRepository

theorem StartProcess_fst (db : Store) (now : ℤ) (processName : String) :
    (StartProcess db now processName).1
      = { db with
          process_control := db.process_control.map fun p =>
            if decide (p.ProcessName = processName) && decide (p.IsRunning = false) then
              { p with IsRunning := true, UpdatedAt := now }
            else p } := by
  unfold StartProcess
  dsimp only
  split_ifs <;> rfl

theorem StartProcess_snd (db : Store) (now : ℤ) (processName : String) :
    (StartProcess db now processName).2 = none
      ↔ ∃ p ∈ db.process_control, p.ProcessName = processName ∧ p.IsRunning = false := by
  unfold StartProcess
  dsimp only
  split_ifs with h
  · simp only [List.countP_eq_zero, Bool.and_eq_true, decide_eq_true_eq, not_and] at h
    simp only [reduceCtorEq, false_iff, not_exists, not_and]
    intro p hp hn
    exact h p hp hn
  · simp only [List.countP_eq_zero, Bool.and_eq_true, decide_eq_true_eq, not_and, not_forall] at h
    simp only [true_iff]
    obtain ⟨p, hp, hn, hr⟩ := h
    exact ⟨p, hp, hn, by simpa using hr⟩

theorem StartProcess_unchanged (db : Store) (now : ℤ) (processName : String)
    (h : (StartProcess db now processName).2 ≠ none) :
    (StartProcess db now processName).1 = db := by
  rw [Ne, StartProcess_snd] at h
  rw [StartProcess_fst]
  have : (db.process_control.map fun p =>
      if decide (p.ProcessName = processName) && decide (p.IsRunning = false) then
        { p with IsRunning := true, UpdatedAt := now }
      else p) = db.process_control := by
    conv_rhs => rw [← List.map_id db.process_control]
    apply List.map_congr_left
    intro p hp
    have : ¬ (p.ProcessName = processName ∧ p.IsRunning = false) := fun hh => h ⟨p, hp, hh⟩
    simp only [Bool.and_eq_true, decide_eq_true_eq, this, if_false, id]
  rw [this]

theorem StartProcess_all_running (db : Store) (now : ℤ) (processName : String) :
    ∀ q ∈ (StartProcess db now processName).1.process_control,
      q.ProcessName = processName → q.IsRunning = true := by
  rw [StartProcess_fst]
  intro q hq hn
  simp only [List.mem_map] at hq
  obtain ⟨p, _, rfl⟩ := hq
  by_cases h : p.ProcessName = processName ∧ p.IsRunning = false
  · simp [h.1, h.2]
  · have h' : ¬ (decide (p.ProcessName = processName) && decide (p.IsRunning = false)) = true := by
      simpa using h
    rw [if_neg h'] at hn ⊢
    simp only [not_and, Bool.not_eq_false] at h
    exact h hn

end ProcessControlRepository

/-! ## The process guard -/

theorem wrapInt64_of_fits {n : ℤ} (h1 : -(2 ^ 63) ≤ n) (h2 : n < 2 ^ 63) : wrapInt64 n = n := by
  unfold wrapInt64
  rw [Int.emod_eq_of_lt (by omega) (by omega)]
  omega

theorem ProcessControlRepository.CanStartProcess_of_row {db : Store}
    {queryErr : Option String} {processName : String} {p : ProcessControl}
    (hg : GetProcessControl db queryErr processName = .ok (some p)) (now : ℤ) :
    CanStartProcess db queryErr now processName
      = if p.IsRunning = true then .ok false
        else
          match p.LastExecution with
          | none => .ok true
          | some lastExecution =>
            .ok (decide (now > lastExecution + wrapInt64 (p.IntervalMinutes * time.Minute))) := by
  unfold CanStartProcess
  generalize GetProcessControl db queryErr processName = read at hg
  subst hg
  rfl

/-- C14, as stated, fails: with an interval of 153722868 minutes the `int64` duration
wraps around, and one minute after the last execution `CanStartProcess` answers true
although `last_execution` plus the interval lies in the future. -/
theorem CanStartProcess_overflow_counterexample :
    CanStartProcess (guardStore false (some 0) 153722868) none time.Minute "stock_sync"
        = .ok true
      ∧ (0 : ℤ) + 153722868 * time.Minute > time.Minute := by
  decide

/-- C14, amended: `CanStartProcess` returns an error exactly when the read itself fails
or no row of the named process exists, and the error of a failed read is the one it
returns.  On the row it reads it answers false when `is_running`, true when not running
with a null `last_execution`, and otherwise whether `now` is strictly later than
`last_execution` plus the `int64` duration `interval_minutes * time.Minute`; that
duration is the interval in minutes whenever it fits an `int64`
(at most 153722867 minutes in absolute value), and then the answer is never true while
`last_execution + interval ≥ now`. -/
theorem CanStartProcess_spec (db : Store) (queryErr : Option String) (now : ℤ)
    (processName : String) :
    ((∃ err, CanStartProcess db queryErr now processName = .error err)
        ↔ queryErr ≠ none ∨ ∀ p ∈ db.process_control, p.ProcessName ≠ processName)
      ∧ (∀ err, queryErr = some err →
          CanStartProcess db queryErr now processName = .error err)
      ∧ ∀ p, GetProcessControl db queryErr processName = .ok (some p) →
          (p.IsRunning = true → CanStartProcess db queryErr now processName = .ok false)
            ∧ (p.IsRunning = false → p.LastExecution = none →
                CanStartProcess db queryErr now processName = .ok true)
            ∧ ∀ lastExecution, p.IsRunning = false → p.LastExecution = some lastExecution →
                CanStartProcess db queryErr now processName
                    = .ok (decide (now > lastExecution
                        + wrapInt64 (p.IntervalMinutes * time.Minute)))
                  ∧ (-153722867 ≤ p.IntervalMinutes → p.IntervalMinutes ≤ 153722867 →
                      CanStartProcess db queryErr now processName
                          = .ok (decide (now > lastExecution + p.IntervalMinutes * time.Minute))
                        ∧ (lastExecution + p.IntervalMinutes * time.Minute ≥ now →
                            CanStartProcess db queryErr now processName = .ok false)) := by
  have hfail : ∀ err, queryErr = some err →
      CanStartProcess db queryErr now processName = .error err := by
    intro err he
    subst he
    rfl
  refine ⟨?_, hfail, ?_⟩
  · cases hq : queryErr with
    | some qerr =>
      have := hfail qerr hq
      rw [hq] at this
      rw [this]
      simp
    | none =>
      simp only [ne_eq, not_true_eq_false, false_or]
      cases hf : db.process_control.find? (fun p => decide (p.ProcessName = processName)) with
      | none =>
        have hc : CanStartProcess db none now processName
            = .error ("process " ++ processName ++ " not found in control table") := by
          unfold CanStartProcess GetProcessControl
          simp only [hf]
        simp only [List.find?_eq_none, decide_eq_true_eq] at hf
        rw [hc]
        simp only [Except.error.injEq, exists_eq', true_iff]
        exact hf
      | some p =>
        have hg : GetProcessControl db none processName = .ok (some p) := by
          unfold GetProcessControl
          simp only [hf]
        have hp := List.find?_some hf
        have hm := List.mem_of_find?_eq_some hf
        simp only [decide_eq_true_eq] at hp
        have hne : ¬ ∀ q ∈ db.process_control, q.ProcessName ≠ processName :=
          fun hall => hall p hm hp
        simp only [hne, iff_false, not_exists]
        intro err
        rw [CanStartProcess_of_row hg]
        split_ifs
        · simp
        · cases p.LastExecution <;> simp
  · intro p hg
    rw [CanStartProcess_of_row hg]
    refine ⟨fun hr => by simp [hr], fun hr hl => by simp [hr, hl], ?_⟩
    intro lastExecution hr hl
    simp only [hr, hl, Bool.false_eq_true, if_false, true_and]
    intro h1 h2
    have hfit : wrapInt64 (p.IntervalMinutes * time.Minute) = p.IntervalMinutes * time.Minute := by
      apply wrapInt64_of_fits <;> simp only [time.Minute] <;> omega
    rw [hfit]
    refine ⟨rfl, fun hge => ?_⟩
    have : ¬ now > lastExecution + p.IntervalMinutes * time.Minute := by omega
    simp [this]

/-- C14, amended, at a concrete store: the sync process ran at time 0 with an interval
of 60 minutes; it cannot start at the sixtieth minute and can start one nanosecond
later; and when the read fails the answer is the error of the read. -/
theorem CanStartProcess_spec_witness :
    CanStartProcess (guardStore false (some 0) 60) none (60 * time.Minute) "stock_sync"
        = .ok false
      ∧ CanStartProcess (guardStore false (some 0) 60) none (60 * time.Minute + 1) "stock_sync"
          = .ok true
      ∧ CanStartProcess (guardStore false (some 0) 60) (some "driver: bad connection")
          (60 * time.Minute + 1) "stock_sync" = .error "driver: bad connection" :=
  ⟨((((CanStartProcess_spec (guardStore false (some 0) 60) none (60 * time.Minute)
      "stock_sync").2.2 _ rfl).2.2 0 rfl rfl).2 (by decide) (by decide)).2 (by decide),
   ((((CanStartProcess_spec (guardStore false (some 0) 60) none (60 * time.Minute + 1)
      "stock_sync").2.2 _ rfl).2.2 0 rfl rfl).2 (by decide) (by decide)).1.trans (by decide),
   (CanStartProcess_spec (guardStore false (some 0) 60) (some "driver: bad connection")
      (60 * time.Minute + 1) "stock_sync").2.1 _ rfl⟩

/-! ## Auxiliary facts: the natural key of analyst actions -/

theorem sameNaturalKey_iff (analysis row : StockAnalysis) :
    sameNaturalKey analysis row = true ↔ naturalKey row = naturalKey analysis := by
  simp only [sameNaturalKey, naturalKey, Bool.and_eq_true, decide_eq_true_eq, Prod.mk.injEq]
  tauto

theorem naturalKey_overwriteValues (analysis row : StockAnalysis) :
    naturalKey (overwriteValues analysis row) = naturalKey row := rfl

theorem valuesDiffer_overwriteValues (analysis row : StockAnalysis) :
    valuesDiffer analysis (overwriteValues analysis row) = false := by
  simp [valuesDiffer, overwriteValues]

theorem overwriteValues_of_not_differ {analysis row : StockAnalysis}
    (h : valuesDiffer analysis row = false) : overwriteValues analysis row = row := by
  simp only [valuesDiffer, Bool.or_eq_false_iff, decide_eq_false_iff_not, not_not] at h
  obtain ⟨⟨⟨⟨h1, h2⟩, h3⟩, h4⟩, h5⟩ := h
  cases row
  simp only [overwriteValues] at *
  simp [h1, h2, h3, h4, h5]

/-- The record that `CreateStockAnalysis` reports for an existing row is that row after
the update. -/
theorem reported_eq_overwriteValues {analysis row : StockAnalysis}
    (h : sameNaturalKey analysis row = true) :
    ({ analysis with ID := row.ID, CreatedAt := row.CreatedAt } : StockAnalysis)
      = overwriteValues analysis row := by
  rw [sameNaturalKey_iff] at h
  simp only [naturalKey, Prod.mk.injEq] at h
  obtain ⟨h1, h2, h3⟩ := h
  cases row
  cases analysis
  simp only [overwriteValues] at *
  simp [h1, h2, h3]

theorem filter_sameNaturalKey_of_unique {rows : List StockAnalysis}
    (hU : (rows.map naturalKey).Nodup) {x : StockAnalysis} (hx : x ∈ rows)
    (analysis : StockAnalysis) (hk : sameNaturalKey analysis x = true) :
    rows.filter (sameNaturalKey analysis) = [x] := by
  induction rows with
  | nil => cases hx
  | cons r rest ih =>
    simp only [List.map_cons, List.nodup_cons, List.mem_map, not_exists, not_and] at hU
    rcases List.mem_cons.mp hx with rfl | hx
    · rw [List.filter_cons_of_pos hk]
      congr 1
      rw [List.filter_eq_nil_iff]
      intro y hy hky
      rw [sameNaturalKey_iff] at hk hky
      exact hU.1 y hy (hky.trans hk.symm)
    · have hr : ¬ sameNaturalKey analysis r = true := by
        intro hkr
        rw [sameNaturalKey_iff] at hk hkr
        exact hU.1 x hx (hk.trans hkr.symm)
      rw [List.filter_cons_of_neg hr]
      exact ih hU.2 hx

theorem find?_sameNaturalKey_of_unique {rows : List StockAnalysis}
    (hU : (rows.map naturalKey).Nodup) {x : StockAnalysis} (hx : x ∈ rows)
    (analysis : StockAnalysis) (hk : sameNaturalKey analysis x = true) :
    rows.find? (sameNaturalKey analysis) = some x := by
  have h := filter_sameNaturalKey_of_unique hU hx analysis hk
  rw [← List.filter_head?, h]
  rfl

namespace StockRepository

/-- The branch of `CreateStockAnalysis` for a key that no row has: the record is
inserted with the next id of the sequence and `now` as creation time. -/
theorem CreateStockAnalysis_insert {db : Store} {analysis : StockAnalysis}
    (h : ∀ row ∈ db.stock_analysis, ¬ sameNaturalKey analysis row = true) (now : ℤ) :
    CreateStockAnalysis db now analysis
      = ({ db with
            stock_analysis := db.stock_analysis
              ++ [{ analysis with ID := db.stock_analysis_seq, CreatedAt := now }]
            stock_analysis_seq := db.stock_analysis_seq + 1 },
          { analysis with ID := db.stock_analysis_seq, CreatedAt := now }) := by
  have hf : db.stock_analysis.find? (sameNaturalKey analysis) = none :=
    List.find?_eq_none.mpr h
  unfold CreateStockAnalysis
  rw [hf]

/-- The branch of `CreateStockAnalysis` for a key that exactly the row `x` has: the
value fields of `x` are overwritten in place, and the call reports the row. -/
theorem CreateStockAnalysis_existing {db : Store} {analysis x : StockAnalysis}
    (hU : naturalKeyUnique db) (hx : x ∈ db.stock_analysis)
    (hk : sameNaturalKey analysis x = true) (now : ℤ) :
    CreateStockAnalysis db now analysis
      = ({ db with
            stock_analysis := db.stock_analysis.map fun row =>
              if sameNaturalKey analysis row = true then overwriteValues analysis row else row },
          overwriteValues analysis x) := by
  have hf := find?_sameNaturalKey_of_unique hU hx analysis hk
  have hmap : (db.stock_analysis.map fun row =>
        if (sameNaturalKey analysis row && valuesDiffer analysis row) = true then
          ({ row with
            TargetFrom := analysis.TargetFrom, TargetTo := analysis.TargetTo,
            Action := analysis.Action, RatingFrom := analysis.RatingFrom,
            RatingTo := analysis.RatingTo } : StockAnalysis)
        else row)
      = db.stock_analysis.map fun row =>
          if sameNaturalKey analysis row = true then overwriteValues analysis row else row := by
    apply List.map_congr_left
    intro row _
    by_cases h1 : sameNaturalKey analysis row = true
    · cases h2 : valuesDiffer analysis row
      · simp only [h1, Bool.and_false, Bool.false_eq_true, if_false, if_true]
        exact (overwriteValues_of_not_differ h2).symm
      · simp only [h1, Bool.and_self, if_true]
        rfl
    · simp [h1]
  unfold CreateStockAnalysis
  rw [hf]
  dsimp only
  rw [hmap]
  cases hd : db.stock_analysis.find? fun row =>
      sameNaturalKey analysis row && valuesDiffer analysis row with
  | none =>
    dsimp only
    rw [reported_eq_overwriteValues hk]
  | some updated =>
    dsimp only
    have hu := List.find?_some hd
    have hm := List.mem_of_find?_eq_some hd
    simp only [Bool.and_eq_true] at hu
    have hfu := find?_sameNaturalKey_of_unique hU hm analysis hu.1
    rw [hf] at hfu
    cases hfu
    rw [reported_eq_overwriteValues hk]

end StockRepository

/-! ## Idempotent ingestion -/

theorem map_overwrite_eq_of_unique {rows : List StockAnalysis}
    (hU : (rows.map naturalKey).Nodup) {x : StockAnalysis} (hx : x ∈ rows)
    (analysis : StockAnalysis) (hk : sameNaturalKey analysis x = true) :
    (rows.map fun row =>
        if sameNaturalKey analysis row = true then overwriteValues analysis row else row)
      = rows.map fun row => if row = x then overwriteValues analysis x else row := by
  apply List.map_congr_left
  intro row hrow
  by_cases hr : sameNaturalKey analysis row = true
  · have h1 := find?_sameNaturalKey_of_unique hU hx analysis hk
    have h2 := find?_sameNaturalKey_of_unique hU hrow analysis hr
    rw [h1] at h2
    cases h2
    simp [hr]
  · have hne : row ≠ x := fun h => hr (h ▸ hk)
    simp [hr, hne]

/-- C11: on a store in which the natural key (stock, analysis date, brokerage) is
unique, `CreateStockAnalysis` leaves exactly one row with the key of the record, the
row it reports; a second call with the same record, whenever it is made, changes
nothing in the store and reports the same row, with the id and creation time of the
first call; the natural key stays unique.  When a row with the key exists, the five
value fields of that row are overwritten and nothing else: its id and creation time
and every other row are kept, no row is added, and no id is taken from the sequence.
When no row has the key, the record is appended with the next id and `now` as
creation time. -/
theorem CreateStockAnalysis_idempotent (db : Store) (now later : ℤ) (analysis : StockAnalysis)
    (hU : naturalKeyUnique db) :
    (CreateStockAnalysis db now analysis).1.stock_analysis.filter (sameNaturalKey analysis)
        = [(CreateStockAnalysis db now analysis).2]
      ∧ CreateStockAnalysis (CreateStockAnalysis db now analysis).1 later analysis
          = CreateStockAnalysis db now analysis
      ∧ naturalKeyUnique (CreateStockAnalysis db now analysis).1
      ∧ (∀ existing ∈ db.stock_analysis, sameNaturalKey analysis existing = true →
          CreateStockAnalysis db now analysis
            = ({ db with
                  stock_analysis := db.stock_analysis.map fun row =>
                    if row = existing then overwriteValues analysis existing else row },
                overwriteValues analysis existing)
            ∧ (overwriteValues analysis existing).ID = existing.ID
            ∧ (overwriteValues analysis existing).CreatedAt = existing.CreatedAt
            ∧ (CreateStockAnalysis db now analysis).1.stock_analysis.length
                = db.stock_analysis.length)
      ∧ ((∀ row ∈ db.stock_analysis, ¬ sameNaturalKey analysis row = true) →
          CreateStockAnalysis db now analysis
            = ({ db with
                  stock_analysis := db.stock_analysis
                    ++ [{ analysis with ID := db.stock_analysis_seq, CreatedAt := now }]
                  stock_analysis_seq := db.stock_analysis_seq + 1 },
                { analysis with ID := db.stock_analysis_seq, CreatedAt := now })) := by
  have hsettled : ∀ (db1 : Store) (x : StockAnalysis), naturalKeyUnique db1 →
      x ∈ db1.stock_analysis → sameNaturalKey analysis x = true →
      valuesDiffer analysis x = false →
      CreateStockAnalysis db1 later analysis = (db1, x) := by
    intro db1 x hU1 hx hk hd
    rw [CreateStockAnalysis_existing hU1 hx hk, map_overwrite_eq_of_unique hU1 hx analysis hk,
      overwriteValues_of_not_differ hd]
    congr 1
    have : (db1.stock_analysis.map fun row => if row = x then x else row) = db1.stock_analysis := by
      conv_rhs => rw [← List.map_id db1.stock_analysis]
      apply List.map_congr_left
      intro row _
      by_cases h : row = x <;> simp [h]
    rw [this]
  by_cases hex : ∃ existing ∈ db.stock_analysis, sameNaturalKey analysis existing = true
  · obtain ⟨x, hx, hk⟩ := hex
    have hcall := CreateStockAnalysis_existing hU hx hk now
    have hmap := map_overwrite_eq_of_unique hU hx analysis hk
    have hU1 : naturalKeyUnique (CreateStockAnalysis db now analysis).1 := by
      rw [hcall]
      simp only [naturalKeyUnique, List.map_map]
      have : (naturalKey ∘ fun row =>
          if sameNaturalKey analysis row = true then overwriteValues analysis row else row)
          = naturalKey := by
        funext row
        simp only [Function.comp]
        split_ifs <;> rfl
      rw [this]
      exact hU
    have hmem : overwriteValues analysis x ∈ (CreateStockAnalysis db now analysis).1.stock_analysis := by
      rw [hcall]
      simp only [List.mem_map]
      exact ⟨x, hx, by simp [hk]⟩
    have hk1 : sameNaturalKey analysis (overwriteValues analysis x) = true := by
      rw [sameNaturalKey_iff, naturalKey_overwriteValues, ← sameNaturalKey_iff]
      exact hk
    refine ⟨?_, ?_, hU1, ?_, ?_⟩
    · have := filter_sameNaturalKey_of_unique hU1 hmem analysis hk1
      rw [this, hcall]
    · have := hsettled _ _ hU1 hmem hk1 (valuesDiffer_overwriteValues analysis x)
      rw [this, hcall]
    · intro existing he hke
      have h1 := find?_sameNaturalKey_of_unique hU hx analysis hk
      have h2 := find?_sameNaturalKey_of_unique hU he analysis hke
      rw [h1] at h2
      cases h2
      refine ⟨by rw [hcall, hmap], rfl, rfl, ?_⟩
      rw [hcall]
      simp
    · intro hnone
      exact absurd hk (hnone x hx)
  · have hnone : ∀ row ∈ db.stock_analysis, ¬ sameNaturalKey analysis row = true :=
      fun row hrow hk => hex ⟨row, hrow, hk⟩
    have hcall := CreateStockAnalysis_insert hnone now
    have hknew : sameNaturalKey analysis
        { analysis with ID := db.stock_analysis_seq, CreatedAt := now } = true := by
      rw [sameNaturalKey_iff]
      rfl
    have hU1 : naturalKeyUnique (CreateStockAnalysis db now analysis).1 := by
      rw [hcall]
      simp only [naturalKeyUnique, List.map_append, List.map_cons, List.map_nil]
      rw [List.nodup_append]
      refine ⟨hU, List.nodup_singleton _, ?_⟩
      simp only [List.disjoint_singleton, List.mem_map, not_exists, not_and]
      intro row hrow hkey
      exact hnone row hrow ((sameNaturalKey_iff _ _).mpr hkey)
    have hmem : ({ analysis with ID := db.stock_analysis_seq, CreatedAt := now } : StockAnalysis)
        ∈ (CreateStockAnalysis db now analysis).1.stock_analysis := by
      rw [hcall]
      simp
    have hnd : valuesDiffer analysis
        { analysis with ID := db.stock_analysis_seq, CreatedAt := now } = false := by
      simp [valuesDiffer]
    refine ⟨?_, ?_, hU1, ?_, fun _ => hcall⟩
    · have := filter_sameNaturalKey_of_unique hU1 hmem analysis hknew
      rw [this, hcall]
    · have := hsettled _ _ hU1 hmem hknew hnd
      rw [this, hcall]
    · intro existing he hke
      exact absurd hke (hnone existing he)

/-- C11 at `sampleStore`: the record has the key of the action of date 6 and a new
rating; the first call overwrites the rating of that row and reports its id 16, the
second call changes nothing. -/
theorem CreateStockAnalysis_idempotent_witness :
    naturalKeyUnique sampleStore
      ∧ (CreateStockAnalysis sampleStore 100 (sampleAction 0 6 "" "Buy" "" "" "")).2
          = sampleAction 16 6 "" "Buy" "" "" ""
      ∧ CreateStockAnalysis
            (CreateStockAnalysis sampleStore 100 (sampleAction 0 6 "" "Buy" "" "" "")).1 200
            (sampleAction 0 6 "" "Buy" "" "" "")
          = CreateStockAnalysis sampleStore 100 (sampleAction 0 6 "" "Buy" "" "" "") :=
  ⟨by unfold naturalKeyUnique; decide, by decide,
    (CreateStockAnalysis_idempotent sampleStore 100 200 (sampleAction 0 6 "" "Buy" "" "" "")
      (by unfold naturalKeyUnique; decide)).2.1⟩

/-! ## Auxiliary facts: ordering by analysis date -/

theorem StockRepository.sorted_orderByAnalysisDateDesc (rows : List StockAnalysis) :
    List.Sorted (fun a b : StockAnalysis => a.AnalysisDate ≥ b.AnalysisDate)
      (orderByAnalysisDateDesc rows) := by
  haveI : IsTotal StockAnalysis (fun a b => a.AnalysisDate ≥ b.AnalysisDate) :=
    ⟨fun a b => le_total b.AnalysisDate a.AnalysisDate⟩
  haveI : IsTrans StockAnalysis (fun a b => a.AnalysisDate ≥ b.AnalysisDate) :=
    ⟨fun a b c hab hbc => le_trans hbc hab⟩
  exact List.sorted_insertionSort _ rows

/-- Two lists of actions with the same members and pairwise distinct dates that are
both in the order of descending dates are equal. -/
theorem eq_of_perm_of_sortedDesc {xs ys : List StockAnalysis} (hp : xs.Perm ys)
    (hx : List.Sorted (fun a b : StockAnalysis => a.AnalysisDate ≥ b.AnalysisDate) xs)
    (hy : List.Sorted (fun a b : StockAnalysis => a.AnalysisDate ≥ b.AnalysisDate) ys)
    (hd : (xs.map fun a => a.AnalysisDate).Nodup) : xs = ys := by
  haveI : IsAntisymm StockAnalysis (fun a b => a.AnalysisDate > b.AnalysisDate) :=
    ⟨fun a b h1 h2 => absurd h1 (not_lt.mpr (le_of_lt h2))⟩
  have hd' : (ys.map fun a => a.AnalysisDate).Nodup := (hp.map _).nodup_iff.mp hd
  have strict : ∀ zs : List StockAnalysis,
      List.Sorted (fun a b : StockAnalysis => a.AnalysisDate ≥ b.AnalysisDate) zs →
      (zs.map fun a => a.AnalysisDate).Nodup →
      List.Sorted (fun a b : StockAnalysis => a.AnalysisDate > b.AnalysisDate) zs := by
    intro zs hs hn
    have hn' : zs.Pairwise fun a b => a.AnalysisDate ≠ b.AnalysisDate := by
      rw [List.Nodup, List.pairwise_map] at hn
      exact hn
    exact (List.Pairwise.and hs hn').imp fun h => lt_of_le_of_ne h.1 (Ne.symm h.2)
  exact List.eq_of_perm_of_sorted hp (strict xs hx hd) (strict ys hy hd')

theorem StockRepository.orderByAnalysisDateDesc_append_singleton (rows : List StockAnalysis)
    (x : StockAnalysis) (hd : ((rows ++ [x]).map fun a => a.AnalysisDate).Nodup) :
    orderByAnalysisDateDesc (rows ++ [x])
      = (orderByAnalysisDateDesc rows).orderedInsert
          (fun a b => a.AnalysisDate ≥ b.AnalysisDate) x := by
  haveI : IsTotal StockAnalysis (fun a b => a.AnalysisDate ≥ b.AnalysisDate) :=
    ⟨fun a b => le_total b.AnalysisDate a.AnalysisDate⟩
  haveI : IsTrans StockAnalysis (fun a b => a.AnalysisDate ≥ b.AnalysisDate) :=
    ⟨fun a b c hab hbc => le_trans hbc hab⟩
  have hp1 : (orderByAnalysisDateDesc (rows ++ [x])).Perm (rows ++ [x]) :=
    List.perm_insertionSort _ _
  have hp2 : ((orderByAnalysisDateDesc rows).orderedInsert
      (fun a b => a.AnalysisDate ≥ b.AnalysisDate) x).Perm (rows ++ [x]) :=
    ((List.perm_orderedInsert _ x _).trans
      ((List.perm_insertionSort _ rows).cons x)).trans (List.perm_append_singleton x rows).symm
  apply eq_of_perm_of_sortedDesc (hp1.trans hp2.symm) (sorted_orderByAnalysisDateDesc _)
  · exact (sorted_orderByAnalysisDateDesc rows).orderedInsert x _
  · exact (hp1.map _).nodup_iff.mpr hd

theorem List.take_orderedInsert_take {α : Type} (r : α → α → Prop) [DecidableRel r] (x : α) :
    ∀ (k : ℕ) (l : List α),
      ((l.take k).orderedInsert r x).take k = (l.orderedInsert r x).take k
  | 0, l => by simp
  | k + 1, [] => by simp
  | k + 1, a :: l => by
    simp only [List.take_succ_cons, List.orderedInsert]
    split_ifs with h
    · simp only [List.take_succ_cons]
      congr 1
      cases k with
      | zero => simp
      | succ j => simp [List.take_take]
    · simp only [List.take_succ_cons]
      congr 1
      exact List.take_orderedInsert_take r x k l

/-- Keeping the rows whose id is among the ids of the `k` latest rows keeps exactly the
`k` latest rows, when ids and dates are pairwise distinct. -/
theorem StockRepository.orderByAnalysisDateDesc_filter_kept (rows : List StockAnalysis) (k : ℕ)
    (hid : (rows.map fun a => a.ID).Nodup) (hd : (rows.map fun a => a.AnalysisDate).Nodup) :
    orderByAnalysisDateDesc (rows.filter fun a =>
        decide (a.ID ∈ ((orderByAnalysisDateDesc rows).take k).map fun a => a.ID))
      = (orderByAnalysisDateDesc rows).take k := by
  have hperm : (orderByAnalysisDateDesc rows).Perm rows := List.perm_insertionSort _ rows
  have hfilter : (rows.filter fun a =>
        decide (a.ID ∈ ((orderByAnalysisDateDesc rows).take k).map fun a => a.ID))
      = rows.filter fun a => decide (a ∈ (orderByAnalysisDateDesc rows).take k) := by
    apply List.filter_congr
    intro a ha
    congr 1
    apply propext
    constructor
    · intro h
      obtain ⟨b, hb, hab⟩ := List.mem_map.mp h
      have hb' : b ∈ rows := hperm.mem_iff.mp (List.mem_of_mem_take hb)
      have : b = a := List.inj_on_of_nodup_map hid hb' ha hab
      exact this ▸ hb
    · intro h
      exact List.mem_map.mpr ⟨a, h, rfl⟩
  rw [hfilter]
  have hnd : rows.Nodup := List.Nodup.of_map _ hid
  have hsub : ((orderByAnalysisDateDesc rows).take k).Sublist (orderByAnalysisDateDesc rows) :=
    List.take_sublist _ _
  have hnd2 : ((orderByAnalysisDateDesc rows).take k).Nodup :=
    (hperm.nodup_iff.mpr hnd).sublist hsub
  have hp : (rows.filter fun a => decide (a ∈ (orderByAnalysisDateDesc rows).take k)).Perm
      ((orderByAnalysisDateDesc rows).take k) := by
    apply (List.perm_ext_iff_of_nodup (hnd.filter _) hnd2).mpr
    intro a
    simp only [List.mem_filter, decide_eq_true_eq]
    constructor
    · exact fun h => h.2
    · exact fun h => ⟨hperm.mem_iff.mp (List.mem_of_mem_take h), h⟩
  apply eq_of_perm_of_sortedDesc ((List.perm_insertionSort _ _).trans hp)
    (sorted_orderByAnalysisDateDesc _)
  · exact (sorted_orderByAnalysisDateDesc rows).sublist hsub
  · have h1 : ((rows.filter fun a =>
        decide (a ∈ (orderByAnalysisDateDesc rows).take k)).map fun a => a.AnalysisDate).Nodup :=
      hd.sublist ((List.filter_sublist _).map _)
    exact ((List.perm_insertionSort _ _).map _).nodup_iff.mpr h1

/-! ## Auxiliary facts: retention -/

theorem StockRepository.actionsOf_DeleteOldAnalysis (db : Store) (stockID : ℤ) (keepCount : ℕ) :
    actionsOf (DeleteOldAnalysis db stockID keepCount) stockID
      = (actionsOf db stockID).filter fun a =>
          decide (a.ID ∈ ((orderByAnalysisDateDesc (actionsOf db stockID)).take keepCount).map
            fun a => a.ID) := by
  simp only [actionsOf, DeleteOldAnalysis, List.filter_filter]
  apply List.filter_congr
  intro a _
  by_cases h : a.StockID = stockID <;> simp [h]

theorem StockRepository.actionsOfOthers_DeleteOldAnalysis (db : Store) (stockID : ℤ)
    (keepCount : ℕ) :
    actionsOfOthers (DeleteOldAnalysis db stockID keepCount) stockID
      = actionsOfOthers db stockID := by
  simp only [actionsOfOthers, DeleteOldAnalysis, List.filter_filter]
  apply List.filter_congr
  intro a _
  by_cases h : a.StockID = stockID <;> simp [h]

theorem StockRepository.DeleteOldAnalysis_seq (db : Store) (stockID : ℤ) (keepCount : ℕ) :
    (DeleteOldAnalysis db stockID keepCount).stock_analysis_seq = db.stock_analysis_seq := rfl

theorem asIngested_date (a : StockAnalysis) : (asIngested a).AnalysisDate = a.AnalysisDate := rfl

theorem StockRepository.map_asIngested_orderByAnalysisDateDesc (rows : List StockAnalysis) :
    (orderByAnalysisDateDesc rows).map asIngested
      = orderByAnalysisDateDesc (rows.map asIngested) := by
  unfold orderByAnalysisDateDesc
  exact List.map_insertionSort _ _ asIngested rows fun _ _ _ _ => Iff.rfl

theorem map_date_map_asIngested (rows : List StockAnalysis) :
    ((rows.map asIngested).map fun a => a.AnalysisDate) = rows.map fun a => a.AnalysisDate := by
  simp [List.map_map, Function.comp, asIngested_date]

theorem RetentionState.dates_sublist {db : Store} {stockID : ℤ} {ingested : List StockAnalysis}
    (h : RetentionState db stockID ingested) :
    ∃ ds : List ℤ, ds.Perm ((actionsOf db stockID).map fun a => a.AnalysisDate)
      ∧ ds.Subperm (ingested.map fun a => a.AnalysisDate) := by
  refine ⟨((orderByAnalysisDateDesc (actionsOf db stockID)).map asIngested).map
    fun a => a.AnalysisDate, ?_, ?_⟩
  · rw [map_date_map_asIngested]
    exact (List.perm_insertionSort _ _).map _
  · rw [h.1, map_date_map_asIngested]
    have h1 : (((orderByAnalysisDateDesc ingested).take 10).map fun a => a.AnalysisDate).Sublist
        ((orderByAnalysisDateDesc ingested).map fun a => a.AnalysisDate) :=
      (List.take_sublist _ _).map _
    exact h1.subperm.trans ((List.perm_insertionSort _ ingested).map _).subperm

theorem StockRepository.map_orderByAnalysisDateDesc_append_singleton
    (rows : List StockAnalysis) (x : StockAnalysis)
    (hd : ((rows ++ [x]).map fun a => a.AnalysisDate).Nodup) :
    (orderByAnalysisDateDesc (rows ++ [x])).map asIngested
      = ((orderByAnalysisDateDesc rows).map asIngested).orderedInsert
          (fun a b => a.AnalysisDate ≥ b.AnalysisDate) (asIngested x) := by
  rw [orderByAnalysisDateDesc_append_singleton rows x hd]
  exact List.map_orderedInsert _ _ asIngested _ x (fun _ _ => Iff.rfl) (fun _ _ => Iff.rfl)

theorem RetentionState.step {db : Store} {stockID : ℤ} {ingested : List StockAnalysis}
    (h : RetentionState db stockID ingested) (now : ℤ) (a : StockAnalysis)
    (ha : a.StockID = stockID)
    (hd : ((ingested ++ [a]).map fun a => a.AnalysisDate).Nodup) :
    RetentionState (ingestAction db (now, a)) stockID (ingested ++ [a])
      ∧ actionsOfOthers (ingestAction db (now, a)) stockID = actionsOfOthers db stockID := by
  obtain ⟨ds, hds1, hds2⟩ := h.dates_sublist
  have hd0 : (ingested.map fun a => a.AnalysisDate).Nodup := by
    rw [List.map_append] at hd
    exact (List.nodup_append.mp hd).1
  have hanew : a.AnalysisDate ∉ ingested.map fun a => a.AnalysisDate := by
    rw [List.map_append, List.nodup_append] at hd
    intro hm
    exact hd.2.2 hm (by simp)
  have hRd : ((actionsOf db stockID).map fun a => a.AnalysisDate).Nodup := by
    obtain ⟨l, hl1, hl2⟩ := hds2
    exact hds1.nodup_iff.mp (hl1.nodup_iff.mp (hd0.sublist hl2))
  have hanew' : a.AnalysisDate ∉ (actionsOf db stockID).map fun a => a.AnalysisDate :=
    fun hm => hanew (hds2.subset (hds1.mem_iff.mpr hm))
  -- the call of `CreateStockAnalysis` inserts
  have hnone : ∀ row ∈ db.stock_analysis, ¬ sameNaturalKey a row = true := by
    intro row hrow hk
    rw [sameNaturalKey_iff] at hk
    simp only [naturalKey, Prod.mk.injEq] at hk
    apply hanew'
    refine List.mem_map.mpr ⟨row, ?_, hk.2.1⟩
    simp only [actionsOf, List.mem_filter, decide_eq_true_eq]
    exact ⟨hrow, hk.1.trans ha⟩
  have hcreate := CreateStockAnalysis_insert hnone now
  set new : StockAnalysis := { a with ID := db.stock_analysis_seq, CreatedAt := now } with hnew
  have hR1 : actionsOf (CreateStockAnalysis db now a).1 stockID = actionsOf db stockID ++ [new] := by
    rw [hcreate]
    simp only [actionsOf, List.filter_append]
    congr 1
    simp [hnew, ha]
  have hO1 : actionsOfOthers (CreateStockAnalysis db now a).1 stockID
      = actionsOfOthers db stockID := by
    rw [hcreate]
    simp only [actionsOfOthers, List.filter_append]
    simp [ha]
  have hseq1 : (CreateStockAnalysis db now a).1.stock_analysis_seq = db.stock_analysis_seq + 1 := by
    rw [hcreate]
  have hid1 : ((actionsOf db stockID ++ [new]).map fun a => a.ID).Nodup := by
    rw [List.map_append, List.nodup_append]
    refine ⟨h.2.2, List.nodup_singleton _, ?_⟩
    simp only [List.map_cons, List.map_nil, List.disjoint_singleton, List.mem_map, not_exists,
      not_and]
    intro row hrow hid
    have := h.2.1 row hrow
    rw [hid] at this
    exact lt_irrefl _ this
  have hd1 : ((actionsOf db stockID ++ [new]).map fun a => a.AnalysisDate).Nodup := by
    rw [List.map_append, List.nodup_append]
    refine ⟨hRd, List.nodup_singleton _, ?_⟩
    simp only [List.map_cons, List.map_nil, List.disjoint_singleton]
    exact hanew'
  have hR2 : actionsOf (ingestAction db (now, a)) stockID
      = (actionsOf db stockID ++ [new]).filter fun x =>
          decide (x.ID ∈ ((orderByAnalysisDateDesc (actionsOf db stockID ++ [new])).take 10).map
            fun a => a.ID) := by
    unfold ingestAction
    dsimp only
    rw [ha, actionsOf_DeleteOldAnalysis, hR1]
  refine ⟨⟨?_, ?_, ?_⟩, ?_⟩
  · have hasI : asIngested new = asIngested a := rfl
    rw [hR2, orderByAnalysisDateDesc_filter_kept _ 10 hid1 hd1, List.map_take, List.map_take,
      map_orderByAnalysisDateDesc_append_singleton _ _ hd1,
      map_orderByAnalysisDateDesc_append_singleton _ _ hd, h.1, hasI, List.map_take,
      List.take_orderedInsert_take]
  · intro x hx
    rw [hR2] at hx
    have hx' := List.mem_of_mem_filter hx
    unfold ingestAction
    rw [DeleteOldAnalysis_seq, hseq1]
    rcases List.mem_append.mp hx' with hx1 | hx1
    · have := h.2.1 x hx1
      omega
    · rw [List.mem_singleton.mp hx1]
      simp [hnew]
  · rw [hR2]
    exact hid1.sublist ((List.filter_sublist _).map _)
  · unfold ingestAction
    dsimp only
    rw [ha, actionsOfOthers_DeleteOldAnalysis, hO1]

/-! ## Retention -/

theorem RetentionState.foldl (stockID : ℤ) :
    ∀ (inputs : List (ℤ × StockAnalysis)) (db : Store) (ingested : List StockAnalysis),
      RetentionState db stockID ingested →
      (∀ input ∈ inputs, input.2.StockID = stockID) →
      ((ingested ++ inputs.map Prod.snd).map fun a => a.AnalysisDate).Nodup →
      RetentionState (inputs.foldl ingestAction db) stockID (ingested ++ inputs.map Prod.snd)
        ∧ actionsOfOthers (inputs.foldl ingestAction db) stockID = actionsOfOthers db stockID
  | [], db, ingested, h, _, _ => by
    simp only [List.map_nil, List.append_nil, List.foldl_nil, and_true]
    exact h
  | input :: inputs, db, ingested, h, hs, hd => by
    have hd1 : ((ingested ++ [input.2]).map fun a => a.AnalysisDate).Nodup := by
      have : (ingested ++ (input :: inputs).map Prod.snd)
          = (ingested ++ [input.2]) ++ inputs.map Prod.snd := by simp
      rw [this, List.map_append] at hd
      exact (List.nodup_append.mp hd).1
    have hstep := h.step input.1 input.2 (hs input (List.mem_cons_self _ _)) hd1
    have hrec := RetentionState.foldl stockID inputs (ingestAction db (input.1, input.2))
      (ingested ++ [input.2]) hstep.1 (fun i hi => hs i (List.mem_cons_of_mem _ hi))
      (by simpa using hd)
    simp only [List.foldl_cons, List.map_cons]
    have e : (ingested ++ input.2 :: inputs.map Prod.snd)
        = (ingested ++ [input.2]) ++ inputs.map Prod.snd := by simp
    rw [e]
    exact ⟨hrec.1, hrec.2.trans hstep.2⟩

/-- C12: when `n` actions of one stock with pairwise distinct analysis dates are
ingested one at a time, in any order, into a store without actions of that stock,
each by `CreateStockAnalysis` followed by `DeleteOldAnalysis` with the limit 10, then
exactly `min n 10` actions of the stock remain; in the order of descending dates they
are the `min n 10` latest of the ingested actions, with the id and creation time that
the store assigned; and the actions of the other stocks are as before. -/
theorem retention_keeps_latest_ten (db : Store) (stockID : ℤ)
    (inputs : List (ℤ × StockAnalysis))
    (hstock : ∀ input ∈ inputs, input.2.StockID = stockID)
    (hdates : (inputs.map fun input => input.2.AnalysisDate).Nodup)
    (hnone : ∀ a ∈ db.stock_analysis, a.StockID ≠ stockID) :
    (actionsOf (inputs.foldl ingestAction db) stockID).length = min inputs.length 10
      ∧ (retainedActions (inputs.foldl ingestAction db) stockID).map asIngested
          = ((orderByAnalysisDateDesc (inputs.map Prod.snd)).take (min inputs.length 10)).map
              asIngested
      ∧ (∀ a ∈ actionsOf (inputs.foldl ingestAction db) stockID,
          ∀ input ∈ inputs, asIngested input.2 ∉
              (actionsOf (inputs.foldl ingestAction db) stockID).map asIngested →
            input.2.AnalysisDate < a.AnalysisDate)
      ∧ actionsOfOthers (inputs.foldl ingestAction db) stockID = db.stock_analysis := by
  have h0 : RetentionState db stockID [] := by
    have : actionsOf db stockID = [] := by
      simp only [actionsOf, List.filter_eq_nil_iff, decide_eq_true_eq]
      exact hnone
    simp [RetentionState, this, orderByAnalysisDateDesc]
  have hmain := RetentionState.foldl stockID inputs db [] h0 hstock
    (by simpa [List.map_map, Function.comp] using hdates)
  simp only [List.nil_append] at hmain
  obtain ⟨⟨h1, _, _⟩, h2⟩ := hmain
  have hothers : actionsOfOthers db stockID = db.stock_analysis := by
    simp only [actionsOfOthers, List.filter_eq_self, decide_eq_true_eq]
    exact hnone
  have hlen : (actionsOf (inputs.foldl ingestAction db) stockID).length = min inputs.length 10 := by
    have := congrArg List.length h1
    simp only [List.length_map, List.length_take] at this
    rw [orderByAnalysisDateDesc, List.length_insertionSort, orderByAnalysisDateDesc,
      List.length_insertionSort, List.length_map] at this
    rw [this, min_comm]
  have htake : (orderByAnalysisDateDesc (inputs.map Prod.snd)).take (min inputs.length 10)
      = (orderByAnalysisDateDesc (inputs.map Prod.snd)).take 10 := by
    rcases le_total inputs.length 10 with hle | hle
    · rw [min_eq_left hle, List.take_of_length_le, List.take_of_length_le]
      · rw [orderByAnalysisDateDesc, List.length_insertionSort, List.length_map]
        exact hle
      · rw [orderByAnalysisDateDesc, List.length_insertionSort, List.length_map]
    · rw [min_eq_right hle]
  refine ⟨hlen, ?_, ?_, h2.trans hothers⟩
  · rw [htake]
    exact h1
  · intro a ha input hinput hout
    -- `input` is not among the ten latest, `a` is
    have hsortedI := sorted_orderByAnalysisDateDesc (inputs.map Prod.snd)
    have hmemI : input.2 ∈ orderByAnalysisDateDesc (inputs.map Prod.snd) :=
      (mem_orderByAnalysisDateDesc _ _).mpr (List.mem_map.mpr ⟨input, hinput, rfl⟩)
    have hperm : ((orderByAnalysisDateDesc (actionsOf (inputs.foldl ingestAction db) stockID)).map
        asIngested).Perm ((actionsOf (inputs.foldl ingestAction db) stockID).map asIngested) :=
      (List.perm_insertionSort _ _).map _
    have hnotin : input.2 ∉ (orderByAnalysisDateDesc (inputs.map Prod.snd)).take 10 := by
      intro hin
      apply hout
      apply hperm.mem_iff.mp
      rw [h1]
      exact List.mem_map.mpr ⟨_, hin, rfl⟩
    have hdrop : input.2 ∈ (orderByAnalysisDateDesc (inputs.map Prod.snd)).drop 10 := by
      have := hmemI
      rw [← List.take_append_drop 10 (orderByAnalysisDateDesc (inputs.map Prod.snd)),
        List.mem_append] at this
      exact this.resolve_left hnotin
    have ha' : asIngested a ∈ ((orderByAnalysisDateDesc (inputs.map Prod.snd)).take 10).map
        asIngested := by
      rw [← h1]
      exact hperm.mem_iff.mpr (List.mem_map.mpr ⟨a, ha, rfl⟩)
    obtain ⟨b, hb, hba⟩ := List.mem_map.mp ha'
    have hle := orderByAnalysisDateDesc_take_drop (inputs.map Prod.snd) 10 b hb input.2 hdrop
    have hbd : b.AnalysisDate = a.AnalysisDate := by
      have := congrArg (fun x => x.AnalysisDate) hba
      simpa [asIngested_date] using this
    have hne : input.2.AnalysisDate ≠ b.AnalysisDate := by
      intro heq
      have hbI : b ∈ inputs.map Prod.snd :=
        (mem_orderByAnalysisDateDesc _ _).mp (List.mem_of_mem_take hb)
      obtain ⟨ib, hib, rfl⟩ := List.mem_map.mp hbI
      have : input = ib := List.inj_on_of_nodup_map hdates hinput hib heq
      rw [this] at hnotin
      exact hnotin hb
    rw [← hbd]
    exact lt_of_le_of_ne hle hne

/-- C12 for fifteen actions: the actions of the dates 1 to 15 are ingested in a mixed
order into the empty store; ten remain, those of the dates 15 down to 6. -/
theorem retention_keeps_latest_ten_witness :
    (fifteenActions.map fun input => input.2.AnalysisDate).Nodup
      ∧ (actionsOf (fifteenActions.foldl ingestAction emptyStore) 1).length = 10
      ∧ (retainedActions (fifteenActions.foldl ingestAction emptyStore) 1).map
          (fun a => a.AnalysisDate) = [15, 14, 13, 12, 11, 10, 9, 8, 7, 6] :=
  ⟨by decide,
    (retention_keeps_latest_ten emptyStore 1 fifteenActions (by decide) (by decide)
      (by decide)).1,
    by decide!⟩

/-! ## Auxiliary facts: the sync run -/

theorem StockRepository.CreateStock_process_control (db : Store) (now : ℤ) (stock : Stock) :
    (CreateStock db now stock).1.process_control = db.process_control := by
  unfold CreateStock
  split <;> rfl

theorem StockRepository.CreateStockAnalysis_process_control (db : Store) (now : ℤ)
    (analysis : StockAnalysis) :
    (CreateStockAnalysis db now analysis).1.process_control = db.process_control := by
  unfold CreateStockAnalysis
  split
  · dsimp only
    split <;> rfl
  · rfl

theorem StockService.calculateAndStoreRecommendationScore_process_control {db db' : Store}
    {now stockID : ℤ} (h : calculateAndStoreRecommendationScore db now stockID = .ok db') :
    db'.process_control = db.process_control := by
  unfold calculateAndStoreRecommendationScore at h
  split at h
  · cases h
  · simp only [Except.ok.injEq] at h
    rw [← h]
    unfold UpsertRecommendationScore
    dsimp only
    split_ifs <;> rfl

theorem StockService.scoreStep_process_control (db : Store) (now stockID : ℤ) :
    (match calculateAndStoreRecommendationScore db now stockID with
      | .ok db' => db'
      | .error _ => db).process_control = db.process_control := by
  cases h : calculateAndStoreRecommendationScore db now stockID with
  | ok db' => exact calculateAndStoreRecommendationScore_process_control h
  | error _ => rfl

theorem StockRepository.DeleteOldAnalysis_process_control (db : Store) (stockID : ℤ) (k : ℕ) :
    (DeleteOldAnalysis db stockID k).process_control = db.process_control := rfl

theorem StockService.syncItem_process_control (w : SyncWorld) (st : SyncState)
    (item : clients.StockAnalysis) :
    (syncItem w st item).db.process_control = st.db.process_control := by
  unfold syncItem
  dsimp only
  split_ifs <;>
    first
    | rfl
    | (refine (scoreStep_process_control _ _ _).trans ?_
       simp only [DeleteOldAnalysis_process_control, CreateStockAnalysis_process_control,
        CreateStock_process_control])
    | simp only [DeleteOldAnalysis_process_control, CreateStockAnalysis_process_control,
        CreateStock_process_control]

theorem StockService.syncItem_sameCore (w : SyncWorld) {s t : SyncState}
    (h : SyncState.sameCore s t) (item : clients.StockAnalysis) :
    SyncState.sameCore (syncItem w s item) (syncItem w t item) := by
  obtain ⟨h1, h2, h3⟩ := h
  unfold syncItem
  dsimp only
  rw [h1, h2, h3]
  split_ifs <;> exact ⟨rfl, rfl, rfl⟩

theorem StockService.foldl_syncItem_sameCore (w : SyncWorld) :
    ∀ (items : List clients.StockAnalysis) {s t : SyncState}, SyncState.sameCore s t →
      SyncState.sameCore (items.foldl (syncItem w) s) (items.foldl (syncItem w) t)
  | [], _, _, h => h
  | item :: items, _, _, h => by
    simp only [List.foldl_cons]
    exact foldl_syncItem_sameCore w items (syncItem_sameCore w h item)

theorem exists_extra_calls (init extra : List Call) (ticker : String)
    (h2 : extra.filterMap Call.createdSymbol = [ticker])
    (h3 : extra.filterMap Call.fetchedCursor = [])
    (h4 : Call.StartStockSync ∉ extra) (h5 : Call.FinishStockSync ∉ extra) :
    ∃ e, init ++ extra = init ++ e ∧ e.filterMap Call.createdSymbol = [ticker]
      ∧ e.filterMap Call.fetchedCursor = []
      ∧ Call.StartStockSync ∉ e ∧ Call.FinishStockSync ∉ e :=
  ⟨extra, rfl, h2, h3, h4, h5⟩

/-- The calls that the loop body adds for one item: one `CreateStock` call, for the
ticker of the item, and no call of the process guard or the feed. -/
theorem StockService.syncItem_calls (w : SyncWorld) (st : SyncState)
    (item : clients.StockAnalysis) :
    ∃ extra, (syncItem w st item).calls = st.calls ++ extra
      ∧ extra.filterMap Call.createdSymbol = [item.Ticker]
      ∧ extra.filterMap Call.fetchedCursor = []
      ∧ Call.StartStockSync ∉ extra ∧ Call.FinishStockSync ∉ extra := by
  unfold syncItem
  dsimp only
  split_ifs
  all_goals
    simp only [List.append_assoc]
    exact exists_extra_calls _ _ _ rfl rfl (by simp) (by simp)

theorem StockService.foldl_syncItem_calls (w : SyncWorld) :
    ∀ (items : List clients.StockAnalysis) (st : SyncState),
      ∃ extra, (items.foldl (syncItem w) st).calls = st.calls ++ extra
        ∧ extra.filterMap Call.createdSymbol = (items.map fun item => item.Ticker)
        ∧ extra.filterMap Call.fetchedCursor = []
        ∧ Call.StartStockSync ∉ extra ∧ Call.FinishStockSync ∉ extra
  | [], st => ⟨[], by simp, rfl, rfl, by simp, by simp⟩
  | item :: items, st => by
    obtain ⟨e1, h1, h2, h3, h4, h5⟩ := syncItem_calls w st item
    obtain ⟨e2, g1, g2, g3, g4, g5⟩ := foldl_syncItem_calls w items (syncItem w st item)
    refine ⟨e1 ++ e2, ?_, ?_, ?_, ?_, ?_⟩
    · simp only [List.foldl_cons]
      rw [g1, h1, List.append_assoc]
    · rw [List.filterMap_append, h2, g2]
      rfl
    · rw [List.filterMap_append, h3, g3]
      rfl
    · simp only [List.mem_append, not_or]
      exact ⟨h4, g4⟩
    · simp only [List.mem_append, not_or]
      exact ⟨h5, g5⟩

theorem StockService.foldl_syncItem_process_control (w : SyncWorld) :
    ∀ (items : List clients.StockAnalysis) (st : SyncState),
      (items.foldl (syncItem w) st).db.process_control = st.db.process_control
  | [], _ => rfl
  | item :: items, st => by
    simp only [List.foldl_cons]
    rw [foldl_syncItem_process_control w items, syncItem_process_control]

theorem SyncState.sameCore.trans {s t u : SyncState} (h1 : SyncState.sameCore s t)
    (h2 : SyncState.sameCore t u) : SyncState.sameCore s u :=
  ⟨h1.1.trans h2.1, h1.2.1.trans h2.2.1, h1.2.2.trans h2.2.2⟩

theorem feedItems_cons (page : clients.StockListResponse)
    (pages : List clients.StockListResponse) :
    feedItems (page :: pages) = page.Items ++ feedItems pages := by
  simp [feedItems]

/-- The loop of a sync run along a feed that ends: it leaves the loop after the pages
of the feed walk, having run the loop body on every item of these pages in order. -/
theorem StockService.drainFeed_of_feedWalk (w : SyncWorld) :
    ∀ (fuel : ℕ) (cursor : String) (st : SyncState)
      (pages : List clients.StockListResponse) (ferr : Option String),
      feedWalk w.GetStocksList fuel cursor = some (pages, ferr) →
      ∃ st', drainFeed w fuel cursor st
            = some (st', ferr.map fun err => "failed to fetch stocks from API: " ++ err)
        ∧ SyncState.sameCore st' ((feedItems pages).foldl (syncItem w) st)
        ∧ ∃ extra, st'.calls = st.calls ++ extra
          ∧ extra.filterMap Call.createdSymbol = ((feedItems pages).map fun item => item.Ticker)
          ∧ (extra.filterMap Call.fetchedCursor).length
              = pages.length + (if ferr = none then 0 else 1)
          ∧ Call.StartStockSync ∉ extra ∧ Call.FinishStockSync ∉ extra
  | 0, _, _, _, _, h => by simp [feedWalk] at h
  | fuel + 1, cursor, st, pages, ferr, h => by
    unfold feedWalk at h
    unfold drainFeed
    cases hf : w.GetStocksList cursor with
    | error err =>
      rw [hf] at h
      simp only [Option.some.injEq, Prod.mk.injEq] at h
      obtain ⟨rfl, rfl⟩ := h
      refine ⟨_, rfl, ⟨rfl, rfl, rfl⟩, [Call.GetStocksList cursor], rfl, rfl, rfl, by simp,
        by simp⟩
    | ok response =>
      rw [hf] at h
      dsimp only at h ⊢
      have hcore : SyncState.sameCore
          (response.Items.foldl (syncItem w)
            { st with calls := st.calls ++ [Call.GetStocksList cursor] })
          (response.Items.foldl (syncItem w) st) :=
        foldl_syncItem_sameCore w _ ⟨rfl, rfl, rfl⟩
      obtain ⟨e1, hc1, hc2, hc3, hc4, hc5⟩ := foldl_syncItem_calls w response.Items
        { st with calls := st.calls ++ [Call.GetStocksList cursor] }
      by_cases hn : response.NextPage = ""
      · rw [if_pos hn] at h ⊢
        simp only [Option.some.injEq, Prod.mk.injEq] at h
        obtain ⟨rfl, rfl⟩ := h
        refine ⟨_, rfl, ?_, [Call.GetStocksList cursor] ++ e1, ?_, ?_, ?_, ?_, ?_⟩
        · rw [feedItems_cons]
          simpa [feedItems] using hcore
        · rw [hc1, List.append_assoc]
        · rw [List.filterMap_append, hc2, feedItems_cons]
          simp [feedItems, Call.createdSymbol]
        · rw [List.filterMap_append, hc3]
          simp [Call.fetchedCursor]
        · simp [hc4]
        · simp [hc5]
      · rw [if_neg hn] at h ⊢
        cases hw : feedWalk w.GetStocksList fuel response.NextPage with
        | none => simp [hw] at h
        | some rest =>
          obtain ⟨pages', ferr'⟩ := rest
          rw [hw] at h
          simp only [Option.some.injEq, Prod.mk.injEq] at h
          obtain ⟨rfl, rfl⟩ := h
          obtain ⟨st', hd, hs, e2, g1, g2, g3, g4, g5⟩ :=
            drainFeed_of_feedWalk w fuel response.NextPage
              (response.Items.foldl (syncItem w)
                { st with calls := st.calls ++ [Call.GetStocksList cursor] })
              pages' ferr' hw
          refine ⟨st', hd, ?_, [Call.GetStocksList cursor] ++ e1 ++ e2, ?_, ?_, ?_, ?_, ?_⟩
          · rw [feedItems_cons, List.foldl_append]
            exact hs.trans (foldl_syncItem_sameCore w _ hcore)
          · rw [g1, hc1]
            simp only [List.append_assoc]
          · rw [List.filterMap_append, List.filterMap_append, hc2, g2, feedItems_cons]
            simp [Call.createdSymbol]
          · rw [List.filterMap_append, List.filterMap_append, hc3, List.length_append,
              List.length_append, g3]
            simp [Call.fetchedCursor]
            omega
          · simp [hc4, g4]
          · simp [hc5, g5]

/-- A sync run whose `StartStockSync` fails returns at once: the store is unchanged and
the only call made is `StartStockSync`. -/
theorem StockService.SyncAllStocks_of_start_failed (w : SyncWorld) (fuel : ℕ) (db : Store)
    (h : (StartStockSync db w.startedAt).2 ≠ none) :
    ∃ err, SyncAllStocks w fuel db
      = some { db := db, err := some err, calls := [Call.StartStockSync] } := by
  have hdb : (StartStockSync db w.startedAt).1 = db := StartProcess_unchanged _ _ _ h
  unfold SyncAllStocks
  cases hS : StartStockSync db w.startedAt with
  | mk db1 e =>
    rw [hS] at h hdb
    cases e with
    | none => exact absurd rfl h
    | some err =>
      dsimp only at hdb ⊢
      rw [hdb]
      exact ⟨_, rfl⟩

/-- A sync run whose `StartStockSync` succeeds, along a feed that ends: the run returns
with the error of the feed, if any, after the loop and the deferred
`FinishStockSync`. -/
theorem StockService.SyncAllStocks_of_started (w : SyncWorld) (fuel : ℕ) (db : Store)
    (pages : List clients.StockListResponse) (ferr : Option String)
    (h : (StartStockSync db w.startedAt).2 = none)
    (hw : feedWalk w.GetStocksList fuel "" = some (pages, ferr)) :
    ∃ st', SyncAllStocks w fuel db
          = some { db := (FinishStockSync st'.db w.finishErr w.finishedAt).1
                   err := ferr.map fun err => "failed to fetch stocks from API: " ++ err
                   calls := st'.calls ++ [Call.FinishStockSync]
                   warning := (FinishStockSync st'.db w.finishErr w.finishedAt).2.map
                     fun finishErr => "Warning: failed to finish stock sync process: "
                       ++ finishErr }
      ∧ SyncState.sameCore st' ((feedItems pages).foldl (syncItem w)
          (SyncState.initial (StartStockSync db w.startedAt).1))
      ∧ ∃ extra, st'.calls = [Call.StartStockSync] ++ extra
        ∧ extra.filterMap Call.createdSymbol = ((feedItems pages).map fun item => item.Ticker)
        ∧ (extra.filterMap Call.fetchedCursor).length
            = pages.length + (if ferr = none then 0 else 1)
        ∧ Call.StartStockSync ∉ extra ∧ Call.FinishStockSync ∉ extra := by
  obtain ⟨st', hd, hs, extra, h1, h2, h3, h4, h5⟩ := drainFeed_of_feedWalk w fuel ""
    (SyncState.initial (StartStockSync db w.startedAt).1) pages ferr hw
  refine ⟨st', ?_, hs, extra, h1, h2, h3, h4, h5⟩
  unfold SyncAllStocks
  cases hS : StartStockSync db w.startedAt with
  | mk db1 e =>
    rw [hS] at h hd
    cases e with
    | some err => cases h
    | none =>
      dsimp only [SyncState.initial] at hd ⊢
      rw [hd]

theorem ProcessControlRepository.FinishProcess_StartProcess (db : Store) (t1 t2 : ℤ)
    (processName : String) (table : List ProcessControl)
    (h : table = (StartProcess db t1 processName).1.process_control) :
    table.map (fun p =>
        if p.ProcessName = processName then
          { p with IsRunning := false, LastExecution := some t2, UpdatedAt := t2 }
        else p)
      = db.process_control.map fun p =>
        if p.ProcessName = processName then
          { p with IsRunning := false, LastExecution := some t2, UpdatedAt := t2 }
        else p := by
  rw [h, StartProcess_fst]
  simp only [List.map_map]
  apply List.map_congr_left
  intro p _
  simp only [Function.comp]
  by_cases hn : p.ProcessName = processName
  · by_cases hr : p.IsRunning = false
    · simp [hn, hr]
    · simp [hn, hr]
  · simp [hn]

theorem StockService.calculateAndStoreRecommendationScore_stock_analysis {db db' : Store}
    {now stockID : ℤ} (h : calculateAndStoreRecommendationScore db now stockID = .ok db') :
    db'.stock_analysis = db.stock_analysis := by
  unfold calculateAndStoreRecommendationScore at h
  split at h
  · cases h
  · simp only [Except.ok.injEq] at h
    rw [← h]
    unfold UpsertRecommendationScore
    dsimp only
    split_ifs <;> rfl

/-- The loop body of `SyncAllStocks`, for an item none of whose statements fails, treats
the stored actions as `ingestAction` does: `CreateStockAnalysis` for the action of the
item under the id of its stock, then `DeleteOldAnalysis` with the limit 10. -/
theorem StockService.syncItem_stock_analysis (w : SyncWorld) (st : SyncState)
    (item : clients.StockAnalysis) (hf : w.faults st.taken = {}) :
    (syncItem w st item).db.stock_analysis
      = (ingestAction
          (CreateStock st.db (w.itemAt st.taken)
            { ID := 0, Symbol := item.Ticker, Name := item.Company, CreatedAt := 0,
              UpdatedAt := 0 }).1
          (w.itemAt st.taken,
            { ID := 0
              StockID := (CreateStock st.db (w.itemAt st.taken)
                { ID := 0, Symbol := item.Ticker, Name := item.Company, CreatedAt := 0,
                  UpdatedAt := 0 }).2.ID
              TargetFrom := item.TargetFrom
              TargetTo := item.TargetTo
              Action := item.Action
              Brokerage := item.Brokerage
              RatingFrom := item.RatingFrom
              RatingTo := item.RatingTo
              AnalysisDate := item.Time
              CreatedAt := 0 })).stock_analysis := by
  unfold syncItem ingestAction
  simp only [hf, Bool.false_eq_true, if_false]
  split
  · rename_i db' hdb
    exact calculateAndStoreRecommendationScore_stock_analysis hdb
  · rfl

/-! ## Auxiliary facts: the natural key stays unique -/

theorem StockRepository.naturalKeyUnique_CreateStockAnalysis {db : Store}
    (hU : naturalKeyUnique db) (now : ℤ) (analysis : StockAnalysis) :
    naturalKeyUnique (CreateStockAnalysis db now analysis).1 := by
  by_cases hex : ∃ x ∈ db.stock_analysis, sameNaturalKey analysis x = true
  · obtain ⟨x, hx, hk⟩ := hex
    rw [CreateStockAnalysis_existing hU hx hk now]
    simp only [naturalKeyUnique, List.map_map]
    have : (naturalKey ∘ fun row =>
        if sameNaturalKey analysis row = true then overwriteValues analysis row else row)
        = naturalKey := by
      funext row
      simp only [Function.comp]
      split_ifs <;> rfl
    rw [this]
    exact hU
  · have hnone : ∀ row ∈ db.stock_analysis, ¬ sameNaturalKey analysis row = true :=
      fun row hrow hk => hex ⟨row, hrow, hk⟩
    rw [CreateStockAnalysis_insert hnone now]
    simp only [naturalKeyUnique, List.map_append, List.map_cons, List.map_nil]
    rw [List.nodup_append]
    refine ⟨hU, List.nodup_singleton _, ?_⟩
    simp only [List.disjoint_singleton, List.mem_map, not_exists, not_and]
    intro row hrow hkey
    exact hnone row hrow ((sameNaturalKey_iff _ _).mpr hkey)

theorem StockRepository.naturalKeyUnique_DeleteOldAnalysis {db : Store}
    (hU : naturalKeyUnique db) (stockID : ℤ) (keepCount : ℕ) :
    naturalKeyUnique (DeleteOldAnalysis db stockID keepCount) :=
  hU.sublist ((List.filter_sublist _).map _)

theorem StockRepository.CreateStock_stock_analysis (db : Store) (now : ℤ) (stock : Stock) :
    (CreateStock db now stock).1.stock_analysis = db.stock_analysis := by
  unfold CreateStock
  split <;> rfl

/-- The loop body of `SyncAllStocks` keeps the natural key unique, whatever statements
fail. -/
theorem StockService.naturalKeyUnique_syncItem (w : SyncWorld) (st : SyncState)
    (item : clients.StockAnalysis) (hU : naturalKeyUnique st.db) :
    naturalKeyUnique (syncItem w st item).db := by
  have h1 : ∀ (db : Store) (now : ℤ) (stock : Stock), naturalKeyUnique db →
      naturalKeyUnique (CreateStock db now stock).1 := by
    intro db now stock h
    unfold naturalKeyUnique
    rw [CreateStock_stock_analysis]
    exact h
  have h2 : ∀ (db : Store) (now stockID : ℤ), naturalKeyUnique db →
      naturalKeyUnique (match calculateAndStoreRecommendationScore db now stockID with
        | .ok db' => db'
        | .error _ => db) := by
    intro db now stockID h
    split
    · rename_i db' hdb
      unfold naturalKeyUnique
      rw [calculateAndStoreRecommendationScore_stock_analysis hdb]
      exact h
    · exact h
  unfold syncItem
  dsimp only
  split_ifs
  · exact hU
  · exact h1 _ _ _ hU
  · exact naturalKeyUnique_CreateStockAnalysis (h1 _ _ _ hU) _ _
  · exact naturalKeyUnique_DeleteOldAnalysis
      (naturalKeyUnique_CreateStockAnalysis (h1 _ _ _ hU) _ _) _ _
  · exact h2 _ _ _ (naturalKeyUnique_CreateStockAnalysis (h1 _ _ _ hU) _ _)
  · exact h2 _ _ _ (naturalKeyUnique_DeleteOldAnalysis
      (naturalKeyUnique_CreateStockAnalysis (h1 _ _ _ hU) _ _) _ _)

theorem StockService.naturalKeyUnique_foldl_syncItem (w : SyncWorld) :
    ∀ (items : List clients.StockAnalysis) (st : SyncState), naturalKeyUnique st.db →
      naturalKeyUnique (items.foldl (syncItem w) st).db
  | [], _, h => h
  | item :: items, st, h => by
    simp only [List.foldl_cons]
    exact naturalKeyUnique_foldl_syncItem w items _ (naturalKeyUnique_syncItem w st item h)

/-- Every store that a sync run leaves has a unique natural key when the store it
started from has one, as the empty store has. -/
theorem StockService.naturalKeyUnique_SyncAllStocks (w : SyncWorld) (fuel : ℕ) (db : Store)
    (hU : naturalKeyUnique db) (run : SyncRun) (h : SyncAllStocks w fuel db = some run) :
    naturalKeyUnique run.db := by
  have hloop : ∀ (fuel : ℕ) (cursor : String) (st st' : SyncState) (e : Option String),
      naturalKeyUnique st.db → drainFeed w fuel cursor st = some (st', e) →
      naturalKeyUnique st'.db := by
    intro fuel
    induction fuel with
    | zero =>
      intro cursor st st' e _ hd
      simp [drainFeed] at hd
    | succ fuel ih =>
      intro cursor st st' e hst hd
      unfold drainFeed at hd
      dsimp only at hd
      split at hd
      · simp only [Option.some.injEq, Prod.mk.injEq] at hd
        rw [← hd.1]
        exact hst
      · rename_i response _
        have hfold := naturalKeyUnique_foldl_syncItem w response.Items
          { st with calls := st.calls ++ [Call.GetStocksList cursor] } hst
        split_ifs at hd
        · simp only [Option.some.injEq, Prod.mk.injEq] at hd
          rw [← hd.1]
          exact hfold
        · exact ih _ _ _ _ hfold hd
  unfold SyncAllStocks at h
  have hstart : naturalKeyUnique (StartStockSync db w.startedAt).1 := by
    unfold StartStockSync
    rw [StartProcess_fst]
    exact hU
  cases hS : StartStockSync db w.startedAt with
  | mk db1 e1 =>
    rw [hS] at h hstart
    cases e1 with
    | some err =>
      simp only [Option.some.injEq] at h
      rw [← h]
      exact hstart
    | none =>
      dsimp only at h
      cases hd : drainFeed w fuel ""
          { db := db1, calls := [Call.StartStockSync], taken := 0, totalProcessed := 0 } with
      | none => simp [hd] at h
      | some res =>
        obtain ⟨st', e⟩ := res
        rw [hd] at h
        simp only [Option.some.injEq] at h
        rw [← h]
        have hfin : (FinishStockSync st'.db w.finishErr w.finishedAt).1.stock_analysis
            = st'.db.stock_analysis := by
          unfold FinishStockSync FinishProcess
          cases w.finishErr <;> rfl
        unfold naturalKeyUnique
        dsimp only
        rw [hfin]
        exact hloop _ _ _ _ _ hstart hd

/-! ## The sync run -/

/-- C15, as stated, fails: one minute after the last execution, with an interval of 60
minutes, `CanStartStockSync` answers false, and yet `SyncAllStocks` runs to the end
without error, fetches both pages of the feed and adds two stocks; `RefreshStockData`
for the existing symbol ACME does the same. -/
theorem SyncAllStocks_cooldown_counterexample :
    StockService.CanStartStockSync cooldownStore none (sampleWorld false).startedAt = .ok false
      ∧ (SyncAllStocks (sampleWorld false) 2 cooldownStore).map (fun run => run.err) = some none
      ∧ (SyncAllStocks (sampleWorld false) 2 cooldownStore).map
          (fun run => run.calls.filterMap Call.fetchedCursor) = some ["", "p2"]
      ∧ (SyncAllStocks (sampleWorld false) 2 cooldownStore).map
          (fun run => run.db.stocks.map fun s => s.Symbol) = some ["ACME", "BOLT", "CARE"]
      ∧ RefreshStockData (sampleWorld false) 2 cooldownStore "ACME"
          = SyncAllStocks (sampleWorld false) 2 cooldownStore := by
  decide!

/-- C15, amended: a sync run never starts while the process is running.  When every row
of the sync process has `is_running = true` (or there is no such row), `SyncAllStocks`,
and `RefreshStockData` for an existing symbol, return an error after the single call
`StartStockSync`: no feed page is fetched and the store, with its stocks, actions,
scores and process rows, is unchanged.  The cooldown is checked by
`SyncAllStocksHandler`: it launches `SyncAllStocks` exactly when `CanStartStockSync`
answers true, so not when the read of `CanStartStockSync` fails, and answers 409
without launching it when `CanStartStockSync` answers false. -/
theorem SyncAllStocks_guard (w : SyncWorld) (fuel : ℕ) (db : Store) (queryErr : Option String)
    (now : ℤ) :
    ((∀ p ∈ db.process_control, p.ProcessName = ProcessStockSync → p.IsRunning = true) →
        ∃ err,
          SyncAllStocks w fuel db
              = some { db := db, err := some err, calls := [Call.StartStockSync] }
            ∧ ∀ symbol, GetStockBySymbol db symbol ≠ none →
                RefreshStockData w fuel db symbol
                  = some { db := db, err := some err, calls := [Call.StartStockSync] })
      ∧ ((api.SyncAllStocksHandler db queryErr now).launched = true
          ↔ StockService.CanStartStockSync db queryErr now = .ok true)
      ∧ (StockService.CanStartStockSync db queryErr now = .ok false →
          api.SyncAllStocksHandler db queryErr now = { Status := 409, launched := false }) := by
  refine ⟨fun hrun => ?_, ?_, ?_⟩
  · have hfail : (StartStockSync db w.startedAt).2 ≠ none := by
      unfold StartStockSync
      rw [Ne, StartProcess_snd]
      rintro ⟨p, hp, hn, hr⟩
      have := hrun p hp hn
      rw [hr] at this
      exact Bool.false_ne_true this
    obtain ⟨err, herr⟩ := SyncAllStocks_of_start_failed w fuel db hfail
    refine ⟨err, herr, fun symbol hs => ?_⟩
    unfold RefreshStockData
    cases hg : GetStockBySymbol db symbol with
    | none => exact absurd hg hs
    | some _ => exact herr
  · unfold api.SyncAllStocksHandler
    cases h : StockService.CanStartStockSync db queryErr now with
    | error e => simp
    | ok canStart => cases canStart <;> simp
  · intro h
    unfold api.SyncAllStocksHandler
    rw [h]
    rfl

/-- C15, amended, at a concrete store: the sync process is running; the run aborts after
`StartStockSync` and leaves the store as it is. -/
theorem SyncAllStocks_guard_witness :
    ∃ err, SyncAllStocks (sampleWorld false) 2 (guardStore true none 60)
      = some { db := guardStore true none 60, err := some err, calls := [Call.StartStockSync] } :=
  ((SyncAllStocks_guard (sampleWorld false) 2 (guardStore true none 60) none 0).1
    (by decide)).imp
    fun _ h => h.1

/-- C16, as stated, fails: in a run on `cooldownStore` whose `StartStockSync` succeeds and
in which the statement of `FinishStockSync` fails, `FinishStockSync` is called once, the
run returns without an error, its deferred function prints the warning, and the row of
the sync process is left with `is_running = true` and its last execution of before the
run, 0, where the finish time is the second minute. -/
theorem SyncAllStocks_finish_failed_counterexample :
    (StartStockSync cooldownStore failedFinishWorld.startedAt).2 = none
      ∧ (SyncAllStocks failedFinishWorld 2 cooldownStore).map (fun run => run.err) = some none
      ∧ (SyncAllStocks failedFinishWorld 2 cooldownStore).map (fun run => run.warning)
        = some (some "Warning: failed to finish stock sync process: driver: bad connection")
      ∧ (SyncAllStocks failedFinishWorld 2 cooldownStore).map
          (fun run => run.calls.count Call.FinishStockSync) = some 1
      ∧ (SyncAllStocks failedFinishWorld 2 cooldownStore).map
          (fun run => run.db.process_control.map fun p => (p.IsRunning, p.LastExecution))
        = some [(true, some 0)]
      ∧ failedFinishWorld.finishedAt = 2 * time.Minute := by
  refine ⟨by decide!, by decide!, by decide!, by decide!, by decide!, by decide!⟩

/-- C16, amended: a run of `SyncAllStocks` whose `StartStockSync` succeeded, along a feed
that ends with a last page or with a failed fetch, returns after exactly one call of
`FinishStockSync`, its last call.  When the statement of `FinishStockSync` succeeds, no
warning is printed and, in the store the run leaves, the process table is the one from
before the run with every row of the sync process set to `is_running = false` and
`last_execution` and `updated_at` set to the time of the finish, and there is such a
row.  When that statement fails, the deferred function prints a warning, the run returns
the error of the loop, if any, and the process table stays as `StartStockSync` left it:
every row of the sync process has `is_running = true`, and there is such a row.  When
`StartStockSync` fails, the run returns without a call of `FinishStockSync` and leaves the
store, with its process rows, unchanged. -/
theorem SyncAllStocks_finishes_once (w : SyncWorld) (fuel : ℕ) (db : Store) :
    ((StartStockSync db w.startedAt).2 = none →
        ∀ pages ferr, feedWalk w.GetStocksList fuel "" = some (pages, ferr) →
          ∃ run, SyncAllStocks w fuel db = some run
            ∧ run.calls.count Call.FinishStockSync = 1
            ∧ run.calls.getLast? = some Call.FinishStockSync
            ∧ (w.finishErr = none →
                run.warning = none
                  ∧ run.db.process_control
                    = (db.process_control.map fun p =>
                        if p.ProcessName = ProcessStockSync then
                          { p with IsRunning := false, LastExecution := some w.finishedAt,
                                   UpdatedAt := w.finishedAt }
                        else p)
                  ∧ (∀ p ∈ run.db.process_control, p.ProcessName = ProcessStockSync →
                      p.IsRunning = false ∧ p.LastExecution = some w.finishedAt)
                  ∧ ∃ p ∈ run.db.process_control, p.ProcessName = ProcessStockSync)
            ∧ (∀ finishErr, w.finishErr = some finishErr →
                run.warning
                    = some ("Warning: failed to finish stock sync process: " ++ finishErr)
                  ∧ run.err = ferr.map (fun err => "failed to fetch stocks from API: " ++ err)
                  ∧ run.db.process_control
                    = (StartStockSync db w.startedAt).1.process_control
                  ∧ (∀ p ∈ run.db.process_control, p.ProcessName = ProcessStockSync →
                      p.IsRunning = true)
                  ∧ ∃ p ∈ run.db.process_control, p.ProcessName = ProcessStockSync))
      ∧ ((StartStockSync db w.startedAt).2 ≠ none →
          ∃ run, SyncAllStocks w fuel db = some run
            ∧ Call.FinishStockSync ∉ run.calls ∧ run.db = db) := by
  refine ⟨fun hstart pages ferr hw => ?_, fun hfail => ?_⟩
  · obtain ⟨st', hrun, hcore, extra, h1, _, _, _, h5⟩ :=
      SyncAllStocks_of_started w fuel db pages ferr hstart hw
    have hpc : st'.db.process_control
        = (StartProcess db w.startedAt ProcessStockSync).1.process_control := by
      rw [hcore.1, foldl_syncItem_process_control]
      rfl
    have hrow : ∃ q ∈ db.process_control, q.ProcessName = ProcessStockSync := by
      unfold StartStockSync at hstart
      obtain ⟨q, hq, hn, _⟩ := (StartProcess_snd db w.startedAt ProcessStockSync).mp hstart
      exact ⟨q, hq, hn⟩
    refine ⟨_, hrun, ?_, ?_, ?_, ?_⟩
    · dsimp only
      rw [h1, List.count_append, List.count_append, List.count_eq_zero_of_not_mem h5]
      rfl
    · dsimp only
      rw [List.getLast?_append]
      rfl
    · intro hnone
      have htable : (FinishStockSync st'.db w.finishErr w.finishedAt).1.process_control
          = (db.process_control.map fun p =>
              if p.ProcessName = ProcessStockSync then
                { p with IsRunning := false, LastExecution := some w.finishedAt,
                         UpdatedAt := w.finishedAt }
              else p) := by
        rw [hnone]
        exact FinishProcess_StartProcess db w.startedAt w.finishedAt ProcessStockSync _ hpc
      refine ⟨?_, htable, ?_, ?_⟩
      · dsimp only
        rw [hnone]
        rfl
      · intro p hp hn
        dsimp only at hp
        rw [htable] at hp
        obtain ⟨q, _, rfl⟩ := List.mem_map.mp hp
        by_cases hq : q.ProcessName = ProcessStockSync
        · rw [if_pos hq]
          exact ⟨rfl, rfl⟩
        · rw [if_neg hq] at hn
          exact absurd hn hq
      · dsimp only
        rw [htable]
        obtain ⟨q, hq, hn⟩ := hrow
        exact ⟨_, List.mem_map.mpr ⟨q, hq, rfl⟩, by rw [if_pos hn]; exact hn⟩
    · intro finishErr hsome
      have htable : (FinishStockSync st'.db w.finishErr w.finishedAt).1.process_control
          = (StartStockSync db w.startedAt).1.process_control := by
        rw [hsome]
        exact hpc
      refine ⟨?_, rfl, htable, ?_, ?_⟩
      · dsimp only
        rw [hsome]
        rfl
      · intro p hp hn
        dsimp only at hp
        rw [htable] at hp
        exact StartProcess_all_running db w.startedAt ProcessStockSync p hp hn
      · dsimp only
        rw [htable]
        obtain ⟨q, hq, hn⟩ := hrow
        unfold StartStockSync
        rw [StartProcess_fst]
        refine ⟨_, List.mem_map.mpr ⟨q, hq, rfl⟩, ?_⟩
        split_ifs <;> exact hn
  · obtain ⟨err, herr⟩ := SyncAllStocks_of_start_failed w fuel db hfail
    exact ⟨_, herr, by simp, rfl⟩

/-- C16, amended, at concrete runs: along the feed whose second fetch fails, and along the
feed that ends, the statement of `FinishStockSync` succeeding, the run calls
`FinishStockSync` once and leaves the process idle with the finish time as last
execution. -/
theorem SyncAllStocks_finishes_once_witness :
    (∃ run, SyncAllStocks (sampleWorld true) 2 cooldownStore = some run
        ∧ run.calls.count Call.FinishStockSync = 1
        ∧ (run.db.process_control.map fun p => (p.IsRunning, p.LastExecution))
            = [(false, some (2 * time.Minute))])
      ∧ ∃ run, SyncAllStocks (sampleWorld false) 2 cooldownStore = some run
        ∧ run.calls.count Call.FinishStockSync = 1
        ∧ (run.db.process_control.map fun p => (p.IsRunning, p.LastExecution))
            = [(false, some (2 * time.Minute))] :=
  ⟨((SyncAllStocks_finishes_once (sampleWorld true) 2 cooldownStore).1 (by decide) _ _
      (show feedWalk (sampleWorld true).GetStocksList 2 ""
        = some ([{ Items := [sampleItem "BOLT" 7, sampleItem "ACME" 7], NextPage := "p2" }],
            some "API returned status 500") by decide)).imp
      fun _ h => ⟨h.1, h.2.1,
        (congrArg (List.map fun p => (p.IsRunning, p.LastExecution))
          (h.2.2.2.1 rfl).2.1).trans (by decide)⟩,
    ((SyncAllStocks_finishes_once (sampleWorld false) 2 cooldownStore).1 (by decide) _ _
      (show feedWalk (sampleWorld false).GetStocksList 2 ""
        = some ([{ Items := [sampleItem "BOLT" 7, sampleItem "ACME" 7], NextPage := "p2" },
              { Items := [sampleItem "CARE" 8], NextPage := "" }], none) by decide)).imp
      fun _ h => ⟨h.1, h.2.1,
        (congrArg (List.map fun p => (p.IsRunning, p.LastExecution))
          (h.2.2.2.1 rfl).2.1).trans (by decide)⟩⟩

/-- C17: along a feed that ends with a last page or with a failed fetch,
`SyncAllStocks` returns, and it returns an error exactly when `StartStockSync` fails
or the feed ends with a failed fetch.  When `StartStockSync` succeeded, whatever
statements fail for whatever items, the loop body has run for every item of every page
fetched, in order: the run has called `CreateStock` once for each of them, and the
store it leaves is the store after all these loop bodies followed by
`FinishStockSync`, also when the feed ends with a failed fetch; the run has fetched
each of the pages once, and once more for the failed fetch. -/
theorem SyncAllStocks_error_iff (w : SyncWorld) (fuel : ℕ) (db : Store)
    (pages : List clients.StockListResponse) (ferr : Option String)
    (hw : feedWalk w.GetStocksList fuel "" = some (pages, ferr)) :
    ∃ run, SyncAllStocks w fuel db = some run
      ∧ (run.err ≠ none ↔ (StartStockSync db w.startedAt).2 ≠ none ∨ ferr ≠ none)
      ∧ ((StartStockSync db w.startedAt).2 = none →
          run.db = (FinishStockSync
              ((feedItems pages).foldl (syncItem w)
                (SyncState.initial (StartStockSync db w.startedAt).1)).db w.finishErr
              w.finishedAt).1
            ∧ run.calls.filterMap Call.createdSymbol
                = ((feedItems pages).map fun item => item.Ticker)
            ∧ (run.calls.filterMap Call.fetchedCursor).length
                = pages.length + (if ferr = none then 0 else 1)) := by
  by_cases hstart : (StartStockSync db w.startedAt).2 = none
  · obtain ⟨st', hrun, hcore, extra, h1, h2, h3, _, _⟩ :=
      SyncAllStocks_of_started w fuel db pages ferr hstart hw
    refine ⟨_, hrun, ?_, fun _ => ⟨?_, ?_, ?_⟩⟩
    · dsimp only
      cases ferr <;> simp [hstart]
    · dsimp only
      rw [hcore.1]
    · dsimp only
      rw [h1, List.filterMap_append, List.filterMap_append, h2]
      simp [Call.createdSymbol]
    · dsimp only
      rw [h1, List.filterMap_append, List.filterMap_append, List.length_append,
        List.length_append, h3]
      simp [Call.fetchedCursor]
  · obtain ⟨err, herr⟩ := SyncAllStocks_of_start_failed w fuel db hstart
    refine ⟨_, herr, ?_, fun h => absurd h hstart⟩
    simp [hstart]

/-- C17 at a concrete run: `CreateStockAnalysis` fails for the first item and the fetch
of the second page fails; the run returns the error of the fetch, has called
`CreateStock` for both items of the first page, and the action and score of the second
item are stored. -/
theorem SyncAllStocks_error_iff_witness :
    (∃ run, SyncAllStocks (sampleWorld true) 2 cooldownStore = some run
        ∧ run.err ≠ none
        ∧ run.calls.filterMap Call.createdSymbol = ["BOLT", "ACME"])
      ∧ (SyncAllStocks (sampleWorld true) 2 cooldownStore).map
          (fun run => (run.db.stock_analysis.length,
            run.db.recommendation_scores.map fun r => (r.StockID, r.TotalScore)))
          = some (7, [(1, 120)]) :=
  ⟨(SyncAllStocks_error_iff (sampleWorld true) 2 cooldownStore
      [{ Items := [sampleItem "BOLT" 7, sampleItem "ACME" 7], NextPage := "p2" }]
      (some "API returned status 500") (by decide)).imp
      fun _ h => ⟨h.1, h.2.1.mpr (Or.inr (by simp)), (h.2.2 (by decide)).2.1.trans (by decide)⟩,
    by decide!⟩

/-! ## Auxiliary facts: the number of pages -/

/-- The `float64` quotient of a count below `2 ^ 53` by a page size from 1 to 100 has the
ceiling of the exact quotient. -/
theorem F64.ceil_round_div (n s : ℤ) (hn0 : 0 < n) (hn : n < 2 ^ 53) (hs1 : 1 ≤ s)
    (hs2 : s ≤ 100) :
    ∃ r : ℚ, F64.round ((n : ℚ) / s) = .fin r ∧ ⌈r⌉ = ⌈(n : ℚ) / s⌉ := by
  have hsQ : (0 : ℚ) < s := by exact_mod_cast (by omega : (0 : ℤ) < s)
  have hnQ : (0 : ℚ) < n := by exact_mod_cast hn0
  set q : ℚ := (n : ℚ) / s with hq
  have hqpos : 0 < q := div_pos hnQ hsQ
  have hqne : q ≠ 0 := ne_of_gt hqpos
  have hqs : q * s = n := by rw [hq]; field_simp
  have hqle : q ≤ n := by
    rw [hq, div_le_iff₀ hsQ]
    have : (1 : ℚ) ≤ s := by exact_mod_cast hs1
    nlinarith
  have hqge : (1 : ℚ) / 100 ≤ q := by
    rw [hq, le_div_iff₀ hsQ]
    have h1 : (s : ℚ) ≤ 100 := by exact_mod_cast hs2
    have h2 : (1 : ℚ) ≤ n := by exact_mod_cast (by omega : (1 : ℤ) ≤ n)
    linarith
  obtain ⟨he1, he2⟩ := F64.ilog2_spec q hqne
  rw [abs_of_pos hqpos] at he1 he2
  set e : ℤ := F64.ilog2 q with he
  have hege : -7 ≤ e := by
    by_contra hlt
    have h1 : e + 1 ≤ -7 := by omega
    have h2 : (2 : ℚ) ^ (e + 1) ≤ 2 ^ (-7 : ℤ) := two_zpow_le h1
    have h3 : (2 : ℚ) ^ (-7 : ℤ) < 1 / 100 := by norm_num
    exact absurd (lt_of_lt_of_le (lt_of_lt_of_le he2 h2) (le_of_lt h3)) (not_lt.mpr hqge)
  have hele : e ≤ 52 := by
    by_contra hgt
    have h1 : (53 : ℤ) ≤ e := by omega
    have h2 : (2 : ℚ) ^ (53 : ℤ) ≤ 2 ^ e := two_zpow_le h1
    have h3 : (n : ℚ) < 2 ^ (53 : ℕ) := by exact_mod_cast hn
    have h4 : (2 : ℚ) ^ (53 : ℤ) = 2 ^ (53 : ℕ) := by norm_num
    rw [h4] at h2
    exact absurd (lt_of_le_of_lt (le_trans h2 (le_trans he1 hqle)) h3) (lt_irrefl _)
  have hu : F64.ulp q = 2 ^ (e - 52) :=
    F64.ulp_of_normal (by rw [← he]; show (-1022 : ℤ) ≤ e; omega)
  have hupos : 0 < F64.ulp q := F64.ulp_pos q
  -- every integer is a multiple of the unit in the last place
  obtain ⟨m, hm⟩ : ∃ m : ℕ, (m : ℤ) = 52 - e := ⟨(52 - e).toNat, by omega⟩
  have hum : F64.ulp q * 2 ^ m = 1 := by
    rw [hu, ← zpow_natCast (2 : ℚ) m, ← zpow_add₀ (by norm_num : (2 : ℚ) ≠ 0), hm]
    have : e - 52 + (52 - e) = 0 := by ring
    rw [this, zpow_zero]
  set k : ℤ := ⌈q⌉ with hk
  have hk1 : q ≤ k := Int.le_ceil q
  have hk2 : ((k - 1 : ℤ) : ℚ) < q := by
    have := Int.ceil_lt_add_one q
    have h2 : (k : ℚ) < q + 1 := by rw [hk]; exact this
    push_cast
    linarith
  have hk3 : ((k - 1 : ℤ) : ℚ) + 1 / s ≤ q := by
    have h1 : ((k - 1) * s : ℤ) < n := by
      have : (((k - 1) * s : ℤ) : ℚ) < n := by
        push_cast
        rw [← hqs]
        have := hk2
        push_cast at this
        nlinarith
      exact_mod_cast this
    have h2 : (k - 1) * s + 1 ≤ n := by omega
    have h3 : (((k - 1) * s + 1 : ℤ) : ℚ) ≤ n := by exact_mod_cast h2
    push_cast at h3 ⊢
    rw [hq, le_div_iff₀ hsQ]
    have : ((k : ℚ) - 1 + 1 / s) * s = (k - 1) * s + 1 := by field_simp
    rw [this]
    exact h3
  have hkn : (k : ℚ) ≤ n := by
    have : k ≤ n := Int.ceil_le.mpr hqle
    exact_mod_cast this
  -- the rounded quotient
  set R : ℤ := F64.rne (q / F64.ulp q) with hR
  have hRle : (R : ℚ) * F64.ulp q ≤ k := by
    have h1 : q / F64.ulp q ≤ ((k * 2 ^ m : ℤ) : ℚ) := by
      rw [div_le_iff₀ hupos]
      push_cast
      calc q ≤ k := hk1
        _ = k * (F64.ulp q * 2 ^ m) := by rw [hum, mul_one]
        _ = (k : ℚ) * 2 ^ m * F64.ulp q := by ring
    have h2 : R ≤ k * 2 ^ m := F64.rne_le_intCast h1
    have h3 : (R : ℚ) ≤ ((k * 2 ^ m : ℤ) : ℚ) := by exact_mod_cast h2
    push_cast at h3
    calc (R : ℚ) * F64.ulp q ≤ (k : ℚ) * 2 ^ m * F64.ulp q :=
          mul_le_mul_of_nonneg_right h3 hupos.le
      _ = k * (F64.ulp q * 2 ^ m) := by ring
      _ = k := by rw [hum, mul_one]
  have hRge : q - 1 / s < (R : ℚ) * F64.ulp q := by
    have h1 := F64.rne_spec (q / F64.ulp q)
    rw [← hR] at h1
    have h2 : q / F64.ulp q - 1 / 2 ≤ (R : ℚ) := by
      have := (abs_le.mp h1).1
      linarith
    have h3 : q - F64.ulp q / 2 ≤ (R : ℚ) * F64.ulp q := by
      have := mul_le_mul_of_nonneg_right h2 hupos.le
      have e1 : (q / F64.ulp q - 1 / 2) * F64.ulp q = q - F64.ulp q / 2 := by
        field_simp
        ring
      rw [e1] at this
      exact this
    have h4 : F64.ulp q / 2 ≤ q / 2 ^ (53 : ℕ) := by
      rw [hu]
      have : (2 : ℚ) ^ (e - 52) = 2 ^ e / 2 ^ (52 : ℕ) := by
        rw [zpow_sub₀ (by norm_num : (2 : ℚ) ≠ 0)]
        norm_num
      rw [this]
      have h5 : (2 : ℚ) ^ e / 2 ^ (52 : ℕ) / 2 = 2 ^ e / 2 ^ (53 : ℕ) := by
        rw [div_div]
        norm_num
      rw [h5]
      exact div_le_div_of_nonneg_right he1 (by positivity)
    have h6 : q / 2 ^ (53 : ℕ) < 1 / s := by
      rw [hq, div_div, div_lt_div_iff₀ (by positivity) hsQ]
      have : (n : ℚ) < 2 ^ (53 : ℕ) := by exact_mod_cast hn
      nlinarith
    linarith
  have hfin : F64.round q = .fin ((R : ℚ) * F64.ulp q) := by
    rw [F64.round_eq q hqne, ← hR]
    have hlt : ¬ (2 : ℚ) ^ (1024 : ℕ) ≤ |(R : ℚ) * F64.ulp q| := by
      have hpos : 0 < (R : ℚ) * F64.ulp q := by
        have : (0 : ℚ) ≤ q - 1 / s := by
          have : (1 : ℚ) / s ≤ q := by
            rw [hq]
            exact div_le_div_of_nonneg_right (by exact_mod_cast (by omega : (1 : ℤ) ≤ n)) hsQ.le
          linarith
        linarith
      rw [abs_of_pos hpos, not_le]
      have h1 : (n : ℚ) < 2 ^ (53 : ℕ) := by exact_mod_cast hn
      have h2 : (2 : ℚ) ^ (53 : ℕ) ≤ 2 ^ (1024 : ℕ) :=
        pow_le_pow_right₀ (by norm_num) (by norm_num)
      linarith
    rw [if_neg hlt]
  refine ⟨_, hfin, ?_⟩
  rw [Int.ceil_eq_iff]
  constructor
  · have := hk3
    push_cast at this ⊢
    linarith
  · exact hRle

theorem F64.totalPages_ceil (n s : ℤ) (hn0 : 0 ≤ n) (hn : n < 2 ^ 53) (hs1 : 1 ≤ s)
    (hs2 : s ≤ 100) :
    F64.toInt (math.Ceil (F64.div (F64.ofInt n) (F64.ofInt s))) = ⌈(n : ℚ) / s⌉ := by
  have hfn : F64.ofInt n = .fin n := F64.round_intCast n (by rw [abs_of_nonneg hn0]; exact hn)
  have hfs : F64.ofInt s = .fin s :=
    F64.round_intCast s (by rw [abs_of_nonneg (by omega)]; omega)
  have hsne : (s : ℚ) ≠ 0 := by exact_mod_cast (by omega : s ≠ 0)
  rw [hfn, hfs]
  simp only [F64.div, hsne, if_false]
  rcases eq_or_lt_of_le hn0 with h0 | hpos
  · rw [← h0]
    simp [F64.round_zero, math.Ceil, F64.toInt]
  · obtain ⟨r, hr, hc⟩ := F64.ceil_round_div n s hpos hn hs1 hs2
    rw [hr]
    simp only [math.Ceil, F64.toInt]
    have hk1 : 1 ≤ ⌈(n : ℚ) / s⌉ := by
      rw [Int.one_le_ceil_iff]
      exact div_pos (by exact_mod_cast hpos) (by exact_mod_cast (by omega : (0 : ℤ) < s))
    have hk2 : ⌈(n : ℚ) / s⌉ ≤ n := by
      rw [Int.ceil_le, div_le_iff₀ (by exact_mod_cast (by omega : (0 : ℤ) < s))]
      have h1 : (1 : ℚ) ≤ s := by exact_mod_cast hs1
      have h2 : (0 : ℚ) ≤ n := by exact_mod_cast hn0
      nlinarith
    rw [hc]
    have hnn : (0 : ℚ) ≤ ((⌈(n : ℚ) / s⌉ : ℤ) : ℚ) := Int.cast_nonneg.mpr (by omega)
    rw [if_pos hnn, Int.floor_intCast]
    rw [if_pos ⟨by omega, by omega⟩]

/-! ## Pagination metadata -/

/-- C18: for a page `p ≥ 1`, a page size `s` from 1 to 100 and `n` stocks that match the
filters (fewer than `2 ^ 53`, so that `float64(n)` is exact),
`GetStocksWithAnalysisPaginated` returns a response whenever its offset `(p - 1) * s`
fits an `int`, and the metadata of the response are `Page = p`, `PageSize = s`,
`TotalItems = n`, `TotalPages = ⌈n / s⌉`, `HasPrevious = (p > 1)` and
`HasNext = (p < TotalPages)`, where `HasNext` holds exactly when `p * s < n`. -/
theorem GetStocksWithAnalysisPaginated_meta (db : Store) (filters : StockFilterParams)
    (page pageSize : ℤ) (hp : 1 ≤ page) (hs1 : 1 ≤ pageSize) (hs2 : pageSize ≤ 100)
    (hn : countStocks db filters < 2 ^ 53) :
    ((page - 1) * pageSize < 2 ^ 63 →
        ∃ r, GetStocksWithAnalysisPaginated db page pageSize filters = .ok r)
      ∧ ∀ r, GetStocksWithAnalysisPaginated db page pageSize filters = .ok r →
          r.Meta.Page = page ∧ r.Meta.PageSize = pageSize
            ∧ r.Meta.TotalItems = countStocks db filters
            ∧ r.Meta.TotalPages = ⌈(countStocks db filters : ℚ) / pageSize⌉
            ∧ r.Meta.HasPrevious = decide (page > 1)
            ∧ r.Meta.HasNext = decide (page < r.Meta.TotalPages)
            ∧ (r.Meta.HasNext = true ↔ page * pageSize < countStocks db filters) := by
  have hn0 : 0 ≤ countStocks db filters := by
    unfold countStocks
    exact Int.natCast_nonneg _
  have hpage : (if page < 1 then 1 else page) = page := if_neg (by omega)
  have hsize : (if pageSize < 1 ∨ pageSize > 100 then 20 else pageSize) = pageSize :=
    if_neg (by omega)
  have htotal := F64.totalPages_ceil (countStocks db filters) pageSize hn0 hn hs1 hs2
  constructor
  · intro hoff
    have hfit : wrapInt64 ((page - 1) * pageSize) = (page - 1) * pageSize :=
      wrapInt64_of_fits (by nlinarith) hoff
    have hnonneg : ¬ wrapInt64 ((page - 1) * pageSize) < 0 := by
      rw [hfit]
      nlinarith
    unfold GetStocksWithAnalysisPaginated
    simp only [hpage, hsize, hnonneg, if_false]
    exact ⟨_, rfl⟩
  · intro r hr
    unfold GetStocksWithAnalysisPaginated at hr
    simp only [hpage, hsize] at hr
    split_ifs at hr
    simp only [Except.ok.injEq] at hr
    subst hr
    dsimp only
    rw [htotal]
    refine ⟨rfl, rfl, rfl, rfl, rfl, rfl, ?_⟩
    rw [decide_eq_true_eq, Int.lt_ceil, lt_div_iff₀ (by exact_mod_cast (by omega : 0 < pageSize))]
    exact_mod_cast Iff.rfl

/-- C18 for 101 stocks and a page size of 20: six pages. -/
theorem GetStocksWithAnalysisPaginated_meta_witness :
    (GetStocksWithAnalysisPaginated (scoredStore 101) 1 20 noFilters).map (fun r => r.Meta)
        = .ok { Page := 1, PageSize := 20, TotalItems := 101, TotalPages := 6, HasNext := true,
                HasPrevious := false }
      ∧ ∀ r, GetStocksWithAnalysisPaginated (scoredStore 101) 1 20 noFilters = .ok r →
          r.Meta.TotalPages = ⌈((countStocks (scoredStore 101) noFilters : ℤ) : ℚ) / (20 : ℤ)⌉ :=
  ⟨by decide!,
    fun r hr => ((GetStocksWithAnalysisPaginated_meta (scoredStore 101) noFilters 1 20
      (by decide) (by decide) (by decide) (by decide!)).2 r hr).2.2.2.1⟩

/-- C19 on the code: for a store without stocks, page 1 reports `TotalPages = 0` (with
`HasNext` and `HasPrevious` false), where the claim has 1. -/
theorem GetStocksWithAnalysisPaginated_empty :
    (GetStocksWithAnalysisPaginated emptyStore 1 20 noFilters).map (fun r => r.Meta)
      = .ok { Page := 1, PageSize := 20, TotalItems := 0, TotalPages := 0, HasNext := false,
              HasPrevious := false } := by
  decide!

/-- C20 on the code: for 101 stored scores and a page size of 20,
`GetTopRecommendationsPaginated` and `GetRecommendationsPaginated` report
`TotalPages = 5`, where the ceiling of 101 / 20 is 6, and on page 5 they report
`HasNext = false` although page 6 holds the last score. -/
theorem GetTopRecommendationsPaginated_totalPages :
    (GetTopRecommendationsPaginated (scoredStore 101) 5 20).map (fun r => r.Meta)
        = .ok { Page := 5, PageSize := 20, TotalItems := 101, TotalPages := 5, HasNext := false,
                HasPrevious := true }
      ∧ (StockService.GetRecommendationsPaginated (scoredStore 101) 5 20).map (fun r => r.Meta)
        = .ok { Page := 5, PageSize := 20, TotalItems := 101, TotalPages := 5, HasNext := false,
                HasPrevious := true }
      ∧ (GetTopRecommendationsPaginated (scoredStore 101) 6 20).map (fun r => r.Data.length)
        = .ok 1
      ∧ ⌈(101 : ℚ) / 20⌉ = 6 := by
  refine ⟨by decide!, by decide!, by decide!, ?_⟩
  rw [Int.ceil_eq_iff]
  norm_num

/-! ## Auxiliary facts: the range of the score components -/

theorem RecommendationEngine.getRatingScore_range (rating : String) :
    10 ≤ getRatingScore rating ∧ getRatingScore rating ≤ 80 := by
  unfold getRatingScore
  dsimp only
  split_ifs <;> norm_num

theorem RecommendationEngine.calculateRatingScores_range (stock : StockWithAnalysis) :
    (-40 ≤ (calculateRatingScores stock).1 ∧ (calculateRatingScores stock).1 ≤ 30)
      ∧ -10 ≤ (calculateRatingScores stock).2 ∧ (calculateRatingScores stock).2 ≤ 15 := by
  unfold calculateRatingScores
  cases stock.LatestAnalysis with
  | nil => norm_num
  | cons latest rest =>
    dsimp only
    have h := getRatingScore_range latest.RatingTo
    refine ⟨?_, ?_⟩
    · split_ifs
      · constructor <;> linarith [h.1, h.2]
      · norm_num
    · split_ifs <;> norm_num

theorem RecommendationEngine.calculateTargetChangeScore_range (stock : StockWithAnalysis) :
    -15 ≤ calculateTargetChangeScore stock ∧ calculateTargetChangeScore stock ≤ 20 := by
  unfold calculateTargetChangeScore
  cases stock.LatestAnalysis with
  | nil => norm_num
  | cons latest rest =>
    dsimp only
    split_ifs <;> norm_num

theorem RecommendationEngine.calculateActionScore_range (stock : StockWithAnalysis) :
    -8 ≤ calculateActionScore stock ∧ calculateActionScore stock ≤ 12 := by
  unfold calculateActionScore
  cases stock.LatestAnalysis with
  | nil => norm_num
  | cons latest rest =>
    dsimp only
    split_ifs <;> norm_num

theorem RecommendationEngine.calculateCoverageScore_range (stock : StockWithAnalysis) :
    0 ≤ calculateCoverageScore stock ∧ calculateCoverageScore stock ≤ 13 := by
  rw [calculateCoverageScore_formula]
  split_ifs <;> norm_num

/-! ## The range of the total score -/

/-- C28: for every stock view the total of `calculateScore` lies between -23 and 140
inclusive, and both bounds are attained: -23 by a stock whose only action is a downgrade
from Buy to Sell, "target lowered by", with the target lowered from $100 to $80, and 140
by a stock with three actions rated Buy whose latest is an upgrade from Hold, "target
raised by", with the target raised from $10 to $12. -/
theorem calculateScore_range :
    (∀ stock : StockWithAnalysis, -23 ≤ calculateScore stock ∧ calculateScore stock ≤ 140)
      ∧ calculateScore worstStock = -23 ∧ calculateScore bestStock = 140 := by
  refine ⟨fun stock => ?_, by decide!, by decide!⟩
  have hsum : calculateScore stock
        = 50 + (calculateRatingScores stock).1 + (calculateRatingScores stock).2
          + calculateTargetChangeScore stock + calculateActionScore stock
          + calculateCoverageScore stock := rfl
  obtain ⟨⟨r1, r2⟩, c1, c2⟩ := calculateRatingScores_range stock
  obtain ⟨t1, t2⟩ := calculateTargetChangeScore_range stock
  obtain ⟨a1, a2⟩ := calculateActionScore_range stock
  obtain ⟨v1, v2⟩ := calculateCoverageScore_range stock
  rw [hsum]
  constructor <;> linarith

/-! ## Auxiliary facts: the clauses of the explanation and the score components -/

theorem strings.Join_infix (sep : String) :
    ∀ (l : List String) (c : String), c ∈ l → c.data <:+: (strings.Join l sep).data
  | [], c, h => by simp at h
  | [a], c, h => by
    simp only [List.mem_singleton] at h
    subst h
    simp [strings.Join]
  | a :: b :: rest, c, h => by
    simp only [strings.Join, String.data_append]
    rcases List.mem_cons.1 h with h | h
    · subst h
      rw [List.append_assoc]
      exact List.infix_append' [] c.data _
    · exact (strings.Join_infix sep (b :: rest) c h).trans (List.suffix_append _ _).isInfix

theorem not_prefix_of_head_ne {x y : Char} {p c : List Char} (tp tc : List Char)
    (hp : p = x :: tp) (hc : c = y :: tc) (hxy : x ≠ y) : ¬ p <+: c := by
  subst hp hc
  intro h
  exact hxy (List.cons_prefix_cons.1 h).1

theorem ne_of_head_ne {x y : Char} {a b : String} {ta tb : List Char} (ha : a.data = x :: ta)
    (hb : b.data = y :: tb) (hxy : x ≠ y) : a ≠ b := by
  intro h
  rw [h, hb] at ha
  exact hxy (List.cons.inj ha).1.symm

theorem ratingClause_data (latest : StockAnalysis) :
    ∀ c ∈ ratingClause latest, ∃ t, c.data = 'B' :: t ∨ c.data = 'O' :: t := by
  intro c hc
  unfold ratingClause at hc
  split_ifs at hc
  · simp only [List.mem_singleton] at hc
    exact ⟨"uy rating from ".data ++ latest.Brokerage.data, Or.inl (by
      rw [hc, String.data_append]; rfl)⟩
  · simp only [List.mem_singleton] at hc
    exact ⟨"utperform rating from ".data ++ latest.Brokerage.data, Or.inr (by
      rw [hc, String.data_append]; rfl)⟩
  · simp at hc

theorem priceClause_data (latest : StockAnalysis) :
    ∀ c ∈ priceClause latest, "Price target raised by ".data <+: c.data := by
  intro c hc
  unfold priceClause at hc
  split_ifs at hc
  · simp only [List.mem_singleton] at hc
    rw [hc, String.data_append, String.data_append, List.append_assoc]
    exact List.prefix_append _ _
  · simp at hc

theorem coverageClause_data (latest : StockAnalysis) :
    ∀ c ∈ coverageClause latest, c = "New analyst coverage" := by
  intro c hc
  unfold coverageClause at hc
  split_ifs at hc
  · simpa using hc
  · simp at hc

theorem updatesClause_data (count : ℕ) :
    ∀ c ∈ updatesClause count, c = "Multiple recent analyst updates" := by
  intro c hc
  unfold updatesClause at hc
  split_ifs at hc
  · simpa using hc
  · simp at hc

/-- The clause of the raised price target is among the clauses exactly when the price
target clause applies. -/
theorem priceClause_mem_iff (latest : StockAnalysis) (count : ℕ) :
    (∃ c ∈ reasons latest count, "Price target raised by ".data <+: c.data)
      ↔ priceClause latest ≠ [] := by
  rw [reasons_eq]
  have hP : "Price target raised by ".data = 'P' :: "rice target raised by ".data := rfl
  constructor
  · rintro ⟨c, hc, hpre⟩ hnil
    simp only [reasonClauses, hnil, List.append_nil, List.mem_append] at hc
    rcases hc with (hc | hc) | hc
    · obtain ⟨t, ht | ht⟩ := ratingClause_data latest c hc
      · exact not_prefix_of_head_ne _ _ hP ht (by decide) hpre
      · exact not_prefix_of_head_ne _ _ hP ht (by decide) hpre
    · rw [coverageClause_data latest c hc] at hpre
      exact not_prefix_of_head_ne _ "ew analyst coverage".data hP rfl (by decide) hpre
    · rw [updatesClause_data count c hc] at hpre
      exact not_prefix_of_head_ne _ "ultiple recent analyst updates".data hP rfl
        (by decide) hpre
  · intro hne
    obtain ⟨c, cs, hcs⟩ := List.exists_cons_of_ne_nil hne
    have hc : c ∈ priceClause latest := by rw [hcs]; simp
    exact ⟨c, by simp only [reasonClauses, List.mem_append]; exact Or.inl (Or.inl (Or.inr hc)),
      priceClause_data latest c hc⟩

/-- The clause "New analyst coverage" is among the clauses exactly when the coverage
clause applies. -/
theorem coverageClause_mem_iff (latest : StockAnalysis) (count : ℕ) :
    "New analyst coverage" ∈ reasons latest count
      ↔ strings.Contains (strings.ToLower latest.Action) "initiated" = true := by
  rw [reasons_eq]
  have hN : "New analyst coverage".data = 'N' :: "ew analyst coverage".data := rfl
  constructor
  · intro hc
    by_contra hnot
    have hnil : coverageClause latest = [] := by
      unfold coverageClause
      rw [if_neg hnot]
    simp only [reasonClauses, hnil, List.append_nil, List.mem_append] at hc
    rcases hc with (hc | hc) | hc
    · obtain ⟨t, ht | ht⟩ := ratingClause_data latest _ hc
      · exact ne_of_head_ne hN ht (by decide) rfl
      · exact ne_of_head_ne hN ht (by decide) rfl
    · have := priceClause_data latest _ hc
      exact not_prefix_of_head_ne "rice target raised by ".data _ rfl hN (by decide) this
    · exact absurd (updatesClause_data count _ hc) (by decide)
  · intro h
    simp only [reasonClauses, List.mem_append]
    refine Or.inl (Or.inr ?_)
    unfold coverageClause
    rw [if_pos h]
    simp

/-- The clause "Buy rating from" is among the clauses exactly when the lower-cased
rating contains "buy". -/
theorem buyClause_mem_iff (latest : StockAnalysis) (count : ℕ) :
    (∃ c ∈ reasons latest count, "Buy rating from ".data <+: c.data)
      ↔ strings.Contains (strings.ToLower latest.RatingTo) "buy" = true := by
  rw [reasons_eq]
  have hB : "Buy rating from ".data = 'B' :: "uy rating from ".data := rfl
  constructor
  · rintro ⟨c, hc, hpre⟩
    by_contra hnot
    simp only [reasonClauses, List.mem_append] at hc
    rcases hc with ((hc | hc) | hc) | hc
    · unfold ratingClause at hc
      rw [if_neg hnot] at hc
      split_ifs at hc
      · simp only [List.mem_singleton] at hc
        rw [hc, String.data_append] at hpre
        exact not_prefix_of_head_ne _ ("utperform rating from ".data ++ latest.Brokerage.data) hB
          rfl (by decide) hpre
      · simp at hc
    · have hp := priceClause_data latest c hc
      obtain ⟨t, ht⟩ := hp
      exact not_prefix_of_head_ne _ ("rice target raised by ".data ++ t) hB
        (by rw [← ht]; rfl) (by decide) hpre
    · rw [coverageClause_data latest c hc] at hpre
      exact not_prefix_of_head_ne _ "ew analyst coverage".data hB rfl (by decide) hpre
    · rw [updatesClause_data count c hc] at hpre
      exact not_prefix_of_head_ne _ "ultiple recent analyst updates".data hB rfl
        (by decide) hpre
  · intro h
    refine ⟨"Buy rating from " ++ latest.Brokerage, ?_, ?_⟩
    · simp only [reasonClauses, List.mem_append]
      refine Or.inl (Or.inl (Or.inl ?_))
      unfold ratingClause
      rw [if_pos h]
      simp
    · rw [String.data_append]
      exact List.prefix_append _ _

theorem RecommendationEngine.getRatingScore_eq_80_iff (rating : String) :
    getRatingScore rating = 80 ↔ strings.Contains (strings.ToLower rating) "buy" = true := by
  have hsb : strings.Contains (strings.ToLower rating) "strong buy" = true →
      strings.Contains (strings.ToLower rating) "buy" = true := by
    unfold strings.Contains
    simp only [decide_eq_true_eq]
    intro h
    exact (show "buy".data <:+: "strong buy".data by decide).trans h
  unfold getRatingScore
  dsimp only
  by_cases hb : strings.Contains (strings.ToLower rating) "buy" = true
  · simp [hb]
  · have hs : ¬ strings.Contains (strings.ToLower rating) "strong buy" = true :=
      fun h => hb (hsb h)
    simp only [hb, hs, Bool.or_self, Bool.false_eq_true, if_false, iff_false]
    split_ifs <;> norm_num

/-! ## Auxiliary facts: the characters of the explanation -/

/-- A block that occurs in `pre ++ (mid ++ post)`, but not inside `mid`, and that does not
contain the first element of `post`, has its first element in `pre` or in `post`. -/
theorem head_mem_of_infix {α : Type} (c0 : α) (w pre mid post : List α)
    (h : (c0 :: w) <:+: pre ++ (mid ++ post)) (hmid : ¬ (c0 :: w) <:+: mid)
    (hpost : ∀ q rest, post = q :: rest → q ∉ c0 :: w) : c0 ∈ pre ∨ c0 ∈ post := by
  obtain ⟨s, t, hst⟩ := h
  rw [List.append_assoc] at hst
  have stage : ∀ s1, s1 ++ (c0 :: w ++ t) = mid ++ post → c0 ∈ post := by
    intro s1 h1
    rcases List.append_eq_append_iff.1 h1 with ⟨a, hm, ha⟩ | ⟨c, -, hc⟩
    · cases a with
      | nil =>
        rw [List.nil_append] at ha
        rw [← ha]
        simp
      | cons x a =>
        rw [List.cons_append, List.cons_append] at ha
        obtain ⟨hx, hwt⟩ := List.cons.inj ha
        subst hx
        exfalso
        rcases List.append_eq_append_iff.1 hwt with ⟨b, hb, -⟩ | ⟨b, hb, hp⟩
        · exact hmid ⟨s1, b, by rw [hm, hb]; simp⟩
        · cases b with
          | nil =>
            rw [List.append_nil] at hb
            exact hmid ⟨s1, [], by rw [hm, hb]; simp⟩
          | cons q b =>
            refine hpost q (b ++ t) (by rw [hp]; rfl) ?_
            rw [hb]
            simp
    · rw [hc]
      simp
  rcases List.append_eq_append_iff.1 hst with ⟨a, hp, ha⟩ | ⟨c, -, hc⟩
  · cases a with
    | nil =>
      rw [List.nil_append] at ha
      exact Or.inr (stage [] (by rw [List.nil_append]; exact ha))
    | cons x a =>
      rw [List.cons_append, List.cons_append] at ha
      obtain ⟨hx, -⟩ := List.cons.inj ha
      subst hx
      left
      rw [hp]
      simp
  · exact Or.inr (stage c hc.symm)

/-- The first element of a block that occurs in a list is an element of the list. -/
theorem head_mem_of_infix_self {α : Type} (c0 : α) (w l : List α) (h : (c0 :: w) <:+: l) :
    c0 ∈ l :=
  h.subset (List.mem_cons_self _ _)

/-- The characters of `strings.Join`: the first element, and every further element behind
the separator. -/
theorem strings.Join_data (sep : String) :
    ∀ (c : String) (cs : List String),
      (strings.Join (c :: cs) sep).data = c.data ++ cs.flatMap fun d => sep.data ++ d.data
  | c, [] => by simp [strings.Join]
  | c, d :: cs => by
    simp only [strings.Join, String.data_append, List.flatMap_cons]
    rw [strings.Join_data sep d cs]
    simp

/-- The characters behind a first element of `strings.Join` with the separator ", " are
those of the separator and those of the further elements. -/
theorem mem_flatMap_sep (c0 : Char) (cs : List String)
    (h : c0 ∈ cs.flatMap fun d => ", ".data ++ d.data) :
    c0 ∈ ", ".data ∨ ∃ d ∈ cs, c0 ∈ d.data := by
  rw [List.mem_flatMap] at h
  obtain ⟨d, hd, hc⟩ := h
  rcases List.mem_append.1 hc with hc | hc
  · exact Or.inl hc
  · exact Or.inr ⟨d, hd, hc⟩

/-- The characters behind a first element of `strings.Join` with the separator ", " begin
with a comma. -/
theorem flatMap_sep_head (cs : List String) :
    ∀ q rest, (cs.flatMap fun d => ", ".data ++ d.data) = q :: rest → q = ',' := by
  intro q rest h
  cases cs with
  | nil => simp at h
  | cons d cs =>
    rw [List.flatMap_cons] at h
    exact ((List.cons.inj h).1).symm

/-- The decimal digits are none of the letters `N` and `B`. -/
theorem digitChar_not_letter : ∀ k < 10, Nat.digitChar k ≠ 'N' ∧ Nat.digitChar k ≠ 'B' := by
  decide

theorem toDigitsCore_not_letter :
    ∀ (fuel n : ℕ) (ds : List Char), (∀ c ∈ ds, c ≠ 'N' ∧ c ≠ 'B') →
      ∀ c ∈ Nat.toDigitsCore 10 fuel n ds, c ≠ 'N' ∧ c ≠ 'B'
  | 0, _, ds, h => by simpa [Nat.toDigitsCore] using h
  | fuel + 1, n, ds, h => by
    have hd : ∀ c ∈ Nat.digitChar (n % 10) :: ds, c ≠ 'N' ∧ c ≠ 'B' := by
      intro c hc
      rcases List.mem_cons.1 hc with hc | hc
      · rw [hc]
        exact digitChar_not_letter _ (Nat.mod_lt _ (by norm_num))
      · exact h c hc
    unfold Nat.toDigitsCore
    dsimp only
    split_ifs
    · exact hd
    · exact toDigitsCore_not_letter fuel (n / 10) _ hd

/-- The decimal digits of a number contain none of the letters `N` and `B`. -/
theorem fmt.digits_not_letter (n : ℕ) : ∀ c ∈ (fmt.digits n).data, c ≠ 'N' ∧ c ≠ 'B' :=
  toDigitsCore_not_letter (n + 1) n [] (by simp)

/-- The text of a value that is not a NaN, printed with one decimal, contains none of the
letters `N` and `B`. -/
theorem fmt.fixed1_not_letter (v : F64) (hv : v ≠ .nan) :
    ∀ c ∈ (fmt.fixed1 v).data, c ≠ 'N' ∧ c ≠ 'B' := by
  intro c hc
  cases v with
  | fin q =>
    simp only [fmt.fixed1, String.data_append, List.mem_append] at hc
    rcases hc with ((hc | hc) | hc) | hc
    · split_ifs at hc
      · have : c = '-' := by simpa using hc
        rw [this]; decide
      · simp at hc
    · exact fmt.digits_not_letter _ c hc
    · have : c = '.' := by simpa using hc
      rw [this]; decide
    · exact fmt.digits_not_letter _ c hc
  | inf s =>
    cases s
    · have : c ∈ "+Inf".data := hc
      revert c
      decide
    · have : c ∈ "-Inf".data := hc
      revert c
      decide
  | nan => exact absurd rfl hv

/-- A value that exceeds another one is not a NaN, and neither is its hundredfold. -/
theorem F64.mul_hundred_ne_nan (x y : F64) (h : F64.gt x y = true) :
    F64.mul x (.fin 100) ≠ .nan := by
  cases x with
  | fin a => exact F64.round_ne_nan _
  | inf s => simp [F64.mul]
  | nan => cases y <;> simp [F64.gt, F64.lt] at h

/-- The explanation of a stock view with a latest action, by the clauses in their fixed
order. -/
theorem RecommendationEngine.generateReason_eq (stock : StockWithAnalysis) (score : ℚ)
    (latest : StockAnalysis) (rest : List StockAnalysis)
    (hL : stock.LatestAnalysis = latest :: rest) :
    generateReason stock score
      = (if reasonClauses latest (rest.length + 1) = [] then
          "Analyst coverage available from " ++ latest.Brokerage
        else strings.Join (reasonClauses latest (rest.length + 1)) ", ") := by
  unfold generateReason
  rw [hL]
  simp only [List.length_cons, List.length_eq_zero, reasons_eq]

/-- Where a block of characters without a comma, which does not occur in the brokerage of
the latest action, occurs in the explanation: its first character belongs to the words of
the rating clause, to the words of the sentence for an explanation without clauses, to
the separator or to one of the clauses behind the rating clause. -/
theorem RecommendationEngine.generateReason_head_mem (stock : StockWithAnalysis) (score : ℚ)
    (latest : StockAnalysis) (rest : List StockAnalysis)
    (hL : stock.LatestAnalysis = latest :: rest) (c0 : Char) (w : List Char)
    (hcomma : ',' ∉ c0 :: w) (hB : ¬ (c0 :: w) <:+: latest.Brokerage.data)
    (h : (c0 :: w) <:+: (generateReason stock score).data) :
    (c0 ∈ "Buy rating from ".data
        ∧ strings.Contains (strings.ToLower latest.RatingTo) "buy" = true)
      ∨ c0 ∈ "Outperform rating from ".data
      ∨ c0 ∈ "Analyst coverage available from ".data
      ∨ c0 ∈ ", ".data
      ∨ ∃ d ∈ priceClause latest ++ coverageClause latest ++ updatesClause (rest.length + 1),
          c0 ∈ d.data := by
  rw [generateReason_eq stock score latest rest hL] at h
  have hassoc : reasonClauses latest (rest.length + 1)
      = ratingClause latest
        ++ (priceClause latest ++ coverageClause latest ++ updatesClause (rest.length + 1)) := by
    simp only [reasonClauses, List.append_assoc]
  rw [hassoc] at h
  generalize priceClause latest ++ coverageClause latest ++ updatesClause (rest.length + 1)
    = others at h ⊢
  have hpost : ∀ q r, (others.flatMap fun d => ", ".data ++ d.data) = q :: r → q ∉ c0 :: w := by
    intro q r hq
    rw [flatMap_sep_head others q r hq]
    exact hcomma
  have withRating : ∀ word : String,
      (c0 :: w) <:+: (strings.Join ((word ++ latest.Brokerage) :: others) ", ").data →
      c0 ∈ word.data ∨ c0 ∈ ", ".data ∨ ∃ d ∈ others, c0 ∈ d.data := by
    intro word hw
    rw [strings.Join_data, String.data_append, List.append_assoc] at hw
    rcases head_mem_of_infix c0 w _ _ _ hw hB hpost with hc | hc
    · exact Or.inl hc
    · exact Or.inr (mem_flatMap_sep c0 others hc)
  by_cases hb : strings.Contains (strings.ToLower latest.RatingTo) "buy" = true
  · have hr : ratingClause latest = ["Buy rating from " ++ latest.Brokerage] := by
      unfold ratingClause
      rw [if_pos hb]
    rw [hr] at h
    simp only [List.singleton_append, reduceCtorEq, if_false] at h
    rcases withRating _ h with hc | hc
    · exact Or.inl ⟨hc, hb⟩
    · exact Or.inr (Or.inr (Or.inr hc))
  by_cases ho : strings.Contains (strings.ToLower latest.RatingTo) "outperform" = true
  · have hr : ratingClause latest = ["Outperform rating from " ++ latest.Brokerage] := by
      unfold ratingClause
      rw [if_neg hb, if_pos ho]
    rw [hr] at h
    simp only [List.singleton_append, reduceCtorEq, if_false] at h
    rcases withRating _ h with hc | hc
    · exact Or.inr (Or.inl hc)
    · exact Or.inr (Or.inr (Or.inr hc))
  · have hr : ratingClause latest = [] := by
      unfold ratingClause
      rw [if_neg hb, if_neg ho]
    rw [hr] at h
    rw [List.nil_append] at h
    cases others with
    | nil =>
      simp only [if_true, String.data_append] at h
      have h2 : (c0 :: w) <:+: "Analyst coverage available from ".data
          ++ (latest.Brokerage.data ++ []) := by
        rw [List.append_nil]; exact h
      rcases head_mem_of_infix c0 w _ _ _ h2 hB (by intro q r hq; cases hq) with hc | hc
      · exact Or.inr (Or.inr (Or.inl hc))
      · cases hc
    | cons c cs =>
      simp only [reduceCtorEq, if_false] at h
      rw [strings.Join_data] at h
      rcases List.mem_append.1 (head_mem_of_infix_self c0 w _ h) with hc | hc
      · exact Or.inr (Or.inr (Or.inr (Or.inr ⟨c, List.mem_cons_self _ _, hc⟩)))
      · rcases mem_flatMap_sep c0 cs hc with hc | ⟨d, hd, hc⟩
        · exact Or.inr (Or.inr (Or.inr (Or.inl hc)))
        · exact Or.inr (Or.inr (Or.inr (Or.inr ⟨d, List.mem_cons_of_mem _ hd, hc⟩)))

/-- The characters of the price target clause are none of the letters `N` and `B`. -/
theorem priceClause_not_letter (latest : StockAnalysis) :
    ∀ d ∈ priceClause latest, ∀ c ∈ d.data, c ≠ 'N' ∧ c ≠ 'B' := by
  intro d hd c hc
  unfold priceClause at hd
  split_ifs at hd with hcond
  · simp only [List.mem_singleton] at hd
    rw [hd, String.data_append, String.data_append, List.mem_append, List.mem_append] at hc
    rcases hc with (hc | hc) | hc
    · revert c
      decide
    · exact fmt.fixed1_not_letter _ (F64.mul_hundred_ne_nan _ _ hcond.2.2) c hc
    · revert c
      decide
  · simp at hd

/-- The price target clause applies exactly when the target change score is 20. -/
theorem RecommendationEngine.targetScore_eq_20_iff_priceClause (stock : StockWithAnalysis)
    (latest : StockAnalysis) (rest : List StockAnalysis)
    (hL : stock.LatestAnalysis = latest :: rest) :
    priceClause latest ≠ [] ↔ calculateTargetChangeScore stock = 20 := by
  unfold priceClause calculateTargetChangeScore
  rw [hL]
  dsimp only
  by_cases h : 0 < extractPrice latest.TargetFrom ∧ 0 < extractPrice latest.TargetTo
  · by_cases hg : F64.gt (targetChange (extractPrice latest.TargetFrom)
        (extractPrice latest.TargetTo)) (F64.const (1 / 10)) = true
    · rw [if_pos ⟨h.1, h.2, hg⟩, if_pos h, if_pos hg]
      simp
    · have hn : ¬ (0 < extractPrice latest.TargetFrom ∧ 0 < extractPrice latest.TargetTo
          ∧ F64.gt (targetChange (extractPrice latest.TargetFrom)
              (extractPrice latest.TargetTo)) (F64.const (1 / 10)) = true) :=
        fun hh => hg hh.2.2
      rw [if_neg hn]
      simp only [gt_iff_lt, h, and_self, if_true, hg, Bool.false_eq_true, if_false, ne_eq,
        not_true_eq_false, false_iff]
      split_ifs <;> norm_num
  · have hn : ¬ (0 < extractPrice latest.TargetFrom ∧ 0 < extractPrice latest.TargetTo
        ∧ F64.gt (targetChange (extractPrice latest.TargetFrom)
            (extractPrice latest.TargetTo)) (F64.const (1 / 10)) = true) :=
      fun hh => h ⟨hh.1, hh.2.1⟩
    rw [if_neg hn]
    simp only [gt_iff_lt, h, if_false, ne_eq, not_true_eq_false, false_iff]
    norm_num

/-- The action score is 10 exactly when the lower-cased action kind contains
"initiated". -/
theorem RecommendationEngine.calculateActionScore_eq_10_iff (stock : StockWithAnalysis)
    (latest : StockAnalysis) (rest : List StockAnalysis)
    (hL : stock.LatestAnalysis = latest :: rest) :
    calculateActionScore stock = 10
      ↔ strings.Contains (strings.ToLower latest.Action) "initiated" = true := by
  unfold calculateActionScore
  rw [hL]
  dsimp only
  by_cases hi : strings.Contains (strings.ToLower latest.Action) "initiated" = true
  · simp [hi]
  · simp only [hi, Bool.false_eq_true, if_false, iff_false]
    split_ifs <;> norm_num

/-- The rating component is 30 exactly when the lower-cased latest rating contains
"buy". -/
theorem RecommendationEngine.ratingScore_eq_30_iff (stock : StockWithAnalysis)
    (latest : StockAnalysis) (rest : List StockAnalysis)
    (hL : stock.LatestAnalysis = latest :: rest) :
    (calculateRatingScores stock).1 = 30
      ↔ strings.Contains (strings.ToLower latest.RatingTo) "buy" = true := by
  unfold calculateRatingScores
  rw [hL]
  dsimp only
  by_cases h0 : latest.RatingTo = ""
  · rw [h0]
    simp only [ne_eq, not_true_eq_false, if_false]
    have : strings.Contains (strings.ToLower "") "buy" = false := by decide
    rw [this]
    norm_num
  · simp only [ne_eq, h0, not_false_eq_true, if_true]
    rw [← getRatingScore_eq_80_iff]
    constructor
    · intro h; linarith
    · intro h; rw [h]; norm_num

/-- A clause that begins with a phrase makes the explanation contain the phrase. -/
theorem RecommendationEngine.generateReason_contains_of_clause (stock : StockWithAnalysis)
    (score : ℚ) (latest : StockAnalysis) (rest : List StockAnalysis)
    (hL : stock.LatestAnalysis = latest :: rest) (phrase : String)
    (h : ∃ c ∈ reasons latest (rest.length + 1), phrase.data <+: c.data) :
    strings.Contains (generateReason stock score) phrase = true := by
  obtain ⟨c, hc, hpre⟩ := h
  rw [reasons_eq] at hc
  have hne : reasonClauses latest (rest.length + 1) ≠ [] := List.ne_nil_of_mem hc
  rw [generateReason_eq stock score latest rest hL, if_neg hne]
  unfold strings.Contains
  rw [decide_eq_true_eq]
  exact hpre.isInfix.trans (strings.Join_infix ", " _ c hc)

/-- An explanation that contains "Price target raised by ", with a brokerage that does
not, has the price target clause. -/
theorem RecommendationEngine.priceClause_of_contains (stock : StockWithAnalysis) (score : ℚ)
    (latest : StockAnalysis) (rest : List StockAnalysis)
    (hL : stock.LatestAnalysis = latest :: rest)
    (hB : strings.Contains latest.Brokerage "Price target raised by " = false)
    (h : strings.Contains (generateReason stock score) "Price target raised by " = true) :
    priceClause latest ≠ [] := by
  unfold strings.Contains at hB h
  rw [decide_eq_false_iff_not] at hB
  rw [decide_eq_true_eq] at h
  have hP : "Price target raised by ".data = 'P' :: "rice target raised by ".data := rfl
  rw [hP] at hB h
  rcases generateReason_head_mem stock score latest rest hL _ _ (by decide) hB h with
    hc | hc | hc | hc | ⟨d, hd, hc⟩
  · exact absurd hc.1 (by decide)
  · exact absurd hc (by decide)
  · exact absurd hc (by decide)
  · exact absurd hc (by decide)
  · rcases List.mem_append.1 hd with hd | hd
    · rcases List.mem_append.1 hd with hd | hd
      · exact List.ne_nil_of_mem hd
      · rw [coverageClause_data latest d hd] at hc
        exact absurd hc (by decide)
    · rw [updatesClause_data _ d hd] at hc
      exact absurd hc (by decide)

/-- An explanation that contains "New analyst coverage", with a brokerage that does not,
belongs to an action whose lower-cased kind contains "initiated". -/
theorem RecommendationEngine.coverageClause_of_contains (stock : StockWithAnalysis)
    (score : ℚ) (latest : StockAnalysis) (rest : List StockAnalysis)
    (hL : stock.LatestAnalysis = latest :: rest)
    (hB : strings.Contains latest.Brokerage "New analyst coverage" = false)
    (h : strings.Contains (generateReason stock score) "New analyst coverage" = true) :
    strings.Contains (strings.ToLower latest.Action) "initiated" = true := by
  unfold strings.Contains at hB h
  rw [decide_eq_false_iff_not] at hB
  rw [decide_eq_true_eq] at h
  have hN : "New analyst coverage".data = 'N' :: "ew analyst coverage".data := rfl
  rw [hN] at hB h
  rcases generateReason_head_mem stock score latest rest hL _ _ (by decide) hB h with
    hc | hc | hc | hc | ⟨d, hd, hc⟩
  · exact absurd hc.1 (by decide)
  · exact absurd hc (by decide)
  · exact absurd hc (by decide)
  · exact absurd hc (by decide)
  · rcases List.mem_append.1 hd with hd | hd
    · rcases List.mem_append.1 hd with hd | hd
      · exact absurd rfl (priceClause_not_letter latest d hd _ hc).1
      · unfold coverageClause at hd
        by_contra hnot
        rw [if_neg hnot] at hd
        cases hd
    · rw [updatesClause_data _ d hd] at hc
      exact absurd hc (by decide)

/-- An explanation that contains "Buy rating from ", with a brokerage that does not,
belongs to an action whose lower-cased rating contains "buy". -/
theorem RecommendationEngine.buyClause_of_contains (stock : StockWithAnalysis) (score : ℚ)
    (latest : StockAnalysis) (rest : List StockAnalysis)
    (hL : stock.LatestAnalysis = latest :: rest)
    (hB : strings.Contains latest.Brokerage "Buy rating from " = false)
    (h : strings.Contains (generateReason stock score) "Buy rating from " = true) :
    strings.Contains (strings.ToLower latest.RatingTo) "buy" = true := by
  unfold strings.Contains at hB h
  rw [decide_eq_false_iff_not] at hB
  rw [decide_eq_true_eq] at h
  have hBuy : "Buy rating from ".data = 'B' :: "uy rating from ".data := rfl
  rw [hBuy] at hB h
  rcases generateReason_head_mem stock score latest rest hL _ _ (by decide) hB h with
    hc | hc | hc | hc | ⟨d, hd, hc⟩
  · exact hc.2
  · exact absurd hc (by decide)
  · exact absurd hc (by decide)
  · exact absurd hc (by decide)
  · rcases List.mem_append.1 hd with hd | hd
    · rcases List.mem_append.1 hd with hd | hd
      · exact absurd rfl (priceClause_not_letter latest d hd _ hc).2
      · rw [coverageClause_data latest d hd] at hc
        exact absurd hc (by decide)
    · rw [updatesClause_data _ d hd] at hc
      exact absurd hc (by decide)

/-! ## The explanation agrees with the score components -/

/-- C30, as stated, fails: the stock whose only action is an upgrade to Buy by the
brokerage "X, New analyst coverage" has the explanation "Buy rating from X, New analyst
coverage", which contains the clause "New analyst coverage", while its action score is 0
and not 10; the explanation is the one of an initiation at Buy by the brokerage "X",
whose action score is 10. -/
theorem generateReason_text_counterexample :
    clauseNamedStock.LatestAnalysis.length = 1
      ∧ generateReason clauseNamedStock (calculateScore clauseNamedStock)
        = "Buy rating from X, New analyst coverage"
      ∧ strings.Contains (generateReason clauseNamedStock (calculateScore clauseNamedStock))
          "New analyst coverage" = true
      ∧ calculateActionScore clauseNamedStock = 0
      ∧ generateReason initiatedStock (calculateScore initiatedStock)
        = "Buy rating from X, New analyst coverage"
      ∧ calculateActionScore initiatedStock = 10 := by
  refine ⟨rfl, by decide!, by decide!, by decide!, by decide!, by decide!⟩

/-- C30, amended: for a stock view with at least one action, the explanation of
`generateReason` is made of the clauses that the function collects (joined with ", ",
each of them a part of the text); among these clauses the one of the raised price target
is present exactly when `calculateTargetChangeScore` is +20, the clause "New analyst
coverage" exactly when `calculateActionScore` is +10, and the clause "Buy rating from"
exactly when the rating component of `calculateRatingScores` is +30.  Each of the three
scores makes the text contain the words of its clause; and the text contains "Price
target raised by ", "New analyst coverage" or "Buy rating from " only with that score,
provided the brokerage of the latest action, which is copied into the text, does not
contain these words itself. -/
theorem generateReason_agrees_with_scores (stock : StockWithAnalysis) (score : ℚ)
    (latest : StockAnalysis) (rest : List StockAnalysis)
    (hL : stock.LatestAnalysis = latest :: rest) :
    generateReason stock score
        = (if reasons latest (rest.length + 1) = [] then
            "Analyst coverage available from " ++ latest.Brokerage
          else strings.Join (reasons latest (rest.length + 1)) ", ")
      ∧ (∀ c ∈ reasons latest (rest.length + 1),
          strings.Contains (generateReason stock score) c = true)
      ∧ ((∃ c ∈ reasons latest (rest.length + 1), "Price target raised by ".data <+: c.data)
          ↔ calculateTargetChangeScore stock = 20)
      ∧ ("New analyst coverage" ∈ reasons latest (rest.length + 1)
          ↔ calculateActionScore stock = 10)
      ∧ ((∃ c ∈ reasons latest (rest.length + 1), "Buy rating from ".data <+: c.data)
          ↔ (calculateRatingScores stock).1 = 30)
      ∧ (calculateTargetChangeScore stock = 20 →
          strings.Contains (generateReason stock score) "Price target raised by " = true)
      ∧ (calculateActionScore stock = 10 →
          strings.Contains (generateReason stock score) "New analyst coverage" = true)
      ∧ ((calculateRatingScores stock).1 = 30 →
          strings.Contains (generateReason stock score) "Buy rating from " = true)
      ∧ (strings.Contains latest.Brokerage "Price target raised by " = false →
          (strings.Contains (generateReason stock score) "Price target raised by " = true
            ↔ calculateTargetChangeScore stock = 20))
      ∧ (strings.Contains latest.Brokerage "New analyst coverage" = false →
          (strings.Contains (generateReason stock score) "New analyst coverage" = true
            ↔ calculateActionScore stock = 10))
      ∧ (strings.Contains latest.Brokerage "Buy rating from " = false →
          (strings.Contains (generateReason stock score) "Buy rating from " = true
            ↔ (calculateRatingScores stock).1 = 30)) := by
  have hprice := (priceClause_mem_iff latest (rest.length + 1)).trans
    (targetScore_eq_20_iff_priceClause stock latest rest hL)
  have hcoverage := (coverageClause_mem_iff latest (rest.length + 1)).trans
    (calculateActionScore_eq_10_iff stock latest rest hL).symm
  have hbuy := (buyClause_mem_iff latest (rest.length + 1)).trans
    (ratingScore_eq_30_iff stock latest rest hL).symm
  have tprice : calculateTargetChangeScore stock = 20 →
      strings.Contains (generateReason stock score) "Price target raised by " = true :=
    fun h => generateReason_contains_of_clause stock score latest rest hL _ (hprice.2 h)
  have tcoverage : calculateActionScore stock = 10 →
      strings.Contains (generateReason stock score) "New analyst coverage" = true :=
    fun h => generateReason_contains_of_clause stock score latest rest hL _
      ⟨_, hcoverage.2 h, List.prefix_refl _⟩
  have tbuy : (calculateRatingScores stock).1 = 30 →
      strings.Contains (generateReason stock score) "Buy rating from " = true :=
    fun h => generateReason_contains_of_clause stock score latest rest hL _ (hbuy.2 h)
  refine ⟨?_, ?_, hprice, hcoverage, hbuy, tprice, tcoverage, tbuy, ?_, ?_, ?_⟩
  · rw [reasons_eq]
    exact generateReason_eq stock score latest rest hL
  · intro c hc
    exact generateReason_contains_of_clause stock score latest rest hL c
      ⟨c, hc, List.prefix_refl _⟩
  · intro hB
    exact ⟨fun h => (targetScore_eq_20_iff_priceClause stock latest rest hL).1
      (priceClause_of_contains stock score latest rest hL hB h), tprice⟩
  · intro hB
    exact ⟨fun h => (calculateActionScore_eq_10_iff stock latest rest hL).2
      (coverageClause_of_contains stock score latest rest hL hB h), tcoverage⟩
  · intro hB
    exact ⟨fun h => (ratingScore_eq_30_iff stock latest rest hL).2
      (buyClause_of_contains stock score latest rest hL hB h), tbuy⟩

/-- C30, amended, for the stock whose three actions are rated Buy, the latest an upgrade
from Hold, "target raised by", with the target raised from $10 to $12: the price target
clause and the Buy clause are present, the target change score is 20 and the rating score
30; the clause "New analyst coverage" is absent, the action score being 12; and as the
brokerage "Tiger Research" does not contain the words "New analyst coverage", the text
does not contain them either. -/
theorem generateReason_agrees_with_scores_witness :
    bestStock.LatestAnalysis
        = sampleAction 3 2 "Hold" "Buy" "target raised by" "$10" "$12"
          :: [sampleAction 2 1 "" "Buy" "" "" "", sampleAction 1 0 "" "Buy" "" "" ""]
      ∧ generateReason bestStock 140
        = "Buy rating from Tiger Research, Price target raised by 20.0%, "
          ++ "Multiple recent analyst updates"
      ∧ calculateTargetChangeScore bestStock = 20
      ∧ calculateActionScore bestStock = 12
      ∧ (calculateRatingScores bestStock).1 = 30
      ∧ ("New analyst coverage"
            ∈ reasons (sampleAction 3 2 "Hold" "Buy" "target raised by" "$10" "$12") 3
          ↔ calculateActionScore bestStock = 10)
      ∧ (strings.Contains (generateReason bestStock 140) "New analyst coverage" = true
          ↔ calculateActionScore bestStock = 10) :=
  ⟨rfl, by decide!, by decide!, by decide!, by decide!,
    (generateReason_agrees_with_scores bestStock 140
      (sampleAction 3 2 "Hold" "Buy" "target raised by" "$10" "$12")
      [sampleAction 2 1 "" "Buy" "" "" "", sampleAction 1 0 "" "Buy" "" "" ""] rfl).2.2.2.1,
    (generateReason_agrees_with_scores bestStock 140
      (sampleAction 3 2 "Hold" "Buy" "target raised by" "$10" "$12")
      [sampleAction 2 1 "" "Buy" "" "" "", sampleAction 1 0 "" "Buy" "" "" ""]
      rfl).2.2.2.2.2.2.2.2.2.1 (by decide!)⟩

/-! ## Auxiliary facts: the rows of a page -/

theorem StockRepository.paginatedStocks_eq (db : Store) (pageSize offset : ℤ)
    (filters : StockFilterParams) :
    paginatedStocks db pageSize offset filters
      = ((orderedStocks db filters).drop offset.toNat).take pageSize.toNat := rfl

theorem StockRepository.pageRows_eq (db : Store) (pageSize offset : ℤ)
    (filters : StockFilterParams) :
    pageRows db pageSize offset filters
      = (joinedRows db pageSize offset filters).insertionSort
          fun a b => finalOrderBy filters a b = true := rfl

theorem stocksSeen_append (rows : List PageRow) (row : PageRow) :
    stocksSeen (rows ++ [row])
      = if (stocksSeen rows).any fun s => decide (s.ID = row.stock.ID) then stocksSeen rows
        else stocksSeen rows ++ [row.stock] := by
  unfold stocksSeen
  rw [List.foldl_append]
  rfl

theorem StockRepository.collectRows_append (rows : List PageRow) (row : PageRow) :
    collectRows (rows ++ [row])
      = if (collectRows rows).any fun s => decide (s.ID = row.stock.ID) then
          (collectRows rows).map fun s =>
            if s.ID = row.stock.ID then
              { s with LatestAnalysis := s.LatestAnalysis ++ [scanAnalysis row] }
            else s
        else collectRows rows ++ [{ toStock := row.stock, LatestAnalysis := [scanAnalysis row] }] := by
  unfold collectRows
  rw [List.foldl_append]
  rfl

theorem mem_stocksSeen_ids (rows : List PageRow) (id : ℤ) :
    id ∈ (stocksSeen rows).map (fun s => s.ID) ↔ id ∈ rows.map fun row => row.stock.ID := by
  induction rows using List.reverseRecOn generalizing id with
  | nil => simp [stocksSeen]
  | append_singleton rows row ih =>
    rw [stocksSeen_append]
    split_ifs with h
    · rw [ih]
      simp only [List.map_append, List.map_cons, List.map_nil, List.mem_append,
        List.mem_singleton]
      constructor
      · exact Or.inl
      · rintro (h1 | h1)
        · exact h1
        · rw [h1, ← ih]
          simp only [List.any_eq_true, decide_eq_true_eq] at h
          obtain ⟨s, hs, hid⟩ := h
          exact List.mem_map.2 ⟨s, hs, hid⟩
    · simp only [List.map_append, List.map_cons, List.map_nil, List.mem_append,
        List.mem_singleton, ih]

theorem stocksSeen_nodup (rows : List PageRow) : ((stocksSeen rows).map fun s => s.ID).Nodup := by
  induction rows using List.reverseRecOn with
  | nil => simp [stocksSeen]
  | append_singleton rows row ih =>
    rw [stocksSeen_append]
    split_ifs with h
    · exact ih
    · rw [List.map_append, List.nodup_append]
      refine ⟨ih, by simp, ?_⟩
      intro a ha hb
      simp only [List.map_cons, List.map_nil, List.mem_singleton] at hb
      apply h
      obtain ⟨s, hs, hid⟩ := List.mem_map.1 ha
      exact List.any_eq_true.2 ⟨s, hs, by simp [hid, hb]⟩

theorem stocksSeen_sublist (rows : List PageRow) :
    (stocksSeen rows).Sublist (rows.map fun row => row.stock) := by
  induction rows using List.reverseRecOn with
  | nil => simp [stocksSeen]
  | append_singleton rows row ih =>
    rw [stocksSeen_append, List.map_append]
    split_ifs with h
    · exact ih.trans (List.sublist_append_left _ _)
    · exact ih.append (List.Sublist.refl _)

/-- The loop over the rows lists the stocks at their first rows, each with the actions
of all its rows. -/
theorem StockRepository.collectRows_eq (rows : List PageRow) :
    collectRows rows = (stocksSeen rows).map (dataEntry rows) := by
  induction rows using List.reverseRecOn with
  | nil => rfl
  | append_singleton rows row ih =>
    have hany : ((collectRows rows).any fun s => decide (s.ID = row.stock.ID))
        = (stocksSeen rows).any fun s => decide (s.ID = row.stock.ID) := by
      rw [ih]
      generalize stocksSeen rows = seen
      induction seen with
      | nil => rfl
      | cons s seen ihs => simp only [List.map_cons, List.any_cons, ihs, dataEntry]
    rw [collectRows_append, stocksSeen_append, hany]
    split_ifs with h
    · rw [ih, List.map_map]
      apply List.map_congr_left
      intro s _
      simp only [Function.comp, dataEntry, List.filter_append, List.map_append]
      by_cases hs : s.ID = row.stock.ID
      · simp [hs]
      · have hs' : ¬ row.stock.ID = s.ID := fun e => hs e.symm
        simp [hs, hs']
    · rw [ih, List.map_append]
      congr 1
      · apply List.map_congr_left
        intro s hs
        have hne : ¬ row.stock.ID = s.ID := by
          intro e
          exact h (List.any_eq_true.2 ⟨s, hs, by simp [e]⟩)
        simp [dataEntry, List.filter_append, hne]
      · have hnone : (rows.filter fun r => decide (r.stock.ID = row.stock.ID)) = [] := by
          rw [List.filter_eq_nil_iff]
          intro r hr hrid
          simp only [decide_eq_true_eq] at hrid
          have hmem : row.stock.ID ∈ (stocksSeen rows).map fun s => s.ID :=
            (mem_stocksSeen_ids rows _).2 (List.mem_map.2 ⟨r, hr, hrid⟩)
          obtain ⟨s, hs, hid⟩ := List.mem_map.1 hmem
          exact h (List.any_eq_true.2 ⟨s, hs, by simp [hid]⟩)
        simp [dataEntry, List.filter_append, hnone]

/-! ## Auxiliary facts: the orderings of the main query -/

theorem StockRepository.byAnalysisDateDesc_total (a b : Option StockAnalysis) :
    byAnalysisDateDesc a b = true ∨ byAnalysisDateDesc b a = true := by
  cases a <;> cases b <;> simp [byAnalysisDateDesc]
  exact le_total _ _

theorem StockRepository.byAnalysisDateDesc_trans (a b c : Option StockAnalysis)
    (hab : byAnalysisDateDesc a b = true) (hbc : byAnalysisDateDesc b c = true) :
    byAnalysisDateDesc a c = true := by
  cases a <;> cases b <;> cases c <;> simp_all [byAnalysisDateDesc]
  omega

theorem StockRepository.byMaxDate_total (desc : Bool) (a b : Stock × Option ℤ) :
    byMaxDate desc a b = true ∨ byMaxDate desc b a = true := by
  obtain ⟨s, x⟩ := a
  obtain ⟨t, y⟩ := b
  cases x with
  | none =>
    cases y with
    | none => simpa [byMaxDate] using le_total s.Symbol t.Symbol
    | some y => simp [byMaxDate]
  | some x =>
    cases y with
    | none => simp [byMaxDate]
    | some y =>
      simp only [byMaxDate]
      rcases lt_trichotomy x y with h | h | h
      · have h1 : x ≠ y := ne_of_lt h
        have h2 : y ≠ x := fun e => h1 e.symm
        cases desc <;> simp [h1, h2, h]
      · subst h
        simpa using le_total s.Symbol t.Symbol
      · have h1 : x ≠ y := ne_of_gt h
        have h2 : y ≠ x := fun e => h1 e.symm
        cases desc <;> simp [h1, h2, h]

theorem StockRepository.byMaxDate_of_eq (desc : Bool) (a b : Stock × Option ℤ)
    (hs : a.1.Symbol = b.1.Symbol) (hd : a.2 = b.2) : byMaxDate desc a b = true := by
  obtain ⟨s, x⟩ := a
  obtain ⟨t, y⟩ := b
  simp only at hs hd
  subst hd
  cases x <;> simp [byMaxDate, hs]

theorem StockRepository.byMaxDate_antisymm (desc : Bool) (a b : Stock × Option ℤ)
    (hab : byMaxDate desc a b = true) (hba : byMaxDate desc b a = true) :
    a.1.Symbol = b.1.Symbol ∧ a.2 = b.2 := by
  obtain ⟨s, x⟩ := a
  obtain ⟨t, y⟩ := b
  cases x with
  | none =>
    cases y with
    | none =>
      simp only [byMaxDate, decide_eq_true_eq] at hab hba
      exact ⟨le_antisymm hab hba, rfl⟩
    | some y => simp [byMaxDate] at hab
  | some x =>
    cases y with
    | none => simp [byMaxDate] at hba
    | some y =>
      simp only [byMaxDate] at hab hba
      by_cases h : x = y
      · subst h
        simp only [if_true, decide_eq_true_eq] at hab hba
        exact ⟨le_antisymm hab hba, rfl⟩
      · have h2 : ¬ y = x := fun e => h e.symm
        rw [if_neg h] at hab
        rw [if_neg h2] at hba
        cases desc
        · simp only [Bool.false_eq_true, if_false, decide_eq_true_eq] at hab hba
          omega
        · simp only [if_true, decide_eq_true_eq] at hab hba
          omega

theorem StockRepository.byMaxDate_trans (desc : Bool) (a b c : Stock × Option ℤ)
    (hab : byMaxDate desc a b = true) (hbc : byMaxDate desc b c = true) :
    byMaxDate desc a c = true := by
  obtain ⟨s, x⟩ := a
  obtain ⟨t, y⟩ := b
  obtain ⟨u, z⟩ := c
  cases x with
  | none =>
    cases y with
    | none =>
      cases z with
      | none =>
        simp only [byMaxDate, decide_eq_true_eq] at hab hbc ⊢
        exact le_trans hab hbc
      | some z => simp [byMaxDate] at hbc
    | some y => simp [byMaxDate] at hab
  | some x =>
    cases z with
    | none => simp [byMaxDate]
    | some z =>
      cases y with
      | none => simp [byMaxDate] at hbc
      | some y =>
        simp only [byMaxDate] at hab hbc ⊢
        by_cases hxy : x = y
        · subst hxy
          by_cases hxz : x = z
          · subst hxz
            simp only [if_true, decide_eq_true_eq] at hab hbc ⊢
            exact le_trans hab hbc
          · rw [if_neg hxz] at hbc ⊢
            exact hbc
        · rw [if_neg hxy] at hab
          by_cases hyz : y = z
          · subst hyz
            rw [if_neg hxy]
            exact hab
          · rw [if_neg hyz] at hbc
            cases desc
            · simp only [Bool.false_eq_true, if_false, decide_eq_true_eq] at hab hbc ⊢
              have hxz : x ≠ z := by omega
              rw [if_neg hxz]
              simp only [decide_eq_true_eq]
              omega
            · simp only [if_true, decide_eq_true_eq] at hab hbc ⊢
              have hxz : x ≠ z := by omega
              rw [if_neg hxz]
              simp only [decide_eq_true_eq]
              omega

/-- A comparison that orders by `R` and, within the classes of the equivalence `E`, by
`S` is total. -/
theorem lexOrder_total {α : Type} (E : α → α → Prop) [DecidableRel E] (S R : α → α → Bool)
    (hsymm : ∀ a b, E a b → E b a)
    (hS : ∀ a b, S a b = true ∨ S b a = true) (hR : ∀ a b, R a b = true ∨ R b a = true)
    (a b : α) :
    (if E a b then S a b else R a b) = true ∨ (if E b a then S b a else R b a) = true := by
  by_cases h : E a b
  · rw [if_pos h, if_pos (hsymm a b h)]
    exact hS a b
  · rw [if_neg h, if_neg (fun e => h (hsymm b a e))]
    exact hR a b

/-- A comparison that orders by `R` and, within the classes of the equivalence `E`, by
`S` is transitive. -/
theorem lexOrder_trans {α : Type} (E : α → α → Prop) [DecidableRel E] (S R : α → α → Bool)
    (hsymm : ∀ a b, E a b → E b a) (htrans : ∀ a b c, E a b → E b c → E a c)
    (hS : ∀ a b c, S a b = true → S b c = true → S a c = true)
    (hR : ∀ a b c, R a b = true → R b c = true → R a c = true)
    (hER : ∀ a b, E a b → R a b = true)
    (hRE : ∀ a b, R a b = true → R b a = true → E a b)
    (a b c : α) (hab : (if E a b then S a b else R a b) = true)
    (hbc : (if E b c then S b c else R b c) = true) :
    (if E a c then S a c else R a c) = true := by
  by_cases h1 : E a b
  · rw [if_pos h1] at hab
    by_cases h2 : E b c
    · rw [if_pos h2] at hbc
      rw [if_pos (htrans a b c h1 h2)]
      exact hS a b c hab hbc
    · rw [if_neg h2] at hbc
      have h3 : ¬ E a c := fun e => h2 (htrans b a c (hsymm a b h1) e)
      rw [if_neg h3]
      exact hR a b c (hER a b h1) hbc
  · rw [if_neg h1] at hab
    by_cases h2 : E b c
    · rw [if_pos h2] at hbc
      have h3 : ¬ E a c := fun e => h1 (htrans a c b e (hsymm b c h2))
      rw [if_neg h3]
      exact hR a b c hab (hER b c h2)
    · rw [if_neg h2] at hbc
      have h3 : ¬ E a c := by
        intro e
        exact h1 (hRE a b hab (hR b c a hbc (hER c a (hsymm a c e))))
      rw [if_neg h3]
      exact hR a b c hab hbc

theorem StockRepository.finalOrderBy_total (filters : StockFilterParams) (a b : PageRow) :
    finalOrderBy filters a b = true ∨ finalOrderBy filters b a = true := by
  unfold finalOrderBy
  by_cases hm : filters.SortBy = "analysis-newest" ∨ filters.SortBy = "analysis-oldest"
  · rw [if_pos hm, if_pos hm]
    exact lexOrder_total
      (fun a b : PageRow => (a.stock.Symbol, a.maxDate) = (b.stock.Symbol, b.maxDate))
      (fun a b => byAnalysisDateDesc a.analysis b.analysis)
      (fun a b => byMaxDate (decide (filters.SortBy = "analysis-newest"))
        (a.stock, a.maxDate) (b.stock, b.maxDate))
      (fun _ _ e => e.symm) (fun a b => byAnalysisDateDesc_total _ _)
      (fun a b => byMaxDate_total _ _ _) a b
  · rw [if_neg hm, if_neg hm]
    exact lexOrder_total (fun a b : PageRow => a.stock.Symbol = b.stock.Symbol)
      (fun a b => byAnalysisDateDesc a.analysis b.analysis)
      (fun a b => decide (a.stock.Symbol ≤ b.stock.Symbol))
      (fun _ _ e => e.symm) (fun a b => byAnalysisDateDesc_total _ _)
      (fun a b => by simpa using le_total a.stock.Symbol b.stock.Symbol) a b

theorem StockRepository.finalOrderBy_trans (filters : StockFilterParams) (a b c : PageRow)
    (hab : finalOrderBy filters a b = true) (hbc : finalOrderBy filters b c = true) :
    finalOrderBy filters a c = true := by
  unfold finalOrderBy at hab hbc ⊢
  by_cases hm : filters.SortBy = "analysis-newest" ∨ filters.SortBy = "analysis-oldest"
  · rw [if_pos hm] at hab hbc ⊢
    exact lexOrder_trans
      (fun a b : PageRow => (a.stock.Symbol, a.maxDate) = (b.stock.Symbol, b.maxDate))
      (fun a b => byAnalysisDateDesc a.analysis b.analysis)
      (fun a b => byMaxDate (decide (filters.SortBy = "analysis-newest"))
        (a.stock, a.maxDate) (b.stock, b.maxDate))
      (fun _ _ e => e.symm) (fun _ _ _ e1 e2 => e1.trans e2)
      (fun a b c => byAnalysisDateDesc_trans _ _ _)
      (fun a b c => byMaxDate_trans _ _ _ _)
      (fun a b e => by
        have e' : (a.stock.Symbol, a.maxDate) = (b.stock.Symbol, b.maxDate) := e
        exact byMaxDate_of_eq _ (a.stock, a.maxDate) (b.stock, b.maxDate) (Prod.mk.inj e').1
          (Prod.mk.inj e').2)
      (fun a b h1 h2 => by
        obtain ⟨e1, e2⟩ := byMaxDate_antisymm _ _ _ h1 h2
        exact Prod.ext e1 e2)
      a b c hab hbc
  · rw [if_neg hm] at hab hbc ⊢
    exact lexOrder_trans (fun a b : PageRow => a.stock.Symbol = b.stock.Symbol)
      (fun a b => byAnalysisDateDesc a.analysis b.analysis)
      (fun a b => decide (a.stock.Symbol ≤ b.stock.Symbol))
      (fun _ _ e => e.symm) (fun _ _ _ e1 e2 => e1.trans e2)
      (fun a b c => byAnalysisDateDesc_trans _ _ _)
      (fun a b c h1 h2 => by
        simp only [decide_eq_true_eq] at h1 h2 ⊢
        exact le_trans h1 h2)
      (fun a b e => by
        simp only [decide_eq_true_eq]
        exact le_of_eq e)
      (fun a b h1 h2 => by
        simp only [decide_eq_true_eq] at h1 h2
        exact le_antisymm h1 h2)
      a b c hab hbc

theorem StockRepository.pageRows_sorted (db : Store) (pageSize offset : ℤ)
    (filters : StockFilterParams) :
    (pageRows db pageSize offset filters).Pairwise fun a b => finalOrderBy filters a b = true := by
  haveI : IsTotal PageRow (fun a b => finalOrderBy filters a b = true) :=
    ⟨finalOrderBy_total filters⟩
  haveI : IsTrans PageRow (fun a b => finalOrderBy filters a b = true) :=
    ⟨finalOrderBy_trans filters⟩
  exact List.sorted_insertionSort _ _

theorem StockRepository.pageRows_perm (db : Store) (pageSize offset : ℤ)
    (filters : StockFilterParams) :
    (pageRows db pageSize offset filters).Perm (joinedRows db pageSize offset filters) :=
  List.perm_insertionSort _ _

/-! ## Auxiliary facts: the response of the stock listing -/

theorem normalPage_eq (page : ℤ) : (if page < 1 then 1 else page) = normalPage page := rfl

theorem normalPageSize_eq (pageSize : ℤ) :
    (if pageSize < 1 ∨ pageSize > 100 then 20 else pageSize) = normalPageSize pageSize := by
  unfold normalPageSize
  split_ifs <;> first | rfl | omega

theorem normalPage_pos (page : ℤ) : 1 ≤ normalPage page := by
  unfold normalPage
  split_ifs <;> omega

theorem normalPageSize_range (pageSize : ℤ) :
    1 ≤ normalPageSize pageSize ∧ normalPageSize pageSize ≤ 100 := by
  unfold normalPageSize
  split_ifs <;> omega

/-- The response of `GetStocksWithAnalysisPaginated`, when there is one. -/
theorem StockRepository.GetStocksWithAnalysisPaginated_ok {db : Store} {page pageSize : ℤ}
    {filters : StockFilterParams} {r : PaginatedResponse StockWithAnalysis}
    (h : GetStocksWithAnalysisPaginated db page pageSize filters = .ok r) :
    0 ≤ wrapInt64 ((normalPage page - 1) * normalPageSize pageSize)
      ∧ r.Data = collectRows (pageRows db (normalPageSize pageSize)
          (wrapInt64 ((normalPage page - 1) * normalPageSize pageSize)) filters)
      ∧ r.Meta.Page = normalPage page ∧ r.Meta.PageSize = normalPageSize pageSize
      ∧ r.Meta.TotalItems = countStocks db filters := by
  unfold GetStocksWithAnalysisPaginated at h
  simp only [normalPage_eq, normalPageSize_eq] at h
  by_cases hneg : wrapInt64 ((normalPage page - 1) * normalPageSize pageSize) < 0
  · rw [if_pos hneg] at h
    cases h
  · rw [if_neg hneg] at h
    simp only [Except.ok.injEq] at h
    subst h
    exact ⟨not_lt.1 hneg, rfl, rfl, rfl, rfl⟩

/-- The function `GetStocksWithAnalysisPaginated` gives a response when its offset fits an
`int`. -/
theorem StockRepository.GetStocksWithAnalysisPaginated_of_fits (db : Store) (page pageSize : ℤ)
    (filters : StockFilterParams)
    (hfit : (normalPage page - 1) * normalPageSize pageSize < 2 ^ 63) :
    ∃ r, GetStocksWithAnalysisPaginated db page pageSize filters = .ok r
      ∧ r.Data = collectRows (pageRows db (normalPageSize pageSize)
          ((normalPage page - 1) * normalPageSize pageSize) filters) := by
  have hp := normalPage_pos page
  have hs := normalPageSize_range pageSize
  have h0 : 0 ≤ (normalPage page - 1) * normalPageSize pageSize :=
    mul_nonneg (by omega) (by omega)
  have hw : wrapInt64 ((normalPage page - 1) * normalPageSize pageSize)
      = (normalPage page - 1) * normalPageSize pageSize :=
    wrapInt64_of_fits (by linarith) hfit
  unfold GetStocksWithAnalysisPaginated
  simp only [normalPage_eq, normalPageSize_eq, hw, not_lt.2 h0, if_false]
  exact ⟨_, rfl, rfl⟩

theorem orderedStocks_perm (db : Store) (filters : StockFilterParams) :
    ((orderedStocks db filters).map Prod.fst).Perm (filteredStocks db filters) := by
  unfold orderedStocks
  split_ifs
  · refine ((List.perm_insertionSort _ _).map Prod.fst).trans ?_
    rw [List.map_map]
    simp [Function.comp_def]
  all_goals
    rw [List.map_map]
    simp only [Function.comp_def, List.map_id']
    exact List.perm_insertionSort _ _

theorem StockRepository.paginatedStocks_subperm (db : Store) (pageSize offset : ℤ)
    (filters : StockFilterParams) :
    ((paginatedStocks db pageSize offset filters).map Prod.fst).Subperm
      (filteredStocks db filters) := by
  rw [paginatedStocks_eq]
  have h1 : (((orderedStocks db filters).drop offset.toNat).take pageSize.toNat).Sublist
      (orderedStocks db filters) := (List.take_sublist _ _).trans (List.drop_sublist _ _)
  exact ((h1.map Prod.fst).subperm).trans (orderedStocks_perm db filters).subperm

theorem StockRepository.filteredStocks_sublist (db : Store) (filters : StockFilterParams) :
    (filteredStocks db filters).Sublist db.stocks := List.filter_sublist _

theorem StockRepository.paginatedStocks_nodup (db : Store) (pageSize offset : ℤ)
    (filters : StockFilterParams) {β : Type} (f : Stock → β) (hid : (db.stocks.map f).Nodup) :
    ((paginatedStocks db pageSize offset filters).map fun t => f t.1).Nodup := by
  obtain ⟨l, hl1, hl2⟩ := paginatedStocks_subperm db pageSize offset filters
  have h1 : (l.map f).Nodup :=
    hid.sublist ((hl2.trans (filteredStocks_sublist db filters)).map f)
  have h2 := ((hl1.map f).nodup_iff).1 h1
  rw [List.map_map] at h2
  exact h2

theorem lateralRows_stock (db : Store) (t : Stock × Option ℤ) :
    ∀ row ∈ lateralRows db t, row.stock = t.1 ∧ row.maxDate = t.2 := by
  intro row hrow
  unfold lateralRows at hrow
  split at hrow
  · simp only [List.mem_singleton] at hrow
    subst hrow
    exact ⟨rfl, rfl⟩
  · obtain ⟨a, _, ha⟩ := List.mem_map.1 hrow
    subst ha
    exact ⟨rfl, rfl⟩

theorem lateralRows_ne_nil (db : Store) (t : Stock × Option ℤ) : lateralRows db t ≠ [] := by
  unfold lateralRows
  split
  · simp
  · rename_i h
    simpa using h

theorem lateralRows_of_nil (db : Store) (t : Stock × Option ℤ)
    (h : actionsOf db t.1.ID = []) :
    lateralRows db t = [{ stock := t.1, maxDate := t.2, analysis := none }] := by
  have h3 : GetLatestAnalysisForStock db t.1.ID 3 = [] := by
    unfold GetLatestAnalysisForStock
    unfold actionsOf at h
    rw [h]
    rfl
  unfold lateralRows
  rw [h3]

theorem lateralRows_of_ne_nil (db : Store) (t : Stock × Option ℤ)
    (h : actionsOf db t.1.ID ≠ []) :
    lateralRows db t
      = (GetLatestAnalysisForStock db t.1.ID 3).map fun a =>
          { stock := t.1, maxDate := t.2, analysis := some a } := by
  have h3 : GetLatestAnalysisForStock db t.1.ID 3 ≠ [] := by
    unfold GetLatestAnalysisForStock
    intro e
    have hlen := congrArg List.length e
    have hp : (orderByAnalysisDateDesc (db.stock_analysis.filter fun a => a.StockID = t.1.ID)).length
        = (actionsOf db t.1.ID).length := (List.perm_insertionSort _ _).length_eq
    have hpos : 0 < (actionsOf db t.1.ID).length := List.length_pos.2 h
    rw [List.length_take, hp] at hlen
    simp only [List.length_nil] at hlen
    omega
  unfold lateralRows
  split
  · rename_i e
    exact absurd e h3
  · rfl

theorem scanAnalysis_lateralRows (db : Store) (t : Stock × Option ℤ)
    (h : actionsOf db t.1.ID ≠ []) :
    (lateralRows db t).map scanAnalysis = GetLatestAnalysisForStock db t.1.ID 3 := by
  rw [lateralRows_of_ne_nil db t h, List.map_map]
  conv_rhs => rw [← List.map_id (GetLatestAnalysisForStock db t.1.ID 3)]
  apply List.map_congr_left
  intro a ha
  have hs := (GetLatestAnalysisForStock_mem db t.1.ID 3 a ha).2
  simp only [Function.comp, scanAnalysis, id]
  rw [← hs]

/-- The rows of a stock of the page among the rows of the main query, when the ids of
the stocks are pairwise distinct. -/
theorem filter_flatMap_lateralRows (db : Store) :
    ∀ (page : List (Stock × Option ℤ)) (t : Stock × Option ℤ),
      (page.map fun u => u.1.ID).Nodup → t ∈ page →
      ((page.flatMap (lateralRows db)).filter fun row => row.stock.ID = t.1.ID)
        = lateralRows db t
  | [], t, _, ht => by simp at ht
  | u :: page, t, hd, ht => by
    rw [List.map_cons, List.nodup_cons] at hd
    rw [List.flatMap_cons, List.filter_append]
    have hall : ∀ (v : Stock × Option ℤ), v.1.ID = t.1.ID →
        ((lateralRows db v).filter fun row => row.stock.ID = t.1.ID) = lateralRows db v := by
      intro v hv
      rw [List.filter_eq_self]
      intro row hrow
      rw [(lateralRows_stock db v row hrow).1]
      simpa using hv
    have hnone : ∀ (l : List (Stock × Option ℤ)), (∀ v ∈ l, v.1.ID ≠ t.1.ID) →
        ((l.flatMap (lateralRows db)).filter fun row => row.stock.ID = t.1.ID) = [] := by
      intro l hl
      rw [List.filter_eq_nil_iff]
      intro row hrow
      obtain ⟨v, hv, hrv⟩ := List.mem_flatMap.1 hrow
      rw [(lateralRows_stock db v row hrv).1]
      simpa using hl v hv
    rcases List.mem_cons.1 ht with e | hmem
    · subst e
      rw [hall t rfl, hnone page, List.append_nil]
      intro v hv e
      exact hd.1 (List.mem_map.2 ⟨v, hv, e⟩)
    · have hne : u.1.ID ≠ t.1.ID := by
        intro e
        exact hd.1 (List.mem_map.2 ⟨t, hmem, e.symm⟩)
      have h1 : ((lateralRows db u).filter fun row => row.stock.ID = t.1.ID) = [] := by
        rw [List.filter_eq_nil_iff]
        intro row hrow
        rw [(lateralRows_stock db u row hrow).1]
        simpa using hne
      rw [h1, List.nil_append]
      exact filter_flatMap_lateralRows db page t hd.2 hmem

/-- The stocks listed over the rows of a page are stocks of the page. -/
theorem mem_stocksSeen_pageRows {db : Store} {pageSize offset : ℤ} {filters : StockFilterParams}
    {s : Stock} (hs : s ∈ stocksSeen (pageRows db pageSize offset filters)) :
    ∃ t ∈ paginatedStocks db pageSize offset filters, t.1 = s := by
  have h1 := (stocksSeen_sublist _).subset hs
  obtain ⟨row, hrow, hrs⟩ := List.mem_map.1 h1
  have h2 := (pageRows_perm db pageSize offset filters).mem_iff.1 hrow
  unfold joinedRows at h2
  obtain ⟨t, ht, hrt⟩ := List.mem_flatMap.1 h2
  exact ⟨t, ht, by rw [← hrs, (lateralRows_stock db t row hrt).1]⟩

/-! ## Auxiliary facts: the stocks and the actions of a page -/

theorem mem_pageRows_stock {db : Store} {pageSize offset : ℤ} {filters : StockFilterParams}
    {row : PageRow} (hrow : row ∈ pageRows db pageSize offset filters) :
    ∃ t ∈ paginatedStocks db pageSize offset filters, row ∈ lateralRows db t := by
  have h2 := (pageRows_perm db pageSize offset filters).mem_iff.1 hrow
  unfold joinedRows at h2
  exact List.mem_flatMap.1 h2

theorem stocksSeen_pageRows_length (db : Store) (pageSize offset : ℤ)
    (filters : StockFilterParams) :
    (stocksSeen (pageRows db pageSize offset filters)).length ≤ pageSize.toNat := by
  have hsub : ((stocksSeen (pageRows db pageSize offset filters)).map fun s => s.ID)
      ⊆ (paginatedStocks db pageSize offset filters).map fun t => t.1.ID := by
    intro id hid
    obtain ⟨row, hrow, hri⟩ := List.mem_map.1 ((mem_stocksSeen_ids _ id).1 hid)
    obtain ⟨t, ht, hrt⟩ := mem_pageRows_stock hrow
    exact List.mem_map.2 ⟨t, ht, by rw [← hri, (lateralRows_stock db t row hrt).1]⟩
  have hle := (List.subperm_of_subset (stocksSeen_nodup _) hsub).length_le
  rw [List.length_map, List.length_map] at hle
  refine hle.trans ?_
  rw [paginatedStocks_eq]
  exact List.length_take_le _ _

theorem finalOrderBy_lateralRows (filters : StockFilterParams) (s : Stock) (m : Option ℤ)
    (a b : StockAnalysis)
    (h : finalOrderBy filters { stock := s, maxDate := m, analysis := some a }
      { stock := s, maxDate := m, analysis := some b } = true) :
    b.AnalysisDate ≤ a.AnalysisDate := by
  unfold finalOrderBy at h
  simpa [byAnalysisDateDesc] using h

/-- The rows of a stock of the page among the rows of the main query are the rows of its
lateral join, in some order, when the ids of the stocks are pairwise distinct. -/
theorem filter_pageRows_perm (db : Store) (pageSize offset : ℤ) (filters : StockFilterParams)
    (hid : (db.stocks.map fun s => s.ID).Nodup) (t : Stock × Option ℤ)
    (ht : t ∈ paginatedStocks db pageSize offset filters) :
    ((pageRows db pageSize offset filters).filter fun row => row.stock.ID = t.1.ID).Perm
      (lateralRows db t) := by
  have hnodup := paginatedStocks_nodup db pageSize offset filters (fun s => s.ID) hid
  have h1 := (pageRows_perm db pageSize offset filters).filter
    fun row => decide (row.stock.ID = t.1.ID)
  unfold joinedRows at h1
  rw [filter_flatMap_lateralRows db _ t hnodup ht] at h1
  exact h1

/-- The actions listed for a stock of the page that has stored actions: its three latest
actions, up to the order of actions with equal dates, latest first. -/
theorem latestAnalysis_of_page (db : Store) (pageSize offset : ℤ) (filters : StockFilterParams)
    (hid : (db.stocks.map fun s => s.ID).Nodup) (s : Stock)
    (hs : s ∈ stocksSeen (pageRows db pageSize offset filters))
    (hk : actionsOf db s.ID ≠ []) :
    (dataEntry (pageRows db pageSize offset filters) s).LatestAnalysis.Perm
        (GetLatestAnalysisForStock db s.ID 3)
      ∧ (dataEntry (pageRows db pageSize offset filters) s).LatestAnalysis.Pairwise
          fun a b => b.AnalysisDate ≤ a.AnalysisDate := by
  obtain ⟨t, ht, hts⟩ := mem_stocksSeen_pageRows hs
  subst hts
  have hfilter := filter_pageRows_perm db pageSize offset filters hid t ht
  constructor
  · have h2 := hfilter.map scanAnalysis
    rw [scanAnalysis_lateralRows db t hk] at h2
    exact h2
  · unfold dataEntry
    dsimp only
    rw [List.pairwise_map]
    have hsorted : ((pageRows db pageSize offset filters).filter fun row =>
        row.stock.ID = t.1.ID).Pairwise fun a b => finalOrderBy filters a b = true :=
      (pageRows_sorted db pageSize offset filters).sublist (List.filter_sublist _)
    refine hsorted.imp_of_mem ?_
    intro r1 r2 h1 h2 hord
    have m1 := hfilter.mem_iff.1 h1
    have m2 := hfilter.mem_iff.1 h2
    rw [lateralRows_of_ne_nil db t hk] at m1 m2
    obtain ⟨a1, _, e1⟩ := List.mem_map.1 m1
    obtain ⟨a2, _, e2⟩ := List.mem_map.1 m2
    subst e1 e2
    exact finalOrderBy_lateralRows filters _ _ _ _ hord

/-- The actions listed for a stock of the page that has no stored action: one action of
zero values. -/
theorem latestAnalysis_of_page_nil (db : Store) (pageSize offset : ℤ)
    (filters : StockFilterParams) (hid : (db.stocks.map fun s => s.ID).Nodup) (s : Stock)
    (hs : s ∈ stocksSeen (pageRows db pageSize offset filters))
    (hk : actionsOf db s.ID = []) :
    (dataEntry (pageRows db pageSize offset filters) s).LatestAnalysis
      = [{ ID := 0, StockID := s.ID, TargetFrom := "", TargetTo := "", Action := "",
           Brokerage := "", RatingFrom := "", RatingTo := "", AnalysisDate := 0,
           CreatedAt := 0 }] := by
  obtain ⟨t, ht, hts⟩ := mem_stocksSeen_pageRows hs
  subst hts
  have hfilter := filter_pageRows_perm db pageSize offset filters hid t ht
  rw [lateralRows_of_nil db t hk, List.perm_singleton] at hfilter
  unfold dataEntry
  dsimp only
  rw [hfilter]
  rfl

/-! ## The stocks and the actions of a page -/

/-- C25: when the ids of the stored stocks are pairwise distinct, `Data` of a response of
`GetStocksWithAnalysisPaginated` holds at most `PageSize` stocks and no id twice, and
every returned stock with `k ≥ 1` stored actions has `min k 3` actions in
`LatestAnalysis`: they are actions of that stock which, together with the actions left
out, make up its stored actions, no action left out is later than one of them, and they
are in the order of non-increasing analysis dates.  There is a response whenever the
offset fits an `int`. -/
theorem GetStocksWithAnalysisPaginated_data (db : Store) (page pageSize : ℤ)
    (filters : StockFilterParams) (hid : (db.stocks.map fun s => s.ID).Nodup) :
    ((normalPage page - 1) * normalPageSize pageSize < 2 ^ 63 →
        ∃ r, GetStocksWithAnalysisPaginated db page pageSize filters = .ok r)
      ∧ ∀ r, GetStocksWithAnalysisPaginated db page pageSize filters = .ok r →
          (r.Data.length : ℤ) ≤ r.Meta.PageSize
            ∧ (r.Data.map fun s => s.ID).Nodup
            ∧ ∀ e ∈ r.Data, 1 ≤ (actionsOf db e.ID).length →
                e.LatestAnalysis.length = min (actionsOf db e.ID).length 3
                  ∧ (∃ leftOut, (e.LatestAnalysis ++ leftOut).Perm (actionsOf db e.ID)
                      ∧ ∀ a ∈ leftOut, ∀ b ∈ e.LatestAnalysis,
                          a.AnalysisDate ≤ b.AnalysisDate)
                  ∧ e.LatestAnalysis.Pairwise fun a b => b.AnalysisDate ≤ a.AnalysisDate := by
  constructor
  · intro hfit
    obtain ⟨r, hr, _⟩ := GetStocksWithAnalysisPaginated_of_fits db page pageSize filters hfit
    exact ⟨r, hr⟩
  · intro r hr
    obtain ⟨_, hData, _, hps, _⟩ := GetStocksWithAnalysisPaginated_ok hr
    rw [collectRows_eq] at hData
    have hsize := normalPageSize_range pageSize
    refine ⟨?_, ?_, ?_⟩
    · rw [hData, hps, List.length_map]
      have h1 := stocksSeen_pageRows_length db (normalPageSize pageSize)
        (wrapInt64 ((normalPage page - 1) * normalPageSize pageSize)) filters
      omega
    · rw [hData, List.map_map]
      exact stocksSeen_nodup _
    · intro e he hk
      rw [hData] at he
      obtain ⟨s, hs, hes⟩ := List.mem_map.1 he
      subst hes
      have hne : actionsOf db s.ID ≠ [] := List.length_pos.1 hk
      obtain ⟨hperm, hsorted⟩ := latestAnalysis_of_page db _ _ filters hid s hs hne
      have hsort : (orderByAnalysisDateDesc (actionsOf db s.ID)).Perm (actionsOf db s.ID) :=
        List.perm_insertionSort _ _
      have hget : GetLatestAnalysisForStock db s.ID 3
          = (orderByAnalysisDateDesc (actionsOf db s.ID)).take 3 := rfl
      refine ⟨?_, ⟨(orderByAnalysisDateDesc (actionsOf db s.ID)).drop 3, ?_, ?_⟩, hsorted⟩
      · have hlen := hperm.length_eq
        rw [hget, List.length_take, hsort.length_eq] at hlen
        rw [Nat.min_comm]
        exact hlen
      · rw [hget] at hperm
        refine (hperm.append_right _).trans ?_
        rw [List.take_append_drop]
        exact hsort
      · intro a ha b hb
        rw [hget] at hperm
        exact orderByAnalysisDateDesc_take_drop _ 3 b (hperm.mem_iff.1 hb) a ha

/-- C25 for page 1 of `listingStore`: three stocks, and AAA, which has four stored
actions, is listed with its three latest actions, of the dates 4, 3 and 2. -/
theorem GetStocksWithAnalysisPaginated_data_witness :
    (listingStore.stocks.map fun s => s.ID).Nodup
      ∧ (GetStocksWithAnalysisPaginated listingStore 1 20 noFilters).map
          (fun r => r.Data.map fun s =>
            (s.ID, (actionsOf listingStore s.ID).length,
              s.LatestAnalysis.map fun a => a.AnalysisDate))
        = .ok [(1, 4, [4, 3, 2]), (2, 1, [5]), (3, 0, [0])]
      ∧ ∀ r, GetStocksWithAnalysisPaginated listingStore 1 20 noFilters = .ok r →
          (r.Data.length : ℤ) ≤ r.Meta.PageSize :=
  ⟨by decide!, by decide!, fun r hr =>
    ((GetStocksWithAnalysisPaginated_data listingStore 1 20 noFilters (by decide!)).2 r hr).1⟩

/-! ## Auxiliary facts: the analysis sort modes -/

theorem foldl_max_spec (dates : List ℤ) :
    ∀ (init result : Option ℤ),
      dates.foldl
          (fun best date =>
            match best with
            | none => some date
            | some m => some (max m date))
          init = result →
      (result = none → init = none ∧ dates = [])
        ∧ ∀ m, result = some m →
            (m ∈ dates ∨ init = some m) ∧ (∀ d ∈ dates, d ≤ m) ∧ ∀ i, init = some i → i ≤ m := by
  induction dates with
  | nil =>
    intro init result h
    simp only [List.foldl_nil] at h
    subst h
    refine ⟨fun e => ⟨e, rfl⟩, fun m hm => ⟨Or.inr hm, by simp, fun i hi => ?_⟩⟩
    rw [hm] at hi
    simp only [Option.some.injEq] at hi
    omega
  | cons d rest ih =>
    intro init result h
    rw [List.foldl_cons] at h
    cases init with
    | none =>
      obtain ⟨h0, h1⟩ := ih (some d) result h
      constructor
      · intro e
        exact absurd (h0 e).1 (by simp)
      · intro m hm
        obtain ⟨h2, h3, h4⟩ := h1 m hm
        refine ⟨Or.inl ?_, ?_, by simp⟩
        · rcases h2 with h2 | h2
          · exact List.mem_cons_of_mem _ h2
          · simp only [Option.some.injEq] at h2
            rw [h2]
            exact List.mem_cons_self _ _
        · intro x hx
          rcases List.mem_cons.1 hx with e | hx
          · rw [e]
            exact h4 d rfl
          · exact h3 x hx
    | some i =>
      obtain ⟨h0, h1⟩ := ih (some (max i d)) result h
      constructor
      · intro e
        exact absurd (h0 e).1 (by simp)
      · intro m hm
        obtain ⟨h2, h3, h4⟩ := h1 m hm
        have hmax := h4 (max i d) rfl
        refine ⟨?_, ?_, ?_⟩
        · rcases h2 with h2 | h2
          · exact Or.inl (List.mem_cons_of_mem _ h2)
          · simp only [Option.some.injEq] at h2
            rcases max_choice i d with e | e
            · right
              rw [← h2, e]
            · left
              rw [← h2, e]
              exact List.mem_cons_self _ _
        · intro x hx
          rcases List.mem_cons.1 hx with e | hx
          · rw [e]
            exact le_trans (le_max_right i d) hmax
          · exact h3 x hx
        · intro j hj
          simp only [Option.some.injEq] at hj
          rw [← hj]
          exact le_trans (le_max_left i d) hmax

/-- The value of `maxAnalysisDate`: null exactly for a stock without actions, else the
latest analysis date of its actions. -/
theorem StockRepository.maxAnalysisDate_spec (db : Store) (stockID : ℤ) :
    (maxAnalysisDate db stockID = none ↔ actionsOf db stockID = [])
      ∧ ∀ m, maxAnalysisDate db stockID = some m →
          (∃ a ∈ actionsOf db stockID, a.AnalysisDate = m)
            ∧ ∀ a ∈ actionsOf db stockID, a.AnalysisDate ≤ m := by
  obtain ⟨h0, h1⟩ := foldl_max_spec
    ((actionsOf db stockID).map fun a : StockAnalysis => a.AnalysisDate) none
    (maxAnalysisDate db stockID) (by unfold maxAnalysisDate actionsOf; rfl)
  refine ⟨⟨fun e => by simpa using (h0 e).2, ?_⟩, ?_⟩
  · intro e
    unfold maxAnalysisDate
    unfold actionsOf at e
    rw [e]
    rfl
  · intro m hm
    obtain ⟨h2, h3, _⟩ := h1 m hm
    constructor
    · rcases h2 with h2 | h2
      · obtain ⟨a, ha, hd⟩ := List.mem_map.1 h2
        exact ⟨a, ha, hd⟩
      · simp at h2
    · intro a ha
      exact h3 _ (List.mem_map.2 ⟨a, ha, rfl⟩)

theorem analysisBefore_of_byMaxDate (db : Store) (newest : Bool) (a b : Stock)
    (h : byMaxDate newest (a, maxAnalysisDate db a.ID) (b, maxAnalysisDate db b.ID) = true) :
    analysisBefore db newest a b := by
  unfold analysisBefore
  unfold byMaxDate at h
  dsimp only at h
  cases hx : maxAnalysisDate db a.ID with
  | none =>
    cases hy : maxAnalysisDate db b.ID with
    | none =>
      rw [hx, hy] at h
      simpa using h
    | some y =>
      rw [hx, hy] at h
      simp at h
  | some x =>
    cases hy : maxAnalysisDate db b.ID with
    | none => trivial
    | some y =>
      rw [hx, hy] at h
      dsimp only at h ⊢
      by_cases e : x = y
      · subst e
        simp only [if_true, decide_eq_true_eq] at h
        exact ⟨by cases newest <;> simp, fun _ => h⟩
      · rw [if_neg e] at h
        refine ⟨?_, fun e' => absurd e' e⟩
        cases newest
        · simp only [Bool.false_eq_true, if_false, decide_eq_true_eq] at h ⊢
          omega
        · simp only [if_true, decide_eq_true_eq] at h ⊢
          omega

theorem orderedStocks_analysis (db : Store) (filters : StockFilterParams)
    (hmode : filters.SortBy = "analysis-newest" ∨ filters.SortBy = "analysis-oldest") :
    (∀ t ∈ orderedStocks db filters, t.2 = maxAnalysisDate db t.1.ID)
      ∧ (orderedStocks db filters).Pairwise fun a b =>
          byMaxDate (decide (filters.SortBy = "analysis-newest")) a b = true := by
  haveI : IsTotal (Stock × Option ℤ)
      (fun a b => byMaxDate (decide (filters.SortBy = "analysis-newest")) a b = true) :=
    ⟨byMaxDate_total _⟩
  haveI : IsTrans (Stock × Option ℤ)
      (fun a b => byMaxDate (decide (filters.SortBy = "analysis-newest")) a b = true) :=
    ⟨byMaxDate_trans _⟩
  unfold orderedStocks
  rw [if_pos hmode]
  constructor
  · intro t ht
    have h1 := (List.perm_insertionSort _ _).mem_iff.1 ht
    obtain ⟨s, _, hs⟩ := List.mem_map.1 h1
    rw [← hs]
  · exact List.sorted_insertionSort _ _

/-- In the analysis sort modes the rows of the main query are in the order of its
`ORDER BY` already, when the symbols of the stocks are pairwise distinct. -/
theorem joinedRows_sorted (db : Store) (pageSize offset : ℤ) (filters : StockFilterParams)
    (hsym : (db.stocks.map fun s => s.Symbol).Nodup)
    (hmode : filters.SortBy = "analysis-newest" ∨ filters.SortBy = "analysis-oldest") :
    (joinedRows db pageSize offset filters).Pairwise
      fun a b => finalOrderBy filters a b = true := by
  unfold joinedRows
  rw [List.pairwise_flatMap]
  constructor
  · intro t _
    unfold lateralRows
    split
    · exact List.pairwise_singleton _ _
    · rw [List.pairwise_map]
      have hs : (GetLatestAnalysisForStock db t.1.ID 3).Pairwise
          fun a b : StockAnalysis => a.AnalysisDate ≥ b.AnalysisDate :=
        (sorted_orderByAnalysisDateDesc _).sublist (List.take_sublist _ _)
      refine hs.imp ?_
      intro a b hab
      unfold finalOrderBy
      simpa [hmode, byAnalysisDateDesc] using hab
  · have hsub : (paginatedStocks db pageSize offset filters).Sublist
        (orderedStocks db filters) := by
      rw [paginatedStocks_eq]
      exact (List.take_sublist _ _).trans (List.drop_sublist _ _)
    have h1 := ((orderedStocks_analysis db filters hmode).2).sublist hsub
    have h2 : (paginatedStocks db pageSize offset filters).Pairwise
        fun t u => t.1.Symbol ≠ u.1.Symbol := by
      have := paginatedStocks_nodup db pageSize offset filters (fun s => s.Symbol) hsym
      rw [List.Nodup, List.pairwise_map] at this
      exact this
    refine (h1.and h2).imp ?_
    rintro t u ⟨hord, hne⟩ x hx y hy
    obtain ⟨hx1, hx2⟩ := lateralRows_stock db t x hx
    obtain ⟨hy1, hy2⟩ := lateralRows_stock db u y hy
    unfold finalOrderBy
    have hE : ¬ (x.stock.Symbol, x.maxDate) = (y.stock.Symbol, y.maxDate) := by
      intro e
      apply hne
      rw [← hx1, ← hy1]
      exact (Prod.mk.inj e).1
    rw [if_pos hmode, if_neg hE, hx1, hx2, hy1, hy2]
    exact hord

theorem foldl_stocksSeen_block (s : Stock) :
    ∀ (block : List PageRow) (seen : List Stock), (∀ row ∈ block, row.stock = s) →
      block.foldl
          (fun seen row =>
            if seen.any fun s => decide (s.ID = row.stock.ID) then seen else seen ++ [row.stock])
          seen
        = if block = [] then seen
          else if seen.any fun u => decide (u.ID = s.ID) then seen else seen ++ [s]
  | [], seen, _ => by simp
  | row :: rest, seen, h => by
    have hrow : row.stock = s := h row (List.mem_cons_self _ _)
    have hrest : ∀ r ∈ rest, r.stock = s := fun r hr => h r (List.mem_cons_of_mem _ hr)
    rw [List.foldl_cons, foldl_stocksSeen_block s rest _ hrest, hrow]
    simp only [List.cons_ne_nil, if_false]
    by_cases hseen : (seen.any fun u => decide (u.ID = s.ID)) = true
    · simp only [hseen, if_true]
      split_ifs <;> rfl
    · simp only [hseen, Bool.false_eq_true, if_false]
      have hnow : ((seen ++ [s]).any fun u => decide (u.ID = s.ID)) = true := by
        simp
      simp only [hnow, if_true]
      split_ifs <;> rfl

/-- The stocks listed over the rows of the lateral join are the stocks of the page in
their order, when the ids of the stocks are pairwise distinct. -/
theorem stocksSeen_flatMap_lateralRows (db : Store) (page : List (Stock × Option ℤ))
    (hid : (page.map fun t => t.1.ID).Nodup) :
    stocksSeen (page.flatMap (lateralRows db)) = page.map Prod.fst := by
  induction page using List.reverseRecOn with
  | nil => rfl
  | append_singleton init t ih =>
    rw [List.map_append, List.nodup_append] at hid
    obtain ⟨hinit, _, hdisj⟩ := hid
    rw [List.flatMap_append, List.flatMap_singleton]
    unfold stocksSeen at ih ⊢
    rw [List.foldl_append, ih hinit,
      foldl_stocksSeen_block t.1 _ _ (fun row hrow => (lateralRows_stock db t row hrow).1),
      if_neg (lateralRows_ne_nil db t)]
    have hnot : ¬ ((init.map Prod.fst).any fun u => decide (u.ID = t.1.ID)) = true := by
      intro h
      obtain ⟨u, hu, hut⟩ := List.any_eq_true.1 h
      obtain ⟨v, hv, hvu⟩ := List.mem_map.1 hu
      simp only [decide_eq_true_eq] at hut
      have h1 : t.1.ID ∈ init.map fun t => t.1.ID := List.mem_map.2 ⟨v, hv, by rw [hvu, hut]⟩
      exact hdisj h1 (by simp)
    rw [if_neg hnot]
    simp

/-! ## The analysis sort modes -/

/-- C23: when the ids and the symbols of the stored stocks are pairwise distinct and the
offset fits an `int`, the sort modes "analysis-newest" and "analysis-oldest" return the
stocks of `Data` as the slice from `(Page - 1) * PageSize` of length `PageSize` of one
order of all the stocks that match the filters: by the maximal analysis date of their
stored actions, non-increasing for "analysis-newest" and non-decreasing for
"analysis-oldest", stocks without actions last, stocks with equal dates (and the stocks
without actions) by ascending symbol. -/
theorem GetStocksWithAnalysisPaginated_analysis_order (db : Store) (page pageSize : ℤ)
    (filters : StockFilterParams) (hid : (db.stocks.map fun s => s.ID).Nodup)
    (hsym : (db.stocks.map fun s => s.Symbol).Nodup)
    (hmode : filters.SortBy = "analysis-newest" ∨ filters.SortBy = "analysis-oldest")
    (hfit : (normalPage page - 1) * normalPageSize pageSize < 2 ^ 63) :
    (∀ stockID : ℤ,
        (maxAnalysisDate db stockID = none ↔ actionsOf db stockID = [])
          ∧ ∀ m, maxAnalysisDate db stockID = some m →
              (∃ a ∈ actionsOf db stockID, a.AnalysisDate = m)
                ∧ ∀ a ∈ actionsOf db stockID, a.AnalysisDate ≤ m)
      ∧ ∃ (r : PaginatedResponse StockWithAnalysis) (order : List Stock), GetStocksWithAnalysisPaginated db page pageSize filters = .ok r
          ∧ order.Perm (filteredStocks db filters)
          ∧ order.Pairwise (analysisBefore db (decide (filters.SortBy = "analysis-newest")))
          ∧ r.Data.map (fun e => e.toStock)
            = (order.drop ((normalPage page - 1) * normalPageSize pageSize).toNat).take
                (normalPageSize pageSize).toNat := by
  refine ⟨maxAnalysisDate_spec db, ?_⟩
  obtain ⟨r, hr, hData⟩ := GetStocksWithAnalysisPaginated_of_fits db page pageSize filters hfit
  obtain ⟨hdate, hord⟩ := orderedStocks_analysis db filters hmode
  refine ⟨r, (orderedStocks db filters).map Prod.fst, hr, orderedStocks_perm db filters, ?_, ?_⟩
  · rw [List.pairwise_map]
    refine hord.imp_of_mem ?_
    intro a b ha hb hab
    apply analysisBefore_of_byMaxDate
    rw [← hdate a ha, ← hdate b hb]
    exact hab
  · have hsorted : pageRows db (normalPageSize pageSize)
          ((normalPage page - 1) * normalPageSize pageSize) filters
        = joinedRows db (normalPageSize pageSize)
          ((normalPage page - 1) * normalPageSize pageSize) filters := by
      rw [pageRows_eq]
      exact List.Sorted.insertionSort_eq (joinedRows_sorted db _ _ filters hsym hmode)
    rw [hData, collectRows_eq, List.map_map, hsorted]
    have hmap : ∀ rows : List PageRow,
        (fun e : StockWithAnalysis => e.toStock) ∘ dataEntry rows = id := fun _ => rfl
    rw [hmap, List.map_id]
    unfold joinedRows
    rw [stocksSeen_flatMap_lateralRows db _
      (paginatedStocks_nodup db _ _ filters (fun s => s.ID) hid), paginatedStocks_eq,
      List.map_take, List.map_drop]

/-- C23 for `listingStore`, whose stocks have the maximal analysis dates 4 (AAA), 5 (BBB)
and none (CCC): "analysis-newest" lists BBB, AAA, CCC and "analysis-oldest" lists AAA,
BBB, CCC; page 2 of size 2 holds the third stock of the order. -/
theorem GetStocksWithAnalysisPaginated_analysis_order_witness :
    (GetStocksWithAnalysisPaginated listingStore 1 20 (sortedBy "analysis-newest")).map
        (fun r => r.Data.map fun s => s.Symbol) = .ok ["BBB", "AAA", "CCC"]
      ∧ (GetStocksWithAnalysisPaginated listingStore 1 20 (sortedBy "analysis-oldest")).map
        (fun r => r.Data.map fun s => s.Symbol) = .ok ["AAA", "BBB", "CCC"]
      ∧ (GetStocksWithAnalysisPaginated listingStore 2 2 (sortedBy "analysis-oldest")).map
        (fun r => r.Data.map fun s => s.Symbol) = .ok ["CCC"]
      ∧ ∃ (r : PaginatedResponse StockWithAnalysis) (order : List Stock),
          GetStocksWithAnalysisPaginated listingStore 2 2 (sortedBy "analysis-oldest") = .ok r
          ∧ order.Perm (filteredStocks listingStore (sortedBy "analysis-oldest"))
          ∧ order.Pairwise (analysisBefore listingStore
              (decide ((sortedBy "analysis-oldest").SortBy = "analysis-newest")))
          ∧ r.Data.map (fun e => e.toStock)
            = (order.drop ((normalPage 2 - 1) * normalPageSize 2).toNat).take
                (normalPageSize 2).toNat :=
  ⟨by decide!, by decide!, by decide!,
    (GetStocksWithAnalysisPaginated_analysis_order listingStore 2 2 (sortedBy "analysis-oldest")
      (by decide!) (by decide!) (by decide!) (by decide!)).2⟩

/-! ## Auxiliary facts: `LIKE` and containment -/

theorem sql.likeChars_cons (c : Char) (pattern text : List Char) :
    sql.likeChars (c :: pattern) text
      = if c = '%' then text.tails.any fun rest => sql.likeChars pattern rest
        else if c = '_' then
          match text with
          | [] => false
          | _ :: rest => sql.likeChars pattern rest
        else if c = Char.ofNat 92 then
          match pattern, text with
          | d :: pattern, t :: rest => decide (d = t) && sql.likeChars pattern rest
          | _, _ => false
        else
          match text with
          | [] => false
          | t :: rest => decide (c = t) && sql.likeChars pattern rest := by
  cases pattern with
  | nil => rfl
  | cons d pattern =>
    cases text with
    | nil => rfl
    | cons t rest => rfl

theorem sql.likeChars_percent (text : List Char) : sql.likeChars ['%'] text = true := by
  rw [sql.likeChars_cons, if_pos rfl, List.any_eq_true]
  exact ⟨[], (List.mem_tails _ _).2 List.nil_suffix, rfl⟩

theorem sql.likeChars_plain_prefix :
    ∀ (keyword text : List Char), likePlain keyword = true →
      sql.likeChars (keyword ++ ['%']) text = decide (keyword <+: text)
  | [], text, _ => by
    rw [List.nil_append, sql.likeChars_percent]
    simp
  | c :: keyword, text, h => by
    unfold likePlain at h
    rw [List.all_cons, Bool.and_eq_true] at h
    obtain ⟨hc, hrest⟩ := h
    simp only [Bool.not_eq_true', Bool.or_eq_false_iff, decide_eq_false_iff_not] at hc
    obtain ⟨⟨h1, h2⟩, h3⟩ := hc
    rw [List.cons_append, sql.likeChars_cons, if_neg h1, if_neg h2, if_neg h3]
    cases text with
    | nil => simp
    | cons t rest =>
      dsimp only
      rw [sql.likeChars_plain_prefix keyword rest hrest]
      by_cases e : c = t
      · subst e
        simp [List.cons_prefix_cons]
      · simp [List.cons_prefix_cons, e]

/-- A `LIKE` pattern made of a text without `%`, `_` and backslash between two `%`
matches the texts that contain it. -/
theorem sql.likeChars_contains (keyword text : List Char) (h : likePlain keyword = true) :
    sql.likeChars ('%' :: (keyword ++ ['%'])) text = decide (keyword <:+: text) := by
  rw [sql.likeChars_cons, if_pos rfl]
  rw [Bool.eq_iff_iff, List.any_eq_true, decide_eq_true_eq, List.infix_iff_prefix_suffix]
  constructor
  · rintro ⟨rest, hrest, hlike⟩
    rw [sql.likeChars_plain_prefix keyword rest h, decide_eq_true_eq] at hlike
    exact ⟨rest, hlike, (List.mem_tails _ _).1 hrest⟩
  · rintro ⟨rest, hpre, hsuf⟩
    refine ⟨rest, (List.mem_tails _ _).2 hsuf, ?_⟩
    rw [sql.likeChars_plain_prefix keyword rest h, decide_eq_true_eq]
    exact hpre

theorem sql.LIKE_contains (text keyword : String) (h : likePlain keyword.data = true) :
    sql.LIKE text ("%" ++ keyword ++ "%") = strings.Contains text keyword := by
  unfold sql.LIKE strings.Contains
  have hd : ("%" ++ keyword ++ "%").data = '%' :: (keyword.data ++ ['%']) := by
    simp only [String.data_append]
    rfl
  rw [hd, sql.likeChars_contains _ _ h]

theorem actionKeyword_of_mem {actionType keyword : String}
    (h : (actionType, keyword) ∈ actionKeywords) :
    actionKeyword actionType = some keyword ∧ actionType ≠ "" ∧ actionType ≠ "all"
      ∧ likePlain keyword.data = true := by
  unfold actionKeywords at h
  simp only [List.mem_cons, Prod.mk.injEq, List.mem_singleton, List.not_mem_nil, or_false] at h
  rcases h with h | h | h | h | h | h | h <;> obtain ⟨h1, h2⟩ := h <;> subst h1 h2 <;>
    exact ⟨by decide, by decide, by decide, by decide⟩

theorem any_actions_iff (db : Store) (s : Stock) (p : StockAnalysis → Bool) :
    (db.stock_analysis.any fun sa => decide (sa.StockID = s.ID) && p sa) = true
      ↔ ∃ a ∈ actionsOf db s.ID, p a = true := by
  unfold actionsOf
  simp only [List.any_eq_true, Bool.and_eq_true, decide_eq_true_eq, List.mem_filter]
  constructor
  · rintro ⟨a, ha, h1, h2⟩
    exact ⟨a, ⟨ha, h1⟩, h2⟩
  · rintro ⟨a, ⟨ha, h1⟩, h2⟩
    exact ⟨a, ha, h1, h2⟩

/-- The filter on the action kind, for a value with a keyword: the stocks that pass the
other conditions and have an action whose kind matches the pattern of the keyword. -/
theorem StockRepository.filteredStocks_actionType (db : Store) (filters : StockFilterParams)
    (keyword : String) (hk : actionKeyword filters.ActionType = some keyword)
    (h1 : filters.ActionType ≠ "") (h2 : filters.ActionType ≠ "all") (s : Stock) :
    s ∈ filteredStocks db filters
      ↔ s ∈ filteredStocks db { filters with ActionType := "all" }
        ∧ ∃ a ∈ actionsOf db s.ID,
            sql.LIKE (sql.LOWER a.Action) ("%" ++ keyword ++ "%") = true := by
  rw [← any_actions_iff]
  unfold filteredStocks whereConditions
  simp only [hk, h1, h2, ne_eq, not_false_eq_true, and_self, if_true, not_true_eq_false,
    and_false, if_false, List.append_nil, List.mem_filter, List.all_append, List.all_cons,
    List.all_nil, Bool.and_true, Bool.and_eq_true]
  tauto

/-- Without filters no stock is excluded. -/
theorem StockRepository.filteredStocks_all (db : Store) (filters : StockFilterParams)
    (ha : filters.ActionType = "" ∨ filters.ActionType = "all")
    (hb : filters.Brokerage = "" ∨ filters.Brokerage = "all") :
    filteredStocks db filters = db.stocks := by
  have h1 : ¬ (filters.ActionType ≠ "" ∧ filters.ActionType ≠ "all") := by tauto
  have h2 : ¬ (filters.Brokerage ≠ "" ∧ filters.Brokerage ≠ "all") := by tauto
  unfold filteredStocks whereConditions
  simp only [h1, h2, if_false, List.append_nil, List.all_nil, List.filter_true]

/-! ## Auxiliary facts: counted and listed stocks -/

/-- The stocks of `Data` are stocks that pass the filters. -/
theorem StockRepository.data_subset_filteredStocks {db : Store} {page pageSize : ℤ}
    {filters : StockFilterParams} {r : PaginatedResponse StockWithAnalysis}
    (h : GetStocksWithAnalysisPaginated db page pageSize filters = .ok r) :
    ∀ e ∈ r.Data, e.toStock ∈ filteredStocks db filters := by
  obtain ⟨_, hData, _⟩ := GetStocksWithAnalysisPaginated_ok h
  rw [collectRows_eq] at hData
  intro e he
  rw [hData] at he
  obtain ⟨s, hs, hes⟩ := List.mem_map.1 he
  subst hes
  obtain ⟨t, ht, hts⟩ := mem_stocksSeen_pageRows hs
  exact (paginatedStocks_subperm db _ _ filters).subset (List.mem_map.2 ⟨t, ht, hts⟩)

theorem mem_take_drop_of_getElem {α : Type} (l : List α) (i n : ℕ) (hn : 0 < n)
    (hi : i < l.length) : l[i] ∈ (l.drop (i / n * n)).take n := by
  rw [List.mem_take_iff_getElem]
  have hmod : i / n * n + i % n = i := by
    rw [Nat.mul_comm]
    exact Nat.div_add_mod i n
  have hlt : i % n < n := Nat.mod_lt i hn
  refine ⟨i % n, ?_, ?_⟩
  · rw [List.length_drop]
    omega
  · rw [List.getElem_drop]
    congr 1

/-- A stock that passes the filters is on one of the pages. -/
theorem StockRepository.listed_on_some_page (db : Store) (filters : StockFilterParams)
    (hlen : (db.stocks.length : ℤ) < 2 ^ 63) (s : Stock) (hs : s ∈ filteredStocks db filters)
    (pageSize : ℤ) :
    ∃ page r, 1 ≤ page ∧ GetStocksWithAnalysisPaginated db page pageSize filters = .ok r
      ∧ s.ID ∈ r.Data.map fun e => e.ID := by
  have hps := normalPageSize_range pageSize
  obtain ⟨t, ht, hts⟩ := List.mem_map.1 ((orderedStocks_perm db filters).mem_iff.2 hs)
  obtain ⟨i, hi, hit⟩ := List.mem_iff_getElem.1 ht
  have hlen' : (orderedStocks db filters).length ≤ db.stocks.length := by
    have h1 := (orderedStocks_perm db filters).length_eq
    rw [List.length_map] at h1
    rw [h1]
    exact (filteredStocks_sublist db filters).length_le
  obtain ⟨n, hn⟩ : ∃ n : ℕ, normalPageSize pageSize = n := ⟨(normalPageSize pageSize).toNat, by omega⟩
  have hn0 : 0 < n := by omega
  have hmem := mem_take_drop_of_getElem (orderedStocks db filters) i n hn0 hi
  have hdiv : i / n * n ≤ i := Nat.div_mul_le_self i n
  generalize i / n = k at hmem hdiv
  have hk0 : (0 : ℤ) ≤ (k : ℤ) := Int.natCast_nonneg k
  have hpage : normalPage ((k : ℤ) + 1) = (k : ℤ) + 1 := by
    unfold normalPage
    rw [if_neg (by omega)]
  have hoff : (normalPage ((k : ℤ) + 1) - 1) * normalPageSize pageSize = ((k * n : ℕ) : ℤ) := by
    rw [hpage, hn]
    push_cast
    ring
  have hfit : (normalPage ((k : ℤ) + 1) - 1) * normalPageSize pageSize < 2 ^ 63 := by
    rw [hoff]
    have : ((k * n : ℕ) : ℤ) ≤ (db.stocks.length : ℤ) := by
      exact_mod_cast le_trans hdiv (le_trans (le_of_lt hi) hlen')
    omega
  obtain ⟨r, hr, hData⟩ := GetStocksWithAnalysisPaginated_of_fits db ((k : ℤ) + 1) pageSize
    filters hfit
  refine ⟨(k : ℤ) + 1, r, by omega, hr, ?_⟩
  rw [hData, collectRows_eq, List.map_map]
  have hmap : ∀ rows : List PageRow,
      (fun e : StockWithAnalysis => e.ID) ∘ dataEntry rows = fun s => s.ID := fun _ => rfl
  rw [hmap, mem_stocksSeen_ids, hoff, hn]
  have htpage : t ∈ paginatedStocks db (n : ℤ) ((k * n : ℕ) : ℤ) filters := by
    rw [paginatedStocks_eq, Int.toNat_ofNat, Int.toNat_ofNat, ← hit]
    exact hmem
  obtain ⟨row, rows, hrow⟩ := List.exists_cons_of_ne_nil (lateralRows_ne_nil db t)
  have hrow' : row ∈ lateralRows db t := by
    rw [hrow]
    exact List.mem_cons_self _ _
  have hjoined : row ∈ joinedRows db (n : ℤ) ((k * n : ℕ) : ℤ) filters :=
    List.mem_flatMap.2 ⟨t, htpage, hrow'⟩
  refine List.mem_map.2 ⟨row, (pageRows_perm db _ _ filters).mem_iff.2 hjoined, ?_⟩
  rw [(lateralRows_stock db t row hrow').1, hts]

/-! ## The filters of the stock listing -/

/-- C26: for each of the seven values of the action filter, with its keyword ("target
set" for "target-set"), the stocks that pass the filter are the stocks that pass the
other filter and have a stored action whose lower-cased kind contains the keyword; they
are the stocks counted by `TotalItems`, every stock of `Data` is one of them and each of
them is listed on some page.  The empty value and "all" exclude no stock. -/
theorem actionFilter_keyword (db : Store) (filters : StockFilterParams) (keyword : String)
    (hk : (filters.ActionType, keyword) ∈ actionKeywords)
    (hlen : (db.stocks.length : ℤ) < 2 ^ 63) :
    (∀ s, s ∈ filteredStocks db filters
        ↔ s ∈ filteredStocks db { filters with ActionType := "all" }
          ∧ ∃ a ∈ actionsOf db s.ID, strings.Contains (sql.LOWER a.Action) keyword = true)
      ∧ (∀ page pageSize r, GetStocksWithAnalysisPaginated db page pageSize filters = .ok r →
          r.Meta.TotalItems = (((filteredStocks db filters).map fun s => s.ID).dedup.length : ℕ)
            ∧ ∀ e ∈ r.Data, e.toStock ∈ filteredStocks db filters)
      ∧ (∀ s ∈ filteredStocks db filters, ∀ pageSize, ∃ page r, 1 ≤ page
          ∧ GetStocksWithAnalysisPaginated db page pageSize filters = .ok r
          ∧ s.ID ∈ r.Data.map fun e => e.ID)
      ∧ filteredStocks db { filters with ActionType := "" }
          = filteredStocks db { filters with ActionType := "all" }
      ∧ ((filters.Brokerage = "" ∨ filters.Brokerage = "all") →
          filteredStocks db { filters with ActionType := "all" } = db.stocks) := by
  obtain ⟨hkw, h1, h2, hplain⟩ := actionKeyword_of_mem hk
  refine ⟨?_, ?_, ?_, ?_, ?_⟩
  · intro s
    rw [filteredStocks_actionType db filters keyword hkw h1 h2 s]
    simp only [sql.LIKE_contains _ keyword hplain]
  · intro page pageSize r hr
    obtain ⟨_, _, _, _, htotal⟩ := GetStocksWithAnalysisPaginated_ok hr
    exact ⟨htotal, data_subset_filteredStocks hr⟩
  · intro s hs pageSize
    exact listed_on_some_page db filters hlen s hs pageSize
  · unfold filteredStocks whereConditions
    simp
  · intro hb
    exact filteredStocks_all db _ (Or.inr rfl) hb

/-- C26 for `listingStore`, where only BBB has the action "Price Target Lowered", whose
lower-cased kind contains "lowered" but not "upgraded": BBB is the stock counted and
listed under "lowered", and under "upgraded" only AAA is. -/
theorem actionFilter_keyword_witness :
    (GetStocksWithAnalysisPaginated listingStore 1 20 (filteredBy "lowered" "")).map
        (fun r => (r.Meta.TotalItems, r.Data.map fun s => s.Symbol)) = .ok (1, ["BBB"])
      ∧ (GetStocksWithAnalysisPaginated listingStore 1 20 (filteredBy "upgraded" "")).map
        (fun r => (r.Meta.TotalItems, r.Data.map fun s => s.Symbol)) = .ok (1, ["AAA"])
      ∧ strings.Contains (sql.LOWER "Price Target Lowered") "lowered" = true
      ∧ strings.Contains (sql.LOWER "Price Target Lowered") "upgraded" = false
      ∧ ∀ s, s ∈ filteredStocks listingStore (filteredBy "lowered" "")
          ↔ s ∈ filteredStocks listingStore { filteredBy "lowered" "" with ActionType := "all" }
            ∧ ∃ a ∈ actionsOf listingStore s.ID,
                strings.Contains (sql.LOWER a.Action) "lowered" = true :=
  ⟨by decide!, by decide!, by decide!, by decide!,
    (actionFilter_keyword listingStore (filteredBy "lowered" "") "lowered" (by decide!)
      (by decide!)).1⟩

theorem RecommendationScoreRepository.GetTopRecommendationsPaginated_of_fits (db : Store)
    (page pageSize : ℤ) (hfit : (normalPage page - 1) * normalPageSize pageSize < 2 ^ 63) :
    ∃ r, GetTopRecommendationsPaginated db page pageSize = .ok r
      ∧ r.Meta.Page = normalPage page ∧ r.Meta.PageSize = normalPageSize pageSize := by
  have hp := normalPage_pos page
  have hs := normalPageSize_range pageSize
  have h0 : 0 ≤ (normalPage page - 1) * normalPageSize pageSize :=
    mul_nonneg (by omega) (by omega)
  have hw : wrapInt64 ((normalPage page - 1) * normalPageSize pageSize)
      = (normalPage page - 1) * normalPageSize pageSize :=
    wrapInt64_of_fits (by linarith) hfit
  unfold GetTopRecommendationsPaginated
  simp only [normalPage_eq, normalPageSize_eq, hw, not_lt.2 h0, if_false]
  exact ⟨_, rfl, rfl, rfl⟩

/-- A sort mode that is none of the six known values gives the rows of "ticker-a-z". -/
theorem StockRepository.pageRows_default (db : Store) (pageSize offset : ℤ)
    (filters : StockFilterParams) (h : filters.SortBy ∉ knownSortModes) :
    pageRows db pageSize offset filters
      = pageRows db pageSize offset { filters with SortBy := "ticker-a-z" } := by
  unfold knownSortModes at h
  simp only [List.mem_cons, List.mem_singleton, List.not_mem_nil, or_false, not_or] at h
  obtain ⟨h1, h2, h3, h4, h5, h6⟩ := h
  have hf : filteredStocks db { filters with SortBy := "ticker-a-z" } = filteredStocks db filters :=
    rfl
  have hpage : paginatedStocks db pageSize offset filters
      = paginatedStocks db pageSize offset { filters with SortBy := "ticker-a-z" } := by
    unfold paginatedStocks
    rw [hf]
    simp only [h1, h2, h3, h4, h5, h6, or_self, if_false]
    rfl
  have horder : finalOrderBy filters = finalOrderBy { filters with SortBy := "ticker-a-z" } := by
    funext a b
    unfold finalOrderBy
    simp only [h5, h6, or_self, if_false]
    rfl
  unfold pageRows
  rw [hpage, horder]

theorem StockRepository.GetStocksWithAnalysisPaginated_default (db : Store) (page pageSize : ℤ)
    (filters : StockFilterParams) (h : filters.SortBy ∉ knownSortModes) :
    GetStocksWithAnalysisPaginated db page pageSize filters
      = GetStocksWithAnalysisPaginated db page pageSize { filters with SortBy := "ticker-a-z" } := by
  unfold GetStocksWithAnalysisPaginated
  simp only [pageRows_default db _ _ filters h]
  rfl

/-- Outside the analysis sort modes `Data` is in the order of ascending symbols. -/
theorem StockRepository.data_sorted_by_symbol {db : Store} {page pageSize : ℤ}
    {filters : StockFilterParams} {r : PaginatedResponse StockWithAnalysis}
    (hmode : ¬ (filters.SortBy = "analysis-newest" ∨ filters.SortBy = "analysis-oldest"))
    (h : GetStocksWithAnalysisPaginated db page pageSize filters = .ok r) :
    r.Data.Pairwise fun a b => a.Symbol ≤ b.Symbol := by
  obtain ⟨_, hData, _⟩ := GetStocksWithAnalysisPaginated_ok h
  rw [hData, collectRows_eq, List.pairwise_map]
  have hrows : ((pageRows db (normalPageSize pageSize)
      (wrapInt64 ((normalPage page - 1) * normalPageSize pageSize)) filters).map
        fun row => row.stock).Pairwise fun a b => a.Symbol ≤ b.Symbol := by
    rw [List.pairwise_map]
    refine (pageRows_sorted db _ _ filters).imp ?_
    intro a b hab
    unfold finalOrderBy at hab
    rw [if_neg hmode] at hab
    by_cases e : a.stock.Symbol = b.stock.Symbol
    · exact le_of_eq e
    · rw [if_neg e] at hab
      exact of_decide_eq_true hab
  exact hrows.sublist (stocksSeen_sublist _)

/-! ## Page, page size and the default ordering -/

/-- C21, as stated, fails: the page 92233720368547760 is not below 1 and the page
size 100 is within 1..100, but the offset `(page - 1) * 100` exceeds the largest `int`
and wraps around to a negative number, with which both paginated queries fail. -/
theorem pagination_offset_counterexample :
    wrapInt64 ((92233720368547760 - 1) * 100) = -9223372036854775716
      ∧ (GetStocksWithAnalysisPaginated listingStore 92233720368547760 100 noFilters).map
          (fun r => r.Meta)
        = .error "database query failed: OFFSET must not be negative"
      ∧ (GetTopRecommendationsPaginated listingStore 92233720368547760 100).map
          (fun r => r.Meta)
        = .error "pq: OFFSET must not be negative" := by
  refine ⟨by decide!, by decide!, by decide!⟩

/-- C21, amended: `GetStocksWithAnalysisPaginated` and `GetTopRecommendationsPaginated`
replace a page below 1 by 1 and a page size outside 1..100 by 20 and use the values
inside unchanged, so that the page is at least 1 and the page size within 1..100; when
the offset `(Page - 1) * PageSize` of these values fits an `int` it is not negative, both
functions answer and report these values as `Page` and `PageSize`, and the stock listing
reads its rows from this offset.  A sort mode that is none of the six known values gives
the response of "ticker-a-z", whose `Data` is in the order of ascending symbols. -/
theorem pagination_normalised (db : Store) (page pageSize : ℤ) (filters : StockFilterParams)
    (hfit : (normalPage page - 1) * normalPageSize pageSize < 2 ^ 63) :
    ((page < 1 → normalPage page = 1) ∧ (1 ≤ page → normalPage page = page)
        ∧ (pageSize < 1 ∨ 100 < pageSize → normalPageSize pageSize = 20)
        ∧ (1 ≤ pageSize ∧ pageSize ≤ 100 → normalPageSize pageSize = pageSize))
      ∧ (1 ≤ normalPage page ∧ 1 ≤ normalPageSize pageSize ∧ normalPageSize pageSize ≤ 100
        ∧ 0 ≤ (normalPage page - 1) * normalPageSize pageSize)
      ∧ (∃ r, GetStocksWithAnalysisPaginated db page pageSize filters = .ok r
          ∧ r.Meta.Page = normalPage page ∧ r.Meta.PageSize = normalPageSize pageSize
          ∧ r.Data = collectRows (pageRows db (normalPageSize pageSize)
              ((normalPage page - 1) * normalPageSize pageSize) filters))
      ∧ (∃ r, GetTopRecommendationsPaginated db page pageSize = .ok r
          ∧ r.Meta.Page = normalPage page ∧ r.Meta.PageSize = normalPageSize pageSize)
      ∧ (filters.SortBy ∉ knownSortModes →
          GetStocksWithAnalysisPaginated db page pageSize filters
            = GetStocksWithAnalysisPaginated db page pageSize
                { filters with SortBy := "ticker-a-z" })
      ∧ ∀ r, GetStocksWithAnalysisPaginated db page pageSize
              { filters with SortBy := "ticker-a-z" } = .ok r →
          r.Data.Pairwise fun a b => a.Symbol ≤ b.Symbol := by
  have hp := normalPage_pos page
  have hs := normalPageSize_range pageSize
  refine ⟨⟨?_, ?_, ?_, ?_⟩, ⟨hp, hs.1, hs.2, mul_nonneg (by omega) (by omega)⟩, ?_,
    GetTopRecommendationsPaginated_of_fits db page pageSize hfit,
    GetStocksWithAnalysisPaginated_default db page pageSize filters, ?_⟩
  · intro h
    unfold normalPage
    rw [if_pos h]
  · intro h
    unfold normalPage
    rw [if_neg (by omega)]
  · intro h
    unfold normalPageSize
    rw [if_neg (by omega)]
  · intro h
    unfold normalPageSize
    rw [if_pos h]
  · obtain ⟨r, hr, hData⟩ := GetStocksWithAnalysisPaginated_of_fits db page pageSize filters hfit
    obtain ⟨_, _, h1, h2, _⟩ := GetStocksWithAnalysisPaginated_ok hr
    exact ⟨r, hr, h1, h2, hData⟩
  · intro r hr
    have hmode : ¬ (("ticker-a-z" : String) = "analysis-newest"
        ∨ ("ticker-a-z" : String) = "analysis-oldest") := by decide
    exact data_sorted_by_symbol hmode hr

/-- C21, amended, for page 0 and page size 500 on `listingStore`: both functions answer
with page 1 and page size 20, and the unknown sort mode "price" gives the response of
"ticker-a-z". -/
theorem pagination_normalised_witness :
    (GetStocksWithAnalysisPaginated listingStore 0 500 (sortedBy "price")).map
        (fun r => (r.Meta.Page, r.Meta.PageSize, r.Data.map fun s => s.Symbol))
        = .ok (1, 20, ["AAA", "BBB", "CCC"])
      ∧ (GetTopRecommendationsPaginated listingStore 0 500).map
        (fun r => (r.Meta.Page, r.Meta.PageSize)) = .ok (1, 20)
      ∧ ((sortedBy "price").SortBy ∉ knownSortModes →
          GetStocksWithAnalysisPaginated listingStore 0 500 (sortedBy "price")
            = GetStocksWithAnalysisPaginated listingStore 0 500
                { sortedBy "price" with SortBy := "ticker-a-z" }) :=
  ⟨by decide!, by decide!,
    (pagination_normalised listingStore 0 500 (sortedBy "price") (by decide!)).2.2.2.2.1⟩

/-! ## The order of the stocks and the stocks without actions -/

/-- C22 on the code: in `listingStore` the sort mode "newest" selects the stocks in the
order CCC, AAA, BBB of their `updated_at` (3, 2, 1), "oldest" in the order BBB, AAA, CCC
and "company-a-z" in the order CCC, BBB, AAA of their names, but `Data` lists them as
AAA, BBB, CCC, in the order of their symbols, for each of the three modes.  On every
store, outside the two analysis sort modes, `Data` is in the order of ascending
symbols. -/
theorem GetStocksWithAnalysisPaginated_order :
    ((paginatedStocks listingStore 20 0 (sortedBy "newest")).map fun s =>
          (s.1.Symbol, s.1.UpdatedAt)) = [("CCC", 3), ("AAA", 2), ("BBB", 1)]
      ∧ (GetStocksWithAnalysisPaginated listingStore 1 20 (sortedBy "newest")).map
          (fun r => r.Data.map fun s => (s.Symbol, s.UpdatedAt))
        = .ok [("AAA", 2), ("BBB", 1), ("CCC", 3)]
      ∧ ((paginatedStocks listingStore 20 0 (sortedBy "oldest")).map fun s =>
          (s.1.Symbol, s.1.UpdatedAt)) = [("BBB", 1), ("AAA", 2), ("CCC", 3)]
      ∧ (GetStocksWithAnalysisPaginated listingStore 1 20 (sortedBy "oldest")).map
          (fun r => r.Data.map fun s => (s.Symbol, s.UpdatedAt))
        = .ok [("AAA", 2), ("BBB", 1), ("CCC", 3)]
      ∧ ((paginatedStocks listingStore 20 0 (sortedBy "company-a-z")).map fun s =>
          (s.1.Symbol, s.1.Name)) = [("CCC", "Alpha Ltd"), ("BBB", "Yard Inc"), ("AAA", "Zeta Corp")]
      ∧ (GetStocksWithAnalysisPaginated listingStore 1 20 (sortedBy "company-a-z")).map
          (fun r => r.Data.map fun s => (s.Symbol, s.Name))
        = .ok [("AAA", "Zeta Corp"), ("BBB", "Yard Inc"), ("CCC", "Alpha Ltd")]
      ∧ ∀ (db : Store) (page pageSize : ℤ) (filters : StockFilterParams)
          (r : PaginatedResponse StockWithAnalysis),
          ¬ (filters.SortBy = "analysis-newest" ∨ filters.SortBy = "analysis-oldest") →
          GetStocksWithAnalysisPaginated db page pageSize filters = .ok r →
          r.Data.Pairwise fun a b => a.Symbol ≤ b.Symbol := by
  refine ⟨by decide!, by decide!, by decide!, by decide!, by decide!, by decide!, ?_⟩
  intro db page pageSize filters r hmode hr
  exact data_sorted_by_symbol hmode hr

/-- C24 on the code: the stock CCC of `listingStore` has no stored action, and page 1
lists it with a `LatestAnalysis` of length 1, whose only element is an action of zero
values with the id 0.  On every store whose stocks have pairwise distinct ids, every
stock of `Data` without stored actions has such a `LatestAnalysis` of length 1. -/
theorem GetStocksWithAnalysisPaginated_without_actions :
    actionsOf listingStore 3 = []
      ∧ (GetStocksWithAnalysisPaginated listingStore 1 20 noFilters).map
          (fun r => (r.Data.filter fun s => s.ID = 3).map fun s =>
            (s.Symbol, s.LatestAnalysis.length, s.LatestAnalysis))
        = .ok [("CCC", 1,
            [{ ID := 0, StockID := 3, TargetFrom := "", TargetTo := "", Action := "",
               Brokerage := "", RatingFrom := "", RatingTo := "", AnalysisDate := 0,
               CreatedAt := 0 }])]
      ∧ ∀ (db : Store) (page pageSize : ℤ) (filters : StockFilterParams)
          (r : PaginatedResponse StockWithAnalysis),
          (db.stocks.map fun s => s.ID).Nodup →
          GetStocksWithAnalysisPaginated db page pageSize filters = .ok r →
          ∀ e ∈ r.Data, actionsOf db e.ID = [] →
            e.LatestAnalysis.length = 1
              ∧ e.LatestAnalysis
                = [{ ID := 0, StockID := e.ID, TargetFrom := "", TargetTo := "", Action := "",
                     Brokerage := "", RatingFrom := "", RatingTo := "", AnalysisDate := 0,
                     CreatedAt := 0 }] := by
  refine ⟨by decide!, by decide!, ?_⟩
  intro db page pageSize filters r hid hr e he hk
  obtain ⟨_, hData, _⟩ := GetStocksWithAnalysisPaginated_ok hr
  rw [collectRows_eq] at hData
  rw [hData] at he
  obtain ⟨s, hs, hes⟩ := List.mem_map.1 he
  subst hes
  have h := latestAnalysis_of_page_nil db _ _ filters hid s hs hk
  exact ⟨by rw [h]; rfl, h⟩

/-! ## The options of the action filter -/

/-- C29 on the code: for the stored action "maintained by" `normalizeActionValue` gives
"maintained-by", which `GetFilterOptions` offers for `listingStore` and which is none of
the seven recognised values; the action filter with this value adds no condition, so
that all three stocks are counted and listed although only AAA has such an action. -/
theorem GetFilterOptions_unrecognised :
    normalizeActionValue "maintained by" = "maintained-by"
      ∧ ((GetFilterOptions listingStore).ActionTypes.map fun option => option.Value)
        = ["all", "lowered", "initiated", "maintained-by", "raised", "upgraded"]
      ∧ "maintained-by" ∉ recognisedActionTypes
      ∧ actionKeyword "maintained-by" = none
      ∧ ((listingStore.stock_analysis.filter fun a =>
            strings.Contains (strings.ToLower a.Action) "maintained").map fun a => a.StockID)
        = [1]
      ∧ (GetStocksWithAnalysisPaginated listingStore 1 20 (filteredBy "maintained-by" "")).map
          (fun r => (r.Meta.TotalItems, r.Data.map fun s => s.Symbol))
        = .ok (3, ["AAA", "BBB", "CCC"]) := by
  refine ⟨by decide!, by decide!, by decide!, by decide!, by decide!, by decide!⟩
